import Mathlib

/-!
# Arrow: block store and synchronizer

A shallow embedding of the bucket store (`src/arrow-store/store.c`), the
base-64 bucket names (`src/arrow-common/base64.c`) and the synchronizer
(`src/arrow-sync/sync.c`).

Conventions of the embedding.

* Memory that C reaches through a pointer (the data region of a mapped
  bucket, an output buffer) is a function `Nat → Nat` from byte offset to
  byte value; `memcpy` is a pointwise update.  A chunk handed to the store
  (`buf`, `len`) is the list of its bytes, `len` being the length of the list.
* `size_t` and `uint64_t` are 64 bits wide, `uint32_t` 32 and `uint16_t` 16;
  every assignment to such a field reduces modulo the width.
* `sizeof (block_header_t) = 12` and `sizeof (block_key_t) = 32`
  (4-byte alignment, little-endian), as on the platforms the store targets.
* The padding bytes of a key slot are zero throughout (files are created
  zero-filled and slots are written field by field, `memmove`d or `memset`
  to zero), so a slot compares equal to `null_key` exactly when all its
  fields are zero.
-/

namespace Arrow

/-! ## Machine arithmetic -/

/-- Unsigned subtraction in `size_t` / `uint64_t`. -/
def size_sub (a b : Nat) : Nat := (a % 2 ^ 64 + (2 ^ 64 - b % 2 ^ 64)) % 2 ^ 64

/-- The value `(size_t) -1`, returned for "not found". -/
def SIZE_NOT_FOUND : Nat := 2 ^ 64 - 1

/-- The bytes `memcpy (dst + d, src + s, n)` leaves in `dst`. -/
def memcpy (dst : Nat → Nat) (d : Nat) (src : Nat → Nat) (s n : Nat) : Nat → Nat :=
  fun p => if d ≤ p ∧ p < d + n then src (s + (p - d)) else dst p

/-- The bytes `memcpy (dst + d, buf, len)` leaves in `dst`, for a chunk given as a list. -/
def memcpy_list (dst : Nat → Nat) (d : Nat) (buf : List Nat) : Nat → Nat :=
  fun p => if d ≤ p ∧ p < d + buf.length then buf.getD (p - d) 0 else dst p

/-- The `n` bytes of `mem` starting at `off`. -/
def bytes_at (mem : Nat → Nat) (off n : Nat) : List Nat :=
  (List.range n).map (fun t => mem (off + t))

/-! ## Data model (`arrow.h`, `store.c`) -/

/-- `arrow_id_t`: weak checksum and the 16 bytes of the strong checksum. -/
structure arrow_id_t where
  weak : Nat
  strong : List Nat
  deriving DecidableEq

/-- `block_key_t`: one slot of a bucket's key array. -/
structure block_key_t where
  id : arrow_id_t
  offset : Nat
  length : Nat
  references : Nat
  deriving DecidableEq

def null_id : arrow_id_t := ⟨0, [0, 0, 0, 0, 0, 0, 0, 0, 0, 0, 0, 0, 0, 0, 0, 0]⟩

def null_key : block_key_t := ⟨null_id, 0, 0, 0⟩

/-- A mapped bucket file: `alloc_size` of the header, the key array
(`chunk_count` is its length) and the bytes from `store_data_base` on. -/
structure block_t where
  alloc_size : Nat
  keys : List block_key_t
  data : Nat → Nat

def block_t.chunk_count (b : block_t) : Nat := b.keys.length

def sizeof_block_header_t : Nat := 12

def sizeof_block_key_t : Nat := 32

def store_header_size (b : block_t) : Nat :=
  sizeof_block_header_t + b.chunk_count * sizeof_block_key_t

/-- `memcmp (&keys[chunk_count], &null_key, sizeof (block_key_t)) == 0`: the slot
one past the key array is the first 32 bytes of the data region. -/
def key_past_end_is_null (b : block_t) : Bool :=
  (List.range sizeof_block_key_t).all (fun p => b.data p == 0)

/-- `keys[chunk_count].offset`: the little-endian `uint32_t` at byte 20 of the data region. -/
def key_past_end_offset (b : block_t) : Nat :=
  b.data 20 % 256 + 256 * (b.data 21 % 256) + 65536 * (b.data 22 % 256)
    + 16777216 * (b.data 23 % 256)

/-! ## Bucket operations (`store.c`) -/

/-- The loop of `store_put_into_int`, at slot `i` with the slots from `i` on still
to visit and `offset` the running sum of lengths.  When no slot is left the code
calls `fail ("FIXME - implement growing stores")`.  `fail.h` is not among the
sources; as the other uses of `fail` (inside `while (1)`, at the end of non-void
functions) it is taken not to return.  The result `(-1, b)` stands for that call,
with the bucket as it was; `store_put` and the move loop of `split_next_store` turn
it into the abort of the process. -/
def store_put_into_int.scan (b : block_t) (id : arrow_id_t) (buf : List Nat) :
    List block_key_t → Nat → Nat → Int × block_t
  | [], _, _ => (-1, b)
  | k :: rest, i, offset =>
    if k.id = id then
      (1, { b with keys := b.keys.set i { k with references := (k.references + 1) % 2 ^ 16 } })
    else if k = null_key then
      let remain :=
        if i + 1 < b.chunk_count ∨ key_past_end_is_null b = true then
          size_sub (size_sub b.alloc_size (store_header_size b)) offset
        else size_sub (key_past_end_offset b) offset
      if buf.length ≤ remain then
        (0, { b with
                keys := b.keys.set i ⟨id, offset % 2 ^ 32, buf.length % 2 ^ 32, 1⟩
                data := memcpy_list b.data offset buf })
      else store_put_into_int.scan b id buf rest (i + 1) offset
    else store_put_into_int.scan b id buf rest (i + 1) ((offset + k.length) % 2 ^ 64)

/-- `store_put_into_int`: 1 if the id was there (reference added), 0 if the chunk
was placed; -1 marks that the loop ran out of slots and `fail` was called. -/
def store_put_into_int (b : block_t) (id : arrow_id_t) (buf : List Nat) : Int × block_t :=
  store_put_into_int.scan b id buf b.keys 0 0

def store_put_into (b : block_t) (id : arrow_id_t) (buf : List Nat) : Int × block_t :=
  store_put_into_int b id buf

def store_addref_to.scan (b : block_t) (id : arrow_id_t) :
    List block_key_t → Nat → Int × block_t
  | [], _ => (-1, b)
  | k :: rest, i =>
    if k.id = id then
      (0, { b with keys := b.keys.set i { k with references := (k.references + 1) % 2 ^ 16 } })
    else store_addref_to.scan b id rest (i + 1)

def store_addref_to (b : block_t) (id : arrow_id_t) : Int × block_t :=
  store_addref_to.scan b id b.keys 0

/-- The loop of `store_get_from`; the result is the returned `size_t` and the
contents of `out` afterwards. -/
def store_get_from.scan (b : block_t) (id : arrow_id_t) (out : Nat → Nat) (maxlen : Nat) :
    List block_key_t → Nat × (Nat → Nat)
  | [] => (SIZE_NOT_FOUND, out)
  | k :: rest =>
    if k.id = id then
      (k.length, memcpy out 0 b.data k.offset (if k.length < maxlen then k.length else maxlen))
    else store_get_from.scan b id out maxlen rest

def store_get_from (b : block_t) (id : arrow_id_t) (out : Nat → Nat) (maxlen : Nat) :
    Nat × (Nat → Nat) :=
  store_get_from.scan b id out maxlen b.keys

def store_get_len_from.scan (id : arrow_id_t) : List block_key_t → Nat
  | [] => SIZE_NOT_FOUND
  | k :: rest => if k.id = id then k.length else store_get_len_from.scan id rest

def store_get_len_from (b : block_t) (id : arrow_id_t) : Nat :=
  store_get_len_from.scan id b.keys


/-! ## Bucket names (`base64.c`) and bucket selection (`store.c`) -/

/-- The alphabet `b64_list`, as character codes. -/
def b64_list : List Nat :=
  [65, 66, 67, 68, 69, 70, 71, 72, 73, 74, 75, 76, 77, 78, 79, 80,
   81, 82, 83, 84, 85, 86, 87, 88, 89, 90, 33, 34, 35, 36, 37, 38,
   39, 40, 41, 44, 45, 58, 59, 60, 62, 63, 64, 91, 126, 93, 94, 95,
   96, 123, 124, 125, 48, 49, 50, 51, 52, 53, 54, 55, 56, 57, 43, 42]

/-- The eleven 6-bit groups `b64_encode` extracts (the first has 4 bits). -/
def b64_digits (val : Nat) : List Nat :=
  [(val &&& 0xf000000000000000) >>> 60,
   (val &&& 0x0fc0000000000000) >>> 54,
   (val &&& 0x003f000000000000) >>> 48,
   (val &&& 0x0000fc0000000000) >>> 42,
   (val &&& 0x000003f000000000) >>> 36,
   (val &&& 0x0000000fc0000000) >>> 30,
   (val &&& 0x000000003f000000) >>> 24,
   (val &&& 0x0000000000fc0000) >>> 18,
   (val &&& 0x000000000003f000) >>> 12,
   (val &&& 0x0000000000000fc0) >>> 6,
   (val &&& 0x000000000000003f) >>> 0]

/-- The loop of `b64_encode` looking for the first of `result[0..9]` that is not
`b64_list[0]`; 10 when there is none. -/
def b64_encode.lead (result : List Nat) : Nat → Nat → Nat
  | 0, _ => 10
  | fuel + 1, i =>
    if result.getD i 0 ≠ b64_list.getD 0 0 then i else b64_encode.lead result fuel (i + 1)

/-- `b64_encode`: the string left in `result`, without its terminator. -/
def b64_encode (val : Nat) : List Nat :=
  let result := (b64_digits val).map (fun d => b64_list.getD d 0)
  result.drop (b64_encode.lead result 10 0)

/-- `store_sb_t`: the linear-hash level `i` and pointer `n`. -/
structure store_sb_t where
  i : Nat
  n : Nat
  deriving DecidableEq

/-- `(1ULL << k) - 1` in `uint64_t`; a shift by 64 or more (undefined in C, and
beyond any store that can exist) is taken to shift the bit out. -/
def low_mask (k : Nat) : Nat := size_sub ((1 <<< k) % 2 ^ 64) 1

/-- `do_map_key`, reading `i` from the superblock. -/
def do_map_key (sb : store_sb_t) (id : arrow_id_t) (n : Nat) : Nat :=
  let x := (((id.strong.getD 8 0 &&& 0xFF) <<< 56)
    ||| ((id.strong.getD 9 0 &&& 0xFF) <<< 48)
    ||| ((id.strong.getD 10 0 &&& 0xFF) <<< 40)
    ||| ((id.strong.getD 11 0 &&& 0xFF) <<< 32)
    ||| ((id.strong.getD 12 0 &&& 0xFF) <<< 24)
    ||| ((id.strong.getD 13 0 &&& 0xFF) <<< 16)
    ||| ((id.strong.getD 14 0 &&& 0xFF) <<< 8)
    ||| (id.strong.getD 15 0 &&& 0xFF))
  let key := x &&& low_mask sb.i
  if key < n then x &&& low_mask (sb.i + 1) else key

/-- `store_map_key`: the name of the bucket for `id`. -/
def store_map_key (sb : store_sb_t) (id : arrow_id_t) : List Nat :=
  b64_encode (do_map_key sb id sb.n)

/-- The spec's reading of `strong[8..16]`: a big-endian number. -/
def spec_be_u64 (bytes : List Nat) : Nat := bytes.foldl (fun acc b => acc * 256 + b) 0

/-- The spec's bucket selection: `x mod 2^i`, replaced by `x mod 2^(i+1)` when below `n`. -/
def spec_bucket_key (i n x : Nat) : Nat :=
  if x % 2 ^ i < n then x % 2 ^ (i + 1) else x % 2 ^ i


/-! ## Concrete buckets -/

/-- A default-sized bucket (5120 slots, `alloc_size` 5120000) after 309 chunks of
16000 bytes were put into it: slots 0..308 hold them back to back, the rest are
empty.  Chunk 0 is all zero bytes; chunk `j` starts with the two bytes of `j`. -/
def bucket_309 : block_t :=
  { alloc_size := 5120000
    keys := (List.range 309).map
        (fun j => ⟨⟨j + 1, List.replicate 14 0 ++ [j / 256, j % 256]⟩, 16000 * j, 16000, 1⟩)
      ++ List.replicate 4811 null_key
    data := fun p =>
      if p < 4944000 then
        (if p % 16000 = 0 then p / 16000 / 256 else if p % 16000 = 1 then p / 16000 % 256 else 0)
      else 0 }

/-- An id no slot of `bucket_309` holds. -/
def fresh_id : arrow_id_t := ⟨70000, [9, 9, 9, 9, 9, 9, 9, 9, 9, 9, 9, 9, 9, 9, 9, 9]⟩


/-! ## The store (`store.c`) -/

/-- `store_state_t`: the mapped superblock and the bucket files under
`<rootdir>/blocks`, looked up by file name.  The cache of open mappings is
transparent (every mapping of a file is `MAP_SHARED`) and is not modelled. -/
structure store_state_t where
  sb : store_sb_t
  blocks : List Nat → Option block_t

def ARROW_BLOCK_INITIAL_COUNT : Nat := 5 * 1024

def ARROW_CHUNK_SIZE : Nat := 1000

/-- `store_open`: the mapping of the bucket file named `name`, if the file exists. -/
def store_open (s : store_state_t) (name : List Nat) : Option block_t := s.blocks name

/-- The state after the mapping of the file `name` was changed to `b`. -/
def write_block (s : store_state_t) (name : List Nat) (b : block_t) : store_state_t :=
  { s with blocks := fun nm => if nm = name then some b else s.blocks nm }

/-- The file `create_new_block` writes: header, then zeros. -/
def new_block : block_t :=
  { alloc_size := (ARROW_BLOCK_INITIAL_COUNT * ARROW_CHUNK_SIZE) % 2 ^ 32
    keys := List.replicate ARROW_BLOCK_INITIAL_COUNT null_key
    data := fun _ => 0 }

/-- `create_new_block`: `open (O_CREAT | O_EXCL)` fails when the file exists. -/
def create_new_block (s : store_state_t) (id : Nat) : Int × store_state_t :=
  match s.blocks (b64_encode id) with
  | some _ => (-1, s)
  | none => (0, write_block s (b64_encode id) new_block)

/-- The count `used` of `store_load_factor`. -/
def store_used : List block_key_t → Nat
  | [] => 0
  | k :: rest => (if k ≠ null_key then 1 else 0) + store_used rest

/-- Rounding to the nearest integer, ties to even. -/
def round_half_even (x : ℚ) : ℤ :=
  if x - ⌊x⌋ < 1 / 2 then ⌊x⌋
  else if 1 / 2 < x - ⌊x⌋ then ⌊x⌋ + 1
  else if ⌊x⌋ % 2 = 0 then ⌊x⌋ else ⌊x⌋ + 1

/-- The `double` nearest to a rational of the normal range (IEEE 754 binary64, round
to nearest, ties to even): 53 significant bits.  Zero stands for itself and for the
quotient 0 / 0, which compares false with everything as zero does with the load
factor bound. -/
def to_double (q : ℚ) : ℚ :=
  if q ≤ 0 then 0
  else round_half_even (q / 2 ^ (Int.log 2 q - 52)) * 2 ^ (Int.log 2 q - 52)

/-- `MAX_LOAD_FACTOR`: the `double` constant `0.70`. -/
def MAX_LOAD_FACTOR : ℚ := to_double (7 / 10)

/-- `store_load_factor`: `(double) used / (double) header->chunk_count`; both
conversions are exact and the division is rounded. -/
def store_load_factor (b : block_t) : ℚ :=
  to_double ((store_used b.keys : ℚ) / (b.chunk_count : ℚ))

/-- `store_load_factor (store) > MAX_LOAD_FACTOR`, as a test on the two integers.
Both operands of the division are integers below 2^16, so the rounded quotient
exceeds the double nearest to 0.70 exactly when `used / chunk_count > 7 / 10`
(`store_load_factor_gt_iff` below proves this of `store_load_factor`). -/
def store_load_factor_gt_max (b : block_t) : Bool :=
  decide (7 * b.chunk_count < 10 * store_used b.keys)

/-- The inner loop of `compact_block`: `for (; j <= i; j++) if keys[j] is null break`. -/
def compact_block.next_free (keys : List block_key_t) (i : Nat) : Nat → Nat → Nat
  | 0, j => j
  | fuel + 1, j =>
    if j ≤ i then
      (if keys.getD j null_key = null_key then j
       else compact_block.next_free keys i fuel (j + 1))
    else j

/-- The outer loop of `compact_block` at slot `i`; `j` is `none` for -1. -/
def compact_block.loop :
    Nat → Nat → Option Nat → List block_key_t → (Nat → Nat) → List block_key_t × (Nat → Nat)
  | 0, _, _, keys, data => (keys, data)
  | fuel + 1, i, j, keys, data =>
    if keys.getD i null_key = null_key then
      compact_block.loop fuel (i + 1) (match j with | none => some i | some j => some j) keys data
    else
      match j with
      | none => compact_block.loop fuel (i + 1) none keys data
      | some j =>
        let ki := keys.getD i null_key
        let offset :=
          if 0 < j then
            ((keys.getD (j - 1) null_key).offset + (keys.getD (j - 1) null_key).length) % 2 ^ 32
          else 0
        let data1 := memcpy data offset data ki.offset ki.length
        let keys1 := (keys.set j { ki with offset := offset }).set i null_key
        compact_block.loop fuel (i + 1)
          (some (compact_block.next_free keys1 i (i + 1) (j + 1))) keys1 data1

def compact_block (b : block_t) : block_t :=
  { b with
      keys := (compact_block.loop b.chunk_count 0 none b.keys b.data).1
      data := (compact_block.loop b.chunk_count 0 none b.keys b.data).2 }

/-- The move loop of `split_next_store` over the slots of `curr` still to visit:
the slots as the loop leaves them and the bucket `next`; `none` when
`assert (x == next_id)` fails or the put into `next` ends in `fail`. -/
def split_next_store.move (sb : store_sb_t) (next_id : Nat) (cdata : Nat → Nat) :
    List block_key_t → block_t → Option (List block_key_t × block_t)
  | [], next => some ([], next)
  | k :: rest, next =>
    if k ≠ null_key then
      if do_map_key sb k.id ((sb.n + 1) % 2 ^ 64) ≠ sb.n then
        if do_map_key sb k.id ((sb.n + 1) % 2 ^ 64) = next_id then
          if (store_put_into_int next k.id (bytes_at cdata k.offset k.length)).1 < 0 then none
          else
            (split_next_store.move sb next_id cdata rest
              (store_put_into_int next k.id (bytes_at cdata k.offset k.length)).2).map
              (fun r => (null_key :: r.1, r.2))
        else none
      else (split_next_store.move sb next_id cdata rest next).map (fun r => (k :: r.1, r.2))
    else (split_next_store.move sb next_id cdata rest next).map (fun r => (k :: r.1, r.2))

/-- `split_next_store`; `none` when the move loop aborts.  The two
buckets are distinct files (their numbers differ by `2^i`). -/
def split_next_store (s : store_state_t) : Option (Int × store_state_t) :=
  let limit := low_mask s.sb.i
  let next_id := ((1 <<< s.sb.i) % 2 ^ 64 + s.sb.n) % 2 ^ 64
  let s1 := (create_new_block s next_id).2
  match store_open s1 (b64_encode s.sb.n) with
  | none => some (-1, s1)
  | some curr =>
    match store_open s1 (b64_encode next_id) with
    | none => some (-1, s1)
    | some next =>
      match split_next_store.move s.sb next_id curr.data curr.keys next with
      | none => none
      | some (ckeys, next1) =>
        some (0,
          { sb := if s.sb.n = limit then ⟨(s.sb.i + 1) % 2 ^ 16, 0⟩
                  else ⟨s.sb.i, (s.sb.n + 1) % 2 ^ 64⟩
            blocks := (write_block
              (write_block s1 (b64_encode next_id) next1)
              (b64_encode s.sb.n) (compact_block { curr with keys := ckeys })).blocks })

/-- `store_init` on a directory without a superblock. -/
def store_init : store_state_t :=
  (create_new_block { sb := ⟨0, 0⟩, blocks := fun _ => none } 0).2

/-- `store_put`; `none` when the process aborts: in `fail`, when the bucket has no
slot for the chunk, or on the assertion of a split. -/
def store_put (s : store_state_t) (id : arrow_id_t) (buf : List Nat) :
    Option (Int × store_state_t) :=
  match store_open s (store_map_key s.sb id) with
  | none => some (-1, s)
  | some store =>
    let r := store_put_into_int store id buf
    let s1 := write_block s (store_map_key s.sb id) r.2
    if r.1 < 0 then none
    else if store_load_factor_gt_max r.2 = true then
      (split_next_store s1).map (fun t => (r.1, t.2))
    else some (r.1, s1)

def store_addref (s : store_state_t) (id : arrow_id_t) : Int × store_state_t :=
  match store_open s (store_map_key s.sb id) with
  | none => (-1, s)
  | some store =>
    ((store_addref_to store id).1,
      write_block s (store_map_key s.sb id) (store_addref_to store id).2)

def store_get (s : store_state_t) (id : arrow_id_t) (out : Nat → Nat) (maxlen : Nat) :
    Nat × (Nat → Nat) :=
  match store_open s (store_map_key s.sb id) with
  | none => (SIZE_NOT_FOUND, out)
  | some store => store_get_from store id out maxlen

def store_get_len (s : store_state_t) (id : arrow_id_t) : Nat :=
  match store_open s (store_map_key s.sb id) with
  | none => SIZE_NOT_FOUND
  | some store => store_get_len_from store id

def store_contains.scan (id : arrow_id_t) : List block_key_t → Int
  | [] => 0
  | k :: rest => if k.id = id then 1 else store_contains.scan id rest

def store_contains (s : store_state_t) (id : arrow_id_t) : Int :=
  match store_open s (store_map_key s.sb id) with
  | none => 0
  | some store => store_contains.scan id store.keys


/-! ## MD5 (RFC 1321)

`MD5`, `MD5_Init`, `MD5_Update` and `MD5_Final` come from the OpenSSL library.
The digest is computed as RFC 1321 defines it, the padded message and the two
tables being read as little-endian numbers from which the words are taken; a
context is the list of the bytes absorbed so far. -/

def md5_shift : List Nat :=
  [7, 12, 17, 22, 7, 12, 17, 22, 7, 12, 17, 22, 7, 12, 17, 22,
   5, 9, 14, 20, 5, 9, 14, 20, 5, 9, 14, 20, 5, 9, 14, 20,
   4, 11, 16, 23, 4, 11, 16, 23, 4, 11, 16, 23, 4, 11, 16, 23,
   6, 10, 15, 21, 6, 10, 15, 21, 6, 10, 15, 21, 6, 10, 15, 21]

def md5_sine : List Nat :=
  [0xd76aa478, 0xe8c7b756, 0x242070db, 0xc1bdceee,
   0xf57c0faf, 0x4787c62a, 0xa8304613, 0xfd469501,
   0x698098d8, 0x8b44f7af, 0xffff5bb1, 0x895cd7be,
   0x6b901122, 0xfd987193, 0xa679438e, 0x49b40821,
   0xf61e2562, 0xc040b340, 0x265e5a51, 0xe9b6c7aa,
   0xd62f105d, 0x02441453, 0xd8a1e681, 0xe7d3fbc8,
   0x21e1cde6, 0xc33707d6, 0xf4d50d87, 0x455a14ed,
   0xa9e3e905, 0xfcefa3f8, 0x676f02d9, 0x8d2a4c8a,
   0xfffa3942, 0x8771f681, 0x6d9d6122, 0xfde5380c,
   0xa4beea44, 0x4bdecfa9, 0xf6bb4b60, 0xbebfbc70,
   0x289b7ec6, 0xeaa127fa, 0xd4ef3085, 0x04881d05,
   0xd9d4d039, 0xe6db99e5, 0x1fa27cf8, 0xc4ac5665,
   0xf4292244, 0x432aff97, 0xab9423a7, 0xfc93a039,
   0x655b59c3, 0x8f0ccc92, 0xffeff47d, 0x85845dd1,
   0x6fa87e4f, 0xfe2ce6e0, 0xa3014314, 0x4e0811a1,
   0xf7537e82, 0xbd3af235, 0x2ad7d2bb, 0xeb86d391]

def rotl32 (x c : Nat) : Nat := ((x <<< c) ||| (x >>> (32 - c))) % 2 ^ 32

/-- The value of a list of bytes read as a little-endian number. -/
def le_value : List Nat → Nat
  | [] => 0
  | b :: rest => b + 256 * le_value rest

/-- The value of a list of 32-bit words read as a little-endian number. -/
def le_words : List Nat → Nat
  | [] => 0
  | w :: rest => w + 2 ^ 32 * le_words rest

/-- The little-endian 32-bit word `g` of the 64-byte block `k` of a message, the
message being given as the little-endian number `le_value` of its bytes. -/
def md5_word (msg k g : Nat) : Nat := (msg >>> (512 * k + 32 * g)) % 2 ^ 32

/-- One of the 64 operations of the MD5 block transform, on block `k` of `msg`. -/
def md5_step (msg k : Nat) (st : Nat × Nat × Nat × Nat) (i : Nat) : Nat × Nat × Nat × Nat :=
  let a := st.1
  let b := st.2.1
  let c := st.2.2.1
  let d := st.2.2.2
  let f :=
    if i < 16 then (b &&& c) ||| ((b ^^^ 0xffffffff) &&& d)
    else if i < 32 then (d &&& b) ||| ((d ^^^ 0xffffffff) &&& c)
    else if i < 48 then b ^^^ c ^^^ d
    else c ^^^ (b ||| (d ^^^ 0xffffffff))
  let g :=
    if i < 16 then i
    else if i < 32 then (5 * i + 1) % 16
    else if i < 48 then (3 * i + 5) % 16
    else (7 * i) % 16
  (d, (b + rotl32 ((f + a + (le_words md5_sine >>> (32 * i)) % 2 ^ 32 + md5_word msg k g) % 2 ^ 32)
        ((le_value md5_shift >>> (8 * i)) % 256)) % 2 ^ 32, b, c)

/-- The block transform on block `k` of `msg`. -/
def md5_block (msg : Nat) (st : Nat × Nat × Nat × Nat) (k : Nat) : Nat × Nat × Nat × Nat :=
  let r := (List.range 64).foldl (md5_step msg k) st
  ((st.1 + r.1) % 2 ^ 32, (st.2.1 + r.2.1) % 2 ^ 32, (st.2.2.1 + r.2.2.1) % 2 ^ 32,
    (st.2.2.2 + r.2.2.2) % 2 ^ 32)

def le_bytes (n : Nat) (x : Nat) : List Nat :=
  (List.range n).map (fun k => (x >>> (8 * k)) % 256)

/-- The message followed by the RFC 1321 padding and the bit length. -/
def md5_pad (msg : List Nat) : List Nat :=
  msg ++ [0x80] ++ List.replicate ((119 - msg.length % 64) % 64) 0
    ++ le_bytes 8 ((8 * msg.length) % 2 ^ 64)

/-- `MD5 (data, length, digest)`: the 16 digest bytes. -/
def MD5 (msg : List Nat) : List Nat :=
  let r := (List.range ((md5_pad msg).length / 64)).foldl (md5_block (le_value (md5_pad msg)))
    (0x67452301, 0xefcdab89, 0x98badcfe, 0x10325476)
  le_bytes 4 r.1 ++ le_bytes 4 r.2.1 ++ le_bytes 4 r.2.2.1 ++ le_bytes 4 r.2.2.2


/-! ## Rolling checksum -/

/-- Modelled from the spec: the per-byte offset of the rolling checksum
(`rollsum.h` is not among the sources; the spec names the classic rsync value). -/
def ROLLSUM_CHAR_OFFSET : Nat := 31

/-- Modelled from the spec: the state of the rolling checksum of `rollsum.h`: the
window length and the two running sums `a` and `b`, each modulo 2^16. -/
structure Rollsum where
  count : Nat
  s1 : Nat
  s2 : Nat
  deriving DecidableEq

/-- Modelled from the spec: `RollsumInit` of `rollsum.h`. -/
def RollsumInit : Rollsum := ⟨0, 0, 0⟩

/-- Modelled from the spec: `RollsumUpdate` of `rollsum.h` folds the bytes of `buf`
into `a` and `b`; the window grows. -/
def RollsumUpdate (rs : Rollsum) (buf : List Nat) : Rollsum :=
  buf.foldl (fun r x =>
    ⟨r.count + 1, (r.s1 + x + ROLLSUM_CHAR_OFFSET) % 2 ^ 16,
      (r.s2 + (r.s1 + x + ROLLSUM_CHAR_OFFSET) % 2 ^ 16) % 2 ^ 16⟩) rs

/-- Modelled from the spec: `RollsumRotate` of `rollsum.h` advances the window by one
byte: `a ← a − old + new`, `b ← b − n·old + a`. -/
def RollsumRotate (rs : Rollsum) (old new : Nat) : Rollsum :=
  let s1 := (rs.s1 + new + (2 ^ 16 - old % 2 ^ 16)) % 2 ^ 16
  ⟨rs.count, s1,
    (rs.s2 + s1 + (2 ^ 16 - (rs.count * (old + ROLLSUM_CHAR_OFFSET)) % 2 ^ 16)) % 2 ^ 16⟩

/-- Modelled from the spec: `RollsumDigest` of `rollsum.h`, `(b << 16) | a`. -/
def RollsumDigest (rs : Rollsum) : Nat := ((rs.s2 % 2 ^ 16) <<< 16) ||| (rs.s1 % 2 ^ 16)

/-- `arrow_compute_key` (`arrow.c`). -/
def arrow_compute_key (data : List Nat) : arrow_id_t :=
  { weak := RollsumDigest (RollsumUpdate RollsumInit data), strong := MD5 data }

/-! ## Input streams -/

/-- A `FILE *` open for reading on a regular file: the file's bytes, the position
and the end-of-file indicator. -/
structure FILE where
  content : List Nat
  pos : Nat
  eof : Bool

def fopen (content : List Nat) : FILE := ⟨content, 0, false⟩

/-- `fread (buf, 1, n, f)`: the bytes read and the stream afterwards. -/
def fread (f : FILE) (n : Nat) : List Nat × FILE :=
  ((f.content.drop f.pos).take n,
    { f with pos := f.pos + ((f.content.drop f.pos).take n).length
             eof := f.eof || decide (((f.content.drop f.pos).take n).length < n) })

/-- `getc_unlocked (f)`: `none` for `EOF`. -/
def getc (f : FILE) : Option Nat × FILE :=
  match f.content.drop f.pos with
  | [] => (none, { f with eof := true })
  | c :: _ => (some c, { f with pos := f.pos + 1 })

/-- `fseek (f, pos, SEEK_SET)`. -/
def fseek_set (f : FILE) (pos : Nat) : FILE := { f with pos := pos, eof := false }

/-- `fseek (f, off, SEEK_CUR)`. -/
def fseek_cur (f : FILE) (off : Nat) : FILE := { f with pos := f.pos + off, eof := false }

def rewind (f : FILE) : FILE := { f with pos := 0, eof := false }

/-! ## Version records (`fileinfo.h`) -/

def MAX_DIRECT_CHUNK_SIZE : Nat := 23

def MIN_CHUNK_SIZE : Nat := 700

def MAX_CHUNK_SIZE : Nat := 16000

/-- `file_chunk_t`.  A direct chunk is the list of its `length` bytes (the bytes
of the 23-byte array beyond `length` are not part of the entry's meaning). -/
inductive file_chunk_t where
  | END_OF_CHUNKS
  | REFERENCE (length : Nat) (ref : arrow_id_t)
  | DIRECT_CHUNK (data : List Nat)
  deriving DecidableEq

/-- The fields of `file_t` / `file_info_t` the synchronizer reads from a basis. -/
structure file_t where
  uuid : List Nat
  hash : List Nat
  chunk_size : Nat
  chunks : List file_chunk_t

/-! ## The synchronizer (`sync.c`) -/

/-- `sync_callbacks_t` over a callback state `σ`; a callback yields `none` when the
process aborts inside it. -/
structure sync_callbacks_t (σ : Type) where
  add_ref : σ → arrow_id_t → Option (Int × σ)
  put_block : σ → arrow_id_t → List Nat → Option (Int × σ)
  store_contains : σ → arrow_id_t → Int
  emit_chunk : σ → file_chunk_t → Option (Int × σ)

/-- `sync_store_state_t`: the local store and the chunk entries written to `chunks_out`. -/
structure sync_store_state_t where
  store : store_state_t
  chunks_out : List file_chunk_t

def sync_store_add_ref (st : sync_store_state_t) (id : arrow_id_t) :
    Option (Int × sync_store_state_t) :=
  some ((store_addref st.store id).1, { st with store := (store_addref st.store id).2 })

def sync_store_put_block (st : sync_store_state_t) (id : arrow_id_t) (buf : List Nat) :
    Option (Int × sync_store_state_t) :=
  (store_put st.store id buf).map (fun r => (r.1, { st with store := r.2 }))

def sync_store_contains (st : sync_store_state_t) (id : arrow_id_t) : Int :=
  store_contains st.store id

def sync_store_emit_chunk (st : sync_store_state_t) (chunk : file_chunk_t) :
    Option (Int × sync_store_state_t) :=
  some (0, { st with chunks_out := st.chunks_out ++ [chunk] })

/-- The callbacks "that directly insert into a local store". -/
def sync_store_callbacks : sync_callbacks_t sync_store_state_t :=
  { add_ref := sync_store_add_ref
    put_block := sync_store_put_block
    store_contains := sync_store_contains
    emit_chunk := sync_store_emit_chunk }

/-- What a synchronizer run leaves behind: the return value, the `hash_match`
flag, the header fields written to the new record (`none`: not written) and the
callback state. -/
structure sync_result (σ : Type) where
  ret : Int
  hash_match : Int
  chunk_size : Option Nat
  hash : Option (List Nat)
  state : σ

/-- The `while (!feof (in))` loop of `sync_generate`; `md5` is the list of bytes
given to `MD5_Update` so far.  Each round consumes input, so `fuel` rounds
suffice when `fuel` exceeds the input length. -/
def sync_generate.loop {σ : Type} (cb : sync_callbacks_t σ) (bufsize : Nat) :
    Nat → FILE → List Nat → σ → Option (List Nat × σ)
  | 0, _, _, _ => none
  | fuel + 1, f, md5, st =>
    if f.eof = true then some (md5, st)
    else
      let buffer := (fread f bufsize).1
      if buffer.length ≤ 0 then some (md5, st)
      else if buffer.length ≤ MAX_DIRECT_CHUNK_SIZE then
        (cb.emit_chunk st (file_chunk_t.DIRECT_CHUNK buffer)).bind (fun r =>
          sync_generate.loop cb bufsize fuel (fread f bufsize).2 (md5 ++ buffer) r.2)
      else
        (cb.emit_chunk st
            (file_chunk_t.REFERENCE (buffer.length % 2 ^ 32) (arrow_compute_key buffer))).bind
          (fun r =>
            if cb.store_contains r.2 (arrow_compute_key buffer) = 0 then
              (cb.put_block r.2 (arrow_compute_key buffer) buffer).bind (fun r2 =>
                sync_generate.loop cb bufsize fuel (fread f bufsize).2 (md5 ++ buffer) r2.2)
            else
              sync_generate.loop cb bufsize fuel (fread f bufsize).2 (md5 ++ buffer) r.2)

/-- Bit-by-bit square root: the bits `2^(k-1) .. 2^0` are added to `r` while the
square stays within `n`. -/
def sqrt_bits (n : Nat) : Nat → Nat → Nat
  | 0, r => r
  | k + 1, r => if (r + 2 ^ k) ^ 2 ≤ n then sqrt_bits n k (r + 2 ^ k) else sqrt_bits n k r

/-- `(uint32_t) sqrtl ((long double) size)` for a file size below 2^64: the integer
part of the square root. -/
def sqrtl_u32 (size : Nat) : Nat := sqrt_bits size 32 0 % 2 ^ 32

/-- The chunk size `sync_generate` chooses for an input of `size` bytes. -/
def sync_generate.bufsize (size : Nat) : Nat :=
  let bufsize := sqrtl_u32 size
  let bufsize := if bufsize < MIN_CHUNK_SIZE then MIN_CHUNK_SIZE else bufsize
  if bufsize > MAX_CHUNK_SIZE then MAX_CHUNK_SIZE else bufsize

/-- `sync_generate` on a regular file holding `input`. -/
def sync_generate {σ : Type} (input : List Nat) (cb : sync_callbacks_t σ) (st : σ) :
    Option (sync_result σ) :=
  (sync_generate.loop cb (sync_generate.bufsize input.length) (input.length + 1)
      (fopen input) [] st).bind (fun r =>
    (cb.emit_chunk r.2 file_chunk_t.END_OF_CHUNKS).map (fun e =>
      { ret := 0, hash_match := 0, chunk_size := some (sync_generate.bufsize input.length),
        hash := some (MD5 r.1), state := e.2 }))


/-! ### The probe table of `sync_file` -/

def HASH_TABLE_SIZE : Nat := 2 ^ 14

/-- The loop of `hash_insert` at index `idx`; `none` when `fail` is reached (the
table is full).  The probe returns to its start after `HASH_TABLE_SIZE` steps. -/
def hash_insert.loop (id : arrow_id_t) :
    Nat → Nat → (Nat → arrow_id_t) → Option (Nat → arrow_id_t)
  | 0, _, _ => none
  | fuel + 1, idx, table =>
    if table idx = id then some table
    else if table idx = null_id then some (fun j => if j = idx then id else table j)
    else if (if idx + 1 ≥ HASH_TABLE_SIZE then 0 else idx + 1) = id.weak % HASH_TABLE_SIZE then none
    else hash_insert.loop id fuel (if idx + 1 ≥ HASH_TABLE_SIZE then 0 else idx + 1) table

def hash_insert (table : Nat → arrow_id_t) (id : arrow_id_t) : Option (Nat → arrow_id_t) :=
  hash_insert.loop id HASH_TABLE_SIZE (id.weak % HASH_TABLE_SIZE) table

def hash_table_probe.loop (table : Nat → arrow_id_t) (weaksum : Nat) : Nat → Nat → Int
  | 0, _ => 0
  | fuel + 1, idx =>
    if (table idx).weak = weaksum then 1
    else if table idx = null_id then 0
    else if (if idx + 1 ≥ HASH_TABLE_SIZE then 0 else idx + 1) = weaksum % HASH_TABLE_SIZE then 0
    else hash_table_probe.loop table weaksum fuel (if idx + 1 ≥ HASH_TABLE_SIZE then 0 else idx + 1)

def hash_table_probe (table : Nat → arrow_id_t) (weaksum : Nat) : Int :=
  hash_table_probe.loop table weaksum HASH_TABLE_SIZE (weaksum % HASH_TABLE_SIZE)

def hash_table_contains.loop (table : Nat → arrow_id_t) (id : arrow_id_t) : Nat → Nat → Int
  | 0, _ => 0
  | fuel + 1, idx =>
    if table idx = id then 1
    else if table idx = null_id then 0
    else if (if idx + 1 ≥ HASH_TABLE_SIZE then 0 else idx + 1) = id.weak % HASH_TABLE_SIZE then 0
    else hash_table_contains.loop table id fuel (if idx + 1 ≥ HASH_TABLE_SIZE then 0 else idx + 1)

def hash_table_contains (table : Nat → arrow_id_t) (id : arrow_id_t) : Int :=
  hash_table_contains.loop table id HASH_TABLE_SIZE (id.weak % HASH_TABLE_SIZE)

/-- The table `sync_file` builds from the basis: every `REFERENCE` entry before
`END_OF_CHUNKS` whose length is the chunk size. -/
def sync_file.build_table (chunk_size : Nat) :
    List file_chunk_t → (Nat → arrow_id_t) → Option (Nat → arrow_id_t)
  | [], table => some table
  | file_chunk_t.END_OF_CHUNKS :: _, table => some table
  | file_chunk_t.REFERENCE length ref :: rest, table =>
    if length = chunk_size then
      (hash_insert table ref).bind (fun t => sync_file.build_table chunk_size rest t)
    else sync_file.build_table chunk_size rest table
  | file_chunk_t.DIRECT_CHUNK _ :: rest, table => sync_file.build_table chunk_size rest table

/-! ### The ring buffer (`cbuf.h`) -/

structure circular_buffer_t where
  size : Nat
  idx : Nat
  buffer : List Nat

/-- Modelled from the spec: `cbuf_alloc` (its source file is not among the sources)
initialises a ring of `size` bytes at index 0; the bytes are written before they
are read. -/
def cbuf_alloc (size : Nat) : circular_buffer_t := ⟨size, 0, List.replicate size 0⟩

def cbuf_addin (buf : circular_buffer_t) (val : Nat) : circular_buffer_t :=
  { buf with buffer := buf.buffer.set buf.idx val, idx := (buf.idx + 1) % buf.size }

def cbuf_get (buf : circular_buffer_t) (i : Nat) : Nat :=
  buf.buffer.getD ((buf.idx + i) % buf.size) 0

def cbuf_reset (buf : circular_buffer_t) : circular_buffer_t := { buf with idx := 0 }

/-- `cbuf_md5`: the digest of `buffer[idx..size)` followed by `buffer[0..idx)`. -/
def cbuf_md5 (buf : circular_buffer_t) : List Nat :=
  MD5 ((buf.buffer.drop buf.idx).take (buf.size - buf.idx)
    ++ (if buf.idx ≠ 0 then buf.buffer.take buf.idx else []))

/-- `fread (buffer.buffer, 1, n, f)`: the bytes read replace the front of the array. -/
def cbuf_fread (buf : circular_buffer_t) (f : FILE) (n : Nat) : circular_buffer_t :=
  { buf with buffer := (fread f n).1 ++ buf.buffer.drop (fread f n).1.length }

/-! ### `sync_file` -/

/-- The variables of `sync_file` that its loops update. -/
structure sync_file_vars where
  datafile : FILE
  buffer : circular_buffer_t
  bufsize : Nat
  runsum : Rollsum
  md5 : List Nat
  last_match : Nat
  current : arrow_id_t

/-- The loop `for (l = ...; l < limit; )` that emits literal bytes, used before a
match (`limit = cur - chunk_size`) and for the trailing bytes (`limit = cur`). -/
def sync_file.literals {σ : Type} (cb : sync_callbacks_t σ) (chunk_size limit : Nat) :
    Nat → Nat → sync_file_vars → σ → Option (sync_file_vars × σ)
  | 0, _, _, _ => none
  | fuel + 1, l, v, st =>
    if l < limit then
      let n := min (limit - l) chunk_size
      let buffer := cbuf_fread v.buffer v.datafile n
      let datafile := (fread v.datafile n).2
      if n ≤ MAX_DIRECT_CHUNK_SIZE then
        (cb.emit_chunk st (file_chunk_t.DIRECT_CHUNK (buffer.buffer.take n))).bind (fun r =>
          sync_file.literals cb chunk_size limit fuel (l + n)
            { v with datafile := datafile, buffer := buffer } r.2)
      else
        let current := arrow_compute_key (buffer.buffer.take n)
        (cb.emit_chunk st (file_chunk_t.REFERENCE n current)).bind (fun r =>
          (if cb.store_contains r.2 current ≠ 0 then cb.add_ref r.2 current
           else cb.put_block r.2 current (buffer.buffer.take n)).bind (fun r2 =>
            sync_file.literals cb chunk_size limit fuel (l + n)
              { v with datafile := datafile, buffer := buffer, current := current } r2.2))
    else some (v, st)

/-- The main loop `while (!feof (datafile))` of `sync_file`. -/
def sync_file.loop {σ : Type} (cb : sync_callbacks_t σ) (table : Nat → arrow_id_t)
    (chunk_size : Nat) : Nat → sync_file_vars → σ → Option (sync_file_vars × σ)
  | 0, _, _ => none
  | fuel + 1, v, st =>
    if v.datafile.eof = true then some (v, st)
    else if hash_table_probe table (RollsumDigest v.runsum) ≠ 0 ∧
        hash_table_contains table ⟨RollsumDigest v.runsum, cbuf_md5 v.buffer⟩ ≠ 0 then
      let cur := v.datafile.pos
      let v1 := { v with current := ⟨RollsumDigest v.runsum, cbuf_md5 v.buffer⟩
                         datafile := fseek_set v.datafile v.last_match }
      (if v.last_match < cur - chunk_size then
          sync_file.literals cb chunk_size (cur - chunk_size) (cur + 1) v.last_match v1 st
        else some (v1, st)).bind (fun r =>
        let v2 := r.1
        (cb.emit_chunk r.2 (file_chunk_t.REFERENCE v2.bufsize v2.current)).bind (fun r3 =>
          (cb.add_ref r3.2 v2.current).bind (fun r4 =>
            let f3 := fseek_cur v2.datafile chunk_size
            let buffer := cbuf_fread (cbuf_reset v2.buffer) f3 chunk_size
            let bufsize := (fread f3 chunk_size).1.length
            let v3 : sync_file_vars :=
              { datafile := (fread f3 chunk_size).2
                buffer := buffer
                bufsize := bufsize
                runsum := v2.runsum
                md5 := v2.md5 ++ buffer.buffer.take bufsize
                last_match := f3.pos
                current := v2.current }
            if bufsize < chunk_size then some (v3, r4.2)
            else sync_file.loop cb table chunk_size fuel
              { v3 with runsum := RollsumUpdate RollsumInit (buffer.buffer.take bufsize) } r4.2)))
    else
      match (getc v.datafile).1 with
      | none => some ({ v with datafile := (getc v.datafile).2 }, st)
      | some c =>
        sync_file.loop cb table chunk_size fuel
          { v with datafile := (getc v.datafile).2
                   runsum := RollsumRotate v.runsum (cbuf_get v.buffer 0) c
                   buffer := cbuf_addin v.buffer c } st

/-- The loop that digests the whole input when `hash_match` is requested. -/
def sync_file.file_md5 : Nat → FILE → List Nat → List Nat
  | 0, _, md5 => md5
  | fuel + 1, f, md5 =>
    if f.eof = true then md5
    else if 0 < (fread f 1024).1.length then
      sync_file.file_md5 fuel (fread f 1024).2 (md5 ++ (fread f 1024).1)
    else md5

/-- `sync_file` with basis `basis` on a data file holding `input`; `hash_match` is
`none` for a null pointer.  In the result `hash_match` is the flag on return (0 for
a null pointer). -/
def sync_file {σ : Type} (basis : file_t) (input : List Nat) (cb : sync_callbacks_t σ)
    (hash_match : Option Int) (st : σ) : Option (sync_result σ) :=
  let chunk_size := basis.chunk_size
  if (match hash_match with | some h => decide (h ≠ 0) | none => false) = true ∧
      MD5 (sync_file.file_md5 (input.length + 1) (fopen input) []) = basis.hash then
    some { ret := 0, hash_match := 1, chunk_size := none, hash := none, state := st }
  else
    (sync_file.build_table chunk_size basis.chunks (fun _ => null_id)).bind (fun table =>
      let datafile := fopen input
      let buffer := cbuf_fread (cbuf_alloc chunk_size) datafile chunk_size
      let bufsize := (fread datafile chunk_size).1.length
      let md5 := buffer.buffer.take bufsize
      if bufsize < chunk_size then
        (if bufsize ≤ MAX_DIRECT_CHUNK_SIZE then
            cb.emit_chunk st
              (file_chunk_t.DIRECT_CHUNK (buffer.buffer.take (min bufsize MAX_DIRECT_CHUNK_SIZE)))
          else
            (cb.emit_chunk st
              (file_chunk_t.REFERENCE bufsize (arrow_compute_key (buffer.buffer.take bufsize)))).bind
              (fun r =>
                if cb.store_contains r.2 (arrow_compute_key (buffer.buffer.take bufsize)) ≠ 0 then
                  cb.add_ref r.2 (arrow_compute_key (buffer.buffer.take bufsize))
                else
                  cb.put_block r.2 (arrow_compute_key (buffer.buffer.take bufsize))
                    (buffer.buffer.take bufsize))).bind (fun r =>
          (cb.emit_chunk r.2 file_chunk_t.END_OF_CHUNKS).map (fun e =>
            { ret := 0, hash_match := 0, chunk_size := some chunk_size, hash := some (MD5 md5),
              state := e.2 }))
      else
        (sync_file.loop cb table chunk_size (input.length + 2)
            { datafile := (fread datafile chunk_size).2
              buffer := buffer
              bufsize := bufsize
              runsum := RollsumUpdate RollsumInit (buffer.buffer.take bufsize)
              md5 := md5
              last_match := 0
              current := null_id } st).bind (fun r =>
          let cur := r.1.datafile.pos
          (if r.1.last_match < cur then
              sync_file.literals cb chunk_size cur (cur + 1) r.1.last_match
                { r.1 with datafile := fseek_set r.1.datafile r.1.last_match } r.2
            else some r).bind (fun r2 =>
            (cb.emit_chunk r2.2 file_chunk_t.END_OF_CHUNKS).map (fun e =>
              { ret := 0, hash_match := 0, chunk_size := some chunk_size,
                hash := some (MD5 r2.1.md5), state := e.2 }))))


/-! ## Reading a version record back -/

/-- The bytes a chunk entry stands for, `REFERENCE` entries being resolved with
`store_get` into a buffer of the entry's length. -/
def chunk_bytes (s : store_state_t) : file_chunk_t → List Nat
  | file_chunk_t.END_OF_CHUNKS => []
  | file_chunk_t.DIRECT_CHUNK data => data
  | file_chunk_t.REFERENCE length ref =>
    if (store_get s ref (fun _ => 0) length).1 = SIZE_NOT_FOUND then []
    else bytes_at (store_get s ref (fun _ => 0) length).2 0
      (min (store_get s ref (fun _ => 0) length).1 length)

/-- The byte stream of a list of chunk entries, concatenated in order. -/
def reconstruct (s : store_state_t) (chunks : List file_chunk_t) : List Nat :=
  chunks.foldr (fun c acc => chunk_bytes s c ++ acc) []

/-- The number of `REFERENCE` entries to `id` in a list of chunk entries. -/
def reference_count (id : arrow_id_t) : List file_chunk_t → Nat
  | [] => 0
  | file_chunk_t.REFERENCE _ ref :: rest =>
    (if ref = id then 1 else 0) + reference_count id rest
  | _ :: rest => reference_count id rest

/-- The `references` field of the first slot holding `id` in a key array. -/
def key_references (id : arrow_id_t) : List block_key_t → Option Nat
  | [] => none
  | k :: rest => if k.id = id then some k.references else key_references id rest

/-- The reference count the store records for `id`, if `id` is stored. -/
def store_references (s : store_state_t) (id : arrow_id_t) : Option Nat :=
  (store_open s (store_map_key s.sb id)).bind (fun b => key_references id b.keys)

/-! ## Concrete inputs -/

/-- A 700-byte file. -/
def basis_input : List Nat := (List.range 700).map (fun i => (i * 7 + 3) % 256)

/-- `arrow_compute_key basis_input`. -/
def basis_id : arrow_id_t :=
  ⟨3831934878, [75, 25, 174, 53, 145, 211, 40, 103, 142, 209, 23, 51, 141, 117, 104, 8]⟩

/-- The version record `sync_generate` writes for `basis_input`. -/
def basis_record : file_t :=
  { uuid := [1, 2, 3, 4, 5, 6, 7, 8, 9, 10, 11, 12, 13, 14, 15, 16]
    hash := [75, 25, 174, 53, 145, 211, 40, 103, 142, 209, 23, 51, 141, 117, 104, 8]
    chunk_size := 700
    chunks := [file_chunk_t.REFERENCE 700 basis_id, file_chunk_t.END_OF_CHUNKS] }

/-- The local store state after `sync_generate` ran on `basis_input` against a freshly
initialised store (`none` if the run aborts). -/
def basis_store : Option store_state_t :=
  (sync_generate basis_input sync_store_callbacks ⟨store_init, []⟩).map (fun r => r.state.store)

/-- `basis_input` with the byte `X` inserted in front. -/
def prefixed_input : List Nat := 88 :: basis_input

/-- `basis_input` with 24 bytes `0xFF` inserted in front. -/
def inserted_input : List Nat := List.replicate 24 255 ++ basis_input

/-- `arrow_compute_key (List.replicate 24 255)`. -/
def inserted_id : arrow_id_t :=
  ⟨1328028368, [203, 152, 112, 28, 70, 7, 62, 90, 69, 224, 231, 44, 181, 222, 23, 161]⟩

/-- A file of 1400 zero bytes: the same 700-byte block twice. -/
def repeated_input : List Nat := List.replicate 1400 0

/-- `arrow_compute_key (List.replicate 700 0)`. -/
def zero_block_id : arrow_id_t :=
  ⟨240800964, [5, 87, 47, 130, 222, 79, 1, 177, 230, 242, 128, 176, 182, 42, 131, 52]⟩


/-- The table `b64_index` (`XX` is 100). -/
def b64_index : List Nat :=
  [100, 100, 100, 100, 100, 100, 100, 100, 100, 100, 100, 100, 100, 100, 100, 100,
   100, 100, 100, 100, 100, 100, 100, 100, 100, 100, 100, 100, 100, 100, 100, 100,
   100, 26, 27, 28, 29, 30, 31, 32, 33, 34, 63, 62, 35, 36, 100, 100,
   52, 53, 54, 55, 56, 57, 58, 59, 60, 61, 37, 38, 39, 100, 40, 41,
   42, 0, 1, 2, 3, 4, 5, 6, 7, 8, 9, 10, 11, 12, 13, 14,
   15, 16, 17, 18, 19, 20, 21, 22, 23, 24, 25, 43, 100, 45, 46, 47,
   48, 100, 100, 100, 100, 100, 100, 100, 100, 100, 100, 100, 100, 100, 100, 100,
   100, 100, 100, 100, 100, 100, 100, 100, 100, 100, 100, 49, 50, 51, 44, 100,
   100, 100, 100, 100, 100, 100, 100, 100, 100, 100, 100, 100, 100, 100, 100, 100,
   100, 100, 100, 100, 100, 100, 100, 100, 100, 100, 100, 100, 100, 100, 100, 100,
   100, 100, 100, 100, 100, 100, 100, 100, 100, 100, 100, 100, 100, 100, 100, 100,
   100, 100, 100, 100, 100, 100, 100, 100, 100, 100, 100, 100, 100, 100, 100, 100,
   100, 100, 100, 100, 100, 100, 100, 100, 100, 100, 100, 100, 100, 100, 100, 100,
   100, 100, 100, 100, 100, 100, 100, 100, 100, 100, 100, 100, 100, 100, 100, 100,
   100, 100, 100, 100, 100, 100, 100, 100, 100, 100, 100, 100, 100, 100, 100, 100,
   100, 100, 100, 100, 100, 100, 100, 100, 100, 100, 100, 100, 100, 100, 100, 100]

/-- The loop of `b64_decode` over the characters from the last to the first. -/
def b64_decode.loop : List Nat → Nat → Nat → Option Nat
  | [], v, _ => some v
  | c :: rest, v, offset =>
    if b64_index.getD c 100 = 100 then none
    else b64_decode.loop rest (v ||| ((b64_index.getD c 100 <<< offset) % 2 ^ 64)) (offset + 6)

/-- `b64_decode`: the decoded value, `none` for the return value -1. -/
def b64_decode (val : List Nat) : Option Nat := b64_decode.loop val.reverse 0 0


/-- The value of a list of 6-bit digits, least significant first. -/
def digits_value : List Nat → Nat
  | [] => 0
  | d :: rest => d + 64 * digits_value rest


/-! ## Well-formed buckets and stores -/

/-- The slots lie back to back in the data region, the first at offset `o`. -/
def packed_from : Nat → List block_key_t → Prop
  | _, [] => True
  | o, k :: rest => k.offset = o ∧ packed_from (o + k.length) rest

def total_length : List block_key_t → Nat
  | [] => 0
  | k :: rest => k.length + total_length rest

/-- The bytes the code counts as free in a new bucket: `alloc_size` less the
header size. -/
def store_capacity : Nat :=
  ARROW_BLOCK_INITIAL_COUNT * ARROW_CHUNK_SIZE
    - (sizeof_block_header_t + ARROW_BLOCK_INITIAL_COUNT * sizeof_block_key_t)

/-- The chunk stored under `id` in a bucket: the bytes of the first slot holding `id`. -/
def bucket_lookup (b : block_t) (id : arrow_id_t) : Option (List Nat) :=
  (b.keys.find? (fun k => decide (k.id = id))).map (fun k => bytes_at b.data k.offset k.length)

/-- The shape every bucket of a store has between two operations: the geometry of
`create_new_block`; the occupied slots `live` first, holding pairwise different
non-zero ids and lying back to back from offset 0 within the capacity; then empty
slots, at least one. -/
structure bucket_ok (b : block_t) (live : List block_key_t) : Prop where
  keys : b.keys = live ++ List.replicate (ARROW_BLOCK_INITIAL_COUNT - live.length) null_key
  count : live.length < ARROW_BLOCK_INITIAL_COUNT
  alloc : b.alloc_size = ARROW_BLOCK_INITIAL_COUNT * ARROW_CHUNK_SIZE
  ids : ∀ k ∈ live, k.id ≠ null_id
  nodup : (live.map (fun k => k.id)).Nodup
  packed : packed_from 0 live
  fits : total_length live ≤ store_capacity


/-- The 64-bit value `x` that `do_map_key` reads from `strong[8..16]`. -/
def key_hash (id : arrow_id_t) : Nat :=
  ((id.strong.getD 8 0 &&& 0xFF) <<< 56)
    ||| ((id.strong.getD 9 0 &&& 0xFF) <<< 48)
    ||| ((id.strong.getD 10 0 &&& 0xFF) <<< 40)
    ||| ((id.strong.getD 11 0 &&& 0xFF) <<< 32)
    ||| ((id.strong.getD 12 0 &&& 0xFF) <<< 24)
    ||| ((id.strong.getD 13 0 &&& 0xFF) <<< 16)
    ||| ((id.strong.getD 14 0 &&& 0xFF) <<< 8)
    ||| (id.strong.getD 15 0 &&& 0xFF)

/-- The chunk the store holds for `id`: looked up in the bucket `store_map_key` names. -/
def store_lookup (s : store_state_t) (id : arrow_id_t) : Option (List Nat) :=
  (store_open s (store_map_key s.sb id)).bind (fun b => bucket_lookup b id)

/-- The shape of a store between two operations, with at most `N` buckets: the
split pointer is below `2^i`, the buckets `0 .. 2^i + n - 1` exist, are well formed
and hold exactly ids that `do_map_key` sends to them, and no further bucket file
exists. -/
structure store_ok (N : Nat) (s : store_state_t) : Prop where
  bound : 2 ^ s.sb.i + s.sb.n ≤ N
  ptr : s.sb.n < 2 ^ s.sb.i
  buckets : ∀ j < 2 ^ s.sb.i + s.sb.n, ∃ b live, s.blocks (b64_encode j) = some b ∧
    bucket_ok b live ∧ ∀ k ∈ live, do_map_key s.sb k.id s.sb.n = j
  absent : ∀ j, 2 ^ s.sb.i + s.sb.n ≤ j → j < 2 ^ 64 → s.blocks (b64_encode j) = none

/-- Whether the move loop of a split at `sb` moves the chunk `id` out of bucket `n`. -/
def split_moves (sb : store_sb_t) (id : arrow_id_t) : Bool :=
  decide (do_map_key sb id ((sb.n + 1) % 2 ^ 64) ≠ sb.n)

/-- The slots the move loop creates in the new bucket for the chunks `ks`, the first
at offset `o`. -/
def moved_keys : Nat → List block_key_t → List block_key_t
  | _, [] => []
  | o, k :: rest => ⟨k.id, o, k.length, 1⟩ :: moved_keys (o + k.length) rest

/-- The slots `ks` laid back to back from offset `o`. -/
def repacked : Nat → List block_key_t → List block_key_t
  | _, [] => []
  | o, k :: rest => { k with offset := o } :: repacked (o + k.length) rest

/-- Where `compact_block` puts the next chunk: after the last slot in place. -/
def compact_pass.offset (done : List block_key_t) : Nat :=
  match done.getLast? with
  | none => 0
  | some p => (p.offset + p.length) % 2 ^ 32

/-- `compact_block` as a pass over the slots still to visit: `done` are the slots
already in place, followed by `holes` empty slots. -/
def compact_pass :
    List block_key_t → Nat → List block_key_t → (Nat → Nat) → List block_key_t × (Nat → Nat)
  | done, holes, [], data => (done ++ List.replicate holes null_key, data)
  | done, holes, k :: todo, data =>
    if k = null_key then compact_pass done (holes + 1) todo data
    else if holes = 0 then compact_pass (done ++ [k]) 0 todo data
    else
      compact_pass (done ++ [{ k with offset := compact_pass.offset done }]) holes todo
        (memcpy data (compact_pass.offset done) data k.offset k.length)


/-- The bucket has room for a put of `len` bytes under `id` without looking past its
first empty slot: it holds `id` already, or an empty slot other than the last one is
left and the bytes of its chunks plus `len` stay within what the code counts as free
(`alloc_size` less the header size). -/
def bucket_has_room (b : block_t) (id : arrow_id_t) (len : Nat) : Bool :=
  b.keys.any (fun k => decide (k.id = id)) ||
    (decide (store_used b.keys + 1 < b.chunk_count) &&
      decide (total_length b.keys + len ≤ b.alloc_size - store_header_size b))

/-- The store has room for a put of `len` bytes under `id`: the bucket that
`store_map_key` names exists and has room. -/
def store_has_room (s : store_state_t) (id : arrow_id_t) (len : Nat) : Bool :=
  match store_open s (store_map_key s.sb id) with
  | none => false
  | some b => bucket_has_room b id len


/-! ## Sequences of puts -/

/-- A sequence of `store_put` calls, each of them successful (return value 0 or 1):
the state it leaves; `none` when a call fails or aborts. -/
def store_put_seq : store_state_t → List (arrow_id_t × List Nat) → Option store_state_t
  | s, [] => some s
  | s, op :: rest =>
    match store_put s op.1 op.2 with
    | some r => if 0 ≤ r.1 then store_put_seq r.2 rest else none
    | none => none

/-- Every put of the sequence is of a non-zero id and is made while the store has
room for it (`store_has_room`, evaluated in the state the put is made in). -/
def puts_have_room : store_state_t → List (arrow_id_t × List Nat) → Bool
  | _, [] => true
  | s, op :: rest =>
    decide (op.1 ≠ null_id) && store_has_room s op.1 op.2.length &&
      (match store_put s op.1 op.2 with
       | some r => puts_have_room r.2 rest
       | none => false)

/-- The bytes of the first put of `id` in a sequence of puts. -/
def first_put (id : arrow_id_t) : List (arrow_id_t × List Nat) → Option (List Nat)
  | [] => none
  | op :: rest => if op.1 = id then some op.2 else first_put id rest

/-! ## The blocks of a generate run -/

/-- The buffers the loop of `sync_generate` reads from a file whose remaining bytes
are `rest`: `bufsize` bytes at a time, the last one shorter. -/
def sync_generate.blocks (bufsize : Nat) : Nat → List Nat → List (List Nat)
  | 0, _ => []
  | fuel + 1, rest =>
    if (rest.take bufsize).length ≤ 0 then []
    else rest.take bufsize :: sync_generate.blocks bufsize fuel (rest.drop bufsize)

/-- The store has room for every block that a generate run over `blocks` puts: each
put (of a block longer than a direct chunk whose id the store does not hold) is
made while `store_has_room` holds. -/
def sync_generate.has_room : store_state_t → List (List Nat) → Bool
  | _, [] => true
  | s, blk :: rest =>
    if blk.length ≤ MAX_DIRECT_CHUNK_SIZE then sync_generate.has_room s rest
    else if store_contains s (arrow_compute_key blk) = 0 then
      store_has_room s (arrow_compute_key blk) blk.length &&
        (match store_put s (arrow_compute_key blk) blk with
         | some r => sync_generate.has_room r.2 rest
         | none => false)
    else sync_generate.has_room s rest

/-- Every chunk that `s` holds under a non-zero id, `t` holds too. -/
def store_extends (s t : store_state_t) : Prop :=
  ∀ id bytes, id ≠ null_id → store_lookup s id = some bytes → store_lookup t id = some bytes

/-- `basis_input` followed by three more bytes: a file of one 700-byte block and a
3-byte tail. -/
def tailed_input : List Nat := basis_input ++ [1, 2, 3]

/-- Three puts on a new store, the third of an id put before. -/
def sample_puts : List (arrow_id_t × List Nat) :=
  [(⟨11, [1, 2, 3, 4, 5, 6, 7, 8, 9, 10, 11, 12, 13, 14, 15, 16]⟩, [10, 20, 30]),
   (⟨12, [16, 15, 14, 13, 12, 11, 10, 9, 8, 7, 6, 5, 4, 3, 2, 1]⟩, [40, 50]),
   (⟨11, [1, 2, 3, 4, 5, 6, 7, 8, 9, 10, 11, 12, 13, 14, 15, 16]⟩, [60])]

/-- The id of the `j`-th chunk of `overflow_puts`. -/
def filling_id (j : Nat) : arrow_id_t :=
  ⟨j + 1, [0, 0, 0, 0, 0, 0, 0, 0, 0, 0, 0, 0, 0, 0, j / 256, j % 256]⟩

/-- A chunk of 4000000 bytes. -/
def large_chunk : List Nat := List.replicate 4000000 1

/-- A chunk of 1000000 bytes. -/
def stray_chunk : List Nat := List.replicate 1000000 2

/-- A chunk of 700 bytes. -/
def small_chunk : List Nat := List.replicate 700 7

/-- Three puts on a new store: 4000000 bytes, which leave 956148 bytes free as the
code counts them; then 1000000 bytes; then 700 bytes. -/
def overflow_puts : List (arrow_id_t × List Nat) :=
  [(filling_id 0, large_chunk), (filling_id 1, stray_chunk), (filling_id 2, small_chunk)]

/-- Bucket 0 after the first put of `overflow_puts`. -/
def overflow_bucket_1 : block_t :=
  { alloc_size := new_block.alloc_size
    keys := [(⟨filling_id 0, 0, 4000000, 1⟩ : block_key_t)] ++ List.replicate 5119 null_key
    data := memcpy_list new_block.data 0 large_chunk }

/-- Bucket 0 after the second put of `overflow_puts`: the chunk is in the last slot. -/
def overflow_bucket_2 : block_t :=
  { alloc_size := new_block.alloc_size
    keys := [(⟨filling_id 0, 0, 4000000, 1⟩ : block_key_t)] ++ List.replicate 5118 null_key
      ++ [⟨filling_id 1, 4000000, 1000000, 1⟩]
    data := memcpy_list overflow_bucket_1.data 4000000 stray_chunk }

/-- Bucket 0 after the third put of `overflow_puts`: slot 1 and the last slot both
start at offset 4000000. -/
def overflow_bucket_3 : block_t :=
  { alloc_size := new_block.alloc_size
    keys := [(⟨filling_id 0, 0, 4000000, 1⟩ : block_key_t), ⟨filling_id 2, 4000000, 700, 1⟩]
      ++ List.replicate 5117 null_key ++ [⟨filling_id 1, 4000000, 1000000, 1⟩]
    data := memcpy_list overflow_bucket_2.data 4000000 small_chunk }

/-- The id of the `j`-th chunk of `crowded_bucket`: the value `do_map_key` reads from
it is `4 * j`. -/
def crowded_id (j : Nat) : arrow_id_t :=
  ⟨j + 1, [0, 0, 0, 0, 0, 0, 0, 0, 0, 0, 0, 0, 0, 0, (4 * j) / 256, (4 * j) % 256]⟩

/-- A bucket holding 3585 chunks of 10 bytes each in its first 3585 slots: its load
factor is 3585 / 5120, above 0.70. -/
def crowded_bucket : block_t :=
  { alloc_size := ARROW_BLOCK_INITIAL_COUNT * ARROW_CHUNK_SIZE
    keys := (List.range 3585).map (fun j => (⟨crowded_id j, 10 * j, 10, 1⟩ : block_key_t))
      ++ List.replicate (ARROW_BLOCK_INITIAL_COUNT - 3585) null_key
    data := fun _ => 0 }

/-- A store at level 1 with split pointer 0 whose bucket 0 is `crowded_bucket` and
whose bucket 1 is empty: what 3585 puts of 10 zero bytes under the ids `crowded_id`
leave behind on a new store (the split that the last of them triggers moves
nothing, every id being mapped to bucket 0). -/
def crowded_store : store_state_t :=
  { sb := ⟨1, 0⟩
    blocks := fun name =>
      if name = b64_encode 0 then some crowded_bucket
      else if name = b64_encode 1 then some new_block
      else none }

/-- The bytes of a sequence of puts, added up. -/
def puts_bytes : List (arrow_id_t × List Nat) → Nat
  | [] => 0
  | op :: rest => op.2.length + puts_bytes rest

/-- The bytes of a list of blocks, added up. -/
def blocks_bytes : List (List Nat) → Nat
  | [] => 0
  | blk :: rest => blk.length + blocks_bytes rest


/-! ## A bucket with a chunk referenced twice -/

/-- An id whose bucket key is odd: `do_map_key` reads the value 1 from it. -/
def moving_id : arrow_id_t := ⟨21, [0, 0, 0, 0, 0, 0, 0, 0, 0, 0, 0, 0, 0, 0, 0, 1]⟩

/-- An id whose bucket key is even: `do_map_key` reads the value 2 from it. -/
def staying_id : arrow_id_t := ⟨22, [0, 0, 0, 0, 0, 0, 0, 0, 0, 0, 0, 0, 0, 0, 0, 2]⟩

/-- Bucket 0 of a new store after `[10, 20, 30]` was put under `moving_id`, `[40, 50]`
under `staying_id` and `moving_id` was put once more: the first slot has two
references. -/
def counted_bucket : block_t :=
  { alloc_size := ARROW_BLOCK_INITIAL_COUNT * ARROW_CHUNK_SIZE
    keys := [(⟨moving_id, 0, 3, 2⟩ : block_key_t), ⟨staying_id, 3, 2, 1⟩]
      ++ List.replicate (ARROW_BLOCK_INITIAL_COUNT - 2) null_key
    data := memcpy_list (memcpy_list (fun _ => 0) 0 [10, 20, 30]) 3 [40, 50] }

/-- A store at superblock `(0, 0)` whose only bucket is `counted_bucket`. -/
def counted_store : store_state_t :=
  { sb := ⟨0, 0⟩
    blocks := fun name => if name = b64_encode 0 then some counted_bucket else none }

/-! ## Splits in a row -/

/-- `k` calls of `split_next_store` in a row, each returning 0: the state they
leave; `none` when a call fails or aborts. -/
def split_times : Nat → store_state_t → Option store_state_t
  | 0, s => some s
  | k + 1, s =>
    match split_next_store s with
    | some r => if r.1 = 0 then split_times k r.2 else none
    | none => none


/-! ## The layout of a bucket -/

/-- The layout invariant of a bucket's key array: each non-empty slot starts at or
after the end (`offset + length`) of the non-empty slot before it (so the offsets of
the non-empty slots do not decrease); `o` is the end of the last non-empty slot
seen so far. -/
def slots_in_order : Nat → List block_key_t → Bool
  | _, [] => true
  | o, k :: rest =>
    if k = null_key then slots_in_order o rest
    else decide (o ≤ k.offset) && slots_in_order (k.offset + k.length) rest

/-- A bucket of two slots whose only chunk, in slot 0, starts at offset 5. -/
def gap_bucket : block_t :=
  { alloc_size := 1000
    keys := [(⟨moving_id, 5, 3, 1⟩ : block_key_t), null_key]
    data := fun p => p % 256 }

/-- A bucket of four slots with two chunks, an empty slot between them: the second
chunk starts two bytes after the end of the first. -/
def holed_bucket : block_t :=
  { alloc_size := 1000
    keys := [(⟨moving_id, 0, 3, 2⟩ : block_key_t), null_key, ⟨staying_id, 5, 2, 1⟩, null_key]
    data := fun p => p % 256 }


/-! ## Reference counts of a bucket -/

/-- Every non-empty slot has `references ≥ 1`. -/
def references_ok (ks : List block_key_t) : Prop :=
  ∀ k ∈ ks, k ≠ null_key → 1 ≤ k.references

/-- The bucket after `j` calls of `store_put_into` with the same id and bytes. -/
def put_times (id : arrow_id_t) (buf : List Nat) : Nat → block_t → block_t
  | 0, b => b
  | j + 1, b => put_times id buf j (store_put_into b id buf).2


/-! ## The chunk size of a new record (`fileinfo.c`) -/

/-- The chunk size `file_initialize` stores in the record of a file of `size`
bytes. -/
def file_initialize.bufsize (size : Nat) : Nat :=
  let bufsize := sqrtl_u32 size
  let bufsize := if bufsize < MIN_CHUNK_SIZE then MIN_CHUNK_SIZE else bufsize
  if bufsize > MAX_CHUNK_SIZE then MAX_CHUNK_SIZE else bufsize


/-! ## Rolling the checksum -/

/-- The sum `a` of the rolling checksum over a window, before reduction. -/
def rollsum_a : List Nat → Nat
  | [] => 0
  | x :: xs => (x + ROLLSUM_CHAR_OFFSET) + rollsum_a xs

/-- The sum `b` of the rolling checksum over a window, before reduction: the byte
at distance `k` from the end of the window counts `k + 1` times. -/
def rollsum_b : List Nat → Nat
  | [] => 0
  | x :: xs => (xs.length + 1) * (x + ROLLSUM_CHAR_OFFSET) + rollsum_b xs

/-- The rolling sum after the window `w` was advanced over the bytes `ys` one at a
time, each step taking out the oldest byte of the window. -/
def rollsum_roll : Rollsum → List Nat → List Nat → Rollsum
  | rs, _, [] => rs
  | rs, w, y :: ys => rollsum_roll (RollsumRotate rs (w.headD 0) y) (w.drop 1 ++ [y]) ys


/-! ## Version record files and link files (`arrow.c`, `fileinfo.c`, `helpers.c`) -/

/-- `arrow_bytes_to_long`: the eight bytes at the start of `buf`, big-endian. -/
def arrow_bytes_to_long (buf : List Nat) : Nat :=
  ((buf.getD 0 0 &&& 0xFF) <<< 56)
    ||| ((buf.getD 1 0 &&& 0xFF) <<< 48)
    ||| ((buf.getD 2 0 &&& 0xFF) <<< 40)
    ||| ((buf.getD 3 0 &&& 0xFF) <<< 32)
    ||| ((buf.getD 4 0 &&& 0xFF) <<< 24)
    ||| ((buf.getD 5 0 &&& 0xFF) <<< 16)
    ||| ((buf.getD 6 0 &&& 0xFF) <<< 8)
    ||| (buf.getD 7 0 &&& 0xFF)

/-- `arrow_long_to_bytes`: the eight bytes written to `buf`. -/
def arrow_long_to_bytes (value : Nat) : List Nat :=
  [((value >>> 56) &&& 0xFF) % 256, ((value >>> 48) &&& 0xFF) % 256,
   ((value >>> 40) &&& 0xFF) % 256, ((value >>> 32) &&& 0xFF) % 256,
   ((value >>> 24) &&& 0xFF) % 256, ((value >>> 16) &&& 0xFF) % 256,
   ((value >>> 8) &&& 0xFF) % 256, (value &&& 0xFF) % 256]

/-- `uuid_from_longs`. -/
def uuid_from_longs (upper lower : Nat) : List Nat :=
  arrow_long_to_bytes upper ++ arrow_long_to_bytes lower

/-- A hexadecimal digit as `printf` writes it for `%x`. -/
def hex_digit (d : Nat) : Nat := if d < 10 then 48 + d else 87 + d

/-- The text `printf` writes for `%02x` and a `uint8_t` argument. -/
def printf_02x (x : Nat) : List Nat := [hex_digit (x % 256 / 16), hex_digit (x % 16)]

/-- The string `snprintf (buf, size, ...)` leaves in `buf` when the formatted text is
`text`: at most `size - 1` characters (and the terminator). -/
def snprintf (size : Nat) (text : List Nat) : List Nat := text.take (size - 1)

def MAX_B64_UUID_LEN : Nat := 23

/-- The text of the format `"%s/%02x/%s.%s"` in `file_open` and `file_delete`. -/
def file_open.text (rootdir uuid : List Nat) : List Nat :=
  rootdir ++ [47] ++ printf_02x (uuid.getD 0 0) ++ [47]
    ++ b64_encode (arrow_bytes_to_long uuid) ++ [46]
    ++ b64_encode (arrow_bytes_to_long (uuid.drop 8))

/-- The path `file_open` builds: `snprintf (path, pathlen, ...)` with
`pathlen = strlen (rootdir) + MAX_B64_UUID_LEN + 3`. -/
def file_open.path (rootdir uuid : List Nat) : List Nat :=
  snprintf (rootdir.length + MAX_B64_UUID_LEN + 3) (file_open.text rootdir uuid)

/-- The path `file_delete` builds, with the same length and format. -/
def file_delete.path (rootdir uuid : List Nat) : List Nat :=
  snprintf (rootdir.length + MAX_B64_UUID_LEN + 3) (file_open.text rootdir uuid)

/-- The link target `make_link_file` builds in `uuidbuf[30]`. -/
def make_link_file.target (uuid : List Nat) : List Nat :=
  snprintf 30 (printf_02x (uuid.getD 0 0) ++ [47]
    ++ b64_encode (arrow_bytes_to_long uuid) ++ [46]
    ++ b64_encode (arrow_bytes_to_long (uuid.drop 8)))

/-- `strchr (s, c)` on a string without its terminator: the characters before the
first `c` and those after it; `none` for a null result. -/
def strchr : List Nat → Nat → Option (List Nat × List Nat)
  | [], _ => none
  | x :: rest, c =>
    if x = c then some ([], rest)
    else (strchr rest c).map (fun r => (x :: r.1, r.2))

/-- `read_link_file` on a link whose target is `target`: the UUID, `none` for the
return value -1.  `readlink` fills at most the 30 bytes of `uuidbuf`. -/
def read_link_file (target : List Nat) : Option (List Nat) :=
  match strchr (target.take 30) 47 with
  | none => none
  | some (_, p1) =>
    match strchr p1 46 with
    | none => none
    | some (hi, lo) =>
      match b64_decode hi with
      | none => none
      | some upper =>
        match b64_decode lo with
        | none => none
        | some lower => some (uuid_from_longs upper lower)

/-- A UUID whose two halves both take 11 characters. -/
def long_uuid_1 : List Nat := [16, 0, 0, 0, 0, 0, 0, 0, 16, 0, 0, 0, 0, 0, 0, 1]

/-- A UUID that differs from `long_uuid_1` in its last byte. -/
def long_uuid_2 : List Nat := [16, 0, 0, 0, 0, 0, 0, 0, 16, 0, 0, 0, 0, 0, 0, 2]


/-! ## The callback trace of a synchronizer run -/

/-- One call of a state-changing callback. -/
inductive sync_event where
  | emit_chunk (chunk : file_chunk_t)
  | add_ref (id : arrow_id_t)
  | put_block (id : arrow_id_t) (buf : List Nat)
  deriving DecidableEq

/-- The callbacks `cb`, with every call of `emit_chunk`, `add_ref` and `put_block`
written down, in the order of the calls, next to the state of `cb`. -/
def sync_traced {σ : Type} (cb : sync_callbacks_t σ) :
    sync_callbacks_t (σ × List sync_event) :=
  { add_ref := fun s id =>
      (cb.add_ref s.1 id).map (fun r => (r.1, r.2, s.2 ++ [sync_event.add_ref id]))
    put_block := fun s id buf =>
      (cb.put_block s.1 id buf).map (fun r => (r.1, r.2, s.2 ++ [sync_event.put_block id buf]))
    store_contains := fun s id => cb.store_contains s.1 id
    emit_chunk := fun s chunk =>
      (cb.emit_chunk s.1 chunk).map (fun r => (r.1, r.2, s.2 ++ [sync_event.emit_chunk chunk])) }

/-- The entries a trace hands to `emit_chunk`, in order. -/
def emitted : List sync_event → List file_chunk_t
  | [] => []
  | sync_event.emit_chunk c :: rest => c :: emitted rest
  | sync_event.add_ref _ :: rest => emitted rest
  | sync_event.put_block _ _ :: rest => emitted rest

/-- No callback of `cb` aborts the process. -/
def sync_callbacks_total {σ : Type} (cb : sync_callbacks_t σ) : Prop :=
  (∀ st c, (cb.emit_chunk st c).isSome = true) ∧
  (∀ st id, (cb.add_ref st id).isSome = true) ∧
  (∀ st id buf, (cb.put_block st id buf).isSome = true)

/-- What the loops of `sync_file` need of a property `P l b st` of the number `l` of
input bytes dealt with, of whether the last piece was shorter than the chunk size,
and of the callback state, to carry it through: each of the three ways an entry is
emitted keeps it. -/
structure sync_file_invariant {σ : Type} (cb : sync_callbacks_t σ) (cs : Nat)
    (input : List Nat) (P : Nat → Bool → σ → Prop) : Prop where
  direct : ∀ l p st r, P l false st → p = (input.drop l).take p.length → p.length ≤ cs →
    p.length ≤ MAX_DIRECT_CHUNK_SIZE →
    cb.emit_chunk st (file_chunk_t.DIRECT_CHUNK p) = some r →
    P (l + p.length) (decide (p.length < cs)) r.2
  literal : ∀ l p st r r2, P l false st → p = (input.drop l).take p.length → p.length ≤ cs →
    MAX_DIRECT_CHUNK_SIZE < p.length →
    cb.emit_chunk st (file_chunk_t.REFERENCE p.length (arrow_compute_key p)) = some r →
    (if cb.store_contains r.2 (arrow_compute_key p) ≠ 0 then
        cb.add_ref r.2 (arrow_compute_key p)
      else cb.put_block r.2 (arrow_compute_key p) p) = some r2 →
    P (l + p.length) (decide (p.length < cs)) r2.2
  matched : ∀ l b id st r r2, P l b st → l + cs ≤ input.length →
    cb.emit_chunk st (file_chunk_t.REFERENCE cs id) = some r →
    cb.add_ref r.2 id = some r2 → P (l + cs) false r2.2

/-- The same for the loop of `sync_generate`, which stores a block the store does
not contain and makes no call for one it contains. -/
structure sync_generate_invariant {σ : Type} (cb : sync_callbacks_t σ) (cs : Nat)
    (input : List Nat) (P : Nat → Bool → σ → Prop) : Prop where
  direct : ∀ l p st r, P l false st → p = (input.drop l).take p.length → p.length ≤ cs →
    p.length ≤ MAX_DIRECT_CHUNK_SIZE →
    cb.emit_chunk st (file_chunk_t.DIRECT_CHUNK p) = some r →
    P (l + p.length) (decide (p.length < cs)) r.2
  present : ∀ l p st r, P l false st → p = (input.drop l).take p.length → p.length ≤ cs →
    MAX_DIRECT_CHUNK_SIZE < p.length →
    cb.emit_chunk st (file_chunk_t.REFERENCE p.length (arrow_compute_key p)) = some r →
    cb.store_contains r.2 (arrow_compute_key p) ≠ 0 →
    P (l + p.length) (decide (p.length < cs)) r.2
  stored : ∀ l p st r r2, P l false st → p = (input.drop l).take p.length → p.length ≤ cs →
    MAX_DIRECT_CHUNK_SIZE < p.length →
    cb.emit_chunk st (file_chunk_t.REFERENCE p.length (arrow_compute_key p)) = some r →
    cb.store_contains r.2 (arrow_compute_key p) = 0 →
    cb.put_block r.2 (arrow_compute_key p) p = some r2 →
    P (l + p.length) (decide (p.length < cs)) r2.2


/-- The calls of a synchronizer run, piece by piece: `sync_trace cs matching b covered tr`
says that `tr` is a sequence of calls that deals with the bytes `covered` in pieces of
at most `cs` bytes, `b` telling whether the last piece was shorter than `cs`.  A piece
of at most 23 bytes is emitted as a direct entry; a longer literal piece is emitted
as a reference with its own length and key, followed by `put_block` with its bytes,
by `add_ref` (`sync_file`) or by nothing (`sync_generate`, for a block the store
contains); a matched piece (`matching`, `sync_file` only) has `cs` bytes and is
emitted as a reference of length `cs`, followed by `add_ref` with the same id.  A
literal piece follows only pieces of full length. -/
inductive sync_trace (cs : Nat) (matching : Bool) : Bool → List Nat → List sync_event → Prop where
  | start : sync_trace cs matching false [] []
  | direct {covered : List Nat} {tr : List sync_event} (p : List Nat) :
      sync_trace cs matching false covered tr → p.length ≤ MAX_DIRECT_CHUNK_SIZE →
      p.length ≤ cs →
      sync_trace cs matching (decide (p.length < cs)) (covered ++ p)
        (tr ++ [sync_event.emit_chunk (file_chunk_t.DIRECT_CHUNK p)])
  | present {covered : List Nat} {tr : List sync_event} (p : List Nat) :
      matching = false → sync_trace cs matching false covered tr →
      MAX_DIRECT_CHUNK_SIZE < p.length → p.length ≤ cs →
      sync_trace cs matching (decide (p.length < cs)) (covered ++ p)
        (tr ++ [sync_event.emit_chunk (file_chunk_t.REFERENCE p.length (arrow_compute_key p))])
  | referenced {covered : List Nat} {tr : List sync_event} (p : List Nat) :
      matching = true → sync_trace cs matching false covered tr →
      MAX_DIRECT_CHUNK_SIZE < p.length → p.length ≤ cs →
      sync_trace cs matching (decide (p.length < cs)) (covered ++ p)
        (tr ++ [sync_event.emit_chunk (file_chunk_t.REFERENCE p.length (arrow_compute_key p)),
                sync_event.add_ref (arrow_compute_key p)])
  | stored {covered : List Nat} {tr : List sync_event} (p : List Nat) :
      sync_trace cs matching false covered tr →
      MAX_DIRECT_CHUNK_SIZE < p.length → p.length ≤ cs →
      sync_trace cs matching (decide (p.length < cs)) (covered ++ p)
        (tr ++ [sync_event.emit_chunk (file_chunk_t.REFERENCE p.length (arrow_compute_key p)),
                sync_event.put_block (arrow_compute_key p) p])
  | matched {b : Bool} {covered : List Nat} {tr : List sync_event} (p : List Nat)
      (id : arrow_id_t) :
      matching = true → sync_trace cs matching b covered tr → p.length = cs →
      sync_trace cs matching false (covered ++ p)
        (tr ++ [sync_event.emit_chunk (file_chunk_t.REFERENCE cs id), sync_event.add_ref id])


/-- The sizes the synchronizer keeps to in a call: a direct entry has at most 23
bytes, a reference and a stored block at least 24. -/
def sync_event.sizes_ok : sync_event → Prop
  | sync_event.emit_chunk (file_chunk_t.DIRECT_CHUNK data) => data.length ≤ MAX_DIRECT_CHUNK_SIZE
  | sync_event.emit_chunk (file_chunk_t.REFERENCE length _) => MAX_DIRECT_CHUNK_SIZE + 1 ≤ length
  | sync_event.emit_chunk file_chunk_t.END_OF_CHUNKS => True
  | sync_event.add_ref _ => True
  | sync_event.put_block _ buf => MAX_DIRECT_CHUNK_SIZE + 1 ≤ buf.length


/-! ## Inputs for the traces of the synchronizer -/

/-- Callbacks of a dry run: every call returns 0, nothing is stored and
`store_contains` finds nothing. -/
def sync_dry_callbacks : sync_callbacks_t Unit :=
  { add_ref := fun _ _ => some (0, ())
    put_block := fun _ _ _ => some (0, ())
    store_contains := fun _ _ => 0
    emit_chunk := fun _ _ => some (0, ()) }

/-- A block of 30 bytes. -/
def matched_block : List Nat := List.range 30

/-- A basis of chunk size 30 whose one chunk is `matched_block`. -/
def matched_basis : file_t :=
  { uuid := [1, 2, 3, 4, 5, 6, 7, 8, 9, 10, 11, 12, 13, 14, 15, 16]
    hash := MD5 matched_block
    chunk_size := 30
    chunks := [file_chunk_t.REFERENCE 30 (arrow_compute_key matched_block),
      file_chunk_t.END_OF_CHUNKS] }

/-- The block of `matched_basis` with 25 bytes in front of it and 2 bytes after it. -/
def matched_input : List Nat := List.replicate 25 1 ++ matched_block ++ [7, 7]


/-! ## A bucket without room for a block -/

/-- A default-sized bucket (5120 slots, `alloc_size` 5120000) holding one chunk of
4956000 zero bytes: of the 4956148 bytes that the code counts as free in a new
bucket, 148 are left. -/
def brimful_bucket : block_t :=
  { alloc_size := 5120000
    keys := ⟨filling_id 0, 0, 4956000, 1⟩ :: List.replicate 5119 null_key
    data := fun _ => 0 }

/-- The store with `brimful_bucket` as its only bucket, at level 0. -/
def brimful_store : store_state_t :=
  write_block ⟨⟨0, 0⟩, fun _ => none⟩ (b64_encode 0) brimful_bucket

/-- A store directory at level 0 in which the file of bucket 0 does not exist: the
file was removed, or `create_new_block` could not create it when `store_init` ran
(`store_init` does not look at what `create_new_block` returns, store.c 634). -/
def bucketless_store : store_state_t := ⟨⟨0, 0⟩, fun _ => none⟩


/-! ## Repair (`store.c` 1226-1378) -/

/-- `store_error_t`: the number of errors and the indexes of the keys that failed. -/
structure store_error_t where
  count : Nat
  keys : List Int

/-- `try_fix_key`: the body is `return -1`; the bucket is not touched. -/
def try_fix_key (store : block_t) (_idx : Int) : Int × block_t := (-1, store)

/-- `try_fix_value`: the body is `return -1`; the bucket is not touched. -/
def try_fix_value (store : block_t) (_index : Int) : Int × block_t := (-1, store)

/-- The loop of `store_repair` from index `i`, with `fuel` the number of indexes
left; `keys[i]` beyond the list reads as 0. -/
def store_repair.loop (errors : store_error_t) :
    Nat → Nat → Int → block_t → Int × block_t
  | 0, _, numfixed, store => (numfixed, store)
  | fuel + 1, i, numfixed, store =>
    let r := try_fix_key store (errors.keys.getD i 0)
    if r.1 ≠ 0 then store_repair.loop errors fuel (i + 1) (numfixed + 1) r.2
    else
      let r2 := try_fix_value r.2 (errors.keys.getD i 0)
      if r2.1 ≠ 0 then store_repair.loop errors fuel (i + 1) (numfixed + 1) r2.2
      else store_repair.loop errors fuel (i + 1) numfixed r2.2

/-- `store_repair`: the returned `numfixed` and the bucket afterwards. -/
def store_repair (store : block_t) (errors : store_error_t) : Int × block_t :=
  store_repair.loop errors errors.count 0 0 store

/-! ## File type tests (`helpers.c` 66-93) -/

/-- The file type bits of `st_mode` (`<sys/stat.h>`; the values of Linux, the BSDs
and macOS). -/
def S_IFMT : Nat := 0o170000

def S_IFSOCK : Nat := 0o140000

def S_IFLNK : Nat := 0o120000

def S_IFREG : Nat := 0o100000

def S_IFBLK : Nat := 0o060000

def S_IFDIR : Nat := 0o040000

def S_IFCHR : Nat := 0o020000

def S_IFIFO : Nat := 0o010000

/-- `file_isfile` on the result of `lstat`: `none` when `lstat` fails, else the
mode word. -/
def file_isfile (st_mode : Option Nat) : Int :=
  match st_mode with
  | none => 0
  | some m => if m &&& S_IFREG ≠ 0 then 1 else 0

def file_isdir (st_mode : Option Nat) : Int :=
  match st_mode with
  | none => 0
  | some m => if m &&& S_IFDIR ≠ 0 then 1 else 0

def file_islink (st_mode : Option Nat) : Int :=
  match st_mode with
  | none => 0
  | some m => if m &&& S_IFLNK ≠ 0 then 1 else 0

/-- What `file_recursive_backup` does with a path. -/
inductive backup_action where
  | backup_file
  | list_directory
  | nothing
  deriving DecidableEq

/-- The dispatch of `file_recursive_backup` (backup.c 457-490) on the mode word
`lstat` gives for the path. -/
def file_recursive_backup.action (st_mode : Option Nat) : backup_action :=
  if file_isfile st_mode ≠ 0 then backup_action.backup_file
  else if file_isdir st_mode ≠ 0 then backup_action.list_directory
  else backup_action.nothing

/-! ## Values (`value.h`, `value.c`) -/

inductive value_result where
  | VALUE_OK
  | TYPE_MISMATCH
  | STRUCT_VALUE_ADDED
  | STRUCT_VALUE_REPLACED
  | STRUCT_KEY_ERROR
  | INDEX_OUT_OF_RANGE
  | INVALID_ARGUMENT
  | MALLOC_ERROR
  | INTERNAL_BUG
  deriving DecidableEq

/-- The type `value`: a string (its bytes), an unsigned 32-bit integer, a real (the
bits of the `double`), a list (the values of its nodes from `list_head` on) or a
struct (the names and values of its nodes from `struct_head` on). -/
inductive value where
  | STRING (string : List Nat)
  | INTEGER (integer : Nat)
  | REAL (real : Nat)
  | LIST (list_head : List value)
  | STRUCT (struct_head : List (List Nat × value))

mutual
/-- `value_clone` when every allocation succeeds: the copy, or `none` for a value
with a struct that has members (`value_struct_put` on the empty copy reads the
pointer `p` before it is set, value.c 478-498). -/
def value_clone : value → Option value
  | value.STRING s => some (value.STRING s)
  | value.INTEGER i => some (value.INTEGER i)
  | value.REAL d => some (value.REAL d)
  | value.LIST nodes => (value_clone.nodes nodes).map value.LIST
  | value.STRUCT [] => some (value.STRUCT [])
  | value.STRUCT (_ :: _) => none
termination_by structural v => v
/-- The loop of `value_clone` over the nodes of a list: `value_list_append` puts a
copy of each value at the end of the new list. -/
def value_clone.nodes : List value → Option (List value)
  | [] => some []
  | v :: rest =>
    match value_clone v, value_clone.nodes rest with
    | some c, some cs => some (c :: cs)
    | _, _ => none
termination_by structural l => l
end

/-- The loop `while (n->next && i < index) n = n->next;` of `value_list_insert`: `n`
is the node at position `p`, `next` the nodes after it; the result is the position
of `n` after the loop.  The loop does not change `i`. -/
def value_list_insert.walk (i index : Int) : List value → Nat → Nat
  | [], p => p
  | _ :: next, p => if i < index then value_list_insert.walk i index next (p + 1) else p

/-- `value_list_insert` when every allocation succeeds: the result code and the list
afterwards; `none` when `value_clone` has no defined result. -/
def value_list_insert (list : value) (index : Int) (item : value) :
    Option (value_result × value) :=
  match list with
  | value.LIST nodes =>
    if index < 0 then some (value_result.INVALID_ARGUMENT, list)
    else
      match value_clone item with
      | none => none
      | some node =>
        match nodes with
        | [] =>
          if index ≠ 0 then some (value_result.INDEX_OUT_OF_RANGE, list)
          else some (value_result.VALUE_OK, value.LIST [node])
        | head :: next =>
          let i : Int := 0
          let n := value_list_insert.walk i index next 0
          if i ≠ index then some (value_result.INDEX_OUT_OF_RANGE, list)
          else if i = 0 then some (value_result.VALUE_OK, value.LIST (node :: head :: next))
          else some (value_result.VALUE_OK,
            value.LIST ((head :: next).take (n + 1) ++ node :: (head :: next).drop (n + 1)))
  | _ => some (value_result.TYPE_MISMATCH, list)

/-- A chunk of 1200000 bytes. -/
def long_chunk : List Nat := List.replicate 1200000 2


/-- Bucket 0 after the puts of `large_chunk` and `long_chunk`: the second chunk is in
the last slot. -/
def overflow_bucket_long : block_t :=
  { alloc_size := new_block.alloc_size
    keys := [(⟨filling_id 0, 0, 4000000, 1⟩ : block_key_t)] ++ List.replicate 5118 null_key
      ++ [⟨filling_id 1, 4000000, 1200000, 1⟩]
    data := memcpy_list overflow_bucket_1.data 4000000 long_chunk }


/-- Callbacks that fail: every call of `emit_chunk`, `put_block` and `add_ref` returns
-1; the state counts the calls.  `store_contains` finds nothing. -/
def sync_failing_callbacks : sync_callbacks_t Nat :=
  { add_ref := fun n _ => some (-1, n + 1)
    put_block := fun n _ _ => some (-1, n + 1)
    store_contains := fun _ _ => 0
    emit_chunk := fun n _ => some (-1, n + 1) }

/-- The test `local_file_backup_file` makes on the result of `sync_generate` and of
`sync_file` (backup.c 201-209, 271-280): the new version record is deleted when the
result is not 0. -/
def local_file_backup_file.deletes_record (ret : Int) : Bool := decide (ret ≠ 0)

/-- A basis of chunk size 30 without entries. -/
def empty_basis : file_t :=
  { uuid := [1, 2, 3, 4, 5, 6, 7, 8, 9, 10, 11, 12, 13, 14, 15, 16]
    hash := MD5 []
    chunk_size := 30
    chunks := [file_chunk_t.END_OF_CHUNKS] }


/-! ## Bucket files and `store_open` (`store.c` 132-144, 661-753) -/

/-- The magic `block_header` of a bucket file: "ARWB". -/
def block_header : List Nat := [65, 82, 87, 66]

def ARROW_FILE_VERSION : Nat := 1

/-- A bucket file: the fields `header` and `version` of `block_header_t`, and the
rest of the file (`chunk_count`, `alloc_size`, the keys and the data), which is what
the store functions read. -/
structure block_file_t where
  header : List Nat
  version : Nat
  block : block_t

/-- The file `create_new_block` writes (store.c 310-313). -/
def new_block_file : block_file_t :=
  { header := block_header, version := ARROW_FILE_VERSION, block := new_block }

/-- `store_open` on a directory of bucket files: the result and the mapping of the
file named `id`.  The file is opened and mapped (or found in the cache); the call
fails only when the file cannot be opened or mapped, and reads no byte of it. -/
def store_open_file (files : List Nat → Option block_file_t) (id : List Nat) :
    Int × Option block_file_t :=
  match files id with
  | some f => (0, some f)
  | none => (-1, none)

/-- The store state over a directory of bucket files: each bucket as `store_open`
maps it. -/
def store_files (sb : store_sb_t) (files : List Nat → Option block_file_t) : store_state_t :=
  { sb := sb
    blocks := fun name => (store_open_file files name).2.map (fun f => f.block) }

/-- An empty bucket file whose first four bytes are "XXXX" and whose version byte
is 9. -/
def corrupt_file : block_file_t :=
  { header := [88, 88, 88, 88], version := 9, block := new_block }

/-- A store directory whose only bucket file, bucket 0, is `corrupt_file`. -/
def corrupt_dir : List Nat → Option block_file_t :=
  fun name => if name = b64_encode 0 then some corrupt_file else none


/-! ## Chunk entries on the wire (`rpc.c`, `client.c`) -/

/-- `write_short`: the two bytes of `htons (value)`. -/
def write_short (value : Nat) : List Nat := [value / 2 ^ 8 % 256, value % 256]

/-- `write_int`: the four bytes of `htonl (value)`. -/
def write_int (value : Nat) : List Nat :=
  [value / 2 ^ 24 % 256, value / 2 ^ 16 % 256, value / 2 ^ 8 % 256, value % 256]

/-- `read_value` of `count` bytes: the bytes and the rest of the input, `none` when
the input ends before (`fread` returns fewer items). -/
def read_value (count : Nat) (input : List Nat) : Option (List Nat × List Nat) :=
  if input.length < count then none else some (input.take count, input.drop count)

/-- `read_short`: two bytes, through `ntohs`. -/
def read_short (input : List Nat) : Option (Nat × List Nat) :=
  match read_value 2 input with
  | none => none
  | some r => some (r.1.getD 0 0 * 2 ^ 8 + r.1.getD 1 0, r.2)

/-- `read_int`: four bytes, through `ntohl`. -/
def read_int (input : List Nat) : Option (Nat × List Nat) :=
  match read_value 4 input with
  | none => none
  | some r =>
    some (r.1.getD 0 0 * 2 ^ 24 + r.1.getD 1 0 * 2 ^ 16 + r.1.getD 2 0 * 2 ^ 8 + r.1.getD 3 0,
      r.2)

def FILE_EMIT_CHUNK : Nat := 10

/-- The value of `file_chunk_type_t` for an entry (fileinfo.h 42-47). -/
def chunk_type : file_chunk_t → Nat
  | file_chunk_t.END_OF_CHUNKS => 0
  | file_chunk_t.REFERENCE _ _ => 1
  | file_chunk_t.DIRECT_CHUNK _ => 2

/-- The bytes `rpc_client_emit_chunk` writes before it reads the response. -/
def rpc_client_emit_chunk.bytes : file_chunk_t → List Nat
  | file_chunk_t.END_OF_CHUNKS => write_short FILE_EMIT_CHUNK ++ write_short 0
  | file_chunk_t.REFERENCE length ref =>
    write_short FILE_EMIT_CHUNK ++ write_short 1 ++ write_int length ++ write_int ref.weak
      ++ ref.strong.take 16
  | file_chunk_t.DIRECT_CHUNK data =>
    write_short FILE_EMIT_CHUNK ++ write_short 2 ++ [data.length % 256]
      ++ data.take (data.length % 256)

/-- A `file_chunk_t` object in memory: the field `type` and the union `chunk`, given
by the member last written and its values (all zero for `END_OF_CHUNKS`). -/
structure stored_chunk_t where
  type : Nat
  chunk : file_chunk_t

/-- One round of the loop of `rpc_client_fetch_file` that reads the entries:
`stack` is what the local `chunk` holds when the round begins (it is not
initialised).  The result is the `type` read from the wire, the object `fwrite`
puts into the record, and the rest of the input; `none` when a read falls short.
Only the case `END_OF_CHUNKS` writes the field `type` (with `memset`). -/
def rpc_client_fetch_file.entry (stack : stored_chunk_t) (input : List Nat) :
    Option (Nat × stored_chunk_t × List Nat) :=
  match read_short input with
  | none => none
  | some (code, r1) =>
    match code with
    | 0 => some (code, ⟨0, file_chunk_t.END_OF_CHUNKS⟩, r1)
    | 1 =>
      match read_int r1 with
      | none => none
      | some (length, r2) =>
        match read_int r2 with
        | none => none
        | some (weak, r3) =>
          match read_value 16 r3 with
          | none => none
          | some (strong, r4) =>
            some (code, ⟨stack.type, file_chunk_t.REFERENCE length ⟨weak, strong⟩⟩, r4)
    | 2 =>
      match read_value 1 r1 with
      | none => none
      | some (length, r2) =>
        match read_value (length.getD 0 0) r2 with
        | none => none
        | some (data, r3) => some (code, ⟨stack.type, file_chunk_t.DIRECT_CHUNK data⟩, r3)
    | _ => some (code, stack, r1)

/-- The big-endian bytes of `value` in `width` bytes, for the layout the
specification gives. -/
def big_endian : Nat → Nat → List Nat
  | 0, _ => []
  | width + 1, value => big_endian width (value / 256) ++ [value % 256]

/-- A chunk entry on the wire as the specification lays it out (not taken from the
code): the big-endian u16 tag followed by the body of the tag, which is nothing for
EndOfChunks, `u32 length, u32 weak, u8 strong[16]` for a Reference and
`u8 len, u8 bytes[len]` for a Direct entry. -/
def chunk_wire_spec : file_chunk_t → List Nat
  | file_chunk_t.END_OF_CHUNKS => big_endian 2 0
  | file_chunk_t.REFERENCE length ref =>
    big_endian 2 1 ++ big_endian 4 length ++ big_endian 4 ref.weak ++ ref.strong
  | file_chunk_t.DIRECT_CHUNK data => big_endian 2 2 ++ [data.length] ++ data

/-- The entries the claim is about: a reference whose fields fit their types, a
direct entry of at most 23 bytes, or the end marker. -/
def chunk_fits : file_chunk_t → Prop
  | file_chunk_t.END_OF_CHUNKS => True
  | file_chunk_t.REFERENCE length ref =>
    length < 2 ^ 32 ∧ ref.weak < 2 ^ 32 ∧ ref.strong.length = 16
  | file_chunk_t.DIRECT_CHUNK data => data.length ≤ MAX_DIRECT_CHUNK_SIZE

instance chunk_fits_decidable (c : file_chunk_t) : Decidable (chunk_fits c) :=
  match c with
  | file_chunk_t.END_OF_CHUNKS => isTrue trivial
  | file_chunk_t.REFERENCE length ref =>
    inferInstanceAs (Decidable (length < 2 ^ 32 ∧ ref.weak < 2 ^ 32 ∧ ref.strong.length = 16))
  | file_chunk_t.DIRECT_CHUNK data =>
    inferInstanceAs (Decidable (data.length ≤ MAX_DIRECT_CHUNK_SIZE))


/-! ## The probe table filled from a list of ids -/

/-- `hash_insert` applied to the ids of a list in turn; `none` when an insertion
reaches `fail`. -/
def hash_insert_list : List arrow_id_t → (Nat → arrow_id_t) → Option (Nat → arrow_id_t)
  | [], table => some table
  | id :: rest, table => (hash_insert table id).bind (fun t => hash_insert_list rest t)

/-- The slot the probe loops look at `k` steps after slot `h`. -/
def probe_slot (h k : Nat) : Nat := (h + k) % HASH_TABLE_SIZE

/-- The number of slots of the table that are not empty. -/
def hash_table_used (table : Nat → arrow_id_t) : Nat :=
  ((Finset.range HASH_TABLE_SIZE).filter (fun i => table i ≠ null_id)).card

/-- The shape of a table into which the ids of `ids` were inserted: every slot that
is not empty holds one of them, each of them is found on the way from its first slot
before an empty slot is met, and no more slots are used than ids were inserted. -/
structure hash_table_ok (table : Nat → arrow_id_t) (ids : List arrow_id_t) : Prop where
  slots : ∀ i < HASH_TABLE_SIZE, table i ≠ null_id → table i ∈ ids
  found : ∀ x ∈ ids, ∃ d < HASH_TABLE_SIZE,
    table (probe_slot (x.weak % HASH_TABLE_SIZE) d) = x ∧
    ∀ j < d, table (probe_slot (x.weak % HASH_TABLE_SIZE) j) ≠ null_id
  used : hash_table_used table ≤ ids.length


/-- Whether a `store_put` of a generate run over `blocks` aborts, the run starting on
the store `s`: the run puts each block longer than a direct chunk whose id the store
does not hold, in the store the puts before it left. -/
def sync_generate.put_aborts : store_state_t → List (List Nat) → Bool
  | _, [] => false
  | s, blk :: rest =>
    if blk.length ≤ MAX_DIRECT_CHUNK_SIZE then sync_generate.put_aborts s rest
    else if store_contains s (arrow_compute_key blk) = 0 then
      (match store_put s (arrow_compute_key blk) blk with
       | some r => sync_generate.put_aborts r.2 rest
       | none => true)
    else sync_generate.put_aborts s rest


/-- The directory `files` after the first four bytes and the version byte of the
bucket file `name` were overwritten with `hdr` and `ver`. -/
def overwrite_header (files : List Nat → Option block_file_t) (name : List Nat)
    (hdr : List Nat) (ver : Nat) : List Nat → Option block_file_t :=
  fun n =>
    if n = name then (files n).map (fun f => { f with header := hdr, version := ver })
    else files n


end Arrow

/-! # Theorems -/

namespace Arrow

/-! ## Reading a bucket -/

theorem store_get_len_from_scan_eq (id : arrow_id_t) (ks : List block_key_t) :
    store_get_len_from.scan id ks
      = match ks.find? (fun k => decide (k.id = id)) with
        | some k => k.length
        | none => SIZE_NOT_FOUND := by
  induction ks with
  | nil => rfl
  | cons k rest ih =>
    by_cases h : k.id = id
    · simp [store_get_len_from.scan, h]
    · simp [store_get_len_from.scan, h, ih]

theorem store_get_from_scan_eq (b : block_t) (id : arrow_id_t) (out : Nat → Nat) (maxlen : Nat)
    (ks : List block_key_t) :
    store_get_from.scan b id out maxlen ks
      = match ks.find? (fun k => decide (k.id = id)) with
        | some k => (k.length, memcpy out 0 b.data k.offset (min k.length maxlen))
        | none => (SIZE_NOT_FOUND, out) := by
  induction ks with
  | nil => rfl
  | cons k rest ih =>
    by_cases h : k.id = id
    · by_cases hl : k.length < maxlen
      · simp [store_get_from.scan, h, hl, Nat.min_eq_left (Nat.le_of_lt hl)]
      · simp [store_get_from.scan, h, hl, Nat.min_eq_right (Nat.le_of_not_lt hl)]
    · simp [store_get_from.scan, h, ih]

/-- C8. `store_get_from` and `store_get_len_from` on any bucket: when a slot holds
`id` (the first such slot `k` is the one used) the call returns `k.length`, which
`store_get_len_from` returns too, the first `min k.length maxlen` bytes of `out`
are the chunk's bytes `data[k.offset ..]` and every other byte of `out` is as
before; when no slot holds `id` both return `(size_t) -1` and `out` is untouched. -/
theorem store_get_from_spec (b : block_t) (id : arrow_id_t) (out : Nat → Nat) (maxlen : Nat) :
    (∀ k, b.keys.find? (fun k => decide (k.id = id)) = some k →
        (store_get_from b id out maxlen).1 = k.length ∧
        store_get_len_from b id = k.length ∧
        bytes_at (store_get_from b id out maxlen).2 0 (min k.length maxlen)
          = bytes_at b.data k.offset (min k.length maxlen) ∧
        ∀ p, min k.length maxlen ≤ p → (store_get_from b id out maxlen).2 p = out p) ∧
    (b.keys.find? (fun k => decide (k.id = id)) = none →
        (store_get_from b id out maxlen).1 = SIZE_NOT_FOUND ∧
        store_get_len_from b id = SIZE_NOT_FOUND ∧
        (store_get_from b id out maxlen).2 = out) := by
  unfold store_get_from store_get_len_from
  rw [store_get_from_scan_eq, store_get_len_from_scan_eq]
  constructor
  · intro k hk
    simp only [hk, true_and]
    constructor
    · apply List.map_congr_left
      intro t ht
      have : t < min k.length maxlen := List.mem_range.mp ht
      simp [memcpy, this]
    · intro p hp
      have : ¬ p < min k.length maxlen := Nat.not_lt.mpr hp
      simp [memcpy, this]
  · intro hk
    simp [hk]


/-! ## Adding a reference -/

theorem store_addref_to_scan_found (b : block_t) (id : arrow_id_t) (k : block_key_t)
    (post : List block_key_t) (hk : k.id = id) :
    ∀ (pre : List block_key_t) (i : Nat), (∀ x ∈ pre, x.id ≠ id) →
      store_addref_to.scan b id (pre ++ k :: post) i
        = (0, { b with
                  keys := b.keys.set (i + pre.length)
                    { k with references := (k.references + 1) % 2 ^ 16 } }) := by
  intro pre
  induction pre with
  | nil => intro i _; simp [store_addref_to.scan, hk]
  | cons x pre ih =>
    intro i hpre
    have hx : x.id ≠ id := hpre x (List.mem_cons_self _ _)
    have := ih (i + 1) (fun y hy => hpre y (List.mem_cons_of_mem _ hy))
    rw [show i + 1 + pre.length = i + (x :: pre).length by simp; omega] at this
    rw [List.cons_append, store_addref_to.scan, if_neg hx, this]

theorem store_addref_to_scan_absent (b : block_t) (id : arrow_id_t) :
    ∀ (ks : List block_key_t) (i : Nat), (∀ x ∈ ks, x.id ≠ id) →
      store_addref_to.scan b id ks i = (-1, b) := by
  intro ks
  induction ks with
  | nil => intro i _; rfl
  | cons x ks ih =>
    intro i h
    have hx : x.id ≠ id := h x (List.mem_cons_self _ _)
    simp [store_addref_to.scan, hx, ih (i + 1) (fun y hy => h y (List.mem_cons_of_mem _ hy))]

theorem list_set_append_cons {α : Type} (pre post : List α) (k k2 : α) :
    (pre ++ k :: post).set (0 + pre.length) k2 = pre ++ k2 :: post := by
  simp

theorem store_addref_to_scan_found_keys (b : block_t) (id : arrow_id_t) (k : block_key_t)
    (post : List block_key_t) (hk : k.id = id) (pre : List block_key_t)
    (hpre : ∀ x ∈ pre, x.id ≠ id) (hkeys : b.keys = pre ++ k :: post) :
    store_addref_to.scan b id b.keys 0
      = (0, { b with keys := pre ++ { k with references := (k.references + 1) % 2 ^ 16 }
                                :: post }) := by
  have h := store_addref_to_scan_found b id k post hk pre 0 hpre
  rw [← hkeys] at h
  rw [h, hkeys, list_set_append_cons]

/-- C9 (as amended). `store_addref_to` on any bucket: when `k` is the first slot
holding `id`, the call returns 0 and the bucket is the same except that this slot's
`references` is `(references + 1) mod 2^16`; when no slot holds `id` it returns -1
and the bucket is unchanged. -/
theorem store_addref_to_spec (b : block_t) (id : arrow_id_t) :
    (∀ pre k post, b.keys = pre ++ k :: post → (∀ x ∈ pre, x.id ≠ id) → k.id = id →
        store_addref_to b id
          = (0, { b with keys := pre ++ { k with references := (k.references + 1) % 2 ^ 16 }
                                    :: post })) ∧
    ((∀ x ∈ b.keys, x.id ≠ id) → store_addref_to b id = (-1, b)) := by
  constructor
  · intro pre k post hkeys hpre hk
    unfold store_addref_to
    rw [store_addref_to_scan_found_keys b id k post hk pre hpre hkeys]
  · intro h
    exact store_addref_to_scan_absent b id b.keys 0 h

/-- C9, counterexample. A slot holding a non-zero id with `references = 65535`:
`store_addref_to` returns 0 and leaves `references = 0`, not 65536. -/
theorem store_addref_to_wraps :
    (store_addref_to ⟨1000, [⟨⟨7, [1, 2, 3, 4, 5, 6, 7, 8, 9, 10, 11, 12, 13, 14, 15, 16]⟩,
        0, 24, 65535⟩, null_key], fun _ => 0⟩
      ⟨7, [1, 2, 3, 4, 5, 6, 7, 8, 9, 10, 11, 12, 13, 14, 15, 16]⟩).1 = 0 ∧
    (store_addref_to ⟨1000, [⟨⟨7, [1, 2, 3, 4, 5, 6, 7, 8, 9, 10, 11, 12, 13, 14, 15, 16]⟩,
        0, 24, 65535⟩, null_key], fun _ => 0⟩
      ⟨7, [1, 2, 3, 4, 5, 6, 7, 8, 9, 10, 11, 12, 13, 14, 15, 16]⟩).2.keys
      = [⟨⟨7, [1, 2, 3, 4, 5, 6, 7, 8, 9, 10, 11, 12, 13, 14, 15, 16]⟩, 0, 24, 0⟩, null_key] := by
  decide


/-! ## Bucket selection -/

theorem low_mask_eq (k : Nat) (hk : k < 64) : low_mask k = 2 ^ k - 1 := by
  unfold low_mask size_sub
  rw [Nat.one_shiftLeft]
  have h1 : 2 ^ k < 2 ^ 64 := Nat.pow_lt_pow_right (by decide) hk
  have h2 : 0 < 2 ^ k := Nat.two_pow_pos k
  rw [Nat.mod_eq_of_lt h1, Nat.mod_eq_of_lt h1]
  norm_num
  omega

theorem and_low_mask (x k : Nat) (hx : x < 2 ^ 64) : x &&& low_mask k = x % 2 ^ k := by
  by_cases hk : k < 64
  · rw [low_mask_eq k hk, Nat.and_pow_two_sub_one_eq_mod]
  · have h64 : (64 : Nat) ≤ k := Nat.le_of_not_lt hk
    have hdvd : 2 ^ 64 ∣ 2 ^ k := Nat.pow_dvd_pow 2 h64
    have hle : 2 ^ 64 ≤ 2 ^ k := Nat.pow_le_pow_right (by decide) h64
    have hm : low_mask k = 2 ^ 64 - 1 := by
      unfold low_mask size_sub
      rw [Nat.one_shiftLeft, Nat.mod_eq_zero_of_dvd hdvd]
      norm_num
    rw [hm, Nat.and_pow_two_sub_one_eq_mod, Nat.mod_eq_of_lt hx,
      Nat.mod_eq_of_lt (Nat.lt_of_lt_of_le hx hle)]

theorem and_ff (b : Nat) (h : b < 256) : b &&& 255 = b := by
  have := Nat.and_pow_two_sub_one_eq_mod b 8
  norm_num at this
  rw [this]; exact Nat.mod_eq_of_lt h

theorem shl_or (a b k : Nat) (hb : b < 2 ^ k) : (a <<< k) ||| b = a * 2 ^ k + b := by
  rw [Nat.shiftLeft_eq, Nat.mul_comm, Nat.mul_add_lt_is_or hb]

theorem be_bytes_or (b0 b1 b2 b3 b4 b5 b6 b7 : Nat)
    (h0 : b0 < 256) (h1 : b1 < 256) (h2 : b2 < 256) (h3 : b3 < 256)
    (h4 : b4 < 256) (h5 : b5 < 256) (h6 : b6 < 256) (h7 : b7 < 256) :
    ((b0 &&& 0xFF) <<< 56) ||| ((b1 &&& 0xFF) <<< 48) ||| ((b2 &&& 0xFF) <<< 40)
      ||| ((b3 &&& 0xFF) <<< 32) ||| ((b4 &&& 0xFF) <<< 24) ||| ((b5 &&& 0xFF) <<< 16)
      ||| ((b6 &&& 0xFF) <<< 8) ||| (b7 &&& 0xFF)
      = spec_be_u64 [b0, b1, b2, b3, b4, b5, b6, b7] := by
  simp only [show (0xFF : Nat) = 255 from rfl, and_ff _ h0, and_ff _ h1, and_ff _ h2,
    and_ff _ h3, and_ff _ h4, and_ff _ h5, and_ff _ h6, and_ff _ h7, Nat.lor_assoc]
  rw [shl_or b6 b7 8 (by omega), shl_or b5 _ 16 (by omega), shl_or b4 _ 24 (by omega),
    shl_or b3 _ 32 (by omega), shl_or b2 _ 40 (by omega), shl_or b1 _ 48 (by omega),
    shl_or b0 _ 56 (by omega)]
  simp only [spec_be_u64, List.foldl]
  omega

theorem spec_be_u64_lt (b0 b1 b2 b3 b4 b5 b6 b7 : Nat)
    (h0 : b0 < 256) (h1 : b1 < 256) (h2 : b2 < 256) (h3 : b3 < 256)
    (h4 : b4 < 256) (h5 : b5 < 256) (h6 : b6 < 256) (h7 : b7 < 256) :
    spec_be_u64 [b0, b1, b2, b3, b4, b5, b6, b7] < 2 ^ 64 := by
  simp only [spec_be_u64, List.foldl]
  omega

theorem do_map_key_eq (sb : store_sb_t) (id : arrow_id_t) (n : Nat)
    (hlen : id.strong.length = 16) (hbytes : ∀ b ∈ id.strong, b < 256) :
    do_map_key sb id n = spec_bucket_key sb.i n (spec_be_u64 ((id.strong.drop 8).take 8)) := by
  obtain ⟨w, s⟩ := id
  match s, hlen, hbytes with
  | [s0, s1, s2, s3, s4, s5, s6, s7, s8, s9, s10, s11, s12, s13, s14, s15], _, hb =>
    simp only [List.mem_cons, List.mem_singleton, forall_eq_or_imp, forall_eq,
      List.not_mem_nil, false_imp_iff, implies_true, and_true] at hb
    obtain ⟨-, -, -, -, -, -, -, -, h8, h9, h10, h11, h12, h13, h14, h15⟩ := hb
    simp only [do_map_key, List.getD_cons_succ, List.getD_cons_zero, List.drop_succ_cons,
      List.drop_zero, List.take_succ_cons, List.take_zero, List.take_nil]
    have hx := spec_be_u64_lt _ _ _ _ _ _ _ _ h8 h9 h10 h11 h12 h13 h14 h15
    rw [be_bytes_or _ _ _ _ _ _ _ _ h8 h9 h10 h11 h12 h13 h14 h15,
      and_low_mask _ _ hx, and_low_mask _ _ hx]
    rfl

/-- C10. For every chunk id (16 strong bytes) and superblock `(i, n)`,
`store_map_key` names the bucket `b64_encode key`, where `x` is `strong[8..16]` read
big-endian, `key = x mod 2^i`, replaced by `x mod 2^(i+1)` exactly when `key < n`. -/
theorem store_map_key_spec (sb : store_sb_t) (id : arrow_id_t)
    (hlen : id.strong.length = 16) (hbytes : ∀ b ∈ id.strong, b < 256) :
    store_map_key sb id
      = b64_encode (if spec_be_u64 ((id.strong.drop 8).take 8) % 2 ^ sb.i < sb.n
          then spec_be_u64 ((id.strong.drop 8).take 8) % 2 ^ (sb.i + 1)
          else spec_be_u64 ((id.strong.drop 8).take 8) % 2 ^ sb.i) := by
  unfold store_map_key
  rw [do_map_key_eq sb id sb.n hlen hbytes]
  rfl

theorem store_map_key_spec_witness :
    store_map_key ⟨1, 1⟩ ⟨5, [0, 0, 0, 0, 0, 0, 0, 0, 0, 0, 0, 0, 0, 0, 1, 2]⟩
      = b64_encode (if spec_be_u64 [0, 0, 0, 0, 0, 0, 1, 2] % 2 ^ 1 < 1
          then spec_be_u64 [0, 0, 0, 0, 0, 0, 1, 2] % 2 ^ (1 + 1)
          else spec_be_u64 [0, 0, 0, 0, 0, 0, 1, 2] % 2 ^ 1) :=
  store_map_key_spec ⟨1, 1⟩ ⟨5, [0, 0, 0, 0, 0, 0, 0, 0, 0, 0, 0, 0, 0, 0, 1, 2]⟩
    (by decide) (by decide)


/-! ## The synchronizer at concrete inputs -/

/-- `MD5` on digests that RFC 1321 (the empty message, "abc" and the 80 digits of
its test suite, a message of two blocks) and the spec (scenario S1) quote. -/
theorem MD5_known_digests :
    MD5 [] = [0xd4, 0x1d, 0x8c, 0xd9, 0x8f, 0x00, 0xb2, 0x04, 0xe9, 0x80, 0x09, 0x98, 0xec, 0xf8,
      0x42, 0x7e] ∧
    MD5 [104, 101, 108, 108, 111, 10] = [0xb1, 0x94, 0x6a, 0xc9, 0x24, 0x92, 0xd2, 0x34, 0x7c,
      0x62, 0x35, 0xb4, 0xd2, 0x61, 0x11, 0x84] ∧
    MD5 [97, 98, 99] = [0x90, 0x01, 0x50, 0x98, 0x3c, 0xd2, 0x4f, 0xb0, 0xd6, 0x96, 0x3f, 0x7d,
      0x28, 0xe1, 0x7f, 0x72] ∧
    MD5 ((List.range 80).map (fun i => 48 + (i + 1) % 10))
      = [0x57, 0xed, 0xf4, 0xa2, 0x2b, 0xe3, 0xc9, 0x55, 0xac, 0x49, 0xda, 0x2e, 0x21, 0x07,
      0xb6, 0x7a] := by
  decide!

set_option maxRecDepth 1000000 in
/-- The record and store that `sync_generate` produces for `basis_input` on a fresh
store: one `REFERENCE` of 700 bytes, chunk size 700 and hash `MD5 basis_input`. -/
theorem basis_record_generated :
    (sync_generate basis_input sync_store_callbacks ⟨store_init, []⟩).map
        (fun r => (r.state.chunks_out, r.chunk_size, r.hash))
      = some (basis_record.chunks, some basis_record.chunk_size, some basis_record.hash) ∧
    arrow_compute_key basis_input = basis_id := by
  decide!

set_option maxRecDepth 1000000 in
/-- The run of `sync_file` on `inserted_input` with the record of `basis_input` as
basis and the store holding its block: the entries emitted and the bytes they give
when read back. -/
theorem inserted_run :
    (basis_store.bind (fun s =>
        sync_file basis_record inserted_input sync_store_callbacks none ⟨s, []⟩)).map
        (fun r => (r.state.chunks_out, reconstruct r.state.store r.state.chunks_out))
      = some ([file_chunk_t.REFERENCE 24 inserted_id, file_chunk_t.REFERENCE 700 inserted_id,
          file_chunk_t.END_OF_CHUNKS], List.replicate 48 255) ∧
    inserted_id ≠ basis_id ∧
    arrow_compute_key (inserted_input.drop 24) = basis_id ∧
    List.replicate 48 255 ≠ inserted_input := by
  decide!

/-- C2, the code at the failing input. With the record of `basis_input` as basis and
the store holding its block, `sync_file` on `inserted_input` (24 bytes inserted in
front) emits the 24 literal bytes as a `REFERENCE` and then, for the confirmed match
of the 700-byte window, a `REFERENCE` that carries the id of the literal chunk, not
the id `basis_id` of the matched window; read back, the record gives the 24 inserted
bytes twice, not `inserted_input`. -/
theorem sync_file_match_carries_literal_id :
    (basis_store.bind (fun s =>
        sync_file basis_record inserted_input sync_store_callbacks none ⟨s, []⟩)).map
        (fun r => (r.state.chunks_out, reconstruct r.state.store r.state.chunks_out))
      = some ([file_chunk_t.REFERENCE 24 inserted_id, file_chunk_t.REFERENCE 700 inserted_id,
          file_chunk_t.END_OF_CHUNKS], List.replicate 48 255) ∧
    inserted_id ≠ basis_id ∧
    arrow_compute_key (inserted_input.drop 24) = basis_id ∧
    List.replicate 48 255 ≠ inserted_input :=
  inserted_run

set_option maxRecDepth 1000000 in
/-- C4, the code at the failing input. With the record of `basis_input` as basis,
`sync_file` on `prefixed_input` (one byte inserted in front) emits the inserted byte
and a `REFERENCE` to the basis block, and leaves as hash the MD5 of the first 700
bytes only: the byte taken in by the rolling step is never given to `MD5_Update`. -/
theorem sync_file_hash_skips_rolled_bytes :
    (basis_store.bind (fun s =>
        sync_file basis_record prefixed_input sync_store_callbacks none ⟨s, []⟩)).map
        (fun r => (r.state.chunks_out, r.hash))
      = some ([file_chunk_t.DIRECT_CHUNK [88], file_chunk_t.REFERENCE 700 basis_id,
          file_chunk_t.END_OF_CHUNKS], some (MD5 (prefixed_input.take 700))) ∧
    MD5 (prefixed_input.take 700) ≠ MD5 prefixed_input := by
  decide!

set_option maxRecDepth 1000000 in
/-- C5, the code at the failing input. `sync_generate` on `repeated_input` against a
fresh store emits two `REFERENCE` entries to the same block, and the store records
one reference for it. -/
theorem sync_generate_repeated_block_not_counted :
    (sync_generate repeated_input sync_store_callbacks ⟨store_init, []⟩).map
        (fun r => (r.state.chunks_out, reference_count zero_block_id r.state.chunks_out,
          store_references r.state.store zero_block_id))
      = some ([file_chunk_t.REFERENCE 700 zero_block_id, file_chunk_t.REFERENCE 700 zero_block_id,
          file_chunk_t.END_OF_CHUNKS], 2, some 1) := by
  decide!


/-! ## Bucket names are unambiguous -/

theorem b64_index_list (d : Nat) (hd : d < 64) :
    b64_index.getD (b64_list.getD d 0) 100 = d ∧
    (b64_list.getD d 0 = 65 ↔ d = 0) := by
  revert d
  decide

theorem b64_decode_loop_append (xs ys : List Nat) :
    ∀ (v offset : Nat), b64_decode.loop (xs ++ ys) v offset
      = (b64_decode.loop xs v offset).bind
          (fun w => b64_decode.loop ys w (offset + 6 * xs.length)) := by
  induction xs with
  | nil => intro v offset; simp [b64_decode.loop]
  | cons c xs ih =>
    intro v offset
    rw [List.cons_append, b64_decode.loop, b64_decode.loop]
    by_cases h : b64_index.getD c 100 = 100
    · rw [if_pos h, if_pos h]; rfl
    · rw [if_neg h, if_neg h, ih, List.length_cons,
        show offset + 6 + 6 * xs.length = offset + 6 * (xs.length + 1) by omega]

theorem b64_decode_cons_A (s : List Nat) : b64_decode (65 :: s) = b64_decode s := by
  unfold b64_decode
  rw [List.reverse_cons, b64_decode_loop_append]
  cases h : b64_decode.loop s.reverse 0 0 with
  | none => rfl
  | some w =>
    have h0 : b64_index.getD 65 100 = 0 := by decide
    have h1 : ¬ b64_index.getD 65 100 = 100 := by decide
    rw [Option.bind, b64_decode.loop, if_neg h1, h0, b64_decode.loop]
    simp

theorem b64_decode_drop_lead :
    ∀ (n : Nat) (s : List Nat), (∀ k < n, s.getD k 0 = 65) → n ≤ s.length →
      b64_decode (s.drop n) = b64_decode s := by
  intro n
  induction n with
  | zero => intro s _ _; rfl
  | succ n ih =>
    intro s hs hlen
    match s, hlen with
    | c :: t, hlen =>
      have hc : c = 65 := by simpa using hs 0 (Nat.succ_pos n)
      subst hc
      rw [List.drop_succ_cons, b64_decode_cons_A]
      apply ih
      · intro k hk
        have := hs (k + 1) (Nat.succ_lt_succ hk)
        simpa using this
      · simpa using hlen

theorem b64_encode_lead_spec (result : List Nat) :
    ∀ (fuel i : Nat), (∀ k < i, result.getD k 0 = 65) → i + fuel = 10 →
      b64_encode.lead result fuel i ≤ 10 ∧
      ∀ k < b64_encode.lead result fuel i, result.getD k 0 = 65 := by
  intro fuel
  induction fuel with
  | zero =>
    intro i h hi
    simp only [b64_encode.lead]
    exact ⟨Nat.le_refl _, fun k hk => h k (by omega)⟩
  | succ fuel ih =>
    intro i h hi
    simp only [b64_encode.lead]
    by_cases hc : result.getD i 0 = 65
    · have h65 : b64_list.getD 0 0 = 65 := by decide
      rw [h65]
      simp only [hc, ne_eq, not_true_eq_false, if_false]
      apply ih (i + 1)
      · intro k hk
        by_cases hki : k = i
        · subst hki; exact hc
        · exact h k (by omega)
      · omega
    · have h65 : b64_list.getD 0 0 = 65 := by decide
      rw [h65]
      simp only [hc, ne_eq, not_false_eq_true, if_true]
      exact ⟨by omega, h⟩

theorem b64_decode_loop_digits :
    ∀ (ds : List Nat) (v offset : Nat), (∀ d ∈ ds, d < 64) → v < 2 ^ offset →
      v + 2 ^ offset * digits_value ds < 2 ^ 64 →
      b64_decode.loop (ds.map (fun d => b64_list.getD d 0)) v offset
        = some (v + 2 ^ offset * digits_value ds) := by
  intro ds
  induction ds with
  | nil => intro v offset _ _ _; simp [b64_decode.loop, digits_value]
  | cons d ds ih =>
    intro v offset hds hv hfit
    have hd : d < 64 := hds d (List.mem_cons_self _ _)
    have hidx := (b64_index_list d hd).1
    rw [List.map_cons, b64_decode.loop, hidx, if_neg (by omega)]
    have hpow : 2 ^ (offset + 6) = 2 ^ offset * 64 := by rw [Nat.pow_add]
    have hval : digits_value (d :: ds) = d + 64 * digits_value ds := rfl
    rw [hval] at hfit
    have hdo : d * 2 ^ offset < 2 ^ 64 := by
      have : 2 ^ offset * (d + 64 * digits_value ds) = d * 2 ^ offset
          + 2 ^ offset * 64 * digits_value ds := by ring
      omega
    have hstep : v ||| (d <<< offset) % 2 ^ 64 = v + d * 2 ^ offset := by
      have e1 : (d <<< offset) % 2 ^ 64 = d <<< offset := by
        rw [Nat.shiftLeft_eq]; exact Nat.mod_eq_of_lt hdo
      rw [e1, Nat.lor_comm, shl_or d v offset hv, Nat.add_comm]
    rw [hstep, ih (v + d * 2 ^ offset) (offset + 6)
      (fun x hx => hds x (List.mem_cons_of_mem _ hx))]
    · rw [hpow, hval]; congr 1; ring
    · rw [hpow]
      have : d * 2 ^ offset ≤ 63 * 2 ^ offset := Nat.mul_le_mul_right _ (by omega)
      omega
    · rw [hpow]
      have : 2 ^ offset * (d + 64 * digits_value ds) = d * 2 ^ offset
          + 2 ^ offset * 64 * digits_value ds := by ring
      omega

theorem b64_digit_eq (val sh w : Nat) :
    (val &&& ((2 ^ w - 1) <<< sh)) >>> sh = val / 2 ^ sh % 2 ^ w := by
  apply Nat.eq_of_testBit_eq
  intro j
  rw [← Nat.shiftRight_eq_div_pow]
  simp only [Nat.testBit_shiftRight, Nat.testBit_and, Nat.testBit_shiftLeft,
    Nat.testBit_two_pow_sub_one, Nat.testBit_mod_two_pow]
  have h1 : sh + j ≥ sh := Nat.le_add_right _ _
  have h2 : sh + j - sh = j := by omega
  simp [h1, h2, Bool.and_comm]

theorem b64_digits_eq (val : Nat) :
    b64_digits val = [val / 2 ^ 60 % 2 ^ 4, val / 2 ^ 54 % 2 ^ 6, val / 2 ^ 48 % 2 ^ 6,
      val / 2 ^ 42 % 2 ^ 6, val / 2 ^ 36 % 2 ^ 6, val / 2 ^ 30 % 2 ^ 6, val / 2 ^ 24 % 2 ^ 6,
      val / 2 ^ 18 % 2 ^ 6, val / 2 ^ 12 % 2 ^ 6, val / 2 ^ 6 % 2 ^ 6, val / 2 ^ 0 % 2 ^ 6] := by
  unfold b64_digits
  rw [← b64_digit_eq val 60 4, ← b64_digit_eq val 54 6, ← b64_digit_eq val 48 6,
    ← b64_digit_eq val 42 6, ← b64_digit_eq val 36 6, ← b64_digit_eq val 30 6,
    ← b64_digit_eq val 24 6, ← b64_digit_eq val 18 6, ← b64_digit_eq val 12 6,
    ← b64_digit_eq val 6 6, ← b64_digit_eq val 0 6]
  rfl

theorem b64_digits_value (val : Nat) (h : val < 2 ^ 64) :
    b64_decode ((b64_digits val).map (fun d => b64_list.getD d 0)) = some val := by
  unfold b64_decode
  rw [← List.map_reverse, b64_digits_eq]
  have hfit : 0 + 2 ^ 0 * digits_value [val / 2 ^ 60 % 2 ^ 4, val / 2 ^ 54 % 2 ^ 6,
      val / 2 ^ 48 % 2 ^ 6, val / 2 ^ 42 % 2 ^ 6, val / 2 ^ 36 % 2 ^ 6, val / 2 ^ 30 % 2 ^ 6,
      val / 2 ^ 24 % 2 ^ 6, val / 2 ^ 18 % 2 ^ 6, val / 2 ^ 12 % 2 ^ 6, val / 2 ^ 6 % 2 ^ 6,
      val / 2 ^ 0 % 2 ^ 6].reverse = val := by
    simp only [List.reverse_cons, List.reverse_nil, List.nil_append, List.cons_append,
      digits_value]
    norm_num
    omega
  rw [b64_decode_loop_digits _ 0 0 _ (by norm_num) (by rw [hfit]; exact h), hfit]
  intro d hd
  simp only [List.mem_reverse, List.mem_cons, List.mem_singleton, List.not_mem_nil,
    or_false] at hd
  rcases hd with h | h | h | h | h | h | h | h | h | h | h <;> subst h <;> omega

/-- Decoding the name of a bucket gives back its number. -/
theorem b64_decode_encode (val : Nat) (h : val < 2 ^ 64) :
    b64_decode (b64_encode val) = some val := by
  unfold b64_encode
  have hl := b64_encode_lead_spec ((b64_digits val).map (fun d => b64_list.getD d 0)) 10 0
    (fun k hk => absurd hk (Nat.not_lt_zero k)) rfl
  have hlen : ((b64_digits val).map (fun d => b64_list.getD d 0)).length = 11 := by
    simp [b64_digits]
  rw [b64_decode_drop_lead _ _ hl.2 (by rw [hlen]; exact Nat.le_succ_of_le hl.1)]
  exact b64_digits_value val h

theorem b64_encode_injective (v w : Nat) (hv : v < 2 ^ 64) (hw : w < 2 ^ 64)
    (h : b64_encode v = b64_encode w) : v = w := by
  have h1 := b64_decode_encode v hv
  rw [h, b64_decode_encode w hw] at h1
  exact (Option.some.inj h1).symm


/-! ## Buckets: placing and finding chunks -/

theorem size_sub_eq (a b : Nat) (h1 : b ≤ a) (h2 : a < 2 ^ 64) : size_sub a b = a - b := by
  unfold size_sub
  rw [Nat.mod_eq_of_lt h2, Nat.mod_eq_of_lt (Nat.lt_of_le_of_lt h1 h2)]
  have : a + (2 ^ 64 - b) = (a - b) + 2 ^ 64 := by omega
  rw [this, Nat.add_mod_right]
  exact Nat.mod_eq_of_lt (by omega)

theorem packed_bounds :
    ∀ (live : List block_key_t) (o : Nat), packed_from o live →
      ∀ k ∈ live, o ≤ k.offset ∧ k.offset + k.length ≤ o + total_length live := by
  intro live
  induction live with
  | nil => intro o _ k hk; cases hk
  | cons x rest ih =>
    intro o hp k hk
    obtain ⟨hx, hrest⟩ := hp
    simp only [total_length]
    rcases List.mem_cons.mp hk with h | h
    · subst h; omega
    · have := ih _ hrest k h
      omega

theorem packed_append (xs ys : List block_key_t) :
    ∀ (o : Nat), packed_from o (xs ++ ys)
      ↔ packed_from o xs ∧ packed_from (o + total_length xs) ys := by
  induction xs with
  | nil => intro o; simp [packed_from, total_length]
  | cons x xs ih =>
    intro o
    show (x.offset = o ∧ packed_from (o + x.length) (xs ++ ys))
      ↔ (x.offset = o ∧ packed_from (o + x.length) xs)
        ∧ packed_from (o + (x.length + total_length xs)) ys
    rw [ih, Nat.add_assoc, and_assoc]

theorem total_length_append (xs ys : List block_key_t) :
    total_length (xs ++ ys) = total_length xs + total_length ys := by
  induction xs with
  | nil => simp [total_length]
  | cons x xs ih =>
    show x.length + total_length (xs ++ ys) = x.length + total_length xs + total_length ys
    rw [ih, Nat.add_assoc]

/-- Slots that neither hold `id` nor are empty are skipped, their lengths added up. -/
theorem put_scan_skip (b : block_t) (id : arrow_id_t) (buf : List Nat) (tail : List block_key_t) :
    ∀ (rest : List block_key_t) (i offset : Nat),
      (∀ k ∈ rest, k.id ≠ id ∧ k ≠ null_key) → offset + total_length rest < 2 ^ 64 →
      store_put_into_int.scan b id buf (rest ++ tail) i offset
        = store_put_into_int.scan b id buf tail (i + rest.length) (offset + total_length rest) := by
  intro rest
  induction rest with
  | nil => intro i offset _ _; simp [total_length]
  | cons x rest ih =>
    intro i offset h hlt
    obtain ⟨h1, h2⟩ := h x (List.mem_cons_self _ _)
    simp only [total_length] at hlt
    rw [List.cons_append, store_put_into_int.scan, if_neg h1, if_neg h2,
      Nat.mod_eq_of_lt (by omega), ih (i + 1) (offset + x.length)
        (fun k hk => h k (List.mem_cons_of_mem _ hk)) (by omega)]
    simp only [total_length, List.length_cons]
    congr 1 <;> omega

theorem store_header_size_eq (b : block_t) (h : b.keys.length = ARROW_BLOCK_INITIAL_COUNT) :
    store_header_size b = 163852 := by
  unfold store_header_size block_t.chunk_count
  rw [h]; rfl

theorem store_capacity_eq : store_capacity = 4956148 := by decide

theorem bucket_ok_length {b : block_t} {live : List block_key_t} (h : bucket_ok b live) :
    b.keys.length = ARROW_BLOCK_INITIAL_COUNT := by
  rw [h.keys, List.length_append, List.length_replicate]
  have := h.count
  omega

theorem bucket_ok_live_ne_null {b : block_t} {live : List block_key_t} (h : bucket_ok b live) :
    ∀ k ∈ live, k ≠ null_key := by
  intro k hk hnull
  exact h.ids k hk (by rw [hnull]; rfl)

/-- Putting an id that the bucket holds: the slot's references go up (mod 2^16). -/
theorem put_into_found {b : block_t} {live : List block_key_t} (h : bucket_ok b live)
    (id : arrow_id_t) (buf : List Nat) (pre post : List block_key_t) (k : block_key_t)
    (hlive : live = pre ++ k :: post) (hk : k.id = id) :
    store_put_into_int b id buf
      = (1, { b with keys := (pre ++ { k with references := (k.references + 1) % 2 ^ 16 } :: post)
                ++ List.replicate (ARROW_BLOCK_INITIAL_COUNT - live.length) null_key }) := by
  have hnd := h.nodup
  rw [hlive, List.map_append, List.map_cons] at hnd
  have hpre : ∀ x ∈ pre, x.id ≠ id ∧ x ≠ null_key := by
    intro x hx
    constructor
    · intro hxid
      have := (List.nodup_append.mp hnd).2.2
      exact this (List.mem_map_of_mem _ hx) (by rw [hxid, hk]; exact List.mem_cons_self _ _)
    · exact bucket_ok_live_ne_null h x (by rw [hlive]; exact List.mem_append_left _ hx)
  have hfit := h.fits
  rw [hlive, total_length_append] at hfit
  have hcap := store_capacity_eq
  unfold store_put_into_int
  have hkeys : b.keys = pre ++ (k :: post
      ++ List.replicate (ARROW_BLOCK_INITIAL_COUNT - live.length) null_key) := by
    rw [h.keys, hlive]; simp
  rw [hkeys, put_scan_skip b id buf _ pre 0 0 hpre (by omega), List.cons_append,
    store_put_into_int.scan, if_pos hk, hkeys]
  simp


theorem replicate_succ_null (m : Nat) (hm : 0 < m) :
    List.replicate m null_key = null_key :: List.replicate (m - 1) null_key := by
  cases m with
  | zero => omega
  | succ m => simp [List.replicate_succ]

/-- Putting a non-zero id the bucket does not hold, when the first empty slot is not
the last slot and the chunk fits the capacity: the chunk goes into the first empty
slot, at the end of the chunks before it. -/
theorem put_into_insert {b : block_t} {live : List block_key_t} (h : bucket_ok b live)
    (id : arrow_id_t) (buf : List Nat) (hid : id ≠ null_id)
    (habs : ∀ k ∈ live, k.id ≠ id) (hslot : live.length + 1 < ARROW_BLOCK_INITIAL_COUNT)
    (hroom : total_length live + buf.length ≤ store_capacity) :
    store_put_into_int b id buf
      = (0, { b with
                keys := (live ++ [⟨id, total_length live, buf.length, 1⟩])
                  ++ List.replicate (ARROW_BLOCK_INITIAL_COUNT - (live.length + 1)) null_key
                data := memcpy_list b.data (total_length live) buf }) := by
  have hcap := store_capacity_eq
  have hlen := bucket_ok_length h
  have hhdr := store_header_size_eq b hlen
  have hskip : ∀ x ∈ live, x.id ≠ id ∧ x ≠ null_key :=
    fun x hx => ⟨habs x hx, bucket_ok_live_ne_null h x hx⟩
  have hkeys : b.keys = live ++ (null_key
      :: List.replicate (ARROW_BLOCK_INITIAL_COUNT - live.length - 1) null_key) := by
    rw [h.keys, replicate_succ_null _ (by omega)]
  have hnid : ¬ null_key.id = id := fun e => hid e.symm
  have hcnt : live.length + 1 < b.chunk_count := by
    unfold block_t.chunk_count; rw [hlen]; exact hslot
  have halloc : b.alloc_size = 5120000 := by rw [h.alloc]; rfl
  have hrem : size_sub (size_sub b.alloc_size (store_header_size b)) (total_length live)
      = 4956148 - total_length live := by
    rw [hhdr, halloc, size_sub_eq 5120000 163852 (by omega) (by omega),
      size_sub_eq _ _ (by omega) (by omega)]
  unfold store_put_into_int
  conv => lhs; rw [hkeys]
  rw [put_scan_skip b id buf _ live 0 0 hskip (by omega), store_put_into_int.scan,
    if_neg hnid, if_pos rfl]
  simp only [Nat.zero_add]
  rw [if_pos (Or.inl hcnt), hrem, if_pos (by omega), Nat.mod_eq_of_lt (by omega),
    Nat.mod_eq_of_lt (by omega)]
  congr 2
  rw [hkeys]
  simp
  omega


theorem bytes_at_length (mem : Nat → Nat) (off n : Nat) : (bytes_at mem off n).length = n := by
  simp [bytes_at]

theorem bytes_at_congr (m1 m2 : Nat → Nat) (o1 o2 n : Nat)
    (h : ∀ t < n, m1 (o1 + t) = m2 (o2 + t)) : bytes_at m1 o1 n = bytes_at m2 o2 n := by
  unfold bytes_at
  apply List.map_congr_left
  intro t ht
  exact h t (List.mem_range.mp ht)

theorem bytes_at_memcpy_list (mem : Nat → Nat) (o : Nat) (buf : List Nat) :
    bytes_at (memcpy_list mem o buf) o buf.length = buf := by
  apply List.ext_getElem
  · simp [bytes_at]
  · intro t h1 h2
    simp only [bytes_at, List.getElem_map, List.getElem_range, memcpy_list]
    rw [if_pos ⟨Nat.le_add_right _ _, by omega⟩, Nat.add_sub_cancel_left]
    simp [List.getD_eq_getElem?_getD, h2]

/-- The chunk a key array holds for `id`, read from `data`. -/
theorem bucket_lookup_eq (b : block_t) (id : arrow_id_t) :
    bucket_lookup b id
      = (b.keys.find? (fun k => decide (k.id = id))).map
          (fun k => bytes_at b.data k.offset k.length) := rfl

theorem find_replicate_null (id : arrow_id_t) (hid : id ≠ null_id) (m : Nat) :
    (List.replicate m null_key).find? (fun k => decide (k.id = id)) = none := by
  rw [List.find?_eq_none]
  intro x hx
  rw [(List.mem_replicate.mp hx).2]
  simpa using fun e : null_key.id = id => hid e.symm

theorem bucket_ok_find {b : block_t} {live : List block_key_t} (h : bucket_ok b live)
    (id : arrow_id_t) (hid : id ≠ null_id) :
    b.keys.find? (fun k => decide (k.id = id)) = live.find? (fun k => decide (k.id = id)) := by
  rw [h.keys, List.find?_append, find_replicate_null id hid]
  simp

theorem find_absent (live : List block_key_t) (id : arrow_id_t) (h : ∀ k ∈ live, k.id ≠ id) :
    live.find? (fun k => decide (k.id = id)) = none := by
  rw [List.find?_eq_none]
  intro x hx
  simpa using h x hx

theorem find_present (pre post : List block_key_t) (k : block_key_t) (id : arrow_id_t)
    (hpre : ∀ x ∈ pre, x.id ≠ id) (hk : k.id = id) :
    (pre ++ k :: post).find? (fun k => decide (k.id = id)) = some k := by
  rw [List.find?_append, find_absent pre id hpre]
  simp [hk]

/-- In a list of slots with pairwise different ids, a member is what `find?` finds. -/
theorem find_of_mem_nodup :
    ∀ (live : List block_key_t), (live.map (fun k => k.id)).Nodup → ∀ k ∈ live,
      live.find? (fun x => decide (x.id = k.id)) = some k := by
  intro live
  induction live with
  | nil => intro _ k hk; cases hk
  | cons x rest ih =>
    intro hnd k hk
    rw [List.map_cons, List.nodup_cons] at hnd
    rcases List.mem_cons.mp hk with h | h
    · subst h; simp
    · have hne : ¬ x.id = k.id := fun e => hnd.1 (by rw [e]; exact List.mem_map_of_mem _ h)
      rw [List.find?_cons_of_neg _ (by simpa using hne)]
      exact ih hnd.2 k h

theorem mem_split_first (live : List block_key_t) (id : arrow_id_t) :
    (∀ k ∈ live, k.id ≠ id) ∨
    ∃ pre k post, live = pre ++ k :: post ∧ (∀ x ∈ pre, x.id ≠ id) ∧ k.id = id := by
  induction live with
  | nil => left; intro k hk; cases hk
  | cons x rest ih =>
    by_cases hx : x.id = id
    · right; exact ⟨[], x, rest, rfl, fun y hy => absurd hy (List.not_mem_nil y), hx⟩
    · rcases ih with h | ⟨pre, k, post, h1, h2, h3⟩
      · left
        intro k hk
        rcases List.mem_cons.mp hk with e | e
        · subst e; exact hx
        · exact h k e
      · right
        refine ⟨x :: pre, k, post, by rw [h1]; rfl, ?_, h3⟩
        intro y hy
        rcases List.mem_cons.mp hy with e | e
        · subst e; exact hx
        · exact h2 y e


theorem bucket_lookup_ok {b : block_t} {live : List block_key_t} (h : bucket_ok b live)
    (id : arrow_id_t) (hid : id ≠ null_id) :
    bucket_lookup b id
      = (live.find? (fun k => decide (k.id = id))).map
          (fun k => bytes_at b.data k.offset k.length) := by
  rw [bucket_lookup_eq, bucket_ok_find h id hid]

theorem bucket_ok_found {b : block_t} {live : List block_key_t} (h : bucket_ok b live)
    (pre post : List block_key_t) (k : block_key_t) (r : Nat) (hlive : live = pre ++ k :: post) :
    bucket_ok { b with keys := (pre ++ { k with references := r } :: post)
                  ++ List.replicate (ARROW_BLOCK_INITIAL_COUNT - live.length) null_key }
      (pre ++ { k with references := r } :: post) := by
  have hl : (pre ++ { k with references := r } :: post).length = live.length := by
    rw [hlive]; simp
  have hp := h.packed
  have hf := h.fits
  have hn := h.nodup
  rw [hlive] at hp hf hn
  rw [packed_append] at hp
  rw [total_length_append] at hf
  refine ⟨by rw [hl], by rw [hl]; exact h.count, h.alloc, ?_, ?_, ?_, ?_⟩
  · intro x hx
    rcases List.mem_append.mp hx with e | e
    · exact h.ids x (by rw [hlive]; exact List.mem_append_left _ e)
    · rcases List.mem_cons.mp e with e | e
      · subst e
        exact h.ids k (by rw [hlive]; exact List.mem_append_right _ (List.mem_cons_self _ _))
      · exact h.ids x (by rw [hlive]; exact List.mem_append_right _ (List.mem_cons_of_mem _ e))
  · simpa using hn
  · rw [packed_append]
    exact ⟨hp.1, hp.2⟩
  · rw [total_length_append]
    exact hf

theorem bucket_lookup_found {b : block_t} {live : List block_key_t} (h : bucket_ok b live)
    (pre post : List block_key_t) (k : block_key_t) (r : Nat) (hlive : live = pre ++ k :: post)
    (id : arrow_id_t) (hid : id ≠ null_id) :
    bucket_lookup { b with keys := (pre ++ { k with references := r } :: post)
                  ++ List.replicate (ARROW_BLOCK_INITIAL_COUNT - live.length) null_key } id
      = bucket_lookup b id := by
  rw [bucket_lookup_ok (bucket_ok_found h pre post k r hlive) id hid, bucket_lookup_ok h id hid,
    hlive, List.find?_append, List.find?_append]
  cases hpre : pre.find? (fun k => decide (k.id = id)) with
  | some x => rfl
  | none =>
    simp only [Option.none_or]
    by_cases hk : k.id = id
    · simp [hk]
    · simp [hk]

theorem bucket_ok_insert {b : block_t} {live : List block_key_t} (h : bucket_ok b live)
    (id : arrow_id_t) (buf : List Nat) (r : Nat) (hid : id ≠ null_id)
    (habs : ∀ k ∈ live, k.id ≠ id) (hslot : live.length + 1 < ARROW_BLOCK_INITIAL_COUNT)
    (hroom : total_length live + buf.length ≤ store_capacity) :
    bucket_ok { b with
                keys := (live ++ [⟨id, total_length live, buf.length, r⟩])
                  ++ List.replicate (ARROW_BLOCK_INITIAL_COUNT - (live.length + 1)) null_key
                data := memcpy_list b.data (total_length live) buf }
      (live ++ [⟨id, total_length live, buf.length, r⟩]) := by
  refine ⟨by simp, by simpa using hslot, h.alloc, ?_, ?_, ?_, ?_⟩
  · intro x hx
    rcases List.mem_append.mp hx with e | e
    · exact h.ids x e
    · rw [List.mem_singleton.mp e]; exact hid
  · rw [List.map_append, List.nodup_append]
    refine ⟨h.nodup, by simp, ?_⟩
    intro a ha hb
    obtain ⟨x, hx, rfl⟩ := List.mem_map.mp ha
    simp only [List.map_cons, List.map_nil, List.mem_singleton] at hb
    exact habs x hx hb
  · rw [packed_append]
    exact ⟨h.packed, by simp [packed_from]⟩
  · rw [total_length_append]
    simpa [total_length] using hroom

theorem bucket_lookup_insert {b : block_t} {live : List block_key_t} (h : bucket_ok b live)
    (id : arrow_id_t) (buf : List Nat) (r : Nat) (hid : id ≠ null_id)
    (habs : ∀ k ∈ live, k.id ≠ id) (hslot : live.length + 1 < ARROW_BLOCK_INITIAL_COUNT)
    (hroom : total_length live + buf.length ≤ store_capacity) (id2 : arrow_id_t)
    (hid2 : id2 ≠ null_id) :
    bucket_lookup { b with
                keys := (live ++ [⟨id, total_length live, buf.length, r⟩])
                  ++ List.replicate (ARROW_BLOCK_INITIAL_COUNT - (live.length + 1)) null_key
                data := memcpy_list b.data (total_length live) buf } id2
      = if id2 = id then some buf else bucket_lookup b id2 := by
  rw [bucket_lookup_ok (bucket_ok_insert h id buf r hid habs hslot hroom) id2 hid2,
    bucket_lookup_ok h id2 hid2, List.find?_append]
  by_cases e : id2 = id
  · subst e
    rw [find_absent live id2 habs, if_pos rfl]
    simp [bytes_at_memcpy_list]
  · rw [if_neg e]
    have hne : ¬ id = id2 := fun x => e x.symm
    cases hf : live.find? (fun k => decide (k.id = id2)) with
    | none => simp [hne]
    | some x =>
      have hx : x ∈ live := List.mem_of_find?_eq_some hf
      have hb := packed_bounds live 0 h.packed x hx
      show Option.map _ (some x) = _
      simp only [Option.map_some']
      congr 1
      apply bytes_at_congr
      intro t ht
      simp only [memcpy_list]
      rw [if_neg (by omega)]


/-! ## Linear hashing -/

theorem be_or_sum (c0 c1 c2 c3 c4 c5 c6 c7 : Nat)
    (h0 : c0 < 256) (h1 : c1 < 256) (h2 : c2 < 256) (h3 : c3 < 256)
    (h4 : c4 < 256) (h5 : c5 < 256) (h6 : c6 < 256) (h7 : c7 < 256) :
    (c0 <<< 56) ||| (c1 <<< 48) ||| (c2 <<< 40) ||| (c3 <<< 32) ||| (c4 <<< 24)
      ||| (c5 <<< 16) ||| (c6 <<< 8) ||| c7 < 2 ^ 64 := by
  simp only [Nat.lor_assoc]
  rw [shl_or c6 c7 8 (by omega), shl_or c5 _ 16 (by omega), shl_or c4 _ 24 (by omega),
    shl_or c3 _ 32 (by omega), shl_or c2 _ 40 (by omega), shl_or c1 _ 48 (by omega),
    shl_or c0 _ 56 (by omega)]
  omega

theorem and_ff_lt (b : Nat) : b &&& 0xFF < 256 :=
  Nat.lt_of_le_of_lt Nat.and_le_right (by decide)

theorem key_hash_lt (id : arrow_id_t) : key_hash id < 2 ^ 64 :=
  be_or_sum _ _ _ _ _ _ _ _ (and_ff_lt _) (and_ff_lt _) (and_ff_lt _) (and_ff_lt _)
    (and_ff_lt _) (and_ff_lt _) (and_ff_lt _) (and_ff_lt _)

/-- `do_map_key` is the linear-hash bucket of `key_hash`. -/
theorem do_map_key_hash (sb : store_sb_t) (id : arrow_id_t) (n : Nat) :
    do_map_key sb id n
      = if key_hash id % 2 ^ sb.i < n then key_hash id % 2 ^ (sb.i + 1)
        else key_hash id % 2 ^ sb.i := by
  have h : do_map_key sb id n
      = if key_hash id &&& low_mask sb.i < n then key_hash id &&& low_mask (sb.i + 1)
        else key_hash id &&& low_mask sb.i := rfl
  rw [h, and_low_mask _ _ (key_hash_lt id), and_low_mask _ _ (key_hash_lt id)]

theorem mod_two_pow_succ (x i : Nat) :
    x % 2 ^ (i + 1) = x % 2 ^ i ∨ x % 2 ^ (i + 1) = x % 2 ^ i + 2 ^ i := by
  rw [Nat.pow_succ, Nat.mod_mul]
  rcases Nat.mod_two_eq_zero_or_one (x / 2 ^ i) with h | h
  · left; rw [h]; simp
  · right; rw [h]; simp

/-- The bucket number chosen at `(i, n)` is below `2^i + n`. -/
theorem do_map_key_lt (sb : store_sb_t) (id : arrow_id_t) :
    do_map_key sb id sb.n < 2 ^ sb.i + sb.n := by
  rw [do_map_key_hash]
  have hm : key_hash id % 2 ^ sb.i < 2 ^ sb.i := Nat.mod_lt _ (Nat.two_pow_pos _)
  split
  · rcases mod_two_pow_succ (key_hash id) sb.i with h | h <;> omega
  · omega


/-- A chunk that lives in bucket `n` at `(i, n)` is sent by the move loop to `n` or to
the new bucket `2^i + n`. -/
theorem do_map_key_split_target (sb : store_sb_t) (id : arrow_id_t) (hn : sb.n < 2 ^ sb.i)
    (h : do_map_key sb id sb.n = sb.n) :
    do_map_key sb id (sb.n + 1) = key_hash id % 2 ^ (sb.i + 1) ∧
    (key_hash id % 2 ^ (sb.i + 1) = sb.n ∨ key_hash id % 2 ^ (sb.i + 1) = 2 ^ sb.i + sb.n) := by
  rw [do_map_key_hash] at h
  rw [do_map_key_hash]
  have hm : key_hash id % 2 ^ sb.i < 2 ^ sb.i := Nat.mod_lt _ (Nat.two_pow_pos _)
  rcases mod_two_pow_succ (key_hash id) sb.i with h2 | h2 <;>
    split at h <;> split <;> omega

/-- The bucket of an id after a split at `(i, n)`: chunks of bucket `n` go by the
level-`(i+1)` key, all others stay where they are. -/
theorem do_map_key_after_split (i n : Nat) (hn : n < 2 ^ i) (id : arrow_id_t) :
    do_map_key (if n = 2 ^ i - 1 then ⟨i + 1, 0⟩ else ⟨i, n + 1⟩) id
        (if n = 2 ^ i - 1 then 0 else n + 1)
      = if do_map_key ⟨i, n⟩ id n = n then key_hash id % 2 ^ (i + 1)
        else do_map_key ⟨i, n⟩ id n := by
  have hm : key_hash id % 2 ^ i < 2 ^ i := Nat.mod_lt _ (Nat.two_pow_pos _)
  have hp := Nat.two_pow_pos i
  by_cases hlim : n = 2 ^ i - 1
  · rw [if_pos hlim, if_pos hlim]
    simp only [do_map_key_hash]
    rcases mod_two_pow_succ (key_hash id) i with h2 | h2 <;>
      split_ifs <;> omega
  · rw [if_neg hlim, if_neg hlim]
    simp only [do_map_key_hash]
    rcases mod_two_pow_succ (key_hash id) i with h2 | h2 <;>
      split_ifs <;> omega


/-! ## The move loop of a split -/

theorem moved_keys_append (xs ys : List block_key_t) :
    ∀ o, moved_keys o (xs ++ ys) = moved_keys o xs ++ moved_keys (o + total_length xs) ys := by
  induction xs with
  | nil => intro o; simp [moved_keys, total_length]
  | cons x xs ih =>
    intro o
    show _ :: moved_keys (o + x.length) (xs ++ ys) = _
    rw [ih]
    simp [moved_keys, total_length, Nat.add_assoc]

theorem split_move_live (sb : store_sb_t) (next_id : Nat) (cdata : Nat → Nat) :
    ∀ (xs ln : List block_key_t) (next : block_t), bucket_ok next ln →
      (∀ k ∈ xs, k.id ≠ null_id) →
      (xs.map (fun k => k.id) ++ ln.map (fun k => k.id)).Nodup →
      (∀ k ∈ xs, split_moves sb k.id = true →
        do_map_key sb k.id ((sb.n + 1) % 2 ^ 64) = next_id) →
      ln.length + xs.length < ARROW_BLOCK_INITIAL_COUNT →
      total_length ln + total_length xs ≤ store_capacity →
      ∃ next', split_next_store.move sb next_id cdata xs next
          = some (xs.map (fun k => if split_moves sb k.id = true then null_key else k), next') ∧
        bucket_ok next'
          (ln ++ moved_keys (total_length ln) (xs.filter (fun k => split_moves sb k.id))) ∧
        ∀ id, id ≠ null_id → bucket_lookup next' id
          = match (xs.filter (fun k => split_moves sb k.id)).find?
              (fun k => decide (k.id = id)) with
            | some k => some (bytes_at cdata k.offset k.length)
            | none => bucket_lookup next id := by
  intro xs
  induction xs with
  | nil =>
    intro ln next hok _ _ _ _ _
    exact ⟨next, rfl, by simpa [moved_keys] using hok, fun id _ => rfl⟩
  | cons k rest ih =>
    intro ln next hok hids hnd htarget hcount hfit
    have hkid : k.id ≠ null_id := hids k (List.mem_cons_self _ _)
    have hknull : k ≠ null_key := fun e => hkid (by rw [e]; rfl)
    have hids' : ∀ x ∈ rest, x.id ≠ null_id := fun x hx => hids x (List.mem_cons_of_mem _ hx)
    have htarget' : ∀ x ∈ rest, split_moves sb x.id = true →
        do_map_key sb x.id ((sb.n + 1) % 2 ^ 64) = next_id :=
      fun x hx => htarget x (List.mem_cons_of_mem _ hx)
    simp only [List.map_cons, List.cons_append, List.nodup_cons, List.mem_append,
      List.mem_map, not_or, not_exists, not_and] at hnd
    obtain ⟨⟨hk_rest, hk_ln⟩, hnd'⟩ := hnd
    simp only [List.length_cons, total_length] at hcount hfit
    rw [split_next_store.move, if_pos hknull]
    by_cases hm : split_moves sb k.id = true
    · have hne : do_map_key sb k.id ((sb.n + 1) % 2 ^ 64) ≠ sb.n := by
        simpa [split_moves] using hm
      have heq := htarget k (List.mem_cons_self _ _) hm
      rw [if_pos hne, if_pos heq]
      have habs : ∀ x ∈ ln, x.id ≠ k.id := fun x hx e => hk_ln x hx e
      have hlenb : (bytes_at cdata k.offset k.length).length = k.length := bytes_at_length _ _ _
      have hins := put_into_insert hok k.id (bytes_at cdata k.offset k.length) hkid habs
        (by omega) (by rw [hlenb]; omega)
      have hok1 := bucket_ok_insert hok k.id (bytes_at cdata k.offset k.length) 1 hkid habs
        (by omega) (by rw [hlenb]; omega)
      have hlk1 := bucket_lookup_insert hok k.id (bytes_at cdata k.offset k.length) 1 hkid habs
        (by omega) (by rw [hlenb]; omega)
      rw [hins]
      rw [hlenb] at hok1 hlk1
      simp only [hlenb]
      have hnd1 : (rest.map (fun k => k.id)
          ++ (ln ++ [(⟨k.id, total_length ln, k.length, 1⟩ : block_key_t)]).map
            (fun k => k.id)).Nodup := by
        rw [List.map_append, ← List.append_assoc]
        rw [List.nodup_append]
        refine ⟨hnd', by simp, ?_⟩
        intro a ha hb
        simp only [List.map_cons, List.map_nil, List.mem_singleton] at hb
        subst hb
        rcases List.mem_append.mp ha with e | e
        · obtain ⟨x, hx, hxe⟩ := List.mem_map.mp e
          exact hk_rest x hx hxe
        · obtain ⟨x, hx, hxe⟩ := List.mem_map.mp e
          exact hk_ln x hx hxe
      obtain ⟨next', hmove, hok', hlk'⟩ := ih _ _ hok1 hids' hnd1 htarget'
        (by simp only [List.length_append, List.length_singleton]; omega)
        (by rw [total_length_append]; simp only [total_length]; omega)
      refine ⟨next', ?_, ?_, ?_⟩
      · rw [hmove]; simp [hm]
      · simp only [List.filter_cons, hm, if_true]
        rw [total_length_append] at hok'
        simp only [total_length, Nat.add_zero] at hok'
        simpa [moved_keys, List.append_assoc] using hok'
      · intro id hid
        rw [hlk' id hid, hlk1 id hid]
        simp only [List.filter_cons, hm, if_true]
        by_cases e : k.id = id
        · subst e
          have hnone : (rest.filter (fun k => split_moves sb k.id)).find?
              (fun x => decide (x.id = k.id)) = none := by
            rw [List.find?_eq_none]
            intro x hx
            have hxr : x ∈ rest := (List.mem_filter.mp hx).1
            simpa using fun e2 : x.id = k.id => hk_rest x hxr e2
          rw [hnone]
          simp
        · have e' : ¬ id = k.id := fun x => e x.symm
          rw [List.find?_cons_of_neg _ (by simpa using e), if_neg e']
    · have hne : ¬ do_map_key sb k.id ((sb.n + 1) % 2 ^ 64) ≠ sb.n := by
        simpa [split_moves] using hm
      rw [if_neg hne]
      obtain ⟨next', hmove, hok', hlk'⟩ := ih ln next hok hids' hnd' htarget'
        (by omega) (by omega)
      refine ⟨next', ?_, ?_, ?_⟩
      · rw [hmove]; simp [hm]
      · simp only [List.filter_cons, hm]; exact hok'
      · intro id hid
        rw [hlk' id hid]
        simp [List.filter_cons, hm]

theorem split_move_nulls (sb : store_sb_t) (next_id : Nat) (cdata : Nat → Nat) (next : block_t) :
    ∀ m, split_next_store.move sb next_id cdata (List.replicate m null_key) next
      = some (List.replicate m null_key, next) := by
  intro m
  induction m with
  | zero => rfl
  | succ m ih =>
    rw [List.replicate_succ, split_next_store.move, if_neg (by simp), ih]
    rfl

theorem split_move_append (sb : store_sb_t) (next_id : Nat) (cdata : Nat → Nat) :
    ∀ (xs ys : List block_key_t) (next : block_t),
      split_next_store.move sb next_id cdata (xs ++ ys) next
        = (split_next_store.move sb next_id cdata xs next).bind (fun r =>
            (split_next_store.move sb next_id cdata ys r.2).map
              (fun r2 => (r.1 ++ r2.1, r2.2))) := by
  intro xs
  induction xs with
  | nil =>
    intro ys next
    simp only [List.nil_append, split_next_store.move, Option.some_bind]
    cases split_next_store.move sb next_id cdata ys next <;> simp
  | cons k rest ih =>
    intro ys next
    rw [List.cons_append, split_next_store.move, split_next_store.move]
    split_ifs
    · rfl
    · rw [ih]
      cases split_next_store.move sb next_id cdata rest _ with
      | none => rfl
      | some r =>
        simp only [Option.some_bind, Option.map_some']
        cases split_next_store.move sb next_id cdata ys r.2 <;> simp
    · rfl
    · rw [ih]
      cases split_next_store.move sb next_id cdata rest _ with
      | none => rfl
      | some r =>
        simp only [Option.some_bind, Option.map_some']
        cases split_next_store.move sb next_id cdata ys r.2 <;> simp
    · rw [ih]
      cases split_next_store.move sb next_id cdata rest _ with
      | none => rfl
      | some r =>
        simp only [Option.some_bind, Option.map_some']
        cases split_next_store.move sb next_id cdata ys r.2 <;> simp


/-! ## Compaction -/

theorem getD_append_at {α : Type} (xs ys : List α) (d : α) :
    (xs ++ ys).getD xs.length d = ys.getD 0 d := by
  simp [List.getD_eq_getElem?_getD, List.getElem?_append_right]

theorem getD_append_at' {α : Type} (xs ys : List α) (d : α) (i : Nat) (hi : i = xs.length) :
    (xs ++ ys).getD i d = ys.getD 0 d := by
  subst hi; exact getD_append_at xs ys d

theorem set_append_at {α : Type} (xs ys : List α) (a y : α) (i : Nat) (hi : i = xs.length) :
    (xs ++ y :: ys).set i a = xs ++ a :: ys := by
  subst hi
  simp [List.set_append]

theorem compact_offset_eq (done : List block_key_t) (rest : List block_key_t) :
    (if 0 < done.length then
        (((done ++ rest).getD (done.length - 1) null_key).offset
          + ((done ++ rest).getD (done.length - 1) null_key).length) % 2 ^ 32
      else 0) = compact_pass.offset done := by
  unfold compact_pass.offset
  rcases List.eq_nil_or_concat done with h | ⟨pre, p, h⟩
  · subst h; rfl
  · subst h
    rw [List.concat_eq_append]
    have h1 : (pre ++ [p] ++ rest).getD ((pre ++ [p]).length - 1) null_key = p := by
      rw [List.append_assoc]
      rw [getD_append_at' pre _ _ _ (by simp)]
      rfl
    rw [h1]
    simp

theorem next_free_hit (keys : List block_key_t) (i fuel j : Nat) (hj : j ≤ i)
    (h : keys.getD j null_key = null_key) :
    compact_block.next_free keys i (fuel + 1) j = j := by
  rw [compact_block.next_free, if_pos hj, if_pos h]

theorem replicate_null_snoc (m : Nat) :
    List.replicate m null_key ++ [null_key] = List.replicate (m + 1) null_key := by
  rw [List.replicate_succ']

theorem replicate_null_comm (m : Nat) (todo : List block_key_t) :
    List.replicate m null_key ++ null_key :: todo
      = null_key :: (List.replicate m null_key ++ todo) := by
  rw [← List.cons_append, ← List.replicate_succ, List.replicate_succ', List.append_assoc]
  rfl

/-- The index loop of `compact_block` is the pass over the remaining slots. -/
theorem compact_loop_eq_pass :
    ∀ (todo done : List block_key_t) (holes : Nat) (data : Nat → Nat),
      compact_block.loop todo.length (done.length + holes)
          (if holes = 0 then none else some done.length)
          (done ++ List.replicate holes null_key ++ todo) data
        = compact_pass done holes todo data := by
  intro todo
  induction todo with
  | nil => intro done holes data; simp [compact_block.loop, compact_pass]
  | cons k todo ih =>
    intro done holes data
    have hget : (done ++ List.replicate holes null_key ++ k :: todo).getD (done.length + holes)
        null_key = k := by
      rw [getD_append_at' _ _ _ _ (by simp)]
      rfl
    rw [List.length_cons, compact_pass]
    by_cases h0 : holes = 0
    · subst h0
      rw [if_pos rfl, compact_block.loop.eq_2, hget]
      by_cases hk : k = null_key
      · rw [if_pos hk, if_pos hk, ← ih done 1 data]
        subst hk
        simp
      · rw [if_neg hk, if_neg hk, if_pos rfl, ← ih (done ++ [k]) 0 data]
        simp
    · rw [if_neg h0, compact_block.loop.eq_3, hget]
      by_cases hk : k = null_key
      · rw [if_pos hk, if_pos hk, ← ih done (holes + 1) data]
        subst hk
        rw [← replicate_null_snoc holes]
        simp [Nat.add_assoc]
      · rw [if_neg hk, if_neg hk, if_neg h0]
        simp only []
        have hoff := compact_offset_eq done (List.replicate holes null_key ++ k :: todo)
        rw [← List.append_assoc] at hoff
        rw [hoff]
        have hkeys1 : ((done ++ List.replicate holes null_key ++ k :: todo).set done.length
              { k with offset := compact_pass.offset done }).set (done.length + holes) null_key
            = (done ++ [{ k with offset := compact_pass.offset done }])
              ++ List.replicate holes null_key ++ todo := by
          obtain ⟨m, rfl⟩ : ∃ m, holes = m + 1 := ⟨holes - 1, by omega⟩
          rw [List.replicate_succ, List.append_assoc, List.cons_append,
            set_append_at done _ _ _ _ rfl]
          have e : done ++ { k with offset := compact_pass.offset done }
              :: (List.replicate m null_key ++ k :: todo)
              = (done ++ [{ k with offset := compact_pass.offset done }]
                ++ List.replicate m null_key) ++ k :: todo := by simp
          rw [e, set_append_at _ _ _ _ _ (by simp)]
          simp only [List.append_assoc, List.cons_append, List.nil_append]
          rw [replicate_null_comm]
        rw [hkeys1]
        have hfree : compact_block.next_free
            ((done ++ [{ k with offset := compact_pass.offset done }])
              ++ List.replicate holes null_key ++ todo)
            (done.length + holes) (done.length + holes + 1) (done.length + 1)
            = done.length + 1 := by
          apply next_free_hit _ _ _ _ (by omega)
          obtain ⟨m, rfl⟩ : ∃ m, holes = m + 1 := ⟨holes - 1, by omega⟩
          rw [List.append_assoc, getD_append_at' _ _ _ _ (by simp)]
          rfl
        have hih := ih (done ++ [{ k with offset := compact_pass.offset done }]) holes
          (memcpy data (compact_pass.offset done) data k.offset k.length)
        rw [if_neg h0, List.length_append, List.length_singleton] at hih
        rw [hfree, ← hih, Nat.add_right_comm]


theorem compact_pass_nulls (done : List block_key_t) (data : Nat → Nat) :
    ∀ (tail holes : Nat), compact_pass done holes (List.replicate tail null_key) data
      = (done ++ List.replicate (holes + tail) null_key, data) := by
  intro tail
  induction tail with
  | zero => intro holes; rfl
  | succ t ih =>
    intro holes
    rw [List.replicate_succ, compact_pass, if_pos rfl, ih]
    rw [show holes + 1 + t = holes + (t + 1) by omega]

theorem compact_offset_packed (done : List block_key_t) (h : packed_from 0 done) :
    compact_pass.offset done = total_length done % 2 ^ 32 := by
  unfold compact_pass.offset
  rcases List.eq_nil_or_concat done with e | ⟨pre, p, e⟩
  · subst e; rfl
  · subst e
    rw [List.concat_eq_append] at h ⊢
    rw [packed_append] at h
    have hp : p.offset = 0 + total_length pre := h.2.1
    rw [List.getLast?_append, total_length_append]
    simp only [List.getLast?_singleton, total_length]
    show (p.offset + p.length) % 2 ^ 32 = _
    rw [hp]
    simp

theorem repacked_length (ks : List block_key_t) : ∀ o, (repacked o ks).length = ks.length := by
  induction ks with
  | nil => intro o; rfl
  | cons k ks ih => intro o; simp [repacked, ih]

/-- What a pass of `compact_block` leaves: the kept chunks back to back after the
slots already in place, with their bytes, and empty slots after them. -/
theorem compact_pass_spec (keep : block_key_t → Bool) (tail : Nat) :
    ∀ (orig done : List block_key_t) (holes o : Nat) (data : Nat → Nat),
      packed_from 0 done → packed_from o orig → total_length done ≤ o →
      (holes = 0 → total_length done = o) → (∀ k ∈ orig, k ≠ null_key) →
      o + total_length orig < 2 ^ 32 →
      (compact_pass done holes
          (orig.map (fun k => if keep k = true then k else null_key)
            ++ List.replicate tail null_key) data).1
        = done ++ repacked (total_length done) (orig.filter keep)
          ++ List.replicate
              (holes + (orig.filter (fun k => !keep k)).length + tail) null_key ∧
      (∀ p < total_length done,
        (compact_pass done holes
          (orig.map (fun k => if keep k = true then k else null_key)
            ++ List.replicate tail null_key) data).2 p = data p) ∧
      (repacked (total_length done) (orig.filter keep)).map
          (fun k => bytes_at (compact_pass done holes
            (orig.map (fun k => if keep k = true then k else null_key)
              ++ List.replicate tail null_key) data).2 k.offset k.length)
        = (orig.filter keep).map (fun k => bytes_at data k.offset k.length) := by
  intro orig
  induction orig with
  | nil =>
    intro done holes o data _ _ _ _ _ _
    simp only [List.map_nil, List.nil_append, compact_pass_nulls, List.filter_nil, repacked,
      List.append_nil, List.length_nil, Nat.add_zero, List.map_nil, and_true, implies_true]
  | cons k rest ih =>
    intro done holes o data hdone horig hle hzero hnn hbound
    obtain ⟨hko, hrest⟩ := horig
    have hk : k ≠ null_key := hnn k (List.mem_cons_self _ _)
    have hnn' : ∀ x ∈ rest, x ≠ null_key := fun x hx => hnn x (List.mem_cons_of_mem _ hx)
    simp only [total_length] at hbound
    rw [List.map_cons, List.cons_append, compact_pass]
    by_cases hkeep : keep k = true
    · rw [if_pos hkeep, if_neg hk]
      by_cases h0 : holes = 0
      · rw [if_pos h0]
        have hd := hzero h0
        have hdone' : packed_from 0 (done ++ [k]) := by
          rw [packed_append]
          exact ⟨hdone, by simp [packed_from, hko, hd]⟩
        have htot : total_length (done ++ [k]) = o + k.length := by
          rw [total_length_append]; simp [total_length, hd]
        obtain ⟨h1, h2, h3⟩ := ih (done ++ [k]) 0 (o + k.length) data hdone' hrest
          (by rw [htot]) (fun _ => htot) hnn' (by omega)
        rw [htot] at h1 h2 h3
        have hkk : ({ k with offset := total_length done } : block_key_t) = k := by
          rw [hd, ← hko]
        subst h0
        refine ⟨?_, ?_, ?_⟩
        · rw [h1]
          simp only [List.filter_cons, hkeep, if_true, repacked, hkk, Bool.not_true]
          simp [hd]
        · intro p hp
          exact h2 p (by omega)
        · simp only [List.filter_cons, hkeep, if_true, repacked, List.map_cons]
          rw [hd, h3]
          congr 1
          apply bytes_at_congr
          intro t ht
          rw [h2 _ (by omega), hko]
      · rw [if_neg h0]
        have hoff : compact_pass.offset done = total_length done := by
          rw [compact_offset_packed done hdone, Nat.mod_eq_of_lt (by omega)]
        rw [hoff]
        have hdone' : packed_from 0 (done ++ [{ k with offset := total_length done }]) := by
          rw [packed_append]
          exact ⟨hdone, by simp [packed_from]⟩
        have htot : total_length (done ++ [{ k with offset := total_length done }])
            = total_length done + k.length := by
          rw [total_length_append]; simp [total_length]
        obtain ⟨h1, h2, h3⟩ := ih (done ++ [{ k with offset := total_length done }]) holes
          (o + k.length) (memcpy data (total_length done) data k.offset k.length) hdone' hrest
          (by rw [htot]; omega) (fun e => absurd e h0) hnn' (by omega)
        rw [htot] at h1 h2 h3
        refine ⟨?_, ?_, ?_⟩
        · rw [h1]
          simp only [List.filter_cons, hkeep, if_true, repacked, Bool.not_true]
          simp
        · intro p hp
          rw [h2 p (by omega)]
          simp only [memcpy]
          rw [if_neg (by omega)]
        · simp only [List.filter_cons, hkeep, if_true, repacked, List.map_cons]
          rw [h3]
          congr 1
          · apply bytes_at_congr
            intro t ht
            rw [h2 _ (by omega)]
            simp only [memcpy]
            rw [if_pos (by omega), Nat.add_sub_cancel_left]
          · apply List.map_congr_left
            intro x hx
            have hxr : x ∈ rest := (List.mem_filter.mp hx).1
            have hb := packed_bounds rest (o + k.length) hrest x hxr
            apply bytes_at_congr
            intro t ht
            simp only [memcpy]
            rw [if_neg (by omega)]
    · rw [if_neg hkeep, if_pos rfl]
      obtain ⟨h1, h2, h3⟩ := ih done (holes + 1) (o + k.length) data hdone hrest
        (by omega) (fun e => absurd e (Nat.succ_ne_zero holes)) hnn' (by omega)
      have hkf : keep k = false := by simpa using hkeep
      refine ⟨?_, h2, ?_⟩
      · rw [h1]
        simp only [List.filter_cons, hkf, Bool.not_false, if_true, List.length_cons]
        simp only [Bool.false_eq_true, if_false]
        congr 2
        omega
      · simp only [List.filter_cons, hkf, Bool.false_eq_true, if_false]
        exact h3


/-! ## A split, bucket by bucket -/

theorem repacked_ids (ks : List block_key_t) :
    ∀ o, (repacked o ks).map (fun k => k.id) = ks.map (fun k => k.id) := by
  induction ks with
  | nil => intro o; rfl
  | cons k ks ih => intro o; simp [repacked, ih]

theorem repacked_packed (ks : List block_key_t) : ∀ o, packed_from o (repacked o ks) := by
  induction ks with
  | nil => intro o; trivial
  | cons k ks ih => intro o; exact ⟨rfl, ih _⟩

theorem repacked_total (ks : List block_key_t) :
    ∀ o, total_length (repacked o ks) = total_length ks := by
  induction ks with
  | nil => intro o; rfl
  | cons k ks ih => intro o; simp [repacked, total_length, ih]

theorem moved_keys_ids (ks : List block_key_t) :
    ∀ o, (moved_keys o ks).map (fun k => k.id) = ks.map (fun k => k.id) := by
  induction ks with
  | nil => intro o; rfl
  | cons k ks ih => intro o; simp [moved_keys, ih]

theorem total_length_filter_le (p : block_key_t → Bool) (ks : List block_key_t) :
    total_length (ks.filter p) ≤ total_length ks := by
  induction ks with
  | nil => exact Nat.le_refl _
  | cons k ks ih =>
    by_cases h : p k = true
    · simp only [List.filter_cons, h, if_true, total_length]; omega
    · simp only [List.filter_cons, h, total_length]
      simp only [Bool.false_eq_true, if_false]
      omega

theorem filter_length_split (p : block_key_t → Bool) (ks : List block_key_t) :
    (ks.filter p).length + (ks.filter (fun k => !p k)).length = ks.length := by
  induction ks with
  | nil => rfl
  | cons k ks ih =>
    by_cases h : p k = true
    · simp [List.filter_cons, h]; omega
    · simp [List.filter_cons, h]; omega

theorem find_map_congr {β : Type} (id : arrow_id_t) (f g : block_key_t → β) :
    ∀ (xs ys : List block_key_t), xs.map (fun k => k.id) = ys.map (fun k => k.id) →
      xs.map f = ys.map g →
      (xs.find? (fun k => decide (k.id = id))).map f
        = (ys.find? (fun k => decide (k.id = id))).map g := by
  intro xs
  induction xs with
  | nil =>
    intro ys h1 _
    cases ys with
    | nil => rfl
    | cons y ys => simp at h1
  | cons x xs ih =>
    intro ys h1 h2
    cases ys with
    | nil => simp at h1
    | cons y ys =>
      simp only [List.map_cons, List.cons.injEq] at h1 h2
      by_cases e : x.id = id
      · have e' : y.id = id := by rw [← h1.1]; exact e
        simp [List.find?_cons, e, e', h2.1]
      · have e' : ¬ y.id = id := by rw [← h1.1]; exact e
        simp only [List.find?_cons, e, e', decide_False]
        exact ih ys h1.2 h2.2

theorem find_filter_id (q : arrow_id_t → Bool) (id : arrow_id_t) :
    ∀ (ks : List block_key_t),
      (ks.filter (fun k => q k.id)).find? (fun k => decide (k.id = id))
        = if q id = true then ks.find? (fun k => decide (k.id = id)) else none := by
  intro ks
  induction ks with
  | nil => simp
  | cons k ks ih =>
    by_cases e : k.id = id
    · by_cases hq : q id = true
      · have hqk : q k.id = true := by rw [e]; exact hq
        simp [List.filter_cons, hqk, hq, e]
      · have hqk : ¬ q k.id = true := by rw [e]; exact hq
        simp only [List.filter_cons, hqk, if_false, hq]
        simp only [Bool.false_eq_true, if_false]
        rw [ih, if_neg hq]
    · by_cases hqk : q k.id = true
      · simp only [List.filter_cons, hqk, if_true, List.find?_cons, e, decide_False]
        exact ih
      · simp only [List.filter_cons, hqk, List.find?_cons, e, decide_False]
        simp only [Bool.false_eq_true, if_false]
        exact ih

theorem bucket_ok_new_block : bucket_ok new_block [] :=
  ⟨rfl, by decide, by decide, fun _ h => absurd h (List.not_mem_nil _), List.nodup_nil, trivial,
    by decide⟩

theorem bucket_lookup_new_block (id : arrow_id_t) (hid : id ≠ null_id) :
    bucket_lookup new_block id = none := by
  rw [bucket_lookup_ok bucket_ok_new_block id hid]
  rfl


theorem compact_block_eq_pass (b : block_t) :
    compact_block b
      = { b with keys := (compact_pass [] 0 b.keys b.data).1
                 data := (compact_pass [] 0 b.keys b.data).2 } := by
  have h := compact_loop_eq_pass b.keys [] 0 b.data
  simp only [List.length_nil, Nat.add_zero, if_true, List.replicate_zero, List.nil_append,
    List.append_nil] at h
  unfold compact_block block_t.chunk_count
  rw [h]

/-- The two buckets after the move loop and the compaction of a split: the new
bucket holds exactly the chunks of bucket `n` that the loop moves, bucket `n` the
others, each with its bytes. -/
theorem split_buckets (sb : store_sb_t) (next_id : Nat) (curr : block_t)
    (live : List block_key_t) (hok : bucket_ok curr live)
    (htarget : ∀ k ∈ live, split_moves sb k.id = true →
      do_map_key sb k.id ((sb.n + 1) % 2 ^ 64) = next_id) :
    ∃ ckeys next', split_next_store.move sb next_id curr.data curr.keys new_block
        = some (ckeys, next') ∧
      bucket_ok next' (moved_keys 0 (live.filter (fun k => split_moves sb k.id))) ∧
      bucket_ok (compact_block { curr with keys := ckeys })
        (repacked 0 (live.filter (fun k => !split_moves sb k.id))) ∧
      (∀ id, id ≠ null_id → bucket_lookup next' id
        = if split_moves sb id = true then bucket_lookup curr id else none) ∧
      (∀ id, id ≠ null_id → bucket_lookup (compact_block { curr with keys := ckeys }) id
        = if split_moves sb id = true then none else bucket_lookup curr id) := by
  have hcap := store_capacity_eq
  obtain ⟨next', hmove, hoknext, hlknext⟩ := split_move_live sb next_id curr.data live []
    new_block bucket_ok_new_block hok.ids (by simpa using hok.nodup) htarget
    (by simpa using hok.count) (by simpa [total_length] using hok.fits)
  simp only [List.nil_append, total_length] at hoknext
  have hmove2 : split_next_store.move sb next_id curr.data curr.keys new_block
      = some (live.map (fun k => if split_moves sb k.id = true then null_key else k)
          ++ List.replicate (ARROW_BLOCK_INITIAL_COUNT - live.length) null_key, next') := by
    rw [hok.keys, split_move_append, hmove]
    simp only [Option.some_bind]
    rw [split_move_nulls]
    rfl
  have hzap : live.map (fun k => if split_moves sb k.id = true then null_key else k)
      = live.map (fun k => if (!split_moves sb k.id) = true then k else null_key) := by
    apply List.map_congr_left
    intro k _
    cases split_moves sb k.id <;> simp
  have hnn : ∀ k ∈ live, k ≠ null_key := bucket_ok_live_ne_null hok
  have hfits := hok.fits
  obtain ⟨h1, -, h3⟩ := compact_pass_spec (fun k => !split_moves sb k.id)
    (ARROW_BLOCK_INITIAL_COUNT - live.length) live [] 0 0 curr.data trivial hok.packed
    (Nat.le_refl _) (fun _ => rfl) hnn (by omega)
  simp only [List.nil_append, total_length, Nat.zero_add, Bool.not_not] at h1 h3
  rw [← hzap] at h1 h3
  have hcompact : compact_block { curr with
          keys := (live.map (fun k => if split_moves sb k.id = true then null_key else k)
            ++ List.replicate (ARROW_BLOCK_INITIAL_COUNT - live.length) null_key) }
      = { curr with
          keys := repacked 0 (live.filter (fun k => !split_moves sb k.id))
            ++ List.replicate ((live.filter (fun k => split_moves sb k.id)).length
              + (ARROW_BLOCK_INITIAL_COUNT - live.length)) null_key
          data := (compact_pass [] 0
            (live.map (fun k => if split_moves sb k.id = true then null_key else k)
              ++ List.replicate (ARROW_BLOCK_INITIAL_COUNT - live.length) null_key)
            curr.data).2 } := by
    rw [compact_block_eq_pass]
    simp only [h1]
  have hlen := filter_length_split (fun k => !split_moves sb k.id) live
  simp only [Bool.not_not] at hlen
  have hcount := hok.count
  have hokcurr : bucket_ok (compact_block { curr with
          keys := (live.map (fun k => if split_moves sb k.id = true then null_key else k)
            ++ List.replicate (ARROW_BLOCK_INITIAL_COUNT - live.length) null_key) })
      (repacked 0 (live.filter (fun k => !split_moves sb k.id))) := by
    rw [hcompact]
    refine ⟨?_, ?_, hok.alloc, ?_, ?_, repacked_packed _ _, ?_⟩
    · simp only [repacked_length]
      congr 2
      omega
    · rw [repacked_length]; omega
    · intro k hk
      have : k.id ∈ (repacked 0 (live.filter (fun k => !split_moves sb k.id))).map
          (fun k => k.id) := List.mem_map_of_mem _ hk
      rw [repacked_ids] at this
      obtain ⟨x, hx, hxe⟩ := List.mem_map.mp this
      rw [← hxe]
      exact hok.ids x (List.mem_filter.mp hx).1
    · rw [repacked_ids]
      exact List.Nodup.sublist (List.Sublist.map _ (List.filter_sublist _)) hok.nodup
    · rw [repacked_total]
      exact Nat.le_trans (total_length_filter_le _ _) hok.fits
  refine ⟨_, next', hmove2, hoknext, hokcurr, ?_, ?_⟩
  · intro id hid
    rw [hlknext id hid, find_filter_id (fun i => split_moves sb i) id live,
      bucket_lookup_new_block id hid]
    by_cases hm : split_moves sb id = true
    · rw [if_pos hm, if_pos hm, bucket_lookup_ok hok id hid]
      cases live.find? (fun k => decide (k.id = id)) <;> rfl
    · rw [if_neg hm, if_neg hm]
  · intro id hid
    rw [bucket_lookup_ok hokcurr id hid, hcompact]
    simp only []
    rw [find_map_congr id _ (fun k => bytes_at curr.data k.offset k.length) _
      (live.filter (fun k => !split_moves sb k.id)) (repacked_ids _ _) h3,
      find_filter_id (fun i => !split_moves sb i) id live, bucket_lookup_ok hok id hid]
    by_cases hm : split_moves sb id = true
    · simp [hm]
    · simp [hm]


/-! ## The store across a split -/

theorem write_block_same (s : store_state_t) (name : List Nat) (b : block_t) :
    (write_block s name b).blocks name = some b := by
  simp [write_block]

theorem write_block_other (s : store_state_t) (name nm : List Nat) (b : block_t)
    (h : nm ≠ name) : (write_block s name b).blocks nm = s.blocks nm := by
  simp [write_block, h]

theorem b64_encode_ne (v w : Nat) (hv : v < 2 ^ 64) (hw : w < 2 ^ 64) (h : v ≠ w) :
    b64_encode v ≠ b64_encode w :=
  fun e => h (b64_encode_injective v w hv hw e)

theorem store_ok_level {N : Nat} {s : store_state_t} (h : store_ok N s) (hN : N < 2 ^ 62) :
    s.sb.i < 62 ∧ 2 ^ s.sb.i + s.sb.n < 2 ^ 62 := by
  have hb := h.bound
  have h2 : 2 ^ s.sb.i < 2 ^ 62 := by omega
  exact ⟨(Nat.pow_lt_pow_iff_right (by decide)).mp h2, by omega⟩

theorem split_moves_iff (sb : store_sb_t) (id : arrow_id_t) (hn : sb.n + 1 < 2 ^ 64) :
    split_moves sb id = true ↔ do_map_key sb id (sb.n + 1) ≠ sb.n := by
  unfold split_moves
  rw [Nat.mod_eq_of_lt hn]
  simp

/-- A split keeps the store well formed and every stored chunk where `store_map_key`
looks for it. -/
theorem split_next_store_ok {N : Nat} {s : store_state_t} (h : store_ok N s) (hN : N < 2 ^ 62) :
    ∃ s', split_next_store s = some (0, s') ∧ store_ok (N + 1) s' ∧
      ∀ id, id ≠ null_id → store_lookup s' id = store_lookup s id := by
  obtain ⟨hi, hlt⟩ := store_ok_level h hN
  have hpos := Nat.two_pow_pos s.sb.i
  have hptr := h.ptr
  have h62 : (2 : Nat) ^ 62 < 2 ^ 64 := by decide
  have hmask : low_mask s.sb.i = 2 ^ s.sb.i - 1 := low_mask_eq _ (by omega)
  have hnext : ((1 <<< s.sb.i) % 2 ^ 64 + s.sb.n) % 2 ^ 64 = 2 ^ s.sb.i + s.sb.n := by
    rw [Nat.one_shiftLeft, Nat.mod_eq_of_lt (by omega), Nat.mod_eq_of_lt (by omega)]
  have habsent := h.absent (2 ^ s.sb.i + s.sb.n) (Nat.le_refl _) (by omega)
  obtain ⟨curr, live, hcurr, hokc, hmapc⟩ := h.buckets s.sb.n (by omega)
  have hne : b64_encode s.sb.n ≠ b64_encode (2 ^ s.sb.i + s.sb.n) :=
    b64_encode_ne _ _ (by omega) (by omega) (by omega)
  have hn1 : s.sb.n + 1 < 2 ^ 64 := by omega
  have htarget : ∀ k ∈ live, split_moves s.sb k.id = true →
      do_map_key s.sb k.id ((s.sb.n + 1) % 2 ^ 64) = 2 ^ s.sb.i + s.sb.n := by
    intro k hk hm
    rw [Nat.mod_eq_of_lt hn1]
    have ht := do_map_key_split_target s.sb k.id hptr (hmapc k hk)
    have h2 := (split_moves_iff s.sb k.id hn1).mp hm
    rw [ht.1] at h2 ⊢
    rcases ht.2 with e | e
    · exact absurd e h2
    · exact e
  obtain ⟨ckeys, next', hmove, hoknext, hokcurr, hlknext, hlkcurr⟩ :=
    split_buckets s.sb (2 ^ s.sb.i + s.sb.n) curr live hokc htarget
  have hsplit : split_next_store s = some (0,
      { sb := if s.sb.n = 2 ^ s.sb.i - 1 then ⟨s.sb.i + 1, 0⟩ else ⟨s.sb.i, s.sb.n + 1⟩
        blocks := (write_block
          (write_block (write_block s (b64_encode (2 ^ s.sb.i + s.sb.n)) new_block)
            (b64_encode (2 ^ s.sb.i + s.sb.n)) next')
          (b64_encode s.sb.n) (compact_block { curr with keys := ckeys })).blocks }) := by
    unfold split_next_store
    simp only [hnext, hmask]
    have hc : create_new_block s (2 ^ s.sb.i + s.sb.n)
        = (0, write_block s (b64_encode (2 ^ s.sb.i + s.sb.n)) new_block) := by
      unfold create_new_block
      rw [habsent]
    rw [hc]
    simp only [store_open]
    rw [write_block_other _ _ _ _ hne, hcurr]
    simp only [write_block_same, hmove]
    rw [Nat.mod_eq_of_lt (show s.sb.i + 1 < 2 ^ 16 by omega), Nat.mod_eq_of_lt hn1]
  have hsbi : 2 ^ (if s.sb.n = 2 ^ s.sb.i - 1 then (⟨s.sb.i + 1, 0⟩ : store_sb_t)
        else ⟨s.sb.i, s.sb.n + 1⟩).i
      + (if s.sb.n = 2 ^ s.sb.i - 1 then (⟨s.sb.i + 1, 0⟩ : store_sb_t)
        else ⟨s.sb.i, s.sb.n + 1⟩).n = 2 ^ s.sb.i + s.sb.n + 1 := by
    by_cases hl : s.sb.n = 2 ^ s.sb.i - 1
    · rw [if_pos hl]
      simp only [Nat.pow_succ]
      omega
    · rw [if_neg hl]
      show 2 ^ s.sb.i + (s.sb.n + 1) = _
      omega
  have hmap : ∀ id, do_map_key (if s.sb.n = 2 ^ s.sb.i - 1 then (⟨s.sb.i + 1, 0⟩ : store_sb_t)
        else ⟨s.sb.i, s.sb.n + 1⟩) id
        (if s.sb.n = 2 ^ s.sb.i - 1 then (⟨s.sb.i + 1, 0⟩ : store_sb_t)
          else ⟨s.sb.i, s.sb.n + 1⟩).n
      = if do_map_key s.sb id s.sb.n = s.sb.n then key_hash id % 2 ^ (s.sb.i + 1)
        else do_map_key s.sb id s.sb.n := by
    intro id
    have := do_map_key_after_split s.sb.i s.sb.n hptr id
    by_cases hl : s.sb.n = 2 ^ s.sb.i - 1
    · rw [if_pos hl] at this ⊢
      rw [if_pos hl] at this
      exact this
    · rw [if_neg hl] at this ⊢
      rw [if_neg hl] at this
      exact this
  have hblk_n : ∀ (b1 b2 : block_t), (write_block
      (write_block (write_block s (b64_encode (2 ^ s.sb.i + s.sb.n)) new_block)
        (b64_encode (2 ^ s.sb.i + s.sb.n)) b1) (b64_encode s.sb.n) b2).blocks
      (b64_encode s.sb.n) = some b2 := fun b1 b2 => write_block_same _ _ _
  have hblk_next : ∀ (b1 b2 : block_t), (write_block
      (write_block (write_block s (b64_encode (2 ^ s.sb.i + s.sb.n)) new_block)
        (b64_encode (2 ^ s.sb.i + s.sb.n)) b1) (b64_encode s.sb.n) b2).blocks
      (b64_encode (2 ^ s.sb.i + s.sb.n)) = some b1 := by
    intro b1 b2
    rw [write_block_other _ _ _ _ (Ne.symm hne), write_block_same]
  have hblk_other : ∀ (b1 b2 : block_t) (j : Nat), j < 2 ^ 64 → j ≠ s.sb.n →
      j ≠ 2 ^ s.sb.i + s.sb.n → (write_block
      (write_block (write_block s (b64_encode (2 ^ s.sb.i + s.sb.n)) new_block)
        (b64_encode (2 ^ s.sb.i + s.sb.n)) b1) (b64_encode s.sb.n) b2).blocks
      (b64_encode j) = s.blocks (b64_encode j) := by
    intro b1 b2 j hj h1 h2
    have e1 := b64_encode_ne j s.sb.n hj (by omega) h1
    have e2 := b64_encode_ne j (2 ^ s.sb.i + s.sb.n) hj (by omega) h2
    rw [write_block_other _ _ _ _ e1, write_block_other _ _ _ _ e2,
      write_block_other _ _ _ _ e2]
  have hkeep : ∀ id, do_map_key s.sb id s.sb.n = s.sb.n → split_moves s.sb id ≠ true →
      key_hash id % 2 ^ (s.sb.i + 1) = s.sb.n := by
    intro id hm hnm
    have ht := do_map_key_split_target s.sb id hptr hm
    have h2 := (split_moves_iff s.sb id hn1).not.mp hnm
    rw [ht.1] at h2
    exact not_not.mp h2
  have hgo : ∀ id, do_map_key s.sb id s.sb.n = s.sb.n → split_moves s.sb id = true →
      key_hash id % 2 ^ (s.sb.i + 1) = 2 ^ s.sb.i + s.sb.n := by
    intro id hm hmv
    have ht := do_map_key_split_target s.sb id hptr hm
    have h2 := (split_moves_iff s.sb id hn1).mp hmv
    rw [ht.1] at h2
    rcases ht.2 with e | e
    · exact absurd e h2
    · exact e
  refine ⟨_, hsplit, ⟨?_, ?_, ?_, ?_⟩, ?_⟩
  · show 2 ^ _ + _ ≤ N + 1
    rw [hsbi]
    have := h.bound
    omega
  · show (if s.sb.n = 2 ^ s.sb.i - 1 then (⟨s.sb.i + 1, 0⟩ : store_sb_t)
        else ⟨s.sb.i, s.sb.n + 1⟩).n < 2 ^ (if s.sb.n = 2 ^ s.sb.i - 1
        then (⟨s.sb.i + 1, 0⟩ : store_sb_t) else ⟨s.sb.i, s.sb.n + 1⟩).i
    by_cases hl : s.sb.n = 2 ^ s.sb.i - 1
    · rw [if_pos hl]; exact Nat.two_pow_pos _
    · rw [if_neg hl]; show s.sb.n + 1 < 2 ^ s.sb.i; omega
  · intro j hj0
    have hj : j < 2 ^ s.sb.i + s.sb.n + 1 := by rw [← hsbi]; exact hj0
    by_cases hjn : j = s.sb.n
    · subst hjn
      refine ⟨_, _, hblk_n _ _, hokcurr, ?_⟩
      intro k hk
      have hkid : k.id ∈ (repacked 0 (live.filter (fun k => !split_moves s.sb k.id))).map
          (fun k => k.id) := List.mem_map_of_mem _ hk
      rw [repacked_ids] at hkid
      obtain ⟨x, hx, hxe⟩ := List.mem_map.mp hkid
      have hxl := (List.mem_filter.mp hx).1
      have hxm : split_moves s.sb x.id ≠ true := by
        simpa using (List.mem_filter.mp hx).2
      have hxe' : x.id = k.id := hxe
      show do_map_key _ k.id _ = _
      rw [← hxe', hmap, if_pos (hmapc x hxl)]
      exact hkeep x.id (hmapc x hxl) hxm
    · by_cases hjx : j = 2 ^ s.sb.i + s.sb.n
      · subst hjx
        refine ⟨_, _, hblk_next _ _, hoknext, ?_⟩
        intro k hk
        have hkid : k.id ∈ (moved_keys 0 (live.filter (fun k => split_moves s.sb k.id))).map
            (fun k => k.id) := List.mem_map_of_mem _ hk
        rw [moved_keys_ids] at hkid
        obtain ⟨x, hx, hxe⟩ := List.mem_map.mp hkid
        have hxl := (List.mem_filter.mp hx).1
        have hxm : split_moves s.sb x.id = true := (List.mem_filter.mp hx).2
        have hxe' : x.id = k.id := hxe
        show do_map_key _ k.id _ = _
        rw [← hxe', hmap, if_pos (hmapc x hxl)]
        exact hgo x.id (hmapc x hxl) hxm
      · obtain ⟨b, lv, hb, hokb, hmapb⟩ := h.buckets j (by omega)
        refine ⟨b, lv, ?_, hokb, ?_⟩
        · show (write_block _ _ _).blocks _ = _
          rw [hblk_other _ _ j (by omega) hjn hjx, hb]
        · intro k hk
          show do_map_key _ k.id _ = _
          rw [hmap, if_neg (by rw [hmapb k hk]; exact hjn), hmapb k hk]
  · intro j hj0 hj64
    have hj : 2 ^ s.sb.i + s.sb.n + 1 ≤ j := by rw [← hsbi]; exact hj0
    show (write_block _ _ _).blocks _ = _
    rw [hblk_other _ _ j hj64 (by omega) (by omega)]
    exact h.absent j (by omega) hj64
  · intro id hid
    unfold store_lookup store_map_key store_open
    simp only []
    rw [hmap]
    by_cases hm : do_map_key s.sb id s.sb.n = s.sb.n
    · rw [if_pos hm, hm, hcurr]
      by_cases hmv : split_moves s.sb id = true
      · rw [hgo id hm hmv, hblk_next]
        simp only [Option.some_bind]
        rw [hlknext id hid, if_pos hmv]
      · rw [hkeep id hm hmv, hblk_n]
        simp only [Option.some_bind]
        rw [hlkcurr id hid, if_neg hmv]
    · rw [if_neg hm]
      have hlt2 := do_map_key_lt s.sb id
      rw [hblk_other _ _ _ (by omega) hm (by omega)]


/-! ## Putting a chunk into the store -/

theorem store_ok_mono {N M : Nat} {s : store_state_t} (h : store_ok N s) (hNM : N ≤ M) :
    store_ok M s :=
  ⟨Nat.le_trans h.bound hNM, h.ptr, h.buckets, h.absent⟩

theorem store_used_live (live : List block_key_t) (m : Nat) (h : ∀ k ∈ live, k ≠ null_key) :
    store_used (live ++ List.replicate m null_key) = live.length := by
  induction live with
  | nil =>
    induction m with
    | zero => rfl
    | succ m ih =>
      rw [List.nil_append] at ih ⊢
      rw [List.replicate_succ, store_used, ih]
      simp
  | cons k rest ih =>
    have hk := h k (List.mem_cons_self _ _)
    rw [List.cons_append, store_used, ih (fun x hx => h x (List.mem_cons_of_mem _ hx))]
    simp [hk]
    omega

theorem total_length_nulls (m : Nat) : total_length (List.replicate m null_key) = 0 := by
  induction m with
  | zero => rfl
  | succ m ih => rw [List.replicate_succ, total_length, ih]; rfl

theorem any_id_absent {b : block_t} {live : List block_key_t} (h : bucket_ok b live)
    (id : arrow_id_t) (hid : id ≠ null_id) (habs : ∀ k ∈ live, k.id ≠ id) :
    b.keys.any (fun k => decide (k.id = id)) = false := by
  rw [List.any_eq_false]
  intro x hx
  rw [h.keys] at hx
  rcases List.mem_append.mp hx with e | e
  · simpa using habs x e
  · rw [(List.mem_replicate.mp e).2]
    simpa using fun e2 : null_key.id = id => hid e2.symm

/-- The room test on a well-formed bucket that does not hold `id`. -/
theorem bucket_has_room_absent {b : block_t} {live : List block_key_t} (h : bucket_ok b live)
    (id : arrow_id_t) (len : Nat) (hid : id ≠ null_id) (habs : ∀ k ∈ live, k.id ≠ id)
    (hroom : bucket_has_room b id len = true) :
    live.length + 1 < ARROW_BLOCK_INITIAL_COUNT ∧ total_length live + len ≤ store_capacity := by
  unfold bucket_has_room at hroom
  rw [any_id_absent h id hid habs] at hroom
  simp only [Bool.false_or, Bool.and_eq_true, decide_eq_true_eq] at hroom
  have hlen := bucket_ok_length h
  have hhdr := store_header_size_eq b hlen
  have hcap := store_capacity_eq
  have halloc : b.alloc_size = 5120000 := by rw [h.alloc]; rfl
  have hused : store_used b.keys = live.length := by
    rw [h.keys]; exact store_used_live _ _ (bucket_ok_live_ne_null h)
  have htot : total_length b.keys = total_length live := by
    rw [h.keys, total_length_append, total_length_nulls]; rfl
  unfold block_t.chunk_count at hroom
  rw [hused, hlen, htot, hhdr, halloc] at hroom
  constructor
  · exact hroom.1
  · omega

/-- Replacing a bucket by a well-formed one whose chunks belong there keeps the
store well formed. -/
theorem store_ok_write {N : Nat} {s : store_state_t} (h : store_ok N s) (hN : N < 2 ^ 62)
    (j : Nat) (hj : j < 2 ^ s.sb.i + s.sb.n) (b1 : block_t) (live1 : List block_key_t)
    (hok1 : bucket_ok b1 live1) (hmap1 : ∀ k ∈ live1, do_map_key s.sb k.id s.sb.n = j) :
    store_ok N (write_block s (b64_encode j) b1) := by
  obtain ⟨hi, hlt⟩ := store_ok_level h hN
  have h62 : (2 : Nat) ^ 62 < 2 ^ 64 := by decide
  refine ⟨h.bound, h.ptr, ?_, ?_⟩
  · intro j2 hj2
    by_cases e : j2 = j
    · subst e
      exact ⟨b1, live1, write_block_same _ _ _, hok1, hmap1⟩
    · obtain ⟨b, lv, hb, hokb, hmapb⟩ := h.buckets j2 hj2
      refine ⟨b, lv, ?_, hokb, hmapb⟩
      have hj2' : j2 < 2 ^ s.sb.i + s.sb.n := hj2
      rw [write_block_other _ _ _ _ (b64_encode_ne j2 j (by omega) (by omega) e), hb]
  · intro j2 hj2 hj64
    have hj2' : 2 ^ s.sb.i + s.sb.n ≤ j2 := hj2
    rw [write_block_other _ _ _ _ (b64_encode_ne j2 j hj64 (by omega) (by omega))]
    exact h.absent j2 hj2 hj64

theorem store_lookup_write {N : Nat} {s : store_state_t} (h : store_ok N s) (hN : N < 2 ^ 62)
    (j : Nat) (hj : j < 2 ^ s.sb.i + s.sb.n) (b1 : block_t) (id : arrow_id_t) :
    store_lookup (write_block s (b64_encode j) b1) id
      = if do_map_key s.sb id s.sb.n = j then bucket_lookup b1 id else store_lookup s id := by
  obtain ⟨hi, hlt⟩ := store_ok_level h hN
  have h62 : (2 : Nat) ^ 62 < 2 ^ 64 := by decide
  unfold store_lookup store_map_key store_open
  show ((write_block s (b64_encode j) b1).blocks (b64_encode (do_map_key s.sb id s.sb.n))).bind _
    = _
  by_cases e : do_map_key s.sb id s.sb.n = j
  · rw [if_pos e, e, write_block_same]; rfl
  · rw [if_neg e]
    have hlt2 := do_map_key_lt s.sb id
    rw [write_block_other _ _ _ _ (b64_encode_ne _ j (by omega) (by omega) e)]


/-- `store_put` of a non-zero id into a well-formed store with room: the call
returns 1 if the id was stored and 0 if not, the store stays well formed (through a
split, if one follows), the id is then stored (with the bytes it had, or else the
bytes put) and every other id keeps its chunk. -/
theorem store_put_ok {N : Nat} {s : store_state_t} (h : store_ok N s) (hN : N < 2 ^ 62)
    (id : arrow_id_t) (buf : List Nat) (hid : id ≠ null_id)
    (hroom : store_has_room s id buf.length = true) :
    ∃ s', store_put s id buf
        = some (if (store_lookup s id).isSome then 1 else 0, s') ∧
      store_ok (N + 1) s' ∧
      store_lookup s' id = some ((store_lookup s id).getD buf) ∧
      ∀ id2, id2 ≠ id → id2 ≠ null_id → store_lookup s' id2 = store_lookup s id2 := by
  have hj := do_map_key_lt s.sb id
  obtain ⟨b, live, hb, hokb, hmapb⟩ := h.buckets _ hj
  have hopen : store_open s (store_map_key s.sb id) = some b := hb
  have hlk0 : store_lookup s id = bucket_lookup b id := by
    unfold store_lookup; rw [hopen]; rfl
  unfold store_has_room at hroom
  rw [hopen] at hroom
  simp only [] at hroom
  -- the bucket after `store_put_into_int`
  have key : ∃ b1 live1, store_put_into_int b id buf
        = (if (store_lookup s id).isSome then 1 else 0, b1) ∧
      bucket_ok b1 live1 ∧ (∀ k ∈ live1, do_map_key s.sb k.id s.sb.n
        = do_map_key s.sb id s.sb.n) ∧
      bucket_lookup b1 id = some ((store_lookup s id).getD buf) ∧
      ∀ id2, id2 ≠ id → id2 ≠ null_id → bucket_lookup b1 id2 = bucket_lookup b id2 := by
    rcases mem_split_first live id with habs | ⟨pre, k, post, hlive, hpre, hk⟩
    · obtain ⟨hslot, hfit⟩ := bucket_has_room_absent hokb id buf.length hid habs hroom
      have hnone : store_lookup s id = none := by
        rw [hlk0, bucket_lookup_ok hokb id hid, find_absent live id habs]; rfl
      refine ⟨_, _, ?_, bucket_ok_insert hokb id buf 1 hid habs hslot hfit, ?_, ?_, ?_⟩
      · rw [put_into_insert hokb id buf hid habs hslot hfit, hnone]; rfl
      · intro x hx
        rcases List.mem_append.mp hx with e | e
        · exact hmapb x e
        · rw [List.mem_singleton.mp e]
      · rw [bucket_lookup_insert hokb id buf 1 hid habs hslot hfit id hid, if_pos rfl, hnone]
        rfl
      · intro id2 hne hid2
        rw [bucket_lookup_insert hokb id buf 1 hid habs hslot hfit id2 hid2, if_neg hne]
    · have hsome : store_lookup s id = some (bytes_at b.data k.offset k.length) := by
        rw [hlk0, bucket_lookup_ok hokb id hid, hlive, find_present pre post k id hpre hk]; rfl
      refine ⟨_, _, ?_, bucket_ok_found hokb pre post k ((k.references + 1) % 2 ^ 16) hlive,
        ?_, ?_, ?_⟩
      · rw [put_into_found hokb id buf pre post k hlive hk, hsome]; rfl
      · intro x hx
        rcases List.mem_append.mp hx with e | e
        · exact hmapb x (by rw [hlive]; exact List.mem_append_left _ e)
        · rcases List.mem_cons.mp e with e | e
          · subst e
            exact hmapb k (by rw [hlive]; exact List.mem_append_right _ (List.mem_cons_self _ _))
          · have hx2 : x ∈ k :: post := List.mem_cons_of_mem _ e
            exact hmapb x (by rw [hlive]; exact List.mem_append_right _ hx2)
      · rw [bucket_lookup_found hokb pre post k _ hlive id hid, ← hlk0, hsome]; rfl
      · intro id2 _ hid2
        exact bucket_lookup_found hokb pre post k _ hlive id2 hid2
  obtain ⟨b1, live1, hput, hok1, hmap1, hlk1, hlk2⟩ := key
  have hs1 := store_ok_write h hN _ hj b1 live1 hok1 hmap1
  have hlks1 : ∀ id2, id2 ≠ null_id →
      store_lookup (write_block s (store_map_key s.sb id) b1) id2
        = if id2 = id then some ((store_lookup s id).getD buf) else store_lookup s id2 := by
    intro id2 hid2
    have := store_lookup_write h hN _ hj b1 id2
    unfold store_map_key
    rw [this]
    by_cases e : id2 = id
    · subst e; rw [if_pos rfl, if_pos rfl, hlk1]
    · rw [if_neg e]
      by_cases e2 : do_map_key s.sb id2 s.sb.n = do_map_key s.sb id s.sb.n
      · rw [if_pos e2, hlk2 id2 e hid2]
        unfold store_lookup store_map_key
        rw [e2]
        show _ = (store_open s (store_map_key s.sb id)).bind _
        rw [hopen]; rfl
      · rw [if_neg e2]
  have hret : ¬ (if (store_lookup s id).isSome then (1 : Int) else 0) < 0 := by
    split <;> decide
  unfold store_put
  rw [hopen]
  simp only []
  rw [hput]
  simp only []
  rw [if_neg hret]
  by_cases hload : store_load_factor_gt_max b1 = true
  · rw [if_pos hload]
    obtain ⟨s2, hsplit, hok2, hlk⟩ := split_next_store_ok hs1 hN
    refine ⟨s2, ?_, hok2, ?_, ?_⟩
    · unfold store_map_key
      rw [hsplit]; rfl
    · rw [hlk id hid]
      have := hlks1 id hid
      rw [if_pos rfl] at this
      unfold store_map_key at this
      exact this
    · intro id2 hne hid2
      rw [hlk id2 hid2]
      have := hlks1 id2 hid2
      rw [if_neg hne] at this
      unfold store_map_key at this
      exact this
  · rw [if_neg hload]
    refine ⟨_, rfl, store_ok_mono hs1 (Nat.le_succ N), ?_, ?_⟩
    · have := hlks1 id hid
      rw [if_pos rfl] at this
      exact this
    · intro id2 hne hid2
      have := hlks1 id2 hid2
      rw [if_neg hne] at this
      exact this

/-! ## The scan of `store_put_into_int` past the first empty slot -/

/-- Empty slots other than the last are passed over when the chunk does not fit what
the code counts as free. -/
theorem put_scan_null_skip (b : block_t) (id : arrow_id_t) (buf : List Nat)
    (tail : List block_key_t) (hid : id ≠ null_id) (offset : Nat)
    (hfull : size_sub (size_sub b.alloc_size (store_header_size b)) offset < buf.length) :
    ∀ (m i : Nat), i + m < b.chunk_count →
      store_put_into_int.scan b id buf (List.replicate m null_key ++ tail) i offset
        = store_put_into_int.scan b id buf tail (i + m) offset := by
  intro m
  induction m with
  | zero => intro i _; rfl
  | succ m ih =>
    intro i hi
    have hnid : ¬ null_key.id = id := fun e => hid e.symm
    rw [List.replicate_succ, List.cons_append, store_put_into_int.scan, if_neg hnid,
      if_pos rfl]
    simp only
    rw [if_pos (Or.inl (by omega)), if_neg (Nat.not_le.mpr hfull), ih (i + 1) (by omega)]
    congr 1
    omega

/-- An empty slot other than the last takes the chunk when it fits what the code
counts as free. -/
theorem put_scan_first_null (b : block_t) (id : arrow_id_t) (buf : List Nat)
    (rest : List block_key_t) (hid : id ≠ null_id) (i offset : Nat)
    (hi : i + 1 < b.chunk_count)
    (hroom : buf.length ≤ size_sub (size_sub b.alloc_size (store_header_size b)) offset) :
    store_put_into_int.scan b id buf (null_key :: rest) i offset
      = (0, { b with
                keys := (b.keys.set i ⟨id, offset % 2 ^ 32, buf.length % 2 ^ 32, 1⟩)
                data := memcpy_list b.data offset buf }) := by
  have hnid : ¬ null_key.id = id := fun e => hid e.symm
  rw [store_put_into_int.scan, if_neg hnid, if_pos rfl]
  simp only
  rw [if_pos (Or.inl hi), if_pos hroom]

/-- The last slot, when empty and when the 32 bytes after the key array are zero, is
judged like the other slots. -/
theorem put_scan_last_null (b : block_t) (id : arrow_id_t) (buf : List Nat)
    (hid : id ≠ null_id) (i offset : Nat) (hpast : key_past_end_is_null b = true)
    (hfull : size_sub (size_sub b.alloc_size (store_header_size b)) offset < buf.length) :
    store_put_into_int.scan b id buf [null_key] i offset = (-1, b) := by
  have hnid : ¬ null_key.id = id := fun e => hid e.symm
  rw [store_put_into_int.scan, if_neg hnid, if_pos rfl]
  simp only
  rw [if_pos (Or.inr hpast), if_neg (Nat.not_le.mpr hfull)]
  rfl

/-- The last slot, when empty and when the 32 bytes after the key array (the start of
the data region) are not all zero: the free space is computed from the `offset`
field read there. -/
theorem put_scan_last_stray (b : block_t) (id : arrow_id_t) (buf : List Nat)
    (hid : id ≠ null_id) (i offset : Nat) (hi : ¬ i + 1 < b.chunk_count)
    (hpast : key_past_end_is_null b = false)
    (hroom : buf.length ≤ size_sub (key_past_end_offset b) offset) :
    store_put_into_int.scan b id buf [null_key] i offset
      = (0, { b with
                keys := (b.keys.set i ⟨id, offset % 2 ^ 32, buf.length % 2 ^ 32, 1⟩)
                data := memcpy_list b.data offset buf }) := by
  have hnid : ¬ null_key.id = id := fun e => hid e.symm
  rw [store_put_into_int.scan, if_neg hnid, if_pos rfl]
  simp only
  have hc : ¬ (i + 1 < b.chunk_count ∨ key_past_end_is_null b = true) := by
    rw [hpast]; simp [hi]
  rw [if_neg hc, if_pos hroom]

theorem store_used_append (xs ys : List block_key_t) :
    store_used (xs ++ ys) = store_used xs + store_used ys := by
  induction xs with
  | nil => simp [store_used]
  | cons x xs ih => rw [List.cons_append, store_used, store_used, ih, Nat.add_assoc]

theorem store_used_le (xs : List block_key_t) : store_used xs ≤ xs.length := by
  induction xs with
  | nil => exact Nat.le_refl _
  | cons x xs ih =>
    rw [store_used, List.length_cons]
    split <;> omega

/-- `store_put` when the bucket is there, the put does not fail and the load factor
stays within 0.70. -/
theorem store_put_no_split (s : store_state_t) (id : arrow_id_t) (buf : List Nat) (b : block_t)
    (hopen : store_open s (store_map_key s.sb id) = some b)
    (hret : 0 ≤ (store_put_into_int b id buf).1)
    (hload : store_load_factor_gt_max (store_put_into_int b id buf).2 = false) :
    store_put s id buf
      = some ((store_put_into_int b id buf).1,
          write_block s (store_map_key s.sb id) (store_put_into_int b id buf).2) := by
  unfold store_put
  rw [hopen]
  simp only
  rw [if_neg (by omega), hload]
  rfl

/-- At level 0 every id is mapped to bucket 0. -/
theorem store_map_key_level_zero (sb : store_sb_t) (id : arrow_id_t) (hi : sb.i = 0)
    (hn : sb.n = 0) : store_map_key sb id = b64_encode 0 := by
  have h := do_map_key_lt sb id
  have h1 : 2 ^ sb.i + sb.n = 1 := by rw [hi, hn]; rfl
  unfold store_map_key
  have : do_map_key sb id sb.n = 0 := by omega
  rw [this]

/-! ## A chunk placed in the last slot -/

/-- A put that finds no room in a well-formed bucket whose data region does not start
with 32 zero bytes: every empty slot but the last is passed over, and the last slot
takes the chunk when its length is at most the `offset` field read past the key
array less the bytes stored.  The chunk is written at the end of the chunks stored. -/
theorem put_into_stray {b : block_t} {live : List block_key_t} (h : bucket_ok b live)
    (id : arrow_id_t) (buf : List Nat) (hid : id ≠ null_id) (habs : ∀ k ∈ live, k.id ≠ id)
    (hfull : store_capacity - total_length live < buf.length)
    (hpast : key_past_end_is_null b = false)
    (hroom : buf.length ≤ size_sub (key_past_end_offset b) (total_length live))
    (hlen : buf.length < 2 ^ 32) :
    store_put_into_int b id buf
      = (0, { b with
                keys := (live ++ List.replicate (ARROW_BLOCK_INITIAL_COUNT - 1 - live.length) null_key
                  ++ [⟨id, total_length live, buf.length, 1⟩])
                data := memcpy_list b.data (total_length live) buf }) := by
  have hcap := store_capacity_eq
  have hlen5 := bucket_ok_length h
  have hhdr := store_header_size_eq b hlen5
  have hcount := h.count
  have hfit := h.fits
  have hA : ARROW_BLOCK_INITIAL_COUNT = 5120 := rfl
  have halloc : b.alloc_size = 5120000 := by rw [h.alloc]; rfl
  have hskip : ∀ x ∈ live, x.id ≠ id ∧ x ≠ null_key :=
    fun x hx => ⟨habs x hx, bucket_ok_live_ne_null h x hx⟩
  have hcc : b.chunk_count = 5120 := hlen5
  have hfree : size_sub (size_sub b.alloc_size (store_header_size b)) (total_length live)
      = store_capacity - total_length live := by
    rw [halloc, hhdr, hcap]
    unfold size_sub
    omega
  have hkeys : b.keys = live ++ (List.replicate (ARROW_BLOCK_INITIAL_COUNT - 1 - live.length)
      null_key ++ [null_key]) := by
    rw [h.keys, replicate_null_snoc]
    congr 2
    omega
  unfold store_put_into_int
  conv => lhs; rw [hkeys]
  rw [put_scan_skip b id buf _ live 0 0 hskip (by omega), Nat.zero_add, Nat.zero_add,
    put_scan_null_skip b id buf _ hid _ (by rw [hfree]; exact hfull) _ _ (by rw [hcc]; omega),
    put_scan_last_stray b id buf hid _ _ (by rw [hcc]; omega) hpast hroom,
    Nat.mod_eq_of_lt (by omega : total_length live < 2 ^ 32), Nat.mod_eq_of_lt hlen]
  congr 2
  rw [hkeys, ← List.append_assoc]
  exact set_append_at _ [] _ _ _ (by simp)

/-- A put into a bucket that holds a chunk in its last slot and has empty slots before
it: the chunk goes into the first empty slot, at the end of the chunks that precede
it, when it fits what the code counts as free there. -/
theorem put_into_before_stray (b : block_t) (live : List block_key_t) (m : Nat)
    (k1 : block_key_t) (id : arrow_id_t) (buf : List Nat)
    (hkeys : b.keys = live ++ List.replicate (m + 1) null_key ++ [k1])
    (hcount : live.length + (m + 1) + 1 = ARROW_BLOCK_INITIAL_COUNT)
    (halloc : b.alloc_size = ARROW_BLOCK_INITIAL_COUNT * ARROW_CHUNK_SIZE)
    (hlive : ∀ x ∈ live, x.id ≠ id ∧ x ≠ null_key) (hid : id ≠ null_id)
    (hroom : total_length live + buf.length ≤ store_capacity) :
    store_put_into_int b id buf
      = (0, { b with
                keys := (live ++ [⟨id, total_length live, buf.length, 1⟩]
                  ++ List.replicate m null_key ++ [k1])
                data := memcpy_list b.data (total_length live) buf }) := by
  have hcap := store_capacity_eq
  have hA : ARROW_BLOCK_INITIAL_COUNT = 5120 := rfl
  have hlen5 : b.keys.length = ARROW_BLOCK_INITIAL_COUNT := by
    rw [hkeys]; simp; omega
  have hhdr := store_header_size_eq b hlen5
  have halloc2 : b.alloc_size = 5120000 := by rw [halloc]; rfl
  have hcc : b.chunk_count = 5120 := hlen5
  have hfree : size_sub (size_sub b.alloc_size (store_header_size b)) (total_length live)
      = store_capacity - total_length live := by
    rw [halloc2, hhdr, hcap]
    unfold size_sub
    omega
  have hkeys2 : b.keys = live ++ (null_key :: (List.replicate m null_key ++ [k1])) := by
    rw [hkeys, List.replicate_succ, List.append_assoc]
    rfl
  unfold store_put_into_int
  conv => lhs; rw [hkeys2]
  rw [put_scan_skip b id buf _ live 0 0 hlive (by omega), Nat.zero_add, Nat.zero_add,
    put_scan_first_null b id buf _ hid _ _ (by rw [hcc]; omega) (by rw [hfree]; omega),
    Nat.mod_eq_of_lt (by omega : total_length live < 2 ^ 32),
    Nat.mod_eq_of_lt (by omega : buf.length < 2 ^ 32)]
  congr 2
  rw [hkeys2, set_append_at _ _ _ _ _ rfl]
  simp

theorem memcpy_list_const (mem : Nat → Nat) (o : Nat) (buf : List Nat) (a p : Nat)
    (hbuf : ∀ x ∈ buf, x = a) (h1 : o ≤ p) (h2 : p < o + buf.length) :
    memcpy_list mem o buf p = a := by
  unfold memcpy_list
  rw [if_pos ⟨h1, h2⟩, List.getD_eq_getElem?_getD, List.getElem?_eq_getElem (by omega)]
  exact hbuf _ (List.getElem_mem _)

/-- The load factor of a default-sized bucket with at most 3584 occupied slots is
within 0.70. -/
theorem load_factor_within (b : block_t) (hlen : b.keys.length = ARROW_BLOCK_INITIAL_COUNT)
    (hused : store_used b.keys ≤ 3584) : store_load_factor_gt_max b = false := by
  unfold store_load_factor_gt_max block_t.chunk_count
  rw [hlen]
  have hA : ARROW_BLOCK_INITIAL_COUNT = 5120 := rfl
  simp only [decide_eq_false_iff_not]
  omega

/-! ## Room in a store of one bucket -/

theorem store_ok_one {s : store_state_t} (h : store_ok 1 s) : s.sb.i = 0 ∧ s.sb.n = 0 := by
  have hb := h.bound
  have hp := Nat.two_pow_pos s.sb.i
  have hn : s.sb.n = 0 := by omega
  refine ⟨?_, hn⟩
  by_contra hi
  have : 2 ^ 1 ≤ 2 ^ s.sb.i := Nat.pow_le_pow_right (by decide) (Nat.pos_of_ne_zero hi)
  omega

theorem total_length_found (pre post : List block_key_t) (k : block_key_t) (r : Nat) :
    total_length (pre ++ { k with references := r } :: post)
      = total_length (pre ++ k :: post) := by
  rw [total_length_append, total_length_append]
  rfl

/-- The room test on a well-formed bucket with a free slot other than the last and
enough free bytes. -/
theorem bucket_has_room_of_ok {b : block_t} {live : List block_key_t} (h : bucket_ok b live)
    (id : arrow_id_t) (len : Nat) (hslot : live.length + 1 < ARROW_BLOCK_INITIAL_COUNT)
    (hfit : total_length live + len ≤ store_capacity) : bucket_has_room b id len = true := by
  have hlen := bucket_ok_length h
  have hhdr := store_header_size_eq b hlen
  have hcap := store_capacity_eq
  have halloc : b.alloc_size = 5120000 := by rw [h.alloc]; rfl
  have hused : store_used b.keys = live.length := by
    rw [h.keys]; exact store_used_live _ _ (bucket_ok_live_ne_null h)
  have htot : total_length b.keys = total_length live := by
    rw [h.keys, total_length_append, total_length_nulls, Nat.add_zero]
  have hcc : b.chunk_count = ARROW_BLOCK_INITIAL_COUNT := hlen
  unfold bucket_has_room
  rw [hused, htot, hcc, halloc, hhdr]
  simp only [Bool.or_eq_true, Bool.and_eq_true, decide_eq_true_eq]
  right
  exact ⟨hslot, by omega⟩

/-- A put on a store of one bucket with at most 3583 chunks and enough free bytes: the
store has room, the put succeeds without a split and leaves a store of one bucket. -/
theorem put_small {s : store_state_t} (h : store_ok 1 s) (id : arrow_id_t) (buf : List Nat)
    (hid : id ≠ null_id) {b : block_t} {live : List block_key_t}
    (hb : s.blocks (b64_encode 0) = some b) (hok : bucket_ok b live)
    (hcount : live.length + 1 ≤ 3584)
    (hbytes : total_length live + buf.length ≤ store_capacity) :
    store_has_room s id buf.length = true ∧
    ∃ r b1 live1, store_put s id buf = some (r, write_block s (b64_encode 0) b1) ∧ 0 ≤ r ∧
      store_ok 1 (write_block s (b64_encode 0) b1) ∧ bucket_ok b1 live1 ∧
      live1.length ≤ live.length + 1 ∧
      total_length live1 ≤ total_length live + buf.length := by
  obtain ⟨hi, hn⟩ := store_ok_one h
  have hA : ARROW_BLOCK_INITIAL_COUNT = 5120 := rfl
  have hmk : store_map_key s.sb id = b64_encode 0 := store_map_key_level_zero _ _ hi hn
  have hopen : store_open s (store_map_key s.sb id) = some b := by rw [hmk]; exact hb
  have hj : 0 < 2 ^ s.sb.i + s.sb.n := by rw [hi, hn]; decide
  have hmapall : ∀ (l : List block_key_t), ∀ k ∈ l, do_map_key s.sb k.id s.sb.n = 0 := by
    intro l k _
    have := do_map_key_lt s.sb k.id
    rw [hi, hn] at this
    have h2 : do_map_key s.sb k.id s.sb.n < 1 := by
      have e : do_map_key s.sb k.id s.sb.n = do_map_key s.sb k.id 0 := by rw [hn]
      rw [e]; exact this
    omega
  have hroom : store_has_room s id buf.length = true := by
    unfold store_has_room
    rw [hopen]
    exact bucket_has_room_of_ok hok id buf.length (by omega) hbytes
  refine ⟨hroom, ?_⟩
  have fin : ∀ (r : Int) (b1 : block_t) (live1 : List block_key_t), 0 ≤ r →
      store_put_into_int b id buf = (r, b1) → bucket_ok b1 live1 → live1.length ≤ 3584 →
      store_put s id buf = some (r, write_block s (b64_encode 0) b1) ∧
      store_ok 1 (write_block s (b64_encode 0) b1) := by
    intro r b1 live1 hr hput hok1 hl1
    have h1 := store_put_no_split s id buf b hopen (by rw [hput]; exact hr)
      (by rw [hput]
          exact load_factor_within b1 (bucket_ok_length hok1) (by
            rw [hok1.keys, store_used_live _ _ (bucket_ok_live_ne_null hok1)]
            exact hl1))
    rw [hput, hmk] at h1
    exact ⟨h1, store_ok_write h (by decide) 0 hj b1 live1 hok1 (hmapall live1)⟩
  rcases mem_split_first live id with habs | ⟨pre, k, post, hlive, hpre, hk⟩
  · have hput := put_into_insert hok id buf hid habs (by omega) hbytes
    have hok1 := bucket_ok_insert hok id buf 1 hid habs (by omega) hbytes
    have hl : (live ++ [(⟨id, total_length live, buf.length, 1⟩ : block_key_t)]).length
        = live.length + 1 := by simp
    obtain ⟨h1, h2⟩ := fin 0 _ _ (by decide) hput hok1 (by rw [hl]; exact hcount)
    refine ⟨0, _, _, h1, by decide, h2, hok1, by rw [hl], ?_⟩
    rw [total_length_append]
    exact Nat.le_of_eq (by simp [total_length])
  · have hput := put_into_found hok id buf pre post k hlive hk
    have hok1 := bucket_ok_found hok pre post k ((k.references + 1) % 2 ^ 16) hlive
    have hl : (pre ++ { k with references := (k.references + 1) % 2 ^ 16 } :: post).length
        = live.length := by rw [hlive]; simp
    obtain ⟨h1, h2⟩ := fin 1 _ _ (by decide) hput hok1 (by rw [hl]; omega)
    refine ⟨1, _, _, h1, by decide, h2, hok1, by rw [hl]; omega, ?_⟩
    rw [total_length_found, ← hlive]
    omega

/-- A store of one bucket has room for every put of a sequence of puts of non-zero
ids when the chunks it holds and the puts together are at most 3584 and their bytes
at most what the code counts as free in a bucket. -/
theorem puts_have_room_small :
    ∀ (ops : List (arrow_id_t × List Nat)) (s : store_state_t) (b : block_t)
      (live : List block_key_t), store_ok 1 s → s.blocks (b64_encode 0) = some b →
      bucket_ok b live → (∀ op ∈ ops, op.1 ≠ null_id) → live.length + ops.length ≤ 3584 →
      total_length live + puts_bytes ops ≤ store_capacity → puts_have_room s ops = true := by
  intro ops
  induction ops with
  | nil => intro _ _ _ _ _ _ _ _ _; rfl
  | cons op rest ih =>
    intro s b live h hb hok hids hcount hbytes
    rw [List.length_cons] at hcount
    rw [puts_bytes] at hbytes
    obtain ⟨hroom, r, b1, live1, hput, _, hok1, hbok1, hl1, ht1⟩ :=
      put_small h op.1 op.2 (hids op (List.mem_cons_self _ _)) hb hok (by omega) (by omega)
    rw [puts_have_room, hput, hroom]
    simp only [Bool.and_eq_true, decide_eq_true_eq, Bool.true_and, and_true]
    refine ⟨hids op (List.mem_cons_self _ _), ?_⟩
    exact ih _ b1 live1 hok1 (write_block_same _ _ _) hbok1
      (fun o ho => hids o (List.mem_cons_of_mem _ ho)) (by omega) (by omega)

/-- A store of one bucket has room for a generate run over blocks with non-zero ids
when the chunks it holds and the blocks together are at most 3584 and their bytes at
most what the code counts as free in a bucket. -/
theorem generate_has_room_small :
    ∀ (blocks : List (List Nat)) (s : store_state_t) (b : block_t)
      (live : List block_key_t), store_ok 1 s → s.blocks (b64_encode 0) = some b →
      bucket_ok b live →
      (∀ blk ∈ blocks, MAX_DIRECT_CHUNK_SIZE < blk.length → arrow_compute_key blk ≠ null_id) →
      live.length + blocks.length ≤ 3584 →
      total_length live + blocks_bytes blocks ≤ store_capacity →
      sync_generate.has_room s blocks = true := by
  intro blocks
  induction blocks with
  | nil => intro _ _ _ _ _ _ _ _ _; rfl
  | cons blk rest ih =>
    intro s b live h hb hok hids hcount hbytes
    rw [List.length_cons] at hcount
    rw [blocks_bytes] at hbytes
    have hrest : sync_generate.has_room s rest = true :=
      ih s b live h hb hok (fun o ho => hids o (List.mem_cons_of_mem _ ho)) (by omega)
        (by omega)
    rw [sync_generate.has_room]
    by_cases hd : blk.length ≤ MAX_DIRECT_CHUNK_SIZE
    · rw [if_pos hd]; exact hrest
    · rw [if_neg hd]
      by_cases hc : store_contains s (arrow_compute_key blk) = 0
      · rw [if_pos hc]
        have hnz := hids blk (List.mem_cons_self _ _) (Nat.lt_of_not_le hd)
        obtain ⟨hroom, r, b1, live1, hput, _, hok1, hbok1, hl1, ht1⟩ :=
          put_small h (arrow_compute_key blk) blk hnz hb hok (by omega) (by omega)
        rw [hput, hroom]
        simp only [Bool.true_and]
        exact ih _ b1 live1 hok1 (write_block_same _ _ _) hbok1
          (fun o ho => hids o (List.mem_cons_of_mem _ ho)) (by omega) (by omega)
      · rw [if_neg hc]; exact hrest

/-! ## Sequences of puts on a new store -/

theorem store_init_eq : store_init = write_block ⟨⟨0, 0⟩, fun _ => none⟩ (b64_encode 0) new_block :=
  rfl

theorem store_init_ok : store_ok 1 store_init := by
  refine ⟨by decide, by decide, ?_, ?_⟩
  · intro j hj
    have hj0 : j = 0 := by
      have : j < 1 := hj
      omega
    subst hj0
    refine ⟨new_block, [], ?_, bucket_ok_new_block, fun k hk => absurd hk (List.not_mem_nil _)⟩
    rw [store_init_eq]
    exact write_block_same _ _ _
  · intro j hj hj64
    have hj1 : 1 ≤ j := hj
    rw [store_init_eq, write_block_other _ _ _ _ (b64_encode_ne j 0 hj64 (by decide) (by omega))]

theorem store_lookup_init (id : arrow_id_t) (hid : id ≠ null_id) :
    store_lookup store_init id = none := by
  have hj := do_map_key_lt store_init.sb id
  have hj0 : do_map_key store_init.sb id store_init.sb.n = 0 := by
    have : do_map_key store_init.sb id store_init.sb.n < 1 := hj
    omega
  unfold store_lookup store_map_key store_open
  rw [hj0, store_init_eq, write_block_same]
  exact bucket_lookup_new_block id hid

theorem store_contains_scan_eq (id : arrow_id_t) (ks : List block_key_t) :
    store_contains.scan id ks
      = if (ks.find? (fun k => decide (k.id = id))).isSome then 1 else 0 := by
  induction ks with
  | nil => rfl
  | cons k rest ih =>
    by_cases h : k.id = id
    · simp [store_contains.scan, h]
    · simp [store_contains.scan, h, ih]

/-- `store_contains` answers whether the store holds a chunk for `id`. -/
theorem store_contains_eq (s : store_state_t) (id : arrow_id_t) :
    store_contains s id = if (store_lookup s id).isSome then 1 else 0 := by
  unfold store_contains store_lookup
  cases store_open s (store_map_key s.sb id) with
  | none => rfl
  | some b =>
    simp only [Option.some_bind]
    rw [store_contains_scan_eq]
    simp [bucket_lookup]

theorem bytes_at_take (mem : Nat → Nat) (off n m : Nat) :
    (bytes_at mem off n).take m = bytes_at mem off (min n m) := by
  apply List.ext_getElem
  · simp [bytes_at, Nat.min_comm]
  · intro t h1 h2
    simp [bytes_at]

/-- `store_get` returns the length of the chunk the store holds for `id` and copies
its first `maxlen` bytes to the start of `out`. -/
theorem store_get_eq (s : store_state_t) (id : arrow_id_t) (bytes : List Nat)
    (h : store_lookup s id = some bytes) (out : Nat → Nat) (maxlen : Nat) :
    (store_get s id out maxlen).1 = bytes.length ∧
    bytes_at (store_get s id out maxlen).2 0 (min bytes.length maxlen) = bytes.take maxlen := by
  unfold store_lookup at h
  unfold store_get
  cases hb : store_open s (store_map_key s.sb id) with
  | none => rw [hb] at h; cases h
  | some b =>
    rw [hb] at h
    simp only [Option.some_bind] at h
    rw [bucket_lookup_eq] at h
    cases hk : b.keys.find? (fun k => decide (k.id = id)) with
    | none => rw [hk] at h; cases h
    | some k =>
      rw [hk] at h
      have hbytes : bytes = bytes_at b.data k.offset k.length := (Option.some.inj h).symm
      have hlen : bytes.length = k.length := by rw [hbytes, bytes_at_length]
      show (store_get_from b id out maxlen).1 = bytes.length ∧
        bytes_at (store_get_from b id out maxlen).2 0 (min bytes.length maxlen)
          = bytes.take maxlen
      unfold store_get_from
      rw [store_get_from_scan_eq, hk, hlen]
      refine ⟨rfl, ?_⟩
      rw [hbytes, bytes_at_take]
      apply bytes_at_congr
      intro t ht
      simp [memcpy, ht]

theorem store_put_seq_ok :
    ∀ (ops : List (arrow_id_t × List Nat)) (N : Nat) (s : store_state_t), store_ok N s →
      N + ops.length < 2 ^ 62 → puts_have_room s ops = true →
      ∃ s', store_put_seq s ops = some s' ∧ store_ok (N + ops.length) s' ∧
        ∀ id, id ≠ null_id →
          store_lookup s' id
            = match store_lookup s id with
              | some old => some old
              | none => first_put id ops := by
  intro ops
  induction ops with
  | nil =>
    intro N s h _ _
    refine ⟨s, rfl, h, ?_⟩
    intro id _
    cases store_lookup s id <;> rfl
  | cons op rest ih =>
    intro N s h hN hroom
    rw [List.length_cons] at hN
    unfold puts_have_room at hroom
    simp only [Bool.and_eq_true, decide_eq_true_eq] at hroom
    obtain ⟨⟨hid, hr⟩, hrest⟩ := hroom
    obtain ⟨s1, hput, hok1, hself, hother⟩ := store_put_ok h (by omega) op.1 op.2 hid hr
    rw [hput] at hrest
    simp only at hrest
    obtain ⟨s2, hseq, hok2, hlk⟩ := ih (N + 1) s1 hok1 (by omega) hrest
    refine ⟨s2, ?_, ?_, ?_⟩
    · unfold store_put_seq
      rw [hput]
      simp only
      rw [if_pos (by split <;> decide)]
      exact hseq
    · rw [List.length_cons]
      have : N + (rest.length + 1) = N + 1 + rest.length := by omega
      rw [this]
      exact hok2
    · intro id hidn
      rw [hlk id hidn]
      by_cases he : op.1 = id
      · subst he
        rw [hself]
        cases hs : store_lookup s op.1 with
        | some old => rfl
        | none => simp [first_put]
      · rw [hother id (fun e => he e.symm) hidn]
        cases hs : store_lookup s id with
        | some old => rfl
        | none => simp [first_put, he]


/-! ## Generating a record and reading it back -/

theorem store_extends_refl (s : store_state_t) : store_extends s s :=
  fun _ _ _ h => h

theorem store_extends_trans {s t u : store_state_t} (h1 : store_extends s t)
    (h2 : store_extends t u) : store_extends s u :=
  fun id bytes hid h => h2 id bytes hid (h1 id bytes hid h)

theorem reconstruct_cons (s : store_state_t) (c : file_chunk_t) (cs : List file_chunk_t) :
    reconstruct s (c :: cs) = chunk_bytes s c ++ reconstruct s cs := rfl

theorem reconstruct_append (s : store_state_t) (cs ds : List file_chunk_t) :
    reconstruct s (cs ++ ds) = reconstruct s cs ++ reconstruct s ds := by
  induction cs with
  | nil => rfl
  | cons c cs ih => rw [List.cons_append, reconstruct_cons, reconstruct_cons, ih, List.append_assoc]

/-- A `REFERENCE` entry of the chunk's length reads back as the chunk the store holds. -/
theorem chunk_bytes_reference (s : store_state_t) (id : arrow_id_t) (blk : List Nat)
    (h : store_lookup s id = some blk) (hlen : blk.length < SIZE_NOT_FOUND) :
    chunk_bytes s (file_chunk_t.REFERENCE blk.length id) = blk := by
  obtain ⟨h1, h2⟩ := store_get_eq s id blk h (fun _ => 0) blk.length
  show (if (store_get s id (fun _ => 0) blk.length).1 = SIZE_NOT_FOUND then []
    else bytes_at (store_get s id (fun _ => 0) blk.length).2 0
      (min (store_get s id (fun _ => 0) blk.length).1 blk.length)) = blk
  rw [if_neg (by rw [h1]; exact Nat.ne_of_lt hlen), h1, h2, List.take_length]

theorem drop_take_length (l : List Nat) (n : Nat) : l.drop (l.take n).length = l.drop n := by
  rw [List.length_take]
  by_cases h : n ≤ l.length
  · rw [Nat.min_eq_left h]
  · have h2 : l.length ≤ n := Nat.le_of_not_le h
    rw [Nat.min_eq_right h2, List.drop_of_length_le (Nat.le_refl _), List.drop_of_length_le h2]

theorem bufsize_bounds (size : Nat) :
    MIN_CHUNK_SIZE ≤ sync_generate.bufsize size ∧ sync_generate.bufsize size ≤ MAX_CHUNK_SIZE := by
  unfold sync_generate.bufsize MIN_CHUNK_SIZE MAX_CHUNK_SIZE
  simp only
  split <;> split <;> omega

theorem generate_loop_ok (bufsize : Nat) (hb0 : 0 < bufsize) (hb1 : bufsize ≤ MAX_CHUNK_SIZE) :
    ∀ (fuel N : Nat) (f : FILE) (md5 : List Nat) (st : sync_store_state_t),
      (f.eof = true → f.content.length ≤ f.pos) →
      f.content.length - f.pos < fuel →
      store_ok N st.store → N + fuel ≤ 2 ^ 62 →
      (∀ blk ∈ sync_generate.blocks bufsize fuel (f.content.drop f.pos),
        MAX_DIRECT_CHUNK_SIZE < blk.length →
          arrow_compute_key blk ≠ null_id ∧
          (∀ bytes, store_lookup st.store (arrow_compute_key blk) = some bytes → bytes = blk) ∧
          ∀ blk2 ∈ sync_generate.blocks bufsize fuel (f.content.drop f.pos),
            MAX_DIRECT_CHUNK_SIZE < blk2.length →
              arrow_compute_key blk2 = arrow_compute_key blk → blk2 = blk) →
      sync_generate.has_room st.store
        (sync_generate.blocks bufsize fuel (f.content.drop f.pos)) = true →
      ∃ md5' st' new,
        sync_generate.loop sync_store_callbacks bufsize fuel f md5 st = some (md5', st') ∧
        st'.chunks_out = st.chunks_out ++ new ∧
        store_extends st.store st'.store ∧
        ∀ s2, store_extends st'.store s2 → reconstruct s2 new = f.content.drop f.pos := by
  intro fuel
  induction fuel with
  | zero => intro N f md5 st _ hfuel; omega
  | succ fuel ih =>
    intro N f md5 st heof hfuel hok hN hblocks hroom
    unfold sync_generate.loop
    by_cases he : f.eof = true
    · rw [if_pos he]
      refine ⟨md5, st, [], rfl, (List.append_nil _).symm, store_extends_refl _, ?_⟩
      intro s2 _
      rw [List.drop_of_length_le (heof he)]
      rfl
    · rw [if_neg he]
      simp only
      have hbuf : (fread f bufsize).1 = (f.content.drop f.pos).take bufsize := rfl
      by_cases hz : ((fread f bufsize).1).length ≤ 0
      · rw [if_pos hz]
        refine ⟨md5, st, [], rfl, (List.append_nil _).symm, store_extends_refl _, ?_⟩
        intro s2 _
        rw [hbuf, List.length_take] at hz
        have : (f.content.drop f.pos).length = 0 := by
          have := Nat.le_zero.mp hz
          rcases Nat.le_total bufsize (f.content.drop f.pos).length with h | h
          · rw [Nat.min_eq_left h] at this; omega
          · rw [Nat.min_eq_right h] at this; exact this
        rw [List.length_eq_zero.mp this]
        rfl
      · rw [if_neg hz]
        -- the stream after the read
        have hpos : (fread f bufsize).2.pos = f.pos + ((fread f bufsize).1).length := rfl
        have hcont : (fread f bufsize).2.content = f.content := rfl
        have hdrop : (fread f bufsize).2.content.drop (fread f bufsize).2.pos
            = (f.content.drop f.pos).drop bufsize := by
          rw [hcont, hpos, ← List.drop_drop, hbuf, drop_take_length]
        have hlenle : ((fread f bufsize).1).length ≤ bufsize := by
          rw [hbuf, List.length_take]; exact Nat.min_le_left _ _
        have hlenle2 : ((fread f bufsize).1).length ≤ f.content.length - f.pos := by
          rw [hbuf, List.length_take, List.length_drop]; exact Nat.min_le_right _ _
        have hpos1 : 0 < ((fread f bufsize).1).length := Nat.lt_of_not_le hz
        have heof2 : (fread f bufsize).2.eof = true →
            (fread f bufsize).2.content.length ≤ (fread f bufsize).2.pos := by
          intro h
          have h2 : (f.eof || decide (((fread f bufsize).1).length < bufsize)) = true := h
          rw [Bool.or_eq_true, decide_eq_true_eq] at h2
          rcases h2 with h2 | h2
          · exact absurd h2 he
          · rw [hcont, hpos]
            have : ((fread f bufsize).1).length = f.content.length - f.pos := by
              rw [hbuf, List.length_take, List.length_drop] at h2 ⊢
              rcases Nat.le_total bufsize (f.content.length - f.pos) with h3 | h3
              · rw [Nat.min_eq_left h3] at h2; omega
              · rw [Nat.min_eq_right h3]
            omega
        have hfuel2 : (fread f bufsize).2.content.length - (fread f bufsize).2.pos < fuel := by
          rw [hcont, hpos]; omega
        have hbl : sync_generate.blocks bufsize (fuel + 1) (f.content.drop f.pos)
            = (fread f bufsize).1
                :: sync_generate.blocks bufsize fuel
                    ((fread f bufsize).2.content.drop (fread f bufsize).2.pos) := by
          rw [hdrop, sync_generate.blocks, if_neg (by rw [← hbuf]; exact hz)]
          rfl
        rw [hbl] at hblocks hroom
        have hsplit : f.content.drop f.pos
            = (fread f bufsize).1
                ++ (fread f bufsize).2.content.drop (fread f bufsize).2.pos := by
          rw [hdrop, hbuf, List.take_append_drop]
        generalize hB : (fread f bufsize).1 = buffer at *
        generalize hF : (fread f bufsize).2 = f2 at *
        by_cases hd : buffer.length ≤ MAX_DIRECT_CHUNK_SIZE
        · rw [if_pos hd]
          have hroom2 : sync_generate.has_room st.store
              (sync_generate.blocks bufsize fuel (f2.content.drop f2.pos)) = true := by
            rw [sync_generate.has_room, if_pos hd] at hroom
            exact hroom
          obtain ⟨md5', st', new, hloop, hout, hext, hrec⟩ :=
            ih N f2 (md5 ++ buffer)
              { st with chunks_out := st.chunks_out ++ [file_chunk_t.DIRECT_CHUNK buffer] }
              heof2 hfuel2 hok (by omega)
              (fun blk hblk hl =>
                ⟨(hblocks blk (List.mem_cons_of_mem _ hblk) hl).1,
                 (hblocks blk (List.mem_cons_of_mem _ hblk) hl).2.1,
                 fun blk2 hblk2 => (hblocks blk (List.mem_cons_of_mem _ hblk) hl).2.2 blk2
                   (List.mem_cons_of_mem _ hblk2)⟩)
              hroom2
          refine ⟨md5', st', file_chunk_t.DIRECT_CHUNK buffer :: new, ?_, ?_, hext, ?_⟩
          · show (sync_store_emit_chunk st (file_chunk_t.DIRECT_CHUNK buffer)).bind _ = _
            exact hloop
          · rw [hout]; simp
          · intro s2 hs2
            rw [reconstruct_cons, hrec s2 hs2, hsplit]
            rfl
        · rw [if_neg hd]
          have hgt : MAX_DIRECT_CHUNK_SIZE < buffer.length := Nat.lt_of_not_le hd
          obtain ⟨hnz, hcons, hcf⟩ := hblocks buffer (List.mem_cons_self _ _) hgt
          have hmax : MAX_CHUNK_SIZE = 16000 := rfl
          have hmod : buffer.length % 2 ^ 32 = buffer.length :=
            Nat.mod_eq_of_lt (by omega)
          have hsnf : buffer.length < SIZE_NOT_FOUND := by
            have : SIZE_NOT_FOUND = 2 ^ 64 - 1 := rfl
            omega
          rw [hmod]
          simp only [sync_store_callbacks, sync_store_emit_chunk, sync_store_contains,
            Option.some_bind]
          rw [sync_generate.has_room, if_neg hd] at hroom
          rw [store_contains_eq] at hroom ⊢
          cases hlk : store_lookup st.store (arrow_compute_key buffer) with
          | none =>
            rw [hlk] at hroom
            simp only [Option.isSome_none, Bool.false_eq_true, if_false, if_true,
              Bool.and_eq_true] at hroom ⊢
            obtain ⟨hr, hrest⟩ := hroom
            obtain ⟨s1, hput, hok1, hself, hother⟩ :=
              store_put_ok hok (by omega) (arrow_compute_key buffer) buffer hnz hr
            rw [hlk] at hput hself
            rw [hput] at hrest
            simp only at hrest
            have hself1 : store_lookup s1 (arrow_compute_key buffer) = some buffer := hself
            obtain ⟨md5', st', new, hloop, hout, hext, hrec⟩ :=
              ih (N + 1) f2 (md5 ++ buffer)
                { store := s1
                  chunks_out := st.chunks_out
                    ++ [file_chunk_t.REFERENCE buffer.length (arrow_compute_key buffer)] }
                heof2 hfuel2 hok1 (by omega)
                (fun blk hblk hl => by
                  obtain ⟨a1, a2, a3⟩ := hblocks blk (List.mem_cons_of_mem _ hblk) hl
                  refine ⟨a1, ?_, fun blk2 hblk2 => a3 blk2 (List.mem_cons_of_mem _ hblk2)⟩
                  intro bytes hb
                  by_cases hk : arrow_compute_key blk = arrow_compute_key buffer
                  · have hbb : buffer = blk := a3 buffer (List.mem_cons_self _ _) hgt hk.symm
                    have hb2 : store_lookup s1 (arrow_compute_key blk) = some bytes := hb
                    rw [hk, hself1] at hb2
                    rw [← hbb]
                    exact (Option.some.inj hb2).symm
                  · have hb2 : store_lookup s1 (arrow_compute_key blk) = some bytes := hb
                    rw [hother _ hk a1] at hb2
                    exact a2 bytes hb2)
                hrest
            have hext1 : store_extends st.store s1 := by
              intro id bytes hid h
              by_cases hk : id = arrow_compute_key buffer
              · rw [hk, hlk] at h; cases h
              · rw [hother id hk hid]; exact h
            refine ⟨md5', st',
              file_chunk_t.REFERENCE buffer.length (arrow_compute_key buffer) :: new, ?_, ?_,
              store_extends_trans hext1 hext, ?_⟩
            · show (sync_store_put_block _ _ _).bind _ = _
              unfold sync_store_put_block
              simp only
              rw [hput]
              exact hloop
            · rw [hout]; simp
            · intro s2 hs2
              rw [reconstruct_cons, hrec s2 hs2,
                chunk_bytes_reference s2 _ buffer
                  (hs2 (arrow_compute_key buffer) buffer hnz
                    (hext (arrow_compute_key buffer) buffer hnz hself1)) hsnf, hsplit]
          | some bytes =>
            rw [hlk] at hroom
            simp only [Option.isSome_some, if_true] at hroom ⊢
            rw [if_neg (by decide)] at hroom ⊢
            have hbytes : bytes = buffer := hcons bytes hlk
            rw [hbytes] at hlk
            obtain ⟨md5', st', new, hloop, hout, hext, hrec⟩ :=
              ih N f2 (md5 ++ buffer)
                { st with chunks_out := st.chunks_out
                    ++ [file_chunk_t.REFERENCE buffer.length (arrow_compute_key buffer)] }
                heof2 hfuel2 hok (by omega)
                (fun blk hblk hl =>
                  ⟨(hblocks blk (List.mem_cons_of_mem _ hblk) hl).1,
                   (hblocks blk (List.mem_cons_of_mem _ hblk) hl).2.1,
                   fun blk2 hblk2 => (hblocks blk (List.mem_cons_of_mem _ hblk) hl).2.2 blk2
                     (List.mem_cons_of_mem _ hblk2)⟩)
                hroom
            refine ⟨md5', st',
              file_chunk_t.REFERENCE buffer.length (arrow_compute_key buffer) :: new, hloop, ?_,
              hext, ?_⟩
            · rw [hout]; simp
            · intro s2 hs2
              rw [reconstruct_cons, hrec s2 hs2,
                chunk_bytes_reference s2 _ buffer
                  (hs2 (arrow_compute_key buffer) buffer hnz
                    (hext (arrow_compute_key buffer) buffer hnz hlk)) hsnf, hsplit]

/-- C1. Generate-then-reconstruct.  `sync_generate` runs on a file holding `F` with
the local store callbacks on a well-formed store `s0` (of at most `N` buckets, with
`N + |F|` below 2^62), where, for the blocks the run reads that are longer than a
direct chunk: no block has the all-zero ChunkId (the mark of an empty slot), no two
different blocks share a ChunkId, a chunk the store already holds under a block's
ChunkId is that block, and the store has room for every put of the run.  Then the
run returns 0, and the entries it emitted, read back in order (the bytes of a
`DIRECT_CHUNK` entry; for a `REFERENCE` entry the bytes `store_get` returns for
its id), give exactly `F`. -/
theorem sync_generate_reconstructs {N : Nat} (F : List Nat) (s0 : store_state_t)
    (hok : store_ok N s0) (hN : N + F.length < 2 ^ 62)
    (hids : ∀ blk ∈ sync_generate.blocks (sync_generate.bufsize F.length) (F.length + 1) F,
      MAX_DIRECT_CHUNK_SIZE < blk.length → arrow_compute_key blk ≠ null_id)
    (hdistinct :
      ∀ b1 ∈ sync_generate.blocks (sync_generate.bufsize F.length) (F.length + 1) F,
      ∀ b2 ∈ sync_generate.blocks (sync_generate.bufsize F.length) (F.length + 1) F,
        MAX_DIRECT_CHUNK_SIZE < b1.length → MAX_DIRECT_CHUNK_SIZE < b2.length →
          arrow_compute_key b1 = arrow_compute_key b2 → b1 = b2)
    (hstore : ∀ blk ∈ sync_generate.blocks (sync_generate.bufsize F.length) (F.length + 1) F,
      MAX_DIRECT_CHUNK_SIZE < blk.length →
        ∀ bytes, store_lookup s0 (arrow_compute_key blk) = some bytes → bytes = blk)
    (hroom : sync_generate.has_room s0
      (sync_generate.blocks (sync_generate.bufsize F.length) (F.length + 1) F) = true) :
    ∃ r, sync_generate F sync_store_callbacks ⟨s0, []⟩ = some r ∧ r.ret = 0 ∧
      reconstruct r.state.store r.state.chunks_out = F := by
  obtain ⟨hmin, hmax⟩ := bufsize_bounds F.length
  have hmin2 : MIN_CHUNK_SIZE = 700 := rfl
  obtain ⟨md5', st', new, hloop, hout, _, hrec⟩ :=
    generate_loop_ok (sync_generate.bufsize F.length) (by omega) hmax (F.length + 1) N
      (fopen F) [] ⟨s0, []⟩ (fun h => by cases h)
      (by show F.length - 0 < F.length + 1; omega) hok (by omega)
      (fun blk hblk hl =>
        ⟨hids blk hblk hl, hstore blk hblk hl,
          fun blk2 hblk2 hl2 => hdistinct blk2 hblk2 blk hblk hl2 hl⟩)
      hroom
  refine ⟨{ ret := 0, hash_match := 0, chunk_size := some (sync_generate.bufsize F.length),
            hash := some (MD5 md5'),
            state := { st' with chunks_out := st'.chunks_out ++ [file_chunk_t.END_OF_CHUNKS] } },
    ?_, rfl, ?_⟩
  · unfold sync_generate
    rw [hloop]
    rfl
  · show reconstruct st'.store (st'.chunks_out ++ [file_chunk_t.END_OF_CHUNKS]) = F
    rw [hout, List.nil_append, reconstruct_append, hrec st'.store (store_extends_refl _)]
    show List.drop 0 F ++ [] = F
    rw [List.drop_zero, List.append_nil]

theorem store_init_bucket : store_init.blocks (b64_encode 0) = some new_block := by
  rw [store_init_eq]
  exact write_block_same _ _ _

set_option maxRecDepth 100000 in
/-- The blocks `sync_generate` reads from `tailed_input`. -/
theorem tailed_blocks :
    sync_generate.blocks (sync_generate.bufsize tailed_input.length) (tailed_input.length + 1)
      tailed_input = [basis_input, [1, 2, 3]] := by
  decide!

set_option maxRecDepth 100000 in
theorem sync_generate_reconstructs_witness :
    ∃ r, sync_generate tailed_input sync_store_callbacks ⟨store_init, []⟩ = some r ∧ r.ret = 0 ∧
      reconstruct r.state.store r.state.chunks_out = tailed_input := by
  have hids : ∀ blk ∈ sync_generate.blocks (sync_generate.bufsize tailed_input.length)
      (tailed_input.length + 1) tailed_input,
      MAX_DIRECT_CHUNK_SIZE < blk.length → arrow_compute_key blk ≠ null_id := by
    rw [tailed_blocks]
    intro blk hblk hl
    rcases List.mem_cons.mp hblk with e | e
    · rw [e, basis_record_generated.2]; decide
    · rw [List.mem_singleton.mp e] at hl
      exact absurd hl (by decide)
  have hlong : ∀ blk ∈ sync_generate.blocks (sync_generate.bufsize tailed_input.length)
      (tailed_input.length + 1) tailed_input,
      MAX_DIRECT_CHUNK_SIZE < blk.length → blk = basis_input := by
    rw [tailed_blocks]
    intro blk hblk hl
    rcases List.mem_cons.mp hblk with e | e
    · exact e
    · rw [List.mem_singleton.mp e] at hl
      exact absurd hl (by decide)
  exact sync_generate_reconstructs tailed_input store_init store_init_ok (by decide!) hids
    (fun b1 h1 b2 h2 l1 l2 _ => (hlong b1 h1 l1).trans (hlong b2 h2 l2).symm)
    (fun blk hblk hl bytes h => by
      rw [store_lookup_init _ (hids blk hblk hl)] at h
      cases h)
    (generate_has_room_small _ store_init new_block [] store_init_ok store_init_bucket
      bucket_ok_new_block hids (by rw [tailed_blocks]; decide)
      (by rw [tailed_blocks]; decide!))

/-! ## A chunk that fits is rejected -/

theorem total_length_map_const {α : Type} (f : α → block_key_t) (c : Nat)
    (hf : ∀ x, (f x).length = c) : ∀ l : List α, total_length (l.map f) = c * l.length := by
  intro l
  induction l with
  | nil => rfl
  | cons x l ih =>
    rw [List.map_cons, total_length, ih, hf, List.length_cons, Nat.mul_succ, Nat.add_comm]

theorem getD_map_range (f : Nat → block_key_t) (n j : Nat) (hj : j < n)
    (rest : List block_key_t) (d : block_key_t) :
    ((List.range n).map f ++ rest).getD j d = f j := by
  rw [List.getD_eq_getElem?_getD, List.getElem?_append_left (by simpa using hj),
    List.getElem?_map, List.getElem?_range hj]
  rfl

theorem bucket_309_live (k : block_key_t)
    (hk : k ∈ (List.range 309).map
      (fun j => (⟨⟨j + 1, List.replicate 14 0 ++ [j / 256, j % 256]⟩, 16000 * j, 16000, 1⟩ :
        block_key_t))) :
    k.id ≠ fresh_id ∧ k ≠ null_key := by
  obtain ⟨j, hj, rfl⟩ := List.mem_map.mp hk
  have hj2 : j < 309 := List.mem_range.mp hj
  constructor
  · intro e
    have : j + 1 = 70000 := congrArg arrow_id_t.weak e
    omega
  · intro e
    have : j + 1 = 0 := congrArg (fun x : block_key_t => x.id.weak) e
    omega

theorem bucket_309_put :
    store_put_into_int bucket_309 fresh_id (List.replicate 16000 7) = (-1, bucket_309) := by
  have hkeys : bucket_309.keys = (List.range 309).map
      (fun j => (⟨⟨j + 1, List.replicate 14 0 ++ [j / 256, j % 256]⟩, 16000 * j, 16000, 1⟩ :
        block_key_t)) ++ (List.replicate 4810 null_key ++ [null_key]) := by
    rw [replicate_null_snoc]
    rfl
  have hlen : bucket_309.keys.length = ARROW_BLOCK_INITIAL_COUNT := by
    rw [hkeys, List.length_append, List.length_map, List.length_range, List.length_append,
      List.length_replicate]
    rfl
  have hhdr := store_header_size_eq bucket_309 hlen
  have hcc : bucket_309.chunk_count = 5120 := hlen
  have htot := total_length_map_const
    (fun j => (⟨⟨j + 1, List.replicate 14 0 ++ [j / 256, j % 256]⟩, 16000 * j, 16000, 1⟩ :
      block_key_t)) 16000 (fun _ => rfl) (List.range 309)
  rw [List.length_range] at htot
  have hfull : size_sub (size_sub bucket_309.alloc_size (store_header_size bucket_309))
      (0 + 16000 * 309) < (List.replicate 16000 7).length := by
    rw [hhdr, List.length_replicate]
    decide
  unfold store_put_into_int
  conv => lhs; rw [hkeys]
  rw [put_scan_skip bucket_309 fresh_id _ _ _ 0 0 bucket_309_live (by rw [htot]; decide), htot,
    List.length_map, List.length_range,
    put_scan_null_skip bucket_309 fresh_id _ _ (by decide) _ hfull _ _ (by rw [hcc]; decide),
    put_scan_last_null bucket_309 fresh_id _ (by decide) _ _ (by decide) hfull]

/-- C6, the code at the failing input. `bucket_309` holds no slot with `fresh_id`,
its first empty slot is slot 309, the chunks before it end at byte 4944000 and the
data region has 5120000 bytes, so the gap is 176000 bytes; yet `store_put_into` of a
16000-byte chunk finds no slot for it: the result is -1, which stands for the call of
`fail` at the end of the loop. -/
theorem store_put_into_rejects_fitting_chunk :
    (∀ k ∈ bucket_309.keys, k.id ≠ fresh_id) ∧
    bucket_309.keys.getD 309 null_key = null_key ∧
    (∀ j < 309, bucket_309.keys.getD j null_key ≠ null_key) ∧
    (bucket_309.keys.getD 308 null_key).offset + (bucket_309.keys.getD 308 null_key).length
      = 4944000 ∧
    4944000 + (List.replicate 16000 7).length ≤ bucket_309.alloc_size ∧
    (store_put_into bucket_309 fresh_id (List.replicate 16000 7)).1 = -1 := by
  refine ⟨?_, ?_, ?_, ?_, ?_, ?_⟩
  · intro k hk
    rcases List.mem_append.mp hk with e | e
    · exact (bucket_309_live k e).1
    · rw [(List.mem_replicate.mp e).2]; decide
  · exact (getD_append_at' _ _ _ 309 (by rw [List.length_map, List.length_range])).trans rfl
  · intro j hj
    have h := getD_map_range
      (fun j => (⟨⟨j + 1, List.replicate 14 0 ++ [j / 256, j % 256]⟩, 16000 * j, 16000, 1⟩ :
        block_key_t)) 309 j hj (List.replicate 4811 null_key) null_key
    intro e
    have e2 := h.symm.trans e
    have : j + 1 = 0 := congrArg (fun x : block_key_t => x.id.weak) e2
    omega
  · have h := getD_map_range
      (fun j => (⟨⟨j + 1, List.replicate 14 0 ++ [j / 256, j % 256]⟩, 16000 * j, 16000, 1⟩ :
        block_key_t)) 309 308 (by decide) (List.replicate 4811 null_key) null_key
    have h2 : bucket_309.keys.getD 308 null_key
        = ⟨⟨308 + 1, List.replicate 14 0 ++ [308 / 256, 308 % 256]⟩, 16000 * 308, 16000, 1⟩ := h
    rw [h2]
    decide
  · rw [List.length_replicate]
    decide
  · show (store_put_into_int bucket_309 fresh_id (List.replicate 16000 7)).1 = -1
    rw [bucket_309_put]

/-! ## Three puts that overflow a bucket -/

theorem store_put_seq_cons (s s1 : store_state_t) (id : arrow_id_t) (buf : List Nat)
    (rest : List (arrow_id_t × List Nat)) (r : Int) (h : store_put s id buf = some (r, s1))
    (hr : 0 ≤ r) : store_put_seq s ((id, buf) :: rest) = store_put_seq s1 rest := by
  rw [store_put_seq, h]
  simp only
  rw [if_pos hr]

theorem large_chunk_length : large_chunk.length = 4000000 := List.length_replicate _ _

theorem stray_chunk_length : stray_chunk.length = 1000000 := List.length_replicate _ _

theorem small_chunk_length : small_chunk.length = 700 := List.length_replicate _ _

theorem overflow_bucket_1_ok :
    bucket_ok overflow_bucket_1 [⟨filling_id 0, 0, 4000000, 1⟩] := by
  have h := bucket_ok_insert bucket_ok_new_block (filling_id 0) large_chunk 1 (by decide)
    (fun k hk => absurd hk (List.not_mem_nil _)) (by decide)
    (by rw [large_chunk_length, store_capacity_eq]; decide)
  have e1 : ARROW_BLOCK_INITIAL_COUNT - (([] : List block_key_t).length + 1) = 5119 := by decide
  rw [large_chunk_length, e1] at h
  exact h

theorem overflow_put_1 :
    store_put_into_int new_block (filling_id 0) large_chunk = (0, overflow_bucket_1) := by
  have h := put_into_insert bucket_ok_new_block (filling_id 0) large_chunk (by decide)
    (fun k hk => absurd hk (List.not_mem_nil _)) (by decide)
    (by rw [large_chunk_length, store_capacity_eq]; decide)
  have e1 : ARROW_BLOCK_INITIAL_COUNT - (([] : List block_key_t).length + 1) = 5119 := by decide
  rw [large_chunk_length, e1] at h
  exact h

theorem overflow_data_1 (p : Nat) (hp : p < 4000000) : overflow_bucket_1.data p = 1 :=
  memcpy_list_const _ 0 large_chunk 1 p (fun _ hx => List.eq_of_mem_replicate hx)
    (Nat.zero_le _) (by rw [large_chunk_length]; omega)

/-- A data region that starts with 32 bytes of value 1: the slot read past the key
array is not empty and its `offset` field is 0x01010101. -/
theorem past_end_of_ones (b : block_t) (h : ∀ p, p < 32 → b.data p = 1) :
    key_past_end_is_null b = false ∧ key_past_end_offset b = 16843009 := by
  constructor
  · rw [Bool.eq_false_iff]
    intro hall
    unfold key_past_end_is_null at hall
    have h0 := List.all_eq_true.mp hall 0 (by decide)
    rw [h 0 (by omega)] at h0
    exact absurd h0 (by decide)
  · unfold key_past_end_offset
    rw [h 20 (by omega), h 21 (by omega), h 22 (by omega), h 23 (by omega)]

theorem overflow_past_end : key_past_end_is_null overflow_bucket_1 = false :=
  (past_end_of_ones overflow_bucket_1 (fun p hp => overflow_data_1 p (by omega))).1

theorem overflow_past_end_offset : key_past_end_offset overflow_bucket_1 = 16843009 :=
  (past_end_of_ones overflow_bucket_1 (fun p hp => overflow_data_1 p (by omega))).2

theorem overflow_put_2_room :
    stray_chunk.length
      ≤ size_sub (key_past_end_offset overflow_bucket_1)
          (total_length [(⟨filling_id 0, 0, 4000000, 1⟩ : block_key_t)]) := by
  rw [stray_chunk_length, overflow_past_end_offset]
  decide

theorem overflow_put_2_full :
    store_capacity - total_length [(⟨filling_id 0, 0, 4000000, 1⟩ : block_key_t)]
      < stray_chunk.length := by
  rw [stray_chunk_length, store_capacity_eq]
  decide

theorem overflow_put_2 :
    store_put_into_int overflow_bucket_1 (filling_id 1) stray_chunk = (0, overflow_bucket_2) := by
  have h := put_into_stray overflow_bucket_1_ok (filling_id 1) stray_chunk (by decide)
    (by intro k hk; rw [List.mem_singleton.mp hk]; decide)
    overflow_put_2_full overflow_past_end overflow_put_2_room
    (by rw [stray_chunk_length]; decide)
  have e1 : ARROW_BLOCK_INITIAL_COUNT - 1
      - [(⟨filling_id 0, 0, 4000000, 1⟩ : block_key_t)].length = 5118 := by decide
  have e2 : total_length [(⟨filling_id 0, 0, 4000000, 1⟩ : block_key_t)] = 4000000 := by decide
  rw [stray_chunk_length, e1, e2] at h
  exact h

theorem overflow_put_3 :
    store_put_into_int overflow_bucket_2 (filling_id 2) small_chunk = (0, overflow_bucket_3) := by
  have h := put_into_before_stray overflow_bucket_2 [⟨filling_id 0, 0, 4000000, 1⟩] 5117
    ⟨filling_id 1, 4000000, 1000000, 1⟩ (filling_id 2) small_chunk rfl (by decide) rfl
    (by intro k hk; rw [List.mem_singleton.mp hk]; decide) (by decide)
    (by rw [small_chunk_length, store_capacity_eq]; decide)
  have e2 : total_length [(⟨filling_id 0, 0, 4000000, 1⟩ : block_key_t)] = 4000000 := by decide
  rw [small_chunk_length, e2] at h
  exact h

theorem overflow_data_3 (p : Nat) (h1 : 4000000 ≤ p) (h2 : p < 4000700) :
    overflow_bucket_3.data p = 7 :=
  memcpy_list_const _ 4000000 small_chunk 7 p (fun _ hx => List.eq_of_mem_replicate hx)
    h1 (by rw [small_chunk_length]; omega)

theorem overflow_load (b : block_t) (live : List block_key_t) (m : Nat) (k : block_key_t)
    (hkeys : b.keys = live ++ List.replicate m null_key ++ [k])
    (hlen : live.length + m + 1 = ARROW_BLOCK_INITIAL_COUNT) (hlive : live.length ≤ 3583) :
    store_load_factor_gt_max b = false := by
  apply load_factor_within
  · rw [hkeys, List.length_append, List.length_append, List.length_replicate]
    exact hlen
  · rw [hkeys, store_used_append, store_used_append]
    have h1 := store_used_le live
    have h2 := store_used_live [] m (fun k hk => absurd hk (List.not_mem_nil _))
    have h3 := store_used_le [k]
    rw [List.nil_append] at h2
    rw [h2]
    simp only [List.length_singleton, List.length_nil] at h3 ⊢
    omega

/-- The run of `overflow_puts` on a new store: every put succeeds without a split and
bucket 0 ends as `overflow_bucket_3`. -/
theorem overflow_run :
    store_put_seq store_init overflow_puts
      = some (write_block (write_block (write_block store_init (b64_encode 0) overflow_bucket_1)
          (b64_encode 0) overflow_bucket_2) (b64_encode 0) overflow_bucket_3) := by
  have hs0 : store_put store_init (filling_id 0) large_chunk
      = some (0, write_block store_init (b64_encode 0) overflow_bucket_1) := by
    have h := store_put_no_split store_init (filling_id 0) large_chunk new_block
      (by rw [store_map_key_level_zero _ _ rfl rfl, store_init_eq]
          exact write_block_same _ _ _)
      (by rw [overflow_put_1])
      (by rw [overflow_put_1]
          exact load_factor_within _ (bucket_ok_length overflow_bucket_1_ok) (by
            rw [overflow_bucket_1_ok.keys,
              store_used_live _ _ (bucket_ok_live_ne_null overflow_bucket_1_ok)]
            decide))
    rw [overflow_put_1, store_map_key_level_zero _ _ rfl rfl] at h
    exact h
  have hs1 : store_put (write_block store_init (b64_encode 0) overflow_bucket_1) (filling_id 1)
        stray_chunk
      = some (0, write_block (write_block store_init (b64_encode 0) overflow_bucket_1)
          (b64_encode 0) overflow_bucket_2) := by
    have h := store_put_no_split (write_block store_init (b64_encode 0) overflow_bucket_1)
      (filling_id 1) stray_chunk overflow_bucket_1
      (by rw [store_map_key_level_zero _ _ rfl rfl]; exact write_block_same _ _ _)
      (by rw [overflow_put_2])
      (by rw [overflow_put_2]
          exact overflow_load _ [⟨filling_id 0, 0, 4000000, 1⟩] 5118 _ rfl (by decide)
            (by decide))
    rw [overflow_put_2, store_map_key_level_zero _ _ rfl rfl] at h
    exact h
  have hs2 : store_put (write_block (write_block store_init (b64_encode 0) overflow_bucket_1)
        (b64_encode 0) overflow_bucket_2) (filling_id 2) small_chunk
      = some (0, write_block (write_block (write_block store_init (b64_encode 0)
          overflow_bucket_1) (b64_encode 0) overflow_bucket_2) (b64_encode 0)
          overflow_bucket_3) := by
    have h := store_put_no_split
      (write_block (write_block store_init (b64_encode 0) overflow_bucket_1) (b64_encode 0)
        overflow_bucket_2) (filling_id 2) small_chunk overflow_bucket_2
      (by rw [store_map_key_level_zero _ _ rfl rfl]; exact write_block_same _ _ _)
      (by rw [overflow_put_3])
      (by rw [overflow_put_3]
          exact overflow_load _ [⟨filling_id 0, 0, 4000000, 1⟩, ⟨filling_id 2, 4000000, 700, 1⟩]
            5117 _ rfl (by decide) (by decide))
    rw [overflow_put_3, store_map_key_level_zero _ _ rfl rfl] at h
    exact h
  unfold overflow_puts
  rw [store_put_seq_cons _ _ _ _ _ 0 hs0 (by decide),
    store_put_seq_cons _ _ _ _ _ 0 hs1 (by decide),
    store_put_seq_cons _ _ _ _ _ 0 hs2 (by decide)]
  rfl

/-- What `store_contains` and `store_get` return for an id found in its bucket. -/
theorem store_get_found (s : store_state_t) (id : arrow_id_t) (b : block_t) (k : block_key_t)
    (hopen : store_open s (store_map_key s.sb id) = some b)
    (hfind : b.keys.find? (fun x => decide (x.id = id)) = some k) :
    store_contains s id = 1 ∧
    ∀ out maxlen, store_get s id out maxlen
      = (k.length, memcpy out 0 b.data k.offset (min k.length maxlen)) := by
  constructor
  · unfold store_contains
    rw [hopen]
    simp only
    rw [store_contains_scan_eq, hfind]
    rfl
  · intro out maxlen
    unfold store_get
    rw [hopen]
    simp only
    unfold store_get_from
    rw [store_get_from_scan_eq, hfind]

theorem overflow_find :
    overflow_bucket_3.keys.find? (fun x => decide (x.id = filling_id 1))
      = some ⟨filling_id 1, 4000000, 1000000, 1⟩ := by
  have h := find_present
    ([(⟨filling_id 0, 0, 4000000, 1⟩ : block_key_t), ⟨filling_id 2, 4000000, 700, 1⟩]
      ++ List.replicate 5117 null_key) [] ⟨filling_id 1, 4000000, 1000000, 1⟩ (filling_id 1)
    (by
      intro x hx
      rcases List.mem_append.mp hx with e | e
      · rcases List.mem_cons.mp e with e1 | e1
        · rw [e1]; decide
        · rw [List.mem_singleton.mp e1]; decide
      · rw [(List.mem_replicate.mp e).2]; decide)
    rfl
  exact h

/-! ## Linear-hash correctness -/

theorem puts_have_room_ids :
    ∀ (ops : List (arrow_id_t × List Nat)) (s : store_state_t), puts_have_room s ops = true →
      ∀ op ∈ ops, op.1 ≠ null_id := by
  intro ops
  induction ops with
  | nil => intro _ _ op hop; cases hop
  | cons x rest ih =>
    intro s h op hop
    unfold puts_have_room at h
    simp only [Bool.and_eq_true, decide_eq_true_eq] at h
    rcases List.mem_cons.mp hop with e | e
    · rw [e]; exact h.1.1
    · cases hp : store_put s x.1 x.2 with
      | none => rw [hp] at h; exact absurd h.2 (by simp)
      | some r =>
        rw [hp] at h
        exact ih r.2 h.2 op e

theorem first_put_mem (ops : List (arrow_id_t × List Nat)) :
    ∀ op ∈ ops, ∃ buf, first_put op.1 ops = some buf := by
  induction ops with
  | nil => intro op hop; cases hop
  | cons x rest ih =>
    intro op hop
    by_cases hx : x.1 = op.1
    · exact ⟨x.2, by rw [first_put, if_pos hx]⟩
    · rcases List.mem_cons.mp hop with e | e
      · exact absurd (by rw [e]) hx
      · obtain ⟨buf, hbuf⟩ := ih op e
        exact ⟨buf, by rw [first_put, if_neg hx]; exact hbuf⟩

/-- In a well-formed store every occupied slot of every bucket holds an id that
`do_map_key` sends to that bucket. -/
theorem store_ok_resides {N : Nat} {s : store_state_t} (h : store_ok N s) (j : Nat)
    (b : block_t) (hj : j < 2 ^ 64) (hb : store_open s (b64_encode j) = some b) :
    ∀ k ∈ b.keys, k ≠ null_key → do_map_key s.sb k.id s.sb.n = j := by
  intro k hk hnull
  by_cases hlt : j < 2 ^ s.sb.i + s.sb.n
  · obtain ⟨b1, live, hb1, hok1, hmap⟩ := h.buckets j hlt
    have hbb : b = b1 := by
      have h2 : s.blocks (b64_encode j) = some b := hb
      rw [hb1] at h2
      exact (Option.some.inj h2).symm
    rw [hbb, hok1.keys] at hk
    rcases List.mem_append.mp hk with e | e
    · exact hmap k e
    · exact absurd (List.mem_replicate.mp e).2 hnull
  · have h2 : s.blocks (b64_encode j) = some b := hb
    rw [h.absent j (Nat.le_of_not_lt hlt) hj] at h2
    cases h2

/-- C3 (as amended). A sequence of `store_put` calls on a freshly initialised store,
fewer than 2^62 - 1 of them, each of a non-zero id and made while the store has room
for it (`store_has_room`: the bucket holds the id already, or an empty slot other
than the last is left and the bytes stored plus the new ones stay within what the
code counts as free): every call succeeds, and afterwards every id that was put is
found, `store_contains` returning 1 and `store_get` the length and the first
`maxlen` bytes of the chunk first put under that id; and every occupied slot of
every bucket holds an id that `do_map_key` sends to that bucket under the
superblock reached. -/
theorem store_put_seq_found (ops : List (arrow_id_t × List Nat))
    (hlen : ops.length + 1 < 2 ^ 62) (hroom : puts_have_room store_init ops = true) :
    ∃ s', store_put_seq store_init ops = some s' ∧
      (∀ op ∈ ops, ∃ buf, first_put op.1 ops = some buf ∧ store_contains s' op.1 = 1 ∧
        ∀ out maxlen, (store_get s' op.1 out maxlen).1 = buf.length ∧
          bytes_at (store_get s' op.1 out maxlen).2 0 (min buf.length maxlen)
            = buf.take maxlen) ∧
      (∀ j b, j < 2 ^ 64 → store_open s' (b64_encode j) = some b →
        ∀ k ∈ b.keys, k ≠ null_key → do_map_key s'.sb k.id s'.sb.n = j) := by
  obtain ⟨s', hseq, hok, hlk⟩ :=
    store_put_seq_ok ops 1 store_init store_init_ok (by omega) hroom
  refine ⟨s', hseq, ?_, fun j b hj hb => store_ok_resides hok j b hj hb⟩
  intro op hop
  obtain ⟨buf, hbuf⟩ := first_put_mem ops op hop
  have hid := puts_have_room_ids ops store_init hroom op hop
  have hl : store_lookup s' op.1 = some buf := by
    rw [hlk op.1 hid, store_lookup_init op.1 hid]
    exact hbuf
  refine ⟨buf, hbuf, ?_, fun out maxlen => store_get_eq s' op.1 buf hl out maxlen⟩
  rw [store_contains_eq, hl]
  rfl

theorem store_put_seq_found_witness :
    sample_puts.length + 1 < 2 ^ 62 ∧ puts_have_room store_init sample_puts = true ∧
    ∃ s', store_put_seq store_init sample_puts = some s' ∧
      (∀ op ∈ sample_puts, ∃ buf, first_put op.1 sample_puts = some buf ∧
        store_contains s' op.1 = 1 ∧
        ∀ out maxlen, (store_get s' op.1 out maxlen).1 = buf.length ∧
          bytes_at (store_get s' op.1 out maxlen).2 0 (min buf.length maxlen)
            = buf.take maxlen) ∧
      (∀ j b, j < 2 ^ 64 → store_open s' (b64_encode j) = some b →
        ∀ k ∈ b.keys, k ≠ null_key → do_map_key s'.sb k.id s'.sb.n = j) :=
  ⟨by decide,
    puts_have_room_small sample_puts store_init new_block [] store_init_ok store_init_bucket
      bucket_ok_new_block (by decide) (by decide) (by decide),
    store_put_seq_found sample_puts (by decide)
      (puts_have_room_small sample_puts store_init new_block [] store_init_ok store_init_bucket
        bucket_ok_new_block (by decide) (by decide) (by decide))⟩

set_option maxRecDepth 1000000 in
/-- C3 (counterexample). Two sequences of successful puts on a freshly initialised
store after which an id that was put does not give back what was put.  A put of 24
bytes under the all-zero id returns 1, and `store_get` then returns the length 0.
Of the three puts `overflow_puts` the second, of 1000000 bytes of value 2 with
956148 bytes left, is placed in the last slot, the free space being taken from the
bytes after the key array, and the third, of 700 bytes of value 7, is placed at the
same offset; every call succeeds, no split occurs, and `store_get` for the id of the
second put then returns bytes of the third chunk. -/
theorem store_put_seq_loses_chunk :
    (store_put store_init null_id (List.replicate 24 7)).map (fun r =>
        (r.1, store_contains r.2 null_id, (store_get r.2 null_id (fun _ => 0) 24).1))
      = some (1, 1, 0) ∧
    (first_put (filling_id 1) overflow_puts).map (fun buf => buf.take 4) = some [2, 2, 2, 2] ∧
    (store_put_seq store_init overflow_puts).map (fun s =>
        (s.sb.i, s.sb.n, store_contains s (filling_id 1),
          (store_get s (filling_id 1) (fun _ => 0) 4).1,
          bytes_at (store_get s (filling_id 1) (fun _ => 0) 4).2 0 4))
      = some (0, 0, 1, 1000000, [7, 7, 7, 7]) := by
  refine ⟨by decide!, by decide, ?_⟩
  obtain ⟨hc, hg⟩ := store_get_found
    (write_block (write_block (write_block store_init (b64_encode 0) overflow_bucket_1)
      (b64_encode 0) overflow_bucket_2) (b64_encode 0) overflow_bucket_3)
    (filling_id 1) overflow_bucket_3 ⟨filling_id 1, 4000000, 1000000, 1⟩
    (by rw [store_map_key_level_zero _ _ rfl rfl]; exact write_block_same _ _ _)
    overflow_find
  rw [overflow_run, Option.map_some', hc, hg]
  have hb : bytes_at (memcpy (fun _ => 0) 0 overflow_bucket_3.data 4000000 4) 0 4
      = [7, 7, 7, 7] := by
    have e : ∀ t, t < 4 → memcpy (fun _ => 0) 0 overflow_bucket_3.data 4000000 4 (0 + t) = 7 := by
      intro t ht
      unfold memcpy
      rw [if_pos ⟨Nat.zero_le _, by omega⟩]
      exact overflow_data_3 _ (by omega) (by omega)
    show [memcpy (fun _ => 0) 0 overflow_bucket_3.data 4000000 4 (0 + 0),
      memcpy (fun _ => 0) 0 overflow_bucket_3.data 4000000 4 (0 + 1),
      memcpy (fun _ => 0) 0 overflow_bucket_3.data 4000000 4 (0 + 2),
      memcpy (fun _ => 0) 0 overflow_bucket_3.data 4000000 4 (0 + 3)] = [7, 7, 7, 7]
    rw [e 0 (by omega), e 1 (by omega), e 2 (by omega), e 3 (by omega)]
  have hmin : min (1000000 : Nat) 4 = 4 := by decide
  show some ((0 : Nat), (0 : Nat), (1 : Int), (1000000 : Nat),
    bytes_at (memcpy (fun _ => 0) 0 overflow_bucket_3.data 4000000 (min 1000000 4)) 0 4)
    = some (0, 0, 1, 1000000, [7, 7, 7, 7])
  rw [hmin, hb]

/-! ## Putting a chunk that is present -/

theorem put_scan_present (b : block_t) (id : arrow_id_t) (buf : List Nat) (k : block_key_t)
    (post : List block_key_t) (hk : k.id = id) :
    ∀ (pre : List block_key_t) (i offset : Nat), (∀ x ∈ pre, x.id ≠ id ∧ x ≠ null_key) →
      store_put_into_int.scan b id buf (pre ++ k :: post) i offset
        = (1, { b with keys := (b.keys.set (i + pre.length)
                  { k with references := (k.references + 1) % 2 ^ 16 }) }) := by
  intro pre
  induction pre with
  | nil =>
    intro i offset _
    rw [List.nil_append, store_put_into_int.scan, if_pos hk]
    rfl
  | cons x pre ih =>
    intro i offset h
    obtain ⟨h1, h2⟩ := h x (List.mem_cons_self _ _)
    rw [List.cons_append, store_put_into_int.scan, if_neg h1, if_neg h2,
      ih (i + 1) _ (fun y hy => h y (List.mem_cons_of_mem _ hy)), List.length_cons]
    have : i + 1 + pre.length = i + (pre.length + 1) := by omega
    rw [this]

/-- Putting an id that a slot holds, the slots before it being occupied by other ids:
the slot's `references` goes up by one (modulo 2^16). -/
theorem put_into_held (b : block_t) (id : arrow_id_t) (buf : List Nat)
    (pre post : List block_key_t) (k : block_key_t) (hkeys : b.keys = pre ++ k :: post)
    (hpre : ∀ x ∈ pre, x.id ≠ id ∧ x ≠ null_key) (hk : k.id = id) :
    store_put_into_int b id buf
      = (1, { b with keys := pre ++ { k with references := (k.references + 1) % 2 ^ 16 }
                :: post }) := by
  unfold store_put_into_int
  conv => lhs; rw [hkeys]
  rw [put_scan_present b id buf k post hk pre 0 0 hpre, hkeys, Nat.zero_add]
  simp

theorem store_put_held (s : store_state_t) (id : arrow_id_t) (buf : List Nat) (b : block_t)
    (pre post : List block_key_t) (k : block_key_t)
    (hopen : store_open s (store_map_key s.sb id) = some b)
    (hkeys : b.keys = pre ++ k :: post)
    (hpre : ∀ x ∈ pre, x.id ≠ id ∧ x ≠ null_key) (hk : k.id = id) :
    store_put s id buf
      = if store_load_factor_gt_max
            { b with keys := pre ++ { k with references := (k.references + 1) % 2 ^ 16 }
                :: post } = true then
          (split_next_store (write_block s (store_map_key s.sb id)
              { b with keys := pre ++ { k with references := (k.references + 1) % 2 ^ 16 }
                  :: post })).map (fun t => (1, t.2))
        else
          some (1, write_block s (store_map_key s.sb id)
            { b with keys := pre ++ { k with references := (k.references + 1) % 2 ^ 16 }
                :: post }) := by
  unfold store_put
  rw [hopen]
  simp only [put_into_held b id buf pre post k hkeys hpre hk]
  rw [if_neg (by decide)]

/-- The superblock after a split that succeeds. -/
theorem split_next_store_sb (s s' : store_state_t) (h : split_next_store s = some (0, s')) :
    s'.sb = if s.sb.n = low_mask s.sb.i then ⟨(s.sb.i + 1) % 2 ^ 16, 0⟩
            else ⟨s.sb.i, (s.sb.n + 1) % 2 ^ 64⟩ := by
  unfold split_next_store at h
  simp only at h
  split at h
  · cases h
  · split at h
    · cases h
    · split at h
      · cases h
      · have h2 := Option.some.inj h
        rw [← (Prod.mk.inj h2).2]

/-! ## A crowded bucket -/

/-- The slots in use of `crowded_bucket`. -/
theorem crowded_keys :
    crowded_bucket.keys
      = (List.range 3585).map (fun j => (⟨crowded_id j, 10 * j, 10, 1⟩ : block_key_t))
        ++ List.replicate (ARROW_BLOCK_INITIAL_COUNT
            - ((List.range 3585).map
                (fun j => (⟨crowded_id j, 10 * j, 10, 1⟩ : block_key_t))).length) null_key := by
  rw [List.length_map, List.length_range]
  rfl

theorem packed_map_range (f : Nat → block_key_t) (c : Nat) (ho : ∀ j, (f j).offset = c * j)
    (hl : ∀ j, (f j).length = c) :
    ∀ n a, packed_from (c * a) ((List.range' a n).map f) := by
  intro n
  induction n with
  | zero => intro a; trivial
  | succ n ih =>
    intro a
    rw [List.range'_succ, List.map_cons]
    refine ⟨ho a, ?_⟩
    rw [hl a]
    have := ih (a + 1)
    rw [Nat.mul_succ] at this
    exact this

theorem packed_map_range_zero (f : Nat → block_key_t) (c : Nat)
    (ho : ∀ j, (f j).offset = c * j) (hl : ∀ j, (f j).length = c) (n : Nat) :
    packed_from 0 ((List.range n).map f) := by
  have h := packed_map_range f c ho hl n 0
  rw [← List.range_eq_range', Nat.mul_zero] at h
  exact h

theorem key_hash_crowded (j : Nat) (hj : j < 16384) : key_hash (crowded_id j) = 4 * j := by
  have h := be_bytes_or 0 0 0 0 0 0 (4 * j / 256) (4 * j % 256) (by decide) (by decide)
    (by decide) (by decide) (by decide) (by decide) (by omega) (by omega)
  have h2 : key_hash (crowded_id j)
      = ((0 &&& 0xFF) <<< 56) ||| ((0 &&& 0xFF) <<< 48) ||| ((0 &&& 0xFF) <<< 40)
        ||| ((0 &&& 0xFF) <<< 32) ||| ((0 &&& 0xFF) <<< 24) ||| ((0 &&& 0xFF) <<< 16)
        ||| ((4 * j / 256 &&& 0xFF) <<< 8) ||| (4 * j % 256 &&& 0xFF) := rfl
  rw [h2, h]
  simp only [spec_be_u64, List.foldl]
  omega

set_option maxRecDepth 100000 in
theorem crowded_bucket_ok :
    bucket_ok crowded_bucket
      ((List.range 3585).map (fun j => (⟨crowded_id j, 10 * j, 10, 1⟩ : block_key_t))) := by
  refine ⟨crowded_keys, ?_, rfl, ?_, ?_, ?_, ?_⟩
  · rw [List.length_map, List.length_range]; decide
  · intro k hk e
    obtain ⟨j, _, rfl⟩ := List.mem_map.mp hk
    have : j + 1 = 0 := congrArg arrow_id_t.weak e
    omega
  · rw [List.map_map]
    refine List.Nodup.map ?_ (List.nodup_range 3585)
    intro a b e
    have : a + 1 = b + 1 := congrArg arrow_id_t.weak e
    omega
  · exact packed_map_range_zero (fun j => (⟨crowded_id j, 10 * j, 10, 1⟩ : block_key_t)) 10
      (fun _ => rfl) (fun _ => rfl) 3585
  · rw [total_length_map_const _ 10 (fun _ => rfl), List.length_range, store_capacity_eq]
    decide

theorem crowded_blocks (name : List Nat) :
    crowded_store.blocks name
      = if name = b64_encode 0 then some crowded_bucket
        else if name = b64_encode 1 then some new_block else none := rfl

theorem crowded_store_ok : store_ok 2 crowded_store := by
  refine ⟨by decide, by decide, ?_, ?_⟩
  · intro j hj
    have hj2 : j < 2 := hj
    rcases Nat.lt_or_ge j 1 with h0 | h1
    · have : j = 0 := by omega
      subst this
      refine ⟨crowded_bucket, _, ?_, crowded_bucket_ok, ?_⟩
      · rw [crowded_blocks, if_pos rfl]
      · intro k hk
        obtain ⟨t, ht, rfl⟩ := List.mem_map.mp hk
        have ht2 : t < 3585 := List.mem_range.mp ht
        rw [do_map_key_hash, key_hash_crowded t (by omega)]
        show (if 4 * t % 2 ^ 1 < 0 then 4 * t % 2 ^ (1 + 1) else 4 * t % 2 ^ 1) = 0
        rw [if_neg (Nat.not_lt_zero _)]
        omega
    · have : j = 1 := by omega
      subst this
      refine ⟨new_block, [], ?_, bucket_ok_new_block, fun k hk => absurd hk (List.not_mem_nil _)⟩
      rw [crowded_blocks, if_neg (b64_encode_ne 1 0 (by decide) (by decide) (by decide)), if_pos rfl]
  · intro j hj hj64
    have hj2 : 2 ≤ j := hj
    rw [crowded_blocks, if_neg (b64_encode_ne j 0 hj64 (by decide) (by omega)),
      if_neg (b64_encode_ne j 1 hj64 (by decide) (by omega))]

/-- The slot of `crowded_bucket` that holds `crowded_id 0`, the slots before it and
after it. -/
theorem crowded_split_first :
    ∃ pre k post,
      (List.range 3585).map (fun j => (⟨crowded_id j, 10 * j, 10, 1⟩ : block_key_t))
        = pre ++ k :: post ∧
      crowded_bucket.keys
        = pre ++ k :: (post ++ List.replicate (ARROW_BLOCK_INITIAL_COUNT
            - ((List.range 3585).map
                (fun j => (⟨crowded_id j, 10 * j, 10, 1⟩ : block_key_t))).length) null_key) ∧
      (∀ x ∈ pre, x.id ≠ crowded_id 0 ∧ x ≠ null_key) ∧ k.id = crowded_id 0 := by
  rcases mem_split_first
    ((List.range 3585).map (fun j => (⟨crowded_id j, 10 * j, 10, 1⟩ : block_key_t)))
    (crowded_id 0) with habs | ⟨pre, k, post, hlive, hpre, hk⟩
  · exact absurd rfl (habs ⟨crowded_id 0, 10 * 0, 10, 1⟩
      (List.mem_map.mpr ⟨0, List.mem_range.mpr (by decide), rfl⟩))
  · refine ⟨pre, k, post, hlive, ?_, ?_, hk⟩
    · rw [crowded_keys, hlive, List.append_assoc, List.cons_append]
    · intro x hx
      exact ⟨hpre x hx, bucket_ok_live_ne_null crowded_bucket_ok x
        (by rw [hlive]; exact List.mem_append_left _ hx)⟩

theorem crowded_open :
    store_open crowded_store (store_map_key crowded_store.sb (crowded_id 0))
      = some crowded_bucket := by
  have h : do_map_key crowded_store.sb (crowded_id 0) crowded_store.sb.n = 0 := by
    rw [do_map_key_hash, key_hash_crowded 0 (by decide)]
    decide
  unfold store_map_key store_open
  rw [h, crowded_blocks, if_pos rfl]

/-- C7 (as amended). `store_put` of an id that a slot of its bucket holds, the slots
before that one being occupied by other ids: the slot's `references` goes up by one
(modulo 2^16), no other slot, no data byte and no other bucket changes, and the
call returns 1; and when the load factor of the bucket exceeds 0.70,
`split_next_store` runs on the store so updated, as it does after a put that
inserts (the superblock then advances and bucket `n` is split). -/
theorem store_put_present (s : store_state_t) (id : arrow_id_t) (buf : List Nat) (b : block_t)
    (pre post : List block_key_t) (k : block_key_t)
    (hopen : store_open s (store_map_key s.sb id) = some b)
    (hkeys : b.keys = pre ++ k :: post)
    (hpre : ∀ x ∈ pre, x.id ≠ id ∧ x ≠ null_key) (hk : k.id = id) :
    store_put s id buf
      = if store_load_factor_gt_max
            { b with keys := pre ++ { k with references := (k.references + 1) % 2 ^ 16 }
                :: post } = true then
          (split_next_store (write_block s (store_map_key s.sb id)
              { b with keys := pre ++ { k with references := (k.references + 1) % 2 ^ 16 }
                  :: post })).map (fun t => (1, t.2))
        else
          some (1, write_block s (store_map_key s.sb id)
            { b with keys := pre ++ { k with references := (k.references + 1) % 2 ^ 16 }
                :: post }) :=
  store_put_held s id buf b pre post k hopen hkeys hpre hk

theorem store_put_present_witness :
    ∃ pre k post, crowded_bucket.keys = pre ++ k :: post ∧
      (∀ x ∈ pre, x.id ≠ crowded_id 0 ∧ x ≠ null_key) ∧ k.id = crowded_id 0 ∧
      store_put crowded_store (crowded_id 0) [1, 2, 3]
        = if store_load_factor_gt_max
              { crowded_bucket with
                  keys := pre ++ { k with references := (k.references + 1) % 2 ^ 16 }
                    :: post } = true then
            (split_next_store (write_block crowded_store
                (store_map_key crowded_store.sb (crowded_id 0))
                { crowded_bucket with
                    keys := pre ++ { k with references := (k.references + 1) % 2 ^ 16 }
                      :: post })).map (fun t => (1, t.2))
          else
            some (1, write_block crowded_store (store_map_key crowded_store.sb (crowded_id 0))
              { crowded_bucket with
                  keys := pre ++ { k with references := (k.references + 1) % 2 ^ 16 }
                    :: post }) := by
  obtain ⟨pre, k, post, _, hkeys, hpre, hk⟩ := crowded_split_first
  exact ⟨pre, k, _, hkeys, hpre, hk,
    store_put_present crowded_store (crowded_id 0) [1, 2, 3] crowded_bucket pre _ k
      crowded_open hkeys hpre hk⟩

/-- C7 (counterexample). `crowded_store` is at superblock `(1, 0)`, has no bucket 2
and holds `crowded_id 0` in bucket 0, whose load factor is 3585 / 5120.  `store_put`
of `crowded_id 0` returns 1, and afterwards the superblock is `(1, 1)` and bucket 2
exists: the put, which inserted nothing, caused a split. -/
theorem store_put_present_splits :
    crowded_store.sb = ⟨1, 0⟩ ∧
    (store_open crowded_store (b64_encode 2)).isSome = false ∧
    store_contains crowded_store (crowded_id 0) = 1 ∧
    (store_put crowded_store (crowded_id 0) [1, 2, 3]).map (fun r =>
        (r.1, r.2.sb.i, r.2.sb.n, (store_open r.2 (b64_encode 2)).isSome))
      = some (1, 1, 1, true) := by
  obtain ⟨pre, k, post, hlive, hkeys, hpre, hk⟩ := crowded_split_first
  have hN : (2 : Nat) < 2 ^ 62 := by decide
  refine ⟨rfl, ?_, ?_, ?_⟩
  · have h : store_open crowded_store (b64_encode 2) = none :=
      crowded_store_ok.absent 2 (by decide) (by decide)
    rw [h]
    rfl
  · exact (store_get_found crowded_store (crowded_id 0) crowded_bucket k crowded_open
      (by rw [hkeys]; exact find_present pre _ k _ (fun x hx => (hpre x hx).1) hk)).1
  · have hput := store_put_held crowded_store (crowded_id 0) [1, 2, 3] crowded_bucket pre _ k
      crowded_open hkeys hpre hk
    have hlist : pre ++ { k with references := (k.references + 1) % 2 ^ 16 }
          :: (post ++ List.replicate (ARROW_BLOCK_INITIAL_COUNT
            - ((List.range 3585).map
                (fun j => (⟨crowded_id j, 10 * j, 10, 1⟩ : block_key_t))).length) null_key)
        = (pre ++ { k with references := (k.references + 1) % 2 ^ 16 } :: post)
          ++ List.replicate (ARROW_BLOCK_INITIAL_COUNT
            - ((List.range 3585).map
                (fun j => (⟨crowded_id j, 10 * j, 10, 1⟩ : block_key_t))).length) null_key := by
      rw [List.append_assoc, List.cons_append]
    rw [hlist] at hput
    have hok := bucket_ok_found crowded_bucket_ok pre post k ((k.references + 1) % 2 ^ 16) hlive
    have hlen : (pre ++ { k with references := (k.references + 1) % 2 ^ 16 } :: post).length
        = 3585 := by
      have h1 : (pre ++ k :: post).length = 3585 := by
        rw [← hlive, List.length_map, List.length_range]
      rw [List.length_append, List.length_cons] at h1 ⊢
      exact h1
    have hload : store_load_factor_gt_max
        { crowded_bucket with
            keys := (pre ++ { k with references := (k.references + 1) % 2 ^ 16 } :: post)
              ++ List.replicate (ARROW_BLOCK_INITIAL_COUNT
                - ((List.range 3585).map
                  (fun j => (⟨crowded_id j, 10 * j, 10, 1⟩ : block_key_t))).length) null_key }
        = true := by
      unfold store_load_factor_gt_max block_t.chunk_count
      rw [bucket_ok_length hok, hok.keys, store_used_live _ _ (bucket_ok_live_ne_null hok), hlen]
      decide
    rw [if_pos hload] at hput
    have hmap : ∀ x ∈ pre ++ { k with references := (k.references + 1) % 2 ^ 16 } :: post,
        do_map_key crowded_store.sb x.id crowded_store.sb.n = 0 := by
      intro x hx
      obtain ⟨b0, live0, hb0, hok0, hmap0⟩ := crowded_store_ok.buckets 0 (by decide)
      have hid : ∃ y ∈ (List.range 3585).map
          (fun j => (⟨crowded_id j, 10 * j, 10, 1⟩ : block_key_t)), y.id = x.id := by
        rw [hlive]
        rcases List.mem_append.mp hx with e | e
        · exact ⟨x, List.mem_append_left _ e, rfl⟩
        · rcases List.mem_cons.mp e with e1 | e1
          · exact ⟨k, List.mem_append_right _ (List.mem_cons_self _ _), by rw [e1]⟩
          · exact ⟨x, List.mem_append_right _ (List.mem_cons_of_mem _ e1), rfl⟩
      obtain ⟨y, hy, hyx⟩ := hid
      obtain ⟨t, ht, rfl⟩ := List.mem_map.mp hy
      have ht2 : t < 3585 := List.mem_range.mp ht
      rw [← hyx, do_map_key_hash, key_hash_crowded t (by omega)]
      show (if 4 * t % 2 ^ 1 < 0 then 4 * t % 2 ^ (1 + 1) else 4 * t % 2 ^ 1) = 0
      rw [if_neg (Nat.not_lt_zero _)]
      omega
    have hmk : store_map_key crowded_store.sb (crowded_id 0) = b64_encode 0 := by
      have h : do_map_key crowded_store.sb (crowded_id 0) crowded_store.sb.n = 0 := by
        rw [do_map_key_hash, key_hash_crowded 0 (by decide)]
        decide
      unfold store_map_key
      rw [h]
    rw [hmk] at hput
    have hok1 := store_ok_write crowded_store_ok hN 0 (by decide) _ _ hok hmap
    obtain ⟨s', hsplit, hok2, _⟩ := split_next_store_ok hok1 (by decide)
    have hsb := split_next_store_sb _ s' hsplit
    have hsb1 : s'.sb = (if (0 : Nat) = low_mask 1 then (⟨(1 + 1) % 2 ^ 16, 0⟩ : store_sb_t)
        else ⟨1, (0 + 1) % 2 ^ 64⟩) := hsb
    have hsb2 : s'.sb = ⟨1, 1⟩ := by
      rw [hsb1]
      decide
    obtain ⟨b2, live2, hb2, _, _⟩ := hok2.buckets 2 (by rw [hsb2]; decide)
    rw [hput, hsplit]
    show some ((1 : Int), s'.sb.i, s'.sb.n, (s'.blocks (b64_encode 2)).isSome)
      = some (1, 1, 1, true)
    rw [hsb2, hb2]
    rfl


/-! ## A split, chunk by chunk -/

/-- The state a split leaves behind, written out: the bucket the split pointer
names, its chunks, the slots the move loop leaves and the new bucket. -/
theorem split_next_store_shape {N : Nat} {s : store_state_t} (h : store_ok N s)
    (hN : N < 2 ^ 62) :
    ∃ curr live ckeys next', s.blocks (b64_encode s.sb.n) = some curr ∧ bucket_ok curr live ∧
      (∀ k ∈ live, do_map_key s.sb k.id s.sb.n = s.sb.n) ∧
      s.blocks (b64_encode (2 ^ s.sb.i + s.sb.n)) = none ∧
      split_next_store.move s.sb (2 ^ s.sb.i + s.sb.n) curr.data curr.keys new_block
        = some (ckeys, next') ∧
      bucket_ok next' (moved_keys 0 (live.filter (fun k => split_moves s.sb k.id))) ∧
      bucket_ok (compact_block { curr with keys := ckeys })
        (repacked 0 (live.filter (fun k => !split_moves s.sb k.id))) ∧
      (∀ id, id ≠ null_id → bucket_lookup next' id
        = if split_moves s.sb id = true then bucket_lookup curr id else none) ∧
      (∀ id, id ≠ null_id → bucket_lookup (compact_block { curr with keys := ckeys }) id
        = if split_moves s.sb id = true then none else bucket_lookup curr id) ∧
      (∀ id, do_map_key s.sb id s.sb.n = s.sb.n →
        (split_moves s.sb id = true
          ↔ key_hash id % 2 ^ (s.sb.i + 1) = 2 ^ s.sb.i + s.sb.n)) ∧
      split_next_store s = some (0,
        { sb := if s.sb.n = 2 ^ s.sb.i - 1 then ⟨s.sb.i + 1, 0⟩ else ⟨s.sb.i, s.sb.n + 1⟩
          blocks := (write_block
            (write_block (write_block s (b64_encode (2 ^ s.sb.i + s.sb.n)) new_block)
              (b64_encode (2 ^ s.sb.i + s.sb.n)) next')
            (b64_encode s.sb.n) (compact_block { curr with keys := ckeys })).blocks }) := by
  obtain ⟨hi, hlt⟩ := store_ok_level h hN
  have hpos := Nat.two_pow_pos s.sb.i
  have hptr := h.ptr
  have h62 : (2 : Nat) ^ 62 < 2 ^ 64 := by decide
  have hmask : low_mask s.sb.i = 2 ^ s.sb.i - 1 := low_mask_eq _ (by omega)
  have hnext : ((1 <<< s.sb.i) % 2 ^ 64 + s.sb.n) % 2 ^ 64 = 2 ^ s.sb.i + s.sb.n := by
    rw [Nat.one_shiftLeft, Nat.mod_eq_of_lt (by omega), Nat.mod_eq_of_lt (by omega)]
  have habsent := h.absent (2 ^ s.sb.i + s.sb.n) (Nat.le_refl _) (by omega)
  obtain ⟨curr, live, hcurr, hokc, hmapc⟩ := h.buckets s.sb.n (by omega)
  have hne : b64_encode s.sb.n ≠ b64_encode (2 ^ s.sb.i + s.sb.n) :=
    b64_encode_ne _ _ (by omega) (by omega) (by omega)
  have hn1 : s.sb.n + 1 < 2 ^ 64 := by omega
  have hiff : ∀ id, do_map_key s.sb id s.sb.n = s.sb.n →
      (split_moves s.sb id = true
        ↔ key_hash id % 2 ^ (s.sb.i + 1) = 2 ^ s.sb.i + s.sb.n) := by
    intro id hm
    have ht := do_map_key_split_target s.sb id hptr hm
    rw [split_moves_iff s.sb id hn1, ht.1]
    constructor
    · intro h2
      rcases ht.2 with e | e
      · exact absurd e h2
      · exact e
    · intro e
      rw [e]
      omega
  have htarget : ∀ k ∈ live, split_moves s.sb k.id = true →
      do_map_key s.sb k.id ((s.sb.n + 1) % 2 ^ 64) = 2 ^ s.sb.i + s.sb.n := by
    intro k hk hm
    rw [Nat.mod_eq_of_lt hn1, (do_map_key_split_target s.sb k.id hptr (hmapc k hk)).1]
    exact (hiff k.id (hmapc k hk)).mp hm
  obtain ⟨ckeys, next', hmove, hoknext, hokcurr, hlknext, hlkcurr⟩ :=
    split_buckets s.sb (2 ^ s.sb.i + s.sb.n) curr live hokc htarget
  refine ⟨curr, live, ckeys, next', hcurr, hokc, hmapc, habsent, hmove, hoknext, hokcurr,
    hlknext, hlkcurr, hiff, ?_⟩
  unfold split_next_store
  simp only [hnext, hmask]
  have hc : create_new_block s (2 ^ s.sb.i + s.sb.n)
      = (0, write_block s (b64_encode (2 ^ s.sb.i + s.sb.n)) new_block) := by
    unfold create_new_block
    rw [habsent]
  rw [hc]
  simp only [store_open]
  rw [write_block_other _ _ _ _ hne, hcurr]
  simp only [write_block_same, hmove]
  rw [Nat.mod_eq_of_lt (show s.sb.i + 1 < 2 ^ 16 by omega), Nat.mod_eq_of_lt hn1]

/-- A chunk a well-formed bucket holds is one of its occupied slots. -/
theorem bucket_lookup_some {b : block_t} {live : List block_key_t} (h : bucket_ok b live)
    (id : arrow_id_t) (hid : id ≠ null_id) (hl : bucket_lookup b id ≠ none) :
    ∃ k ∈ live, k.id = id := by
  rw [bucket_lookup_ok h id hid] at hl
  cases hf : live.find? (fun k => decide (k.id = id)) with
  | none => rw [hf] at hl; exact absurd rfl hl
  | some k =>
    exact ⟨k, List.mem_of_find?_eq_some hf, by simpa using List.find?_some hf⟩

/-- C11. A split at superblock `(i, n)` of a well-formed store with fewer than
2^62 buckets succeeds (the assertion of the move loop holds) and partitions the
chunks of bucket `n` by `x mod 2^(i+1)`, `x` being the value `do_map_key` reads from
the id: the new bucket `m = 2^i + n` holds exactly the chunks of bucket `n` with
`x mod 2^(i+1) = m`, bucket `n` keeps exactly the others, each with the bytes (and so
the length) it had, in the order it was in, and neither bucket holds anything
else. -/
theorem split_next_store_partitions {N : Nat} {s : store_state_t} (h : store_ok N s)
    (hN : N < 2 ^ 62) :
    ∃ s' curr live curr' next', split_next_store s = some (0, s') ∧
      s.blocks (b64_encode s.sb.n) = some curr ∧ bucket_ok curr live ∧
      s'.blocks (b64_encode s.sb.n) = some curr' ∧
      s'.blocks (b64_encode (2 ^ s.sb.i + s.sb.n)) = some next' ∧
      bucket_ok next' (moved_keys 0 (live.filter
        (fun k => decide (key_hash k.id % 2 ^ (s.sb.i + 1) = 2 ^ s.sb.i + s.sb.n)))) ∧
      bucket_ok curr' (repacked 0 (live.filter
        (fun k => !decide (key_hash k.id % 2 ^ (s.sb.i + 1) = 2 ^ s.sb.i + s.sb.n)))) ∧
      ∀ id, id ≠ null_id →
        bucket_lookup next' id
          = (if key_hash id % 2 ^ (s.sb.i + 1) = 2 ^ s.sb.i + s.sb.n
             then bucket_lookup curr id else none) ∧
        bucket_lookup curr' id
          = (if key_hash id % 2 ^ (s.sb.i + 1) = 2 ^ s.sb.i + s.sb.n
             then none else bucket_lookup curr id) := by
  obtain ⟨hi, hlt⟩ := store_ok_level h hN
  have h62 : (2 : Nat) ^ 62 < 2 ^ 64 := by decide
  obtain ⟨curr, live, ckeys, next', hcurr, hokc, hmapc, -, -, hoknext, hokcurr, hlknext,
    hlkcurr, hiff, hsplit⟩ := split_next_store_shape h hN
  have hpos := Nat.two_pow_pos s.sb.i
  have hne : b64_encode s.sb.n ≠ b64_encode (2 ^ s.sb.i + s.sb.n) :=
    b64_encode_ne _ _ (by omega) (by omega) (by omega)
  have hfilter : live.filter (fun k => split_moves s.sb k.id)
      = live.filter (fun k =>
          decide (key_hash k.id % 2 ^ (s.sb.i + 1) = 2 ^ s.sb.i + s.sb.n)) := by
    apply List.filter_congr
    intro k hk
    have := hiff k.id (hmapc k hk)
    by_cases hm : split_moves s.sb k.id = true
    · rw [hm]; exact (decide_eq_true (this.mp hm)).symm
    · have hm2 : split_moves s.sb k.id = false := by simpa using hm
      rw [hm2]
      exact (decide_eq_false (fun e => hm (this.mpr e))).symm
  have hfilter2 : live.filter (fun k => !split_moves s.sb k.id)
      = live.filter (fun k =>
          !decide (key_hash k.id % 2 ^ (s.sb.i + 1) = 2 ^ s.sb.i + s.sb.n)) := by
    apply List.filter_congr
    intro k hk
    have := hiff k.id (hmapc k hk)
    by_cases hm : split_moves s.sb k.id = true
    · rw [hm, decide_eq_true (this.mp hm)]
    · have hm2 : split_moves s.sb k.id = false := by simpa using hm
      rw [hm2, decide_eq_false (fun e => hm (this.mpr e))]
  rw [hfilter] at hoknext
  rw [hfilter2] at hokcurr
  refine ⟨_, curr, live, _, next', hsplit, hcurr, hokc, write_block_same _ _ _, ?_, hoknext,
    hokcurr, ?_⟩
  · show (write_block _ _ _).blocks _ = _
    rw [write_block_other _ _ _ _ (Ne.symm hne), write_block_same]
  · intro id hid
    rw [hlknext id hid, hlkcurr id hid]
    by_cases hl : bucket_lookup curr id = none
    · rw [hl]; simp
    · obtain ⟨k, hk, hkid⟩ := bucket_lookup_some hokc id hid hl
      have := hiff id (by rw [← hkid]; exact hmapc k hk)
      by_cases hm : split_moves s.sb id = true
      · rw [if_pos hm, if_pos (this.mp hm), if_pos hm, if_pos (this.mp hm)]
        exact ⟨rfl, rfl⟩
      · rw [if_neg hm, if_neg (fun e => hm (this.mpr e)), if_neg hm,
          if_neg (fun e => hm (this.mpr e))]
        exact ⟨rfl, rfl⟩


/-! ## Reference counts across a split -/

/-- The occupied slots of a well-formed bucket are its non-empty slots. -/
theorem bucket_ok_live_eq {b : block_t} {live : List block_key_t} (h : bucket_ok b live) :
    live = b.keys.filter (fun k => decide (k ≠ null_key)) := by
  rw [h.keys, List.filter_append]
  have h1 : live.filter (fun k => decide (k ≠ null_key)) = live :=
    List.filter_eq_self.mpr (fun k hk => decide_eq_true (bucket_ok_live_ne_null h k hk))
  have h2 : (List.replicate (ARROW_BLOCK_INITIAL_COUNT - live.length) null_key).filter
      (fun k => decide (k ≠ null_key)) = [] :=
    List.filter_eq_nil_iff.mpr (fun k hk => by
      rw [List.eq_of_mem_replicate hk]; simp)
  rw [h1, h2, List.append_nil]

theorem counted_bucket_ok :
    bucket_ok counted_bucket [(⟨moving_id, 0, 3, 2⟩ : block_key_t), ⟨staying_id, 3, 2, 1⟩] :=
  ⟨rfl, by decide, rfl, by decide, by decide, ⟨rfl, rfl, trivial⟩, by decide⟩

theorem counted_blocks (name : List Nat) :
    counted_store.blocks name
      = if name = b64_encode 0 then some counted_bucket else none := rfl

theorem counted_store_ok : store_ok 1 counted_store := by
  refine ⟨by decide, by decide, ?_, ?_⟩
  · intro j hj
    have hj2 : j < 1 := hj
    have : j = 0 := by omega
    subst this
    refine ⟨counted_bucket, _, ?_, counted_bucket_ok, ?_⟩
    · rw [counted_blocks, if_pos rfl]
    · intro k hk
      have := do_map_key_lt counted_store.sb k.id
      have h1 : 2 ^ counted_store.sb.i + counted_store.sb.n = 1 := rfl
      omega
  · intro j hj hj64
    have hj2 : 1 ≤ j := hj
    rw [counted_blocks, if_neg (b64_encode_ne j 0 hj64 (by decide) (by omega))]

theorem counted_moves :
    split_moves counted_store.sb moving_id = true
      ∧ split_moves counted_store.sb staying_id = false := by
  decide

/-- C12 (code). `counted_store` is at superblock `(0, 0)`; its bucket 0 holds the chunk
`moving_id` with `references = 2`.  `split_next_store` moves the chunk to the new
bucket 1 (its key is 1 modulo 2), where its slot has `references = 1`: the move
loop re-puts the chunk with `store_put_into_int`, which sets `references` to 1. -/
theorem split_next_store_resets_references :
    store_open counted_store (b64_encode 0) = some counted_bucket ∧
    key_references moving_id counted_bucket.keys = some 2 ∧
    ∃ s' next', split_next_store counted_store = some (0, s') ∧
      store_open s' (b64_encode 1) = some next' ∧
      key_references moving_id next'.keys = some 1 := by
  have hN : (1 : Nat) < 2 ^ 62 := by decide
  obtain ⟨curr, live, ckeys, next', hcurr, hokc, -, -, -, hoknext, -, -, -, -, hsplit⟩ :=
    split_next_store_shape counted_store_ok hN
  have hc : curr = counted_bucket := by
    have h : counted_store.blocks (b64_encode 0) = some curr := hcurr
    rw [counted_blocks, if_pos rfl] at h
    exact (Option.some.inj h).symm
  subst hc
  have hlive : live = [(⟨moving_id, 0, 3, 2⟩ : block_key_t), ⟨staying_id, 3, 2, 1⟩] := by
    rw [bucket_ok_live_eq hokc, bucket_ok_live_eq counted_bucket_ok]
  subst hlive
  have hfilter : [(⟨moving_id, 0, 3, 2⟩ : block_key_t), ⟨staying_id, 3, 2, 1⟩].filter
      (fun k => split_moves counted_store.sb k.id) = [⟨moving_id, 0, 3, 2⟩] := by
    simp [List.filter, counted_moves.1, counted_moves.2]
  rw [hfilter] at hoknext
  refine ⟨rfl, rfl, _, next', hsplit, ?_, ?_⟩
  · have hb : ∀ (t : store_state_t) (b1 b2 : block_t),
        (write_block (write_block t (b64_encode 1) b1) (b64_encode 0) b2).blocks (b64_encode 1)
          = some b1 := by
      intro t b1 b2
      rw [write_block_other _ _ _ _ (b64_encode_ne 1 0 (by decide) (by decide) (by decide))]
      exact write_block_same _ _ _
    exact hb (write_block counted_store (b64_encode 1) new_block) next'
      (compact_block { counted_bucket with keys := ckeys })
  · rw [hoknext.keys]
    rfl

/-- C11 (witness): the split of `counted_store`, whose bucket 0 holds one chunk with an
odd key and one with an even key. -/
theorem split_next_store_partitions_witness :
    ∃ s' curr live curr' next', split_next_store counted_store = some (0, s') ∧
      counted_store.blocks (b64_encode counted_store.sb.n) = some curr ∧ bucket_ok curr live ∧
      s'.blocks (b64_encode counted_store.sb.n) = some curr' ∧
      s'.blocks (b64_encode (2 ^ counted_store.sb.i + counted_store.sb.n)) = some next' ∧
      bucket_ok next' (moved_keys 0 (live.filter
        (fun k => decide (key_hash k.id % 2 ^ (counted_store.sb.i + 1)
          = 2 ^ counted_store.sb.i + counted_store.sb.n)))) ∧
      bucket_ok curr' (repacked 0 (live.filter
        (fun k => !decide (key_hash k.id % 2 ^ (counted_store.sb.i + 1)
          = 2 ^ counted_store.sb.i + counted_store.sb.n)))) ∧
      ∀ id, id ≠ null_id →
        bucket_lookup next' id
          = (if key_hash id % 2 ^ (counted_store.sb.i + 1)
                = 2 ^ counted_store.sb.i + counted_store.sb.n
             then bucket_lookup curr id else none) ∧
        bucket_lookup curr' id
          = (if key_hash id % 2 ^ (counted_store.sb.i + 1)
                = 2 ^ counted_store.sb.i + counted_store.sb.n
             then none else bucket_lookup curr id) :=
  split_next_store_partitions counted_store_ok (by decide)


/-! ## Running a split again -/

/-- The move loop leaves a bucket alone when none of its chunks is to move. -/
theorem split_move_stay (sb : store_sb_t) (next_id : Nat) (cdata : Nat → Nat)
    (next : block_t) :
    ∀ xs : List block_key_t, (∀ k ∈ xs, k = null_key ∨ split_moves sb k.id = false) →
      split_next_store.move sb next_id cdata xs next = some (xs, next) := by
  intro xs
  induction xs with
  | nil => intro _; rfl
  | cons k rest ih =>
    intro h
    have hrest := ih (fun x hx => h x (List.mem_cons_of_mem _ hx))
    rw [split_next_store.move]
    by_cases hk : k = null_key
    · rw [if_neg (not_not.mpr hk), hrest]; rfl
    · have hm : split_moves sb k.id = false := by
        rcases h k (List.mem_cons_self _ _) with e | e
        · exact absurd e hk
        · exact e
      have hne : ¬ do_map_key sb k.id ((sb.n + 1) % 2 ^ 64) ≠ sb.n := by
        simpa [split_moves] using hm
      rw [if_pos hk, if_neg hne, hrest]; rfl

/-- A pass of `compact_block` over occupied slots with no hole before them keeps
them in place. -/
theorem compact_pass_full (data : Nat → Nat) (tail : Nat) :
    ∀ (live done : List block_key_t), (∀ k ∈ live, k ≠ null_key) →
      compact_pass done 0 (live ++ List.replicate tail null_key) data
        = (done ++ live ++ List.replicate tail null_key, data) := by
  intro live
  induction live with
  | nil =>
    intro done _
    rw [List.nil_append, compact_pass_nulls, Nat.zero_add, List.append_nil]
  | cons k rest ih =>
    intro done h
    rw [List.cons_append, compact_pass, if_neg (h k (List.mem_cons_self _ _)), if_pos rfl,
      ih _ (fun x hx => h x (List.mem_cons_of_mem _ hx))]
    simp [List.append_assoc]

/-- `compact_block` leaves a bucket alone whose occupied slots come first. -/
theorem compact_block_full (b : block_t) (live : List block_key_t) (tail : Nat)
    (hkeys : b.keys = live ++ List.replicate tail null_key)
    (hlive : ∀ k ∈ live, k ≠ null_key) : compact_block b = b := by
  rw [compact_block_eq_pass, hkeys, compact_pass_full b.data tail live [] hlive,
    List.nil_append, ← hkeys]

/-- Writing two buckets that hold what is written changes no bucket. -/
theorem write_block_again (t : store_state_t) (sb : store_sb_t) (n m : List Nat)
    (b1 b2 : block_t) :
    (write_block
      (write_block { sb := sb, blocks := (write_block (write_block t m b1) n b2).blocks } m b1)
      n b2).blocks = (write_block (write_block t m b1) n b2).blocks := by
  funext nm
  by_cases e1 : nm = n
  · simp [write_block, e1]
  · by_cases e2 : nm = m
    · simp [write_block, e1, e2]
    · simp [write_block, e1, e2]

/-- C16. On a well-formed store with fewer than 2^62 buckets, running
`split_next_store` once more for the same `(i, n)` on the bucket files that a
completed split left (the superblock still holding `(i, n)`) yields the very state
the first run yielded: bucket `n`, bucket `2^i + n` and every other bucket are
unchanged, slot by slot (references included) and byte by byte. -/
theorem split_next_store_rerun {N : Nat} {s : store_state_t} (h : store_ok N s)
    (hN : N < 2 ^ 62) :
    ∃ s1, split_next_store s = some (0, s1) ∧
      split_next_store { sb := s.sb, blocks := s1.blocks } = some (0, s1) := by
  obtain ⟨hi, hlt⟩ := store_ok_level h hN
  have hpos := Nat.two_pow_pos s.sb.i
  have hptr := h.ptr
  have h62 : (2 : Nat) ^ 62 < 2 ^ 64 := by decide
  have hmask : low_mask s.sb.i = 2 ^ s.sb.i - 1 := low_mask_eq _ (by omega)
  have hnext : ((1 <<< s.sb.i) % 2 ^ 64 + s.sb.n) % 2 ^ 64 = 2 ^ s.sb.i + s.sb.n := by
    rw [Nat.one_shiftLeft, Nat.mod_eq_of_lt (by omega), Nat.mod_eq_of_lt (by omega)]
  have hn1 : s.sb.n + 1 < 2 ^ 64 := by omega
  have hne : b64_encode s.sb.n ≠ b64_encode (2 ^ s.sb.i + s.sb.n) :=
    b64_encode_ne _ _ (by omega) (by omega) (by omega)
  obtain ⟨curr, live, ckeys, next', -, -, -, -, -, -, hokcurr, -, -, -, hsplit⟩ :=
    split_next_store_shape h hN
  refine ⟨_, hsplit, ?_⟩
  have hstay : ∀ k ∈ (compact_block { curr with keys := ckeys }).keys,
      k = null_key ∨ split_moves s.sb k.id = false := by
    intro k hk
    rw [hokcurr.keys] at hk
    rcases List.mem_append.mp hk with e | e
    · right
      have hkid : k.id ∈ (repacked 0 (live.filter (fun k => !split_moves s.sb k.id))).map
          (fun k => k.id) := List.mem_map_of_mem _ e
      rw [repacked_ids] at hkid
      obtain ⟨x, hx, hxe⟩ := List.mem_map.mp hkid
      have hxm := (List.mem_filter.mp hx).2
      have hxe' : x.id = k.id := hxe
      rw [← hxe']
      simpa using hxm
    · left
      exact List.eq_of_mem_replicate e
  have hfull := compact_block_full (compact_block { curr with keys := ckeys }) _ _
    hokcurr.keys (bucket_ok_live_ne_null hokcurr)
  unfold split_next_store
  simp only [hnext, hmask]
  have hbn : (write_block
      (write_block (write_block s (b64_encode (2 ^ s.sb.i + s.sb.n)) new_block)
        (b64_encode (2 ^ s.sb.i + s.sb.n)) next')
      (b64_encode s.sb.n) (compact_block { curr with keys := ckeys })).blocks
        (b64_encode s.sb.n) = some (compact_block { curr with keys := ckeys }) :=
    write_block_same _ _ _
  have hbm : (write_block
      (write_block (write_block s (b64_encode (2 ^ s.sb.i + s.sb.n)) new_block)
        (b64_encode (2 ^ s.sb.i + s.sb.n)) next')
      (b64_encode s.sb.n) (compact_block { curr with keys := ckeys })).blocks
        (b64_encode (2 ^ s.sb.i + s.sb.n)) = some next' := by
    rw [write_block_other _ _ _ _ (Ne.symm hne), write_block_same]
  have hc : create_new_block
      { sb := s.sb
        blocks := (write_block
          (write_block (write_block s (b64_encode (2 ^ s.sb.i + s.sb.n)) new_block)
            (b64_encode (2 ^ s.sb.i + s.sb.n)) next')
          (b64_encode s.sb.n) (compact_block { curr with keys := ckeys })).blocks }
      (2 ^ s.sb.i + s.sb.n)
      = (-1, { sb := s.sb
               blocks := (write_block
                (write_block (write_block s (b64_encode (2 ^ s.sb.i + s.sb.n)) new_block)
                  (b64_encode (2 ^ s.sb.i + s.sb.n)) next')
                (b64_encode s.sb.n) (compact_block { curr with keys := ckeys })).blocks }) := by
    unfold create_new_block
    simp only [hbm]
  rw [hc]
  simp only [store_open, hbn, hbm]
  rw [split_move_stay s.sb _ _ next' _ hstay]
  simp only [hfull]
  rw [Nat.mod_eq_of_lt (show s.sb.i + 1 < 2 ^ 16 by omega), Nat.mod_eq_of_lt hn1]
  rw [write_block_again]

/-- C16 (witness): the split of `counted_store`, run twice. -/
theorem split_next_store_rerun_witness :
    ∃ s1, split_next_store counted_store = some (0, s1) ∧
      split_next_store { sb := counted_store.sb, blocks := s1.blocks } = some (0, s1) :=
  split_next_store_rerun counted_store_ok (by decide)


/-! ## The numbering of buckets -/

/-- A split of a store with exactly `N` buckets leaves a well-formed store with
exactly `N + 1` buckets. -/
theorem split_next_store_exact {N : Nat} {s : store_state_t} (h : store_ok N s)
    (hN : N < 2 ^ 62) (hx : 2 ^ s.sb.i + s.sb.n = N) :
    ∃ s', split_next_store s = some (0, s') ∧ store_ok (N + 1) s' ∧
      2 ^ s'.sb.i + s'.sb.n = N + 1 ∧
      s'.sb = (if s.sb.n = 2 ^ s.sb.i - 1 then ⟨s.sb.i + 1, 0⟩ else ⟨s.sb.i, s.sb.n + 1⟩) := by
  obtain ⟨s', hsplit, hok, -⟩ := split_next_store_ok h hN
  obtain ⟨hi, hlt⟩ := store_ok_level h hN
  have hpos := Nat.two_pow_pos s.sb.i
  have hptr := h.ptr
  have hsb := split_next_store_sb s s' hsplit
  rw [low_mask_eq _ (by omega), Nat.mod_eq_of_lt (show s.sb.i + 1 < 2 ^ 16 by omega),
    Nat.mod_eq_of_lt (show s.sb.n + 1 < 2 ^ 64 by omega)] at hsb
  refine ⟨s', hsplit, hok, ?_, hsb⟩
  rw [hsb]
  by_cases hl : s.sb.n = 2 ^ s.sb.i - 1
  · rw [if_pos hl]
    show 2 ^ (s.sb.i + 1) + 0 = N + 1
    rw [Nat.pow_succ]
    omega
  · rw [if_neg hl]
    show 2 ^ s.sb.i + (s.sb.n + 1) = N + 1
    omega

theorem split_times_ok :
    ∀ (k N : Nat) (s : store_state_t), store_ok N s → 2 ^ s.sb.i + s.sb.n = N →
      N + k < 2 ^ 62 →
      ∃ s', split_times k s = some s' ∧ store_ok (N + k) s' ∧
        2 ^ s'.sb.i + s'.sb.n = N + k := by
  intro k
  induction k with
  | zero => intro N s h hx _; exact ⟨s, rfl, h, hx⟩
  | succ k ih =>
    intro N s h hx hN
    obtain ⟨s1, hsplit, hok1, hx1, -⟩ := split_next_store_exact h (by omega) hx
    obtain ⟨s', hrun, hok', hx'⟩ := ih (N + 1) s1 hok1 hx1 (by omega)
    refine ⟨s', ?_, ?_, ?_⟩
    · rw [split_times, hsplit]
      simp only [if_true]
      exact hrun
    · rw [show N + (k + 1) = N + 1 + k by omega]; exact hok'
    · rw [show N + (k + 1) = N + 1 + k by omega]; exact hx'

/-- In a well-formed store with exactly `N` buckets the bucket files are those
numbered below `N`. -/
theorem store_ok_files {N : Nat} {s : store_state_t} (h : store_ok N s)
    (hx : 2 ^ s.sb.i + s.sb.n = N) (j : Nat) (hj : j < 2 ^ 64) :
    (s.blocks (b64_encode j)).isSome = true ↔ j < N := by
  constructor
  · intro hs
    by_contra hge
    rw [h.absent j (by omega) hj] at hs
    cases hs
  · intro hlt
    obtain ⟨b, _, hb, _⟩ := h.buckets j (by omega)
    rw [hb]
    rfl

/-- C14. In a well-formed store with fewer than 2^62 buckets, a split at `(i, n)`
creates the bucket numbered `2^i + n`, which did not exist, creates or removes no
other bucket file and sets `(i, n)` to `(i + 1, 0)` if `n = 2^i - 1` and to
`(i, n + 1)` otherwise.  Hence `k` splits in a row from the initial store
(superblock `(0, 0)`, bucket 0), for `k + 1 < 2^62`, all succeed and leave
`n < 2^i`, `2^i + n = k + 1` and exactly the buckets `0 .. k`. -/
theorem split_next_store_numbering :
    (∀ (N : Nat) (s : store_state_t), store_ok N s → N < 2 ^ 62 →
      ∃ s', split_next_store s = some (0, s') ∧
        s.blocks (b64_encode (2 ^ s.sb.i + s.sb.n)) = none ∧
        (s'.blocks (b64_encode (2 ^ s.sb.i + s.sb.n))).isSome = true ∧
        (∀ j, j < 2 ^ 64 → j ≠ 2 ^ s.sb.i + s.sb.n →
          (s'.blocks (b64_encode j)).isSome = (s.blocks (b64_encode j)).isSome) ∧
        s'.sb = (if s.sb.n = 2 ^ s.sb.i - 1 then ⟨s.sb.i + 1, 0⟩
                 else ⟨s.sb.i, s.sb.n + 1⟩)) ∧
    store_init.sb = ⟨0, 0⟩ ∧
    (∀ j, j < 2 ^ 64 → ((store_init.blocks (b64_encode j)).isSome = true ↔ j = 0)) ∧
    (∀ k : Nat, k + 1 < 2 ^ 62 →
      ∃ s, split_times k store_init = some s ∧ s.sb.n < 2 ^ s.sb.i ∧
        2 ^ s.sb.i + s.sb.n = k + 1 ∧
        ∀ j, j < 2 ^ 64 → ((s.blocks (b64_encode j)).isSome = true ↔ j ≤ k)) := by
  refine ⟨?_, rfl, ?_, ?_⟩
  · intro N s h hN
    obtain ⟨hi, hlt⟩ := store_ok_level h hN
    have hpos := Nat.two_pow_pos s.sb.i
    have hptr := h.ptr
    obtain ⟨curr, live, ckeys, next', hcurr, -, -, habsent, -, -, -, -, -, -, hsplit⟩ :=
      split_next_store_shape h hN
    have hne : b64_encode s.sb.n ≠ b64_encode (2 ^ s.sb.i + s.sb.n) :=
      b64_encode_ne _ _ (by omega) (by omega) (by omega)
    refine ⟨_, hsplit, habsent, ?_, ?_, rfl⟩
    · show ((write_block _ _ _).blocks _).isSome = true
      rw [write_block_other _ _ _ _ (Ne.symm hne), write_block_same]
      rfl
    · intro j hj hjm
      show ((write_block _ _ _).blocks _).isSome = _
      have e2 := b64_encode_ne j (2 ^ s.sb.i + s.sb.n) hj (by omega) hjm
      by_cases hjn : j = s.sb.n
      · subst hjn
        rw [write_block_same, hcurr]
        rfl
      · have e1 := b64_encode_ne j s.sb.n hj (by omega) hjn
        rw [write_block_other _ _ _ _ e1, write_block_other _ _ _ _ e2,
          write_block_other _ _ _ _ e2]
  · intro j hj
    have h := store_ok_files store_init_ok rfl j hj
    rw [h]
    omega
  · intro k hk
    obtain ⟨s, hrun, hok, hx⟩ := split_times_ok k 1 store_init store_init_ok rfl (by omega)
    refine ⟨s, hrun, hok.ptr, by omega, ?_⟩
    intro j hj
    rw [store_ok_files hok hx j hj]
    omega

/-- C14 (witness): the first split of a new store creates bucket 1 and yields the
superblock `(1, 0)`; two splits in a row yield `(1, 1)` and the buckets 0, 1, 2. -/
theorem split_next_store_numbering_witness :
    (∃ s', split_next_store store_init = some (0, s') ∧
      store_init.blocks (b64_encode 1) = none ∧
      (s'.blocks (b64_encode 1)).isSome = true ∧ s'.sb = ⟨1, 0⟩) ∧
    (∃ s, split_times 2 store_init = some s ∧ s.sb.n < 2 ^ s.sb.i ∧
      2 ^ s.sb.i + s.sb.n = 2 + 1 ∧
      ∀ j, j < 2 ^ 64 → ((s.blocks (b64_encode j)).isSome = true ↔ j ≤ 2)) := by
  refine ⟨?_, split_next_store_numbering.2.2.2 2 (by decide)⟩
  obtain ⟨s', h1, h2, h3, -, h5⟩ :=
    split_next_store_numbering.1 1 store_init store_init_ok (by decide)
  exact ⟨s', h1, h2, h3, h5⟩


/-! ## Compaction of a bucket in offset order -/

theorem slots_in_order_ge :
    ∀ (ks : List block_key_t) (o : Nat), slots_in_order o ks = true →
      ∀ k ∈ ks, k ≠ null_key → o ≤ k.offset := by
  intro ks
  induction ks with
  | nil => intro o _ k hk; cases hk
  | cons x rest ih =>
    intro o h k hk hkn
    rw [slots_in_order] at h
    by_cases hx : x = null_key
    · rw [if_pos hx] at h
      rcases List.mem_cons.mp hk with e | e
      · exact absurd (e.trans hx) hkn
      · exact ih o h k e hkn
    · rw [if_neg hx, Bool.and_eq_true, decide_eq_true_eq] at h
      rcases List.mem_cons.mp hk with e | e
      · rw [e]; exact h.1
      · have := ih _ h.2 k e hkn
        omega

/-- What a pass of `compact_block` leaves of slots in offset order: the non-empty
ones back to back after the slots already in place, with their bytes, and empty
slots after them. -/
theorem compact_pass_ordered :
    ∀ (todo done : List block_key_t) (holes o : Nat) (data : Nat → Nat),
      packed_from 0 done → slots_in_order o todo = true → total_length done ≤ o →
      (holes = 0 → packed_from (total_length done)
        (todo.takeWhile (fun k => decide (k ≠ null_key)))) →
      (∀ k ∈ todo, k.offset < 2 ^ 32) →
      (compact_pass done holes todo data).1
        = done ++ repacked (total_length done) (todo.filter (fun k => decide (k ≠ null_key)))
          ++ List.replicate (holes + todo.count null_key) null_key ∧
      (∀ p < total_length done, (compact_pass done holes todo data).2 p = data p) ∧
      (repacked (total_length done) (todo.filter (fun k => decide (k ≠ null_key)))).map
          (fun k => bytes_at (compact_pass done holes todo data).2 k.offset k.length)
        = (todo.filter (fun k => decide (k ≠ null_key))).map
            (fun k => bytes_at data k.offset k.length) := by
  intro todo
  induction todo with
  | nil =>
    intro done holes o data _ _ _ _ _
    simp [compact_pass, repacked]
  | cons k rest ih =>
    intro done holes o data hdone hord hle hzero hbound
    have hbound' : ∀ x ∈ rest, x.offset < 2 ^ 32 :=
      fun x hx => hbound x (List.mem_cons_of_mem _ hx)
    rw [slots_in_order] at hord
    rw [compact_pass]
    by_cases hk : k = null_key
    · rw [if_pos hk] at hord ⊢
      obtain ⟨h1, h2, h3⟩ := ih done (holes + 1) o data hdone hord hle
        (fun e => absurd e (Nat.succ_ne_zero holes)) hbound'
      have hf : (k :: rest).filter (fun k => decide (k ≠ null_key))
          = rest.filter (fun k => decide (k ≠ null_key)) := by
        rw [List.filter_cons, hk]; simp
      have hc : (k :: rest).count null_key = rest.count null_key + 1 := by
        rw [hk, List.count_cons_self]
      rw [hf, hc]
      refine ⟨?_, h2, h3⟩
      rw [h1, show holes + 1 + rest.count null_key = holes + (rest.count null_key + 1) by omega]
    · rw [if_neg hk, Bool.and_eq_true, decide_eq_true_eq] at hord
      rw [if_neg hk]
      obtain ⟨hok, hord'⟩ := hord
      have hf : (k :: rest).filter (fun k => decide (k ≠ null_key))
          = k :: rest.filter (fun k => decide (k ≠ null_key)) := by
        rw [List.filter_cons]; simp [hk]
      have hc : (k :: rest).count null_key = rest.count null_key := by
        rw [List.count_cons_of_ne (fun e => hk e.symm)]
      have hge := slots_in_order_ge rest _ hord'
      rw [hf, hc]
      by_cases h0 : holes = 0
      · rw [if_pos h0]
        have hz := hzero h0
        rw [List.takeWhile_cons, if_pos (by simpa using hk)] at hz
        obtain ⟨hko, hz'⟩ := hz
        have hdone' : packed_from 0 (done ++ [k]) := by
          rw [packed_append]
          exact ⟨hdone, by simp [packed_from, hko]⟩
        have htot : total_length (done ++ [k]) = k.offset + k.length := by
          rw [total_length_append]; simp [total_length, hko]
        obtain ⟨h1, h2, h3⟩ := ih (done ++ [k]) 0 (k.offset + k.length) data hdone' hord'
          (by rw [htot]) (fun _ => by rw [htot, hko]; exact hz') hbound'
        rw [htot] at h1 h2 h3
        have hkk : ({ k with offset := total_length done } : block_key_t) = k := by
          rw [← hko]
        subst h0
        refine ⟨?_, ?_, ?_⟩
        · rw [h1]
          simp only [repacked, hkk]
          simp [hko]
        · intro p hp
          exact h2 p (by omega)
        · simp only [repacked, List.map_cons]
          rw [← hko, h3]
          congr 1
          apply bytes_at_congr
          intro t ht
          rw [h2 _ (by omega)]
      · rw [if_neg h0]
        have hkb := hbound k (List.mem_cons_self _ _)
        have hoff : compact_pass.offset done = total_length done := by
          rw [compact_offset_packed done hdone, Nat.mod_eq_of_lt (by omega)]
        rw [hoff]
        have hdone' : packed_from 0 (done ++ [{ k with offset := total_length done }]) := by
          rw [packed_append]
          exact ⟨hdone, by simp [packed_from]⟩
        have htot : total_length (done ++ [{ k with offset := total_length done }])
            = total_length done + k.length := by
          rw [total_length_append]; simp [total_length]
        obtain ⟨h1, h2, h3⟩ := ih (done ++ [{ k with offset := total_length done }]) holes
          (k.offset + k.length) (memcpy data (total_length done) data k.offset k.length)
          hdone' hord' (by rw [htot]; omega) (fun e => absurd e h0) hbound'
        rw [htot] at h1 h2 h3
        refine ⟨?_, ?_, ?_⟩
        · rw [h1]
          simp only [repacked]
          simp
        · intro p hp
          rw [h2 p (by omega)]
          simp only [memcpy]
          rw [if_neg (by omega)]
        · simp only [repacked, List.map_cons]
          rw [h3]
          congr 1
          · apply bytes_at_congr
            intro t ht
            rw [h2 _ (by omega)]
            simp only [memcpy]
            rw [if_pos (by omega), Nat.add_sub_cancel_left]
          · apply List.map_congr_left
            intro x hx
            have hxm := List.mem_filter.mp hx
            have hb := hge x hxm.1 (by simpa using hxm.2)
            apply bytes_at_congr
            intro t ht
            simp only [memcpy]
            rw [if_neg (by omega)]

/-- C13 (counterexample). The only chunk of `gap_bucket` is in slot 0 at offset 5, so
its non-empty slots are in offset order and do not overlap; `compact_block` leaves
the key array as it is, the chunk at offset 5 and not at offset 0, the sum of the
lengths of the chunks before it. -/
theorem compact_block_keeps_gap :
    slots_in_order 0 gap_bucket.keys = true ∧
    (compact_block gap_bucket).keys = [(⟨moving_id, 5, 3, 1⟩ : block_key_t), null_key] := by
  decide

/-- C13 (as amended). `compact_block`, applied to a bucket whose non-empty slots are in
offset order without overlap (offsets being 32-bit values) and whose non-empty
slots before the first empty slot lie back to back from offset 0, leaves the same
chunks (id, length, references, bytes) in the same order in the first slots of the
key array, each at the offset that is the sum of the lengths of the chunks before
it, and empty slots after them. -/
theorem compact_block_spec (b : block_t)
    (hord : slots_in_order 0 b.keys = true)
    (hfront : packed_from 0 (b.keys.takeWhile (fun k => decide (k ≠ null_key))))
    (hbound : ∀ k ∈ b.keys, k.offset < 2 ^ 32) :
    (compact_block b).keys
      = repacked 0 (b.keys.filter (fun k => decide (k ≠ null_key)))
        ++ List.replicate (b.keys.count null_key) null_key ∧
    (compact_block b).alloc_size = b.alloc_size ∧
    (repacked 0 (b.keys.filter (fun k => decide (k ≠ null_key)))).map
        (fun k => bytes_at (compact_block b).data k.offset k.length)
      = (b.keys.filter (fun k => decide (k ≠ null_key))).map
          (fun k => bytes_at b.data k.offset k.length) := by
  obtain ⟨h1, -, h3⟩ := compact_pass_ordered b.keys [] 0 0 b.data trivial hord (Nat.le_refl _)
    (fun _ => hfront) hbound
  simp only [List.nil_append, total_length, Nat.zero_add] at h1 h3
  rw [compact_block_eq_pass]
  exact ⟨h1, rfl, h3⟩

/-- C13 (witness): `holed_bucket`, whose second chunk moves from slot 2 at offset 5 to
slot 1 at offset 3. -/
theorem compact_block_spec_witness :
    (compact_block holed_bucket).keys
      = [(⟨moving_id, 0, 3, 2⟩ : block_key_t), ⟨staying_id, 3, 2, 1⟩, null_key, null_key] ∧
    (compact_block holed_bucket).alloc_size = 1000 ∧
    [bytes_at (compact_block holed_bucket).data 0 3, bytes_at (compact_block holed_bucket).data 3 2]
      = [[0, 1, 2], [5, 6]] :=
  compact_block_spec holed_bucket (by decide) ⟨rfl, trivial⟩ (by decide)


/-! ## The layout of a bucket after three puts -/

theorem slots_in_order_nulls (o : Nat) (rest : List block_key_t) :
    ∀ m, slots_in_order o (List.replicate m null_key ++ rest) = slots_in_order o rest := by
  intro m
  induction m with
  | zero => rfl
  | succ m ih => rw [List.replicate_succ, List.cons_append, slots_in_order, if_pos rfl, ih]

theorem slots_in_order_cons (o : Nat) (k : block_key_t) (rest : List block_key_t)
    (hk : k ≠ null_key) :
    slots_in_order o (k :: rest)
      = (decide (o ≤ k.offset) && slots_in_order (k.offset + k.length) rest) := by
  rw [slots_in_order, if_neg hk]

/-- Slots in offset order after a first slot that ends at `e`, an empty stretch and
a last slot at offset `o2`: the last slot must not start before `e`. -/
theorem slots_in_order_stray (k1 k2 k3 : block_key_t) (m : Nat)
    (h1 : k1 ≠ null_key) (h2 : k2 ≠ null_key) (h3 : k3 ≠ null_key)
    (hlt : k3.offset < k2.offset + k2.length) :
    slots_in_order 0 ([k1, k2] ++ List.replicate m null_key ++ [k3]) = false := by
  rw [List.append_assoc]
  show slots_in_order 0 (k1 :: k2 :: (List.replicate m null_key ++ [k3])) = false
  rw [slots_in_order_cons _ _ _ h1, slots_in_order_cons _ _ _ h2, slots_in_order_nulls,
    slots_in_order_cons _ _ _ h3]
  have : decide (k2.offset + k2.length ≤ k3.offset) = false := decide_eq_false (by omega)
  rw [this]
  simp

/-- C17 (code). Three `store_put_into` calls on the empty bucket `new_block`, of
4000000, 1000000 and 700 bytes, each return 0.  The second chunk is placed in
the last slot at offset 4000000 (the free space of the last slot is computed from the
bytes read past the key array), the third in slot 1 at offset 4000000 too: slot 1
ends at 4000700, after the start of the last slot, so the layout invariant, which
holds of the empty bucket, does not hold of the bucket after the three puts. -/
theorem store_put_into_breaks_layout :
    store_put_into new_block (filling_id 0) large_chunk = (0, overflow_bucket_1) ∧
    store_put_into overflow_bucket_1 (filling_id 1) stray_chunk = (0, overflow_bucket_2) ∧
    store_put_into overflow_bucket_2 (filling_id 2) small_chunk = (0, overflow_bucket_3) ∧
    slots_in_order 0 new_block.keys = true ∧
    slots_in_order 0 overflow_bucket_3.keys = false := by
  refine ⟨overflow_put_1, overflow_put_2, overflow_put_3, ?_, ?_⟩
  · have h := slots_in_order_nulls 0 [] ARROW_BLOCK_INITIAL_COUNT
    rw [List.append_nil] at h
    exact h
  · exact slots_in_order_stray ⟨filling_id 0, 0, 4000000, 1⟩ ⟨filling_id 2, 4000000, 700, 1⟩
      ⟨filling_id 1, 4000000, 1000000, 1⟩ 5117 (by decide) (by decide) (by decide) (by decide)


/-! ## Reference counts under puts and added references -/

/-- The slots `store_put_into_int` leaves: those it found, but for one slot that
is new with one reference or held the id and has one reference more. -/
theorem put_scan_members (b : block_t) (id : arrow_id_t) (buf : List Nat) :
    ∀ (rest pre : List block_key_t) (offset : Nat), b.keys = pre ++ rest →
      ∀ x ∈ (store_put_into_int.scan b id buf rest pre.length offset).2.keys,
        x ∈ b.keys ∨ x.references = 1 ∨
          ∃ k ∈ b.keys, k.id = id ∧ x = { k with references := (k.references + 1) % 2 ^ 16 } := by
  intro rest
  induction rest with
  | nil => intro pre offset _ x hx; exact Or.inl hx
  | cons k rest ih =>
    intro pre offset hkeys x hx
    have hk : k ∈ b.keys := by rw [hkeys]; simp
    have hnext : b.keys = (pre ++ [k]) ++ rest := by rw [hkeys]; simp
    have hlen : pre.length + 1 = (pre ++ [k]).length := by simp
    rw [store_put_into_int.scan] at hx
    by_cases h1 : k.id = id
    · rw [if_pos h1] at hx
      rcases List.mem_or_eq_of_mem_set hx with e | e
      · exact Or.inl e
      · exact Or.inr (Or.inr ⟨k, hk, h1, e⟩)
    · rw [if_neg h1] at hx
      by_cases h2 : k = null_key
      · rw [if_pos h2] at hx
        simp only at hx
        split at hx <;> split at hx
        all_goals first
          | (rcases List.mem_or_eq_of_mem_set hx with e | e
             · exact Or.inl e
             · exact Or.inr (Or.inl (by rw [e])))
          | (rw [hlen] at hx
             exact ih _ _ hnext x hx)
      · rw [if_neg h2, hlen] at hx
        exact ih _ _ hnext x hx

/-- The slots `store_addref_to` leaves: those it found, but for one slot that
held the id and has one reference more. -/
theorem addref_scan_members (b : block_t) (id : arrow_id_t) :
    ∀ (rest pre : List block_key_t), b.keys = pre ++ rest →
      ∀ x ∈ (store_addref_to.scan b id rest pre.length).2.keys,
        x ∈ b.keys ∨
          ∃ k ∈ b.keys, k.id = id ∧ x = { k with references := (k.references + 1) % 2 ^ 16 } := by
  intro rest
  induction rest with
  | nil => intro pre _ x hx; exact Or.inl hx
  | cons k rest ih =>
    intro pre hkeys x hx
    have hk : k ∈ b.keys := by rw [hkeys]; simp
    have hnext : b.keys = (pre ++ [k]) ++ rest := by rw [hkeys]; simp
    have hlen : pre.length + 1 = (pre ++ [k]).length := by simp
    rw [store_addref_to.scan] at hx
    by_cases h1 : k.id = id
    · rw [if_pos h1] at hx
      rcases List.mem_or_eq_of_mem_set hx with e | e
      · exact Or.inl e
      · exact Or.inr ⟨k, hk, h1, e⟩
    · rw [if_neg h1, hlen] at hx
      exact ih _ hnext x hx

/-- Puts of an id that the single occupied slot of a well-formed bucket holds: the
slot's count goes up by one each time, modulo 2^16. -/
theorem put_times_found (id : arrow_id_t) (buf : List Nat) :
    ∀ (j : Nat) (b : block_t) (o l r : Nat), bucket_ok b [⟨id, o, l, r⟩] → r < 2 ^ 16 →
      (put_times id buf j b).keys
        = [(⟨id, o, l, (r + j) % 2 ^ 16⟩ : block_key_t)]
          ++ List.replicate (ARROW_BLOCK_INITIAL_COUNT - 1) null_key := by
  intro j
  induction j with
  | zero =>
    intro b o l r hok hr
    rw [Nat.add_zero, Nat.mod_eq_of_lt hr]
    exact hok.keys
  | succ j ih =>
    intro b o l r hok hr
    have hput := put_into_found hok id buf [] [] ⟨id, o, l, r⟩ rfl rfl
    have hok1 := bucket_ok_found hok [] [] ⟨id, o, l, r⟩ ((r + 1) % 2 ^ 16) rfl
    rw [put_times]
    unfold store_put_into
    rw [hput]
    have h := ih _ o l ((r + 1) % 2 ^ 16) hok1 (Nat.mod_lt _ (by decide))
    rw [Nat.mod_add_mod] at h
    rw [show r + (j + 1) = r + 1 + j by omega]
    exact h

/-- C18 (counterexample). On the empty bucket `new_block`, 65536 calls of
`store_put_into` with the same id leave the chunk in slot 0 with `references = 0`:
the first call sets the count to 1 and the 65535 increments that follow wrap the
16-bit field. -/
theorem store_put_into_wraps_references :
    references_ok new_block.keys ∧
    (put_times moving_id [10, 20, 30] 65536 new_block).keys
      = [(⟨moving_id, 0, 3, 0⟩ : block_key_t)]
        ++ List.replicate (ARROW_BLOCK_INITIAL_COUNT - 1) null_key ∧
    ¬ references_ok (put_times moving_id [10, 20, 30] 65536 new_block).keys := by
  have hput := put_into_insert bucket_ok_new_block moving_id [10, 20, 30] (by decide)
    (fun k hk => absurd hk (List.not_mem_nil _)) (by decide) (by decide)
  have hok := bucket_ok_insert bucket_ok_new_block moving_id [10, 20, 30] 1 (by decide)
    (fun k hk => absurd hk (List.not_mem_nil _)) (by decide) (by decide)
  have h := put_times_found moving_id [10, 20, 30] 65535 _ 0 3 1 hok (by decide)
  have e : (1 + 65535) % 2 ^ 16 = 0 := by decide
  rw [e] at h
  have hkeys : (put_times moving_id [10, 20, 30] 65536 new_block).keys
      = [(⟨moving_id, 0, 3, 0⟩ : block_key_t)]
        ++ List.replicate (ARROW_BLOCK_INITIAL_COUNT - 1) null_key := by
    rw [show (65536 : Nat) = 65535 + 1 from rfl, put_times]
    unfold store_put_into
    rw [hput]
    exact h
  refine ⟨?_, hkeys, ?_⟩
  · intro k hk hn
    exact absurd (List.eq_of_mem_replicate hk) hn
  · intro hall
    rw [hkeys] at hall
    have := hall ⟨moving_id, 0, 3, 0⟩ (List.mem_append_left _ (List.mem_singleton.mpr rfl))
      (by decide)
    exact absurd this (by decide)

/-- C18 (as amended). If every non-empty slot of a bucket has `references ≥ 1` and no
slot that holds `id` has the count 65535, then every non-empty slot has
`references ≥ 1` after `store_put_into` of `id` and after `store_addref_to` of `id`
(at 65535 the increment wraps the 16-bit count to 0). -/
theorem references_ok_preserved (b : block_t) (id : arrow_id_t) (buf : List Nat)
    (h : references_ok b.keys) (hmax : ∀ k ∈ b.keys, k.id = id → k.references < 65535) :
    references_ok (store_put_into b id buf).2.keys ∧
    references_ok (store_addref_to b id).2.keys := by
  constructor
  · intro x hx hn
    rcases put_scan_members b id buf b.keys [] 0 rfl x hx with e | e | ⟨k, hk, hkid, e⟩
    · exact h x e hn
    · omega
    · rw [e]
      have := hmax k hk hkid
      show 1 ≤ (k.references + 1) % 2 ^ 16
      omega
  · intro x hx hn
    rcases addref_scan_members b id b.keys [] rfl x hx with e | ⟨k, hk, hkid, e⟩
    · exact h x e hn
    · rw [e]
      have := hmax k hk hkid
      show 1 ≤ (k.references + 1) % 2 ^ 16
      omega

/-- C18 (witness): a put and an added reference on `holed_bucket`, whose counts are 2
and 1. -/
theorem references_ok_preserved_witness :
    references_ok (store_put_into holed_bucket moving_id [1, 2]).2.keys ∧
    references_ok (store_addref_to holed_bucket moving_id).2.keys :=
  references_ok_preserved holed_bucket moving_id [1, 2]
    (by unfold references_ok; decide) (by decide)


/-! ## The load factor -/

theorem round_half_even_le_add (x : ℚ) (M : ℤ) (h : x ≤ M + 2 / 5) : round_half_even x ≤ M := by
  have hf : ⌊x⌋ ≤ M := by
    have : ⌊x⌋ < M + 1 := Int.floor_lt.mpr (by push_cast; linarith)
    omega
  have hfl := Int.floor_le x
  unfold round_half_even
  rcases lt_or_eq_of_le hf with h1 | h1
  · split_ifs <;> omega
  · have : x - ⌊x⌋ < 1 / 2 := by rw [h1]; linarith
    rw [if_pos this]; omega

theorem round_half_even_le_of_lt (x : ℚ) (K : ℤ) (h : x < K) : round_half_even x ≤ K := by
  have hf : ⌊x⌋ < K := Int.floor_lt.mpr h
  unfold round_half_even
  split_ifs <;> omega

theorem sub_half_le_round (x : ℚ) : x - 1 / 2 ≤ round_half_even x := by
  have h1 := Int.floor_le x
  have h2 := Int.lt_floor_add_one x
  unfold round_half_even
  split_ifs with a b c
  · linarith
  · push_cast; linarith
  · linarith
  · push_cast; linarith


theorem int_log_half (q : ℚ) (h1 : 1 / 2 ≤ q) (h2 : q < 1) : Int.log 2 q = -1 := by
  have hq : (0 : ℚ) < q := by linarith
  have a : (-1 : ℤ) ≤ Int.log 2 q :=
    (Int.zpow_le_iff_le_log (by decide) hq).mp (by norm_num; linarith)
  have b : Int.log 2 q < 0 :=
    (Int.lt_zpow_iff_log_lt (by decide) hq).mp (by norm_num; linarith)
  omega

theorem to_double_half (q : ℚ) (h1 : 1 / 2 ≤ q) (h2 : q < 1) :
    to_double q = round_half_even (q * 2 ^ 53) / 2 ^ 53 := by
  unfold to_double
  rw [if_neg (by linarith), int_log_half q h1 h2]
  have e : ((2 : ℚ) ^ ((-1 : ℤ) - 52)) = 1 / 2 ^ 53 := by norm_num [zpow_neg]
  rw [e]
  field_simp

theorem to_double_one : to_double 1 = 1 := by
  unfold to_double
  have hl : Int.log 2 (1 : ℚ) = 0 := by
    have a : (0 : ℤ) ≤ Int.log 2 (1 : ℚ) :=
      (Int.zpow_le_iff_le_log (by decide) (by norm_num)).mp (by norm_num)
    have b : Int.log 2 (1 : ℚ) < 1 :=
      (Int.lt_zpow_iff_log_lt (by decide) (by norm_num)).mp (by norm_num)
    omega
  rw [if_neg (by norm_num), hl]
  have e : ((2 : ℚ) ^ ((0 : ℤ) - 52)) = 1 / 2 ^ 52 := by norm_num [zpow_neg]
  rw [e]
  have r : round_half_even (1 / (1 / 2 ^ 52)) = 2 ^ 52 := by
    have x : (1 : ℚ) / (1 / 2 ^ 52) = ((2 ^ 52 : ℤ) : ℚ) := by norm_num
    rw [x]
    unfold round_half_even
    rw [Int.floor_intCast]
    norm_num
  rw [r]
  norm_num

theorem to_double_small (q : ℚ) (h2 : q < 1 / 2) : to_double q ≤ 1 / 2 := by
  unfold to_double
  by_cases h0 : q ≤ 0
  · rw [if_pos h0]; norm_num
  · rw [if_neg h0]
    have hq : 0 < q := lt_of_not_le h0
    have hlog : Int.log 2 q < -1 :=
      (Int.lt_zpow_iff_log_lt (by decide) hq).mp (by norm_num; linarith)
    have hup : q < (2 : ℚ) ^ (Int.log 2 q + 1) := by
      have := Int.lt_zpow_succ_log_self (R := ℚ) (b := 2) (by decide) q
      simpa using this
    have hpos : (0 : ℚ) < 2 ^ (Int.log 2 q - 52) := zpow_pos (by norm_num) _
    have hx : q / 2 ^ (Int.log 2 q - 52) < ((2 ^ 53 : ℤ) : ℚ) := by
      rw [div_lt_iff₀ hpos]
      have e : (((2 : ℤ) ^ 53 : ℤ) : ℚ) * 2 ^ (Int.log 2 q - 52) = 2 ^ (Int.log 2 q + 1) := by
        push_cast
        rw [show (9007199254740992 : ℚ) = 2 ^ (53 : ℤ) by norm_num,
          ← zpow_add₀ (by norm_num : (2 : ℚ) ≠ 0)]
        congr 1
        ring
      rw [e]
      exact hup
    have hr := round_half_even_le_of_lt _ _ hx
    have hr' : (round_half_even (q / 2 ^ (Int.log 2 q - 52)) : ℚ) ≤ ((2 ^ 53 : ℤ) : ℚ) := by
      exact_mod_cast hr
    calc (round_half_even (q / 2 ^ (Int.log 2 q - 52)) : ℚ) * 2 ^ (Int.log 2 q - 52)
        ≤ ((2 ^ 53 : ℤ) : ℚ) * 2 ^ (Int.log 2 q - 52) :=
          mul_le_mul_of_nonneg_right hr' (le_of_lt hpos)
      _ = 2 ^ (Int.log 2 q + 1) := by
          push_cast
          rw [show (9007199254740992 : ℚ) = 2 ^ (53 : ℤ) by norm_num,
            ← zpow_add₀ (by norm_num : (2 : ℚ) ≠ 0)]
          congr 1
          ring
      _ ≤ 2 ^ (-1 : ℤ) := zpow_le_zpow_right₀ (by norm_num) (by omega)
      _ = 1 / 2 := by norm_num

/-- The `double` nearest to 0.70. -/
theorem to_double_seven_tenths : to_double (7 / 10) = 6305039478318694 / 2 ^ 53 := by
  rw [to_double_half _ (by norm_num) (by norm_num)]
  have hf : ⌊(7 / 10 : ℚ) * 2 ^ 53⌋ = 6305039478318694 := by
    rw [Int.floor_eq_iff]
    constructor <;> norm_num
  have r : round_half_even ((7 / 10 : ℚ) * 2 ^ 53) = 6305039478318694 := by
    unfold round_half_even
    rw [hf, if_pos (by norm_num)]
  rw [r]
  norm_num

/-- The quotient of two integers below 2^53, rounded to a `double`, exceeds the
`double` nearest to 0.70 exactly when the quotient exceeds 7/10. -/
theorem to_double_gt_iff (u c : ℕ) (hu : u ≤ c) (hc : c < 2 ^ 53) :
    to_double (7 / 10) < to_double ((u : ℚ) / (c : ℚ)) ↔ 7 * c < 10 * u := by
  rw [to_double_seven_tenths]
  rcases Nat.eq_zero_or_pos c with h0 | hpos
  · subst h0
    have : u = 0 := by omega
    subst this
    have e : to_double (((0 : ℕ) : ℚ) / ((0 : ℕ) : ℚ)) = 0 := by simp [to_double]
    rw [e]
    constructor
    · intro h
      norm_num at h
    · intro h
      omega
  have hcq : (0 : ℚ) < (c : ℚ) := by exact_mod_cast hpos
  have hc53 : (c : ℚ) < 2 ^ 53 := by exact_mod_cast hc
  constructor
  · intro h
    by_contra hn
    have hle : 10 * u ≤ 7 * c := by omega
    have hq : (u : ℚ) / c ≤ 7 / 10 := by
      rw [div_le_div_iff₀ hcq (by norm_num)]
      have : ((10 * u : ℕ) : ℚ) ≤ ((7 * c : ℕ) : ℚ) := by exact_mod_cast hle
      push_cast at this
      linarith
    have hbad : to_double ((u : ℚ) / c) ≤ 6305039478318694 / 2 ^ 53 := by
      by_cases hhalf : (u : ℚ) / c < 1 / 2
      · have := to_double_small _ hhalf
        have e : (1 : ℚ) / 2 ≤ 6305039478318694 / 2 ^ 53 := by norm_num
        linarith
      · rw [to_double_half _ (le_of_not_lt hhalf) (by linarith)]
        have hr := round_half_even_le_add ((u : ℚ) / c * 2 ^ 53) 6305039478318694 (by
          have : (u : ℚ) / c * 2 ^ 53 ≤ 7 / 10 * 2 ^ 53 :=
            mul_le_mul_of_nonneg_right hq (by norm_num)
          have e : (7 : ℚ) / 10 * 2 ^ 53 = ((6305039478318694 : ℤ) : ℚ) + 2 / 5 := by norm_num
          linarith)
        have hr' : (round_half_even ((u : ℚ) / c * 2 ^ 53) : ℚ) ≤ 6305039478318694 := by
          exact_mod_cast hr
        exact div_le_div_of_nonneg_right hr' (by norm_num)
    linarith
  · intro h
    have hq : (7 : ℚ) / 10 + 1 / (10 * c) ≤ (u : ℚ) / c := by
      have h1 : 7 * c + 1 ≤ 10 * u := by omega
      have h2 : ((7 * c + 1 : ℕ) : ℚ) ≤ ((10 * u : ℕ) : ℚ) := by exact_mod_cast h1
      push_cast at h2
      rw [div_add_div _ _ (by norm_num) (by positivity), div_le_div_iff₀ (by positivity) hcq]
      nlinarith
    have hgap : (1 : ℚ) / 2 ^ 53 < 1 / c := by
      rw [div_lt_div_iff₀ (by norm_num) hcq]
      linarith
    have hgap2 : (1 : ℚ) / (10 * c) = 1 / c / 10 := by
      field_simp
      ring
    rcases lt_or_eq_of_le hu with hlt | heq
    · have hq1 : (u : ℚ) / c < 1 := by
        rw [div_lt_one hcq]; exact_mod_cast hlt
      rw [to_double_half _ (by linarith [show (0 : ℚ) < 1 / (10 * c) by positivity]) hq1]
      have hr := sub_half_le_round ((u : ℚ) / c * 2 ^ 53)
      rw [div_lt_div_iff₀ (by norm_num) (by norm_num)]
      have h3 : ((7 : ℚ) / 10 + 1 / (10 * c)) * 2 ^ 53 ≤ (u : ℚ) / c * 2 ^ 53 :=
        mul_le_mul_of_nonneg_right hq (by norm_num)
      have h4 : (1 : ℚ) / 10 < 1 / (10 * c) * 2 ^ 53 := by
        rw [hgap2]
        have : (1 : ℚ) < 1 / c * 2 ^ 53 := by
          have := mul_lt_mul_of_pos_right hgap (show (0 : ℚ) < 2 ^ 53 by norm_num)
          simpa using this
        linarith
      have h5 : (6305039478318694 : ℚ) + 1 / 2 < (u : ℚ) / c * 2 ^ 53 := by
        have e : (7 : ℚ) / 10 * 2 ^ 53 = 6305039478318694 + 2 / 5 := by norm_num
        nlinarith
      have h6 : (6305039478318694 : ℚ) < round_half_even ((u : ℚ) / c * 2 ^ 53) := by
        linarith
      nlinarith
    · subst heq
      rw [div_self (ne_of_gt hcq), to_double_one]
      norm_num


/-- The comparison `store_load_factor (store) > MAX_LOAD_FACTOR` in `double`
arithmetic is the comparison of the two integers that `store_put` is modelled
with. -/
theorem store_load_factor_gt_iff (b : block_t) (hc : b.chunk_count < 2 ^ 16) :
    MAX_LOAD_FACTOR < store_load_factor b ↔ store_load_factor_gt_max b = true := by
  unfold MAX_LOAD_FACTOR store_load_factor store_load_factor_gt_max
  have hle : store_used b.keys ≤ b.chunk_count := store_used_le b.keys
  rw [to_double_gt_iff (store_used b.keys) b.chunk_count hle (by omega), decide_eq_true_eq]

theorem put_scan_length (b : block_t) (id : arrow_id_t) (buf : List Nat) :
    ∀ (rest : List block_key_t) (i offset : Nat),
      (store_put_into_int.scan b id buf rest i offset).2.keys.length = b.keys.length := by
  intro rest
  induction rest with
  | nil => intro i offset; rfl
  | cons k rest ih =>
    intro i offset
    rw [store_put_into_int.scan]
    by_cases h1 : k.id = id
    · rw [if_pos h1]; exact List.length_set _ _ _
    · rw [if_neg h1]
      by_cases h2 : k = null_key
      · rw [if_pos h2]
        simp only
        split <;> split
        all_goals first
          | exact List.length_set _ _ _
          | exact ih _ _
      · rw [if_neg h2]; exact ih _ _

/-- C15. When `store_put` inserts a new chunk (`store_put_into_int` returns 0) into a
bucket whose `chunk_count` is a 16-bit value, it goes on to call
`split_next_store` exactly when `store_load_factor` of the bucket, the quotient
`used / chunk_count` computed in `double`, exceeds the `double` constant 0.70;
that is the case exactly when the fraction of non-empty slots exceeds 7/10, and for
a bucket of 5120 slots exactly when more than 3584 slots are in use. -/
theorem store_put_splits_iff (s : store_state_t) (id : arrow_id_t) (buf : List Nat)
    (store : block_t) (hopen : store_open s (store_map_key s.sb id) = some store)
    (hcount : store.chunk_count < 2 ^ 16)
    (hins : (store_put_into_int store id buf).1 = 0) :
    store_put s id buf
      = (if MAX_LOAD_FACTOR < store_load_factor (store_put_into_int store id buf).2 then
          (split_next_store
            (write_block s (store_map_key s.sb id) (store_put_into_int store id buf).2)).map
            (fun t => (0, t.2))
         else some (0, write_block s (store_map_key s.sb id) (store_put_into_int store id buf).2))
    ∧ (MAX_LOAD_FACTOR < store_load_factor (store_put_into_int store id buf).2
        ↔ (7 : ℚ) / 10 < (store_used (store_put_into_int store id buf).2.keys : ℚ)
            / ((store_put_into_int store id buf).2.chunk_count : ℚ))
    ∧ ((store_put_into_int store id buf).2.chunk_count = 5120 →
        (MAX_LOAD_FACTOR < store_load_factor (store_put_into_int store id buf).2
          ↔ 3584 < store_used (store_put_into_int store id buf).2.keys)) := by
  have hlen : (store_put_into_int store id buf).2.chunk_count = store.chunk_count :=
    put_scan_length store id buf store.keys 0 0
  have hiff := store_load_factor_gt_iff (store_put_into_int store id buf).2 (by omega)
  have hint : store_load_factor_gt_max (store_put_into_int store id buf).2 = true
      ↔ 7 * (store_put_into_int store id buf).2.chunk_count
          < 10 * store_used (store_put_into_int store id buf).2.keys := by
    unfold store_load_factor_gt_max
    exact decide_eq_true_iff
  refine ⟨?_, ?_, ?_⟩
  · unfold store_put
    rw [hopen]
    simp only
    rw [if_neg (by omega), hins]
    by_cases hl : store_load_factor_gt_max (store_put_into_int store id buf).2 = true
    · rw [if_pos hl, if_pos (hiff.mpr hl)]
    · rw [if_neg hl, if_neg (fun e => hl (hiff.mp e))]
  · rw [hiff, hint]
    have hle := store_used_le (store_put_into_int store id buf).2.keys
    rcases Nat.eq_zero_or_pos (store_put_into_int store id buf).2.chunk_count with h0 | hpos
    · have hu : store_used (store_put_into_int store id buf).2.keys = 0 := by
        unfold block_t.chunk_count at h0; omega
      rw [h0, hu]
      norm_num
    · have hcq : (0 : ℚ) < ((store_put_into_int store id buf).2.chunk_count : ℚ) := by
        exact_mod_cast hpos
      rw [div_lt_div_iff₀ (by norm_num) hcq]
      constructor
      · intro h
        have : ((7 * (store_put_into_int store id buf).2.chunk_count : ℕ) : ℚ)
            < ((10 * store_used (store_put_into_int store id buf).2.keys : ℕ) : ℚ) := by
          exact_mod_cast h
        push_cast at this
        linarith
      · intro h
        have : ((7 * (store_put_into_int store id buf).2.chunk_count : ℕ) : ℚ)
            < ((10 * store_used (store_put_into_int store id buf).2.keys : ℕ) : ℚ) := by
          push_cast
          linarith
        exact_mod_cast this
  · intro h5
    rw [hiff, hint, h5]
    omega

/-- C15 (witness): the first put into a new store. -/
theorem store_put_splits_iff_witness :
    store_put store_init moving_id [10, 20, 30]
      = (if MAX_LOAD_FACTOR
            < store_load_factor (store_put_into_int new_block moving_id [10, 20, 30]).2 then
          (split_next_store
            (write_block store_init (store_map_key store_init.sb moving_id)
              (store_put_into_int new_block moving_id [10, 20, 30]).2)).map
            (fun t => (0, t.2))
         else some (0, write_block store_init (store_map_key store_init.sb moving_id)
              (store_put_into_int new_block moving_id [10, 20, 30]).2))
    ∧ (MAX_LOAD_FACTOR < store_load_factor (store_put_into_int new_block moving_id [10, 20, 30]).2
        ↔ (7 : ℚ) / 10
            < (store_used (store_put_into_int new_block moving_id [10, 20, 30]).2.keys : ℚ)
              / ((store_put_into_int new_block moving_id [10, 20, 30]).2.chunk_count : ℚ))
    ∧ ((store_put_into_int new_block moving_id [10, 20, 30]).2.chunk_count = 5120 →
        (MAX_LOAD_FACTOR
            < store_load_factor (store_put_into_int new_block moving_id [10, 20, 30]).2
          ↔ 3584 < store_used (store_put_into_int new_block moving_id [10, 20, 30]).2.keys)) :=
  store_put_splits_iff store_init moving_id [10, 20, 30] new_block
    (by rw [store_map_key_level_zero _ _ rfl rfl]; exact store_init_bucket)
    (by
      show (List.replicate ARROW_BLOCK_INITIAL_COUNT null_key).length < 2 ^ 16
      rw [List.length_replicate]
      decide)
    (by
      rw [put_into_insert bucket_ok_new_block moving_id [10, 20, 30] (by decide)
        (fun k hk => absurd hk (List.not_mem_nil _)) (by decide) (by decide)])


/-! ## The chunk size -/

/-- The bit-by-bit square root finds the largest `x` below `r + 2^k` whose square
is within `n`. -/
theorem sqrt_bits_spec (n : Nat) :
    ∀ (k r : Nat), r ^ 2 ≤ n →
      (sqrt_bits n k r) ^ 2 ≤ n ∧ sqrt_bits n k r < r + 2 ^ k ∧
        ∀ x, x < r + 2 ^ k → x ^ 2 ≤ n → x ≤ sqrt_bits n k r := by
  intro k
  induction k with
  | zero =>
    intro r hr
    refine ⟨hr, by simp [sqrt_bits], ?_⟩
    intro x hx _
    simp only [sqrt_bits]
    simp at hx
    omega
  | succ k ih =>
    intro r hr
    rw [sqrt_bits]
    have hp : 2 ^ (k + 1) = 2 ^ k + 2 ^ k := by rw [Nat.pow_succ]; omega
    have hpos := Nat.two_pow_pos k
    by_cases h : (r + 2 ^ k) ^ 2 ≤ n
    · rw [if_pos h]
      obtain ⟨h1, h2, h3⟩ := ih (r + 2 ^ k) h
      refine ⟨h1, by omega, ?_⟩
      intro x hx hxn
      exact h3 x (by omega) hxn
    · rw [if_neg h]
      obtain ⟨h1, h2, h3⟩ := ih r hr
      refine ⟨h1, by omega, ?_⟩
      intro x hx hxn
      apply h3 x _ hxn
      by_contra hge
      have hle : r + 2 ^ k ≤ x := by omega
      have := Nat.pow_le_pow_left hle 2
      omega

/-- `(uint32_t) sqrtl (size)`: the integer square root, as far as 32 bits go. -/
theorem sqrtl_u32_eq (size : Nat) : sqrtl_u32 size = min (Nat.sqrt size) (2 ^ 32 - 1) := by
  obtain ⟨h1, h2, h3⟩ := sqrt_bits_spec size 32 0 (Nat.zero_le _)
  unfold sqrtl_u32
  rw [Nat.zero_add] at h2 h3
  rw [Nat.mod_eq_of_lt h2]
  have hle : sqrt_bits size 32 0 ≤ Nat.sqrt size := Nat.le_sqrt'.mpr h1
  rcases Nat.lt_or_ge (Nat.sqrt size) (2 ^ 32) with hs | hs
  · have := h3 (Nat.sqrt size) hs (Nat.sqrt_le' size)
    omega
  · have hx : (2 ^ 32 - 1) ^ 2 ≤ size :=
      Nat.le_sqrt'.mp (by omega)
    have := h3 (2 ^ 32 - 1) (by decide) hx
    omega

theorem bufsize_eq (size : Nat) :
    sync_generate.bufsize size = max 700 (min (Nat.sqrt size) 16000) := by
  unfold sync_generate.bufsize MIN_CHUNK_SIZE MAX_CHUNK_SIZE
  rw [sqrtl_u32_eq]
  simp only
  split <;> split <;> omega

/-- C19. For every input size `S`, the chunk size that `sync_generate` chooses and
`file_initialize` computes is the integer part of the square root of `S` clamped to
the range 700 .. 16000, and it is the chunk size in the header of the record that
any run of `sync_generate` which returns leaves. -/
theorem sync_generate_chunk_size (S : Nat) :
    sync_generate.bufsize S = max 700 (min (Nat.sqrt S) 16000) ∧
    file_initialize.bufsize S = max 700 (min (Nat.sqrt S) 16000) ∧
    ∀ {σ : Type} (input : List Nat) (cb : sync_callbacks_t σ) (st : σ),
      (sync_generate input cb st).map (fun r => r.chunk_size)
        = (sync_generate input cb st).map
            (fun _ => some (max 700 (min (Nat.sqrt input.length) 16000))) := by
  refine ⟨bufsize_eq S, bufsize_eq S, ?_⟩
  intro σ input cb st
  unfold sync_generate
  rw [bufsize_eq]
  cases sync_generate.loop cb (max 700 (min (Nat.sqrt input.length) 16000)) (input.length + 1)
      (fopen input) [] st with
  | none => rfl
  | some r =>
    simp only [Option.some_bind]
    cases cb.emit_chunk r.2 file_chunk_t.END_OF_CHUNKS with
    | none => rfl
    | some e => rfl


/-! ## Short inputs of `sync_generate` -/

/-- The loop of `sync_generate` on a stream with nothing left to read. -/
theorem generate_loop_done {σ : Type} (cb : sync_callbacks_t σ) (bufsize fuel : Nat)
    (f : FILE) (md5 : List Nat) (st : σ) (h : f.content.length ≤ f.pos) :
    sync_generate.loop cb bufsize (fuel + 1) f md5 st = some (md5, st) := by
  rw [sync_generate.loop]
  by_cases he : f.eof = true
  · rw [if_pos he]
  · rw [if_neg he]
    have hbuf : (fread f bufsize).1 = [] := by
      show (f.content.drop f.pos).take bufsize = []
      rw [List.drop_of_length_le h, List.take_nil]
    simp only [hbuf]
    rfl

/-- The first `fread` of an input that fits the buffer reads all of it. -/
theorem fread_whole (input : List Nat) (bufsize : Nat) (h : input.length ≤ bufsize) :
    (fread (fopen input) bufsize).1 = input ∧
    (fread (fopen input) bufsize).2.content.length ≤ (fread (fopen input) bufsize).2.pos := by
  have h1 : (fread (fopen input) bufsize).1 = input := by
    show (input.drop 0).take bufsize = input
    rw [List.drop_zero, List.take_of_length_le h]
  refine ⟨h1, ?_⟩
  show input.length ≤ 0 + ((fread (fopen input) bufsize).1).length
  rw [h1]
  omega

/-- The loop of `sync_generate` on an input of 1 to 23 bytes. -/
theorem generate_loop_direct (input : List Nat) (bufsize fuel : Nat)
    (st : sync_store_state_t) (h1 : 0 < input.length)
    (h2 : input.length ≤ MAX_DIRECT_CHUNK_SIZE) (hb : input.length ≤ bufsize) :
    sync_generate.loop sync_store_callbacks bufsize (fuel + 2) (fopen input) [] st
      = some (input,
          { st with chunks_out := st.chunks_out ++ [file_chunk_t.DIRECT_CHUNK input] }) := by
  obtain ⟨hr, hpos⟩ := fread_whole input bufsize hb
  rw [sync_generate.loop, if_neg (by simp [fopen])]
  simp only [hr]
  rw [if_neg (by omega), if_pos h2]
  show (some (0, { st with chunks_out := st.chunks_out ++ [file_chunk_t.DIRECT_CHUNK input] })
    : Option (Int × sync_store_state_t)).bind _ = _
  rw [Option.some_bind, generate_loop_done _ _ _ _ _ _ hpos]
  rfl

/-- The loop of `sync_generate` on an input of more than 23 bytes that fits the
buffer. -/
theorem generate_loop_reference (input : List Nat) (bufsize fuel : Nat)
    (st : sync_store_state_t) (h2 : MAX_DIRECT_CHUNK_SIZE < input.length)
    (hb : input.length ≤ bufsize) (h32 : input.length < 2 ^ 32) :
    sync_generate.loop sync_store_callbacks bufsize (fuel + 2) (fopen input) [] st
      = if store_contains st.store (arrow_compute_key input) = 0 then
          (store_put st.store (arrow_compute_key input) input).map (fun r =>
            (input, (⟨r.2, st.chunks_out
              ++ [file_chunk_t.REFERENCE input.length (arrow_compute_key input)]⟩
              : sync_store_state_t)))
        else
          some (input, ⟨st.store, st.chunks_out
            ++ [file_chunk_t.REFERENCE input.length (arrow_compute_key input)]⟩) := by
  obtain ⟨hr, hpos⟩ := fread_whole input bufsize hb
  rw [sync_generate.loop, if_neg (by simp [fopen])]
  simp only [hr]
  rw [if_neg (by omega), if_neg (by omega), Nat.mod_eq_of_lt h32]
  show (some (0, { st with chunks_out := st.chunks_out
      ++ [file_chunk_t.REFERENCE input.length (arrow_compute_key input)] })
    : Option (Int × sync_store_state_t)).bind _ = _
  rw [Option.some_bind]
  show (if store_contains st.store (arrow_compute_key input) = 0 then _ else _) = _
  by_cases hc : store_contains st.store (arrow_compute_key input) = 0
  · rw [if_pos hc, if_pos hc]
    show ((store_put st.store (arrow_compute_key input) input).map _).bind _ = _
    cases store_put st.store (arrow_compute_key input) input with
    | none => rfl
    | some r =>
      simp only [Option.map_some', Option.some_bind]
      rw [generate_loop_done _ _ _ _ _ _ hpos]
      rfl
  · rw [if_neg hc, if_neg hc, generate_loop_done _ _ _ _ _ _ hpos]
    rfl

/-- The loop of `sync_generate` emits no `END_OF_CHUNKS` entry. -/
theorem generate_loop_emits (bufsize : Nat) :
    ∀ (fuel : Nat) (f : FILE) (md5 : List Nat) (st : sync_store_state_t)
      (r : List Nat × sync_store_state_t),
      sync_generate.loop sync_store_callbacks bufsize fuel f md5 st = some r →
      ∃ cs, r.2.chunks_out = st.chunks_out ++ cs ∧ file_chunk_t.END_OF_CHUNKS ∉ cs := by
  intro fuel
  induction fuel with
  | zero => intro f md5 st r h; cases h
  | succ fuel ih =>
    intro f md5 st r h
    rw [sync_generate.loop] at h
    by_cases he : f.eof = true
    · rw [if_pos he] at h
      cases h
      exact ⟨[], (List.append_nil _).symm, List.not_mem_nil _⟩
    · rw [if_neg he] at h
      simp only at h
      by_cases hz : ((fread f bufsize).1).length ≤ 0
      · rw [if_pos hz] at h
        cases h
        exact ⟨[], (List.append_nil _).symm, List.not_mem_nil _⟩
      · rw [if_neg hz] at h
        by_cases hd : ((fread f bufsize).1).length ≤ MAX_DIRECT_CHUNK_SIZE
        · rw [if_pos hd] at h
          obtain ⟨cs, hcs, hend⟩ := ih _ _ _ _ h
          refine ⟨file_chunk_t.DIRECT_CHUNK (fread f bufsize).1 :: cs, ?_, ?_⟩
          · rw [hcs]
            show (st.chunks_out ++ [_]) ++ cs = _
            simp
          · intro hm
            rcases List.mem_cons.mp hm with e | e
            · cases e
            · exact hend e
        · rw [if_neg hd] at h
          have hcons : ∀ c cs, file_chunk_t.END_OF_CHUNKS ∉ cs →
              c = file_chunk_t.REFERENCE (((fread f bufsize).1).length % 2 ^ 32)
                (arrow_compute_key (fread f bufsize).1) →
              file_chunk_t.END_OF_CHUNKS ∉ c :: cs := by
            intro c cs hend hc hm
            rcases List.mem_cons.mp hm with e | e
            · rw [hc] at e; cases e
            · exact hend e
          change (if store_contains st.store (arrow_compute_key (fread f bufsize).1) = 0 then
              ((store_put st.store (arrow_compute_key (fread f bufsize).1)
                  (fread f bufsize).1).map _).bind _
            else _) = some r at h
          by_cases hc : store_contains st.store (arrow_compute_key (fread f bufsize).1) = 0
          · rw [if_pos hc] at h
            cases hp : store_put st.store (arrow_compute_key (fread f bufsize).1)
                (fread f bufsize).1 with
            | none => rw [hp] at h; cases h
            | some p =>
              rw [hp] at h
              obtain ⟨cs, hcs, hend⟩ := ih _ _ _ _ h
              refine ⟨_ :: cs, ?_, hcons _ cs hend rfl⟩
              rw [hcs]
              show (st.chunks_out ++ [_]) ++ cs = _
              simp
          · rw [if_neg hc] at h
            obtain ⟨cs, hcs, hend⟩ := ih _ _ _ _ h
            refine ⟨_ :: cs, ?_, hcons _ cs hend rfl⟩
            rw [hcs]
            show (st.chunks_out ++ [_]) ++ cs = _
            simp



/-! ## The length of a bucket name -/

theorem b64_encode_length (val : Nat) :
    1 ≤ (b64_encode val).length ∧ (b64_encode val).length ≤ 11 := by
  unfold b64_encode
  have hl := b64_encode_lead_spec ((b64_digits val).map (fun d => b64_list.getD d 0)) 10 0
    (fun k hk => absurd hk (Nat.not_lt_zero k)) rfl
  have hlen : ((b64_digits val).map (fun d => b64_list.getD d 0)).length = 11 := by
    simp [b64_digits]
  simp only [List.length_drop, hlen]
  omega

/-- C28. For every 64-bit value `v`, `b64_encode (v)` is a string of 1 to 11
characters, which with its terminator fits the 12 bytes the header asks for, and
`b64_decode` of that string succeeds (returns 0) and yields `v`. -/
theorem b64_encode_decode_spec (v : Nat) (h : v < 2 ^ 64) :
    1 ≤ (b64_encode v).length ∧ (b64_encode v).length + 1 ≤ 12 ∧
    b64_decode (b64_encode v) = some v :=
  ⟨(b64_encode_length v).1, by have := (b64_encode_length v).2; omega, b64_decode_encode v h⟩

/-- C28 (witness): the largest 64-bit value, whose name has 11 characters. -/
theorem b64_encode_decode_spec_witness :
    1 ≤ (b64_encode (2 ^ 64 - 1)).length ∧ (b64_encode (2 ^ 64 - 1)).length + 1 ≤ 12 ∧
    b64_decode (b64_encode (2 ^ 64 - 1)) = some (2 ^ 64 - 1) :=
  b64_encode_decode_spec (2 ^ 64 - 1) (by decide)


/-! ## The rolling checksum -/

theorem rollsum_update_closed :
    ∀ (xs : List Nat) (c a b : Nat), a < 2 ^ 16 → b < 2 ^ 16 →
      RollsumUpdate ⟨c, a, b⟩ xs
        = ⟨c + xs.length, (a + rollsum_a xs) % 2 ^ 16,
            (b + xs.length * a + rollsum_b xs) % 2 ^ 16⟩ := by
  intro xs
  induction xs with
  | nil =>
    intro c a b ha hb
    have ha' : a % 65536 = a := Nat.mod_eq_of_lt ha
    have hb' : b % 65536 = b := Nat.mod_eq_of_lt hb
    simp [RollsumUpdate, rollsum_a, rollsum_b, ha', hb']
  | cons x xs ih =>
    intro c a b ha hb
    have hstep : RollsumUpdate ⟨c, a, b⟩ (x :: xs)
        = RollsumUpdate ⟨c + 1, (a + x + ROLLSUM_CHAR_OFFSET) % 2 ^ 16,
            (b + (a + x + ROLLSUM_CHAR_OFFSET) % 2 ^ 16) % 2 ^ 16⟩ xs := rfl
    rw [hstep, ih _ _ _ (Nat.mod_lt _ (by decide)) (Nat.mod_lt _ (by decide))]
    simp only [List.length_cons, rollsum_a, rollsum_b]
    have e1 : ((a + x + ROLLSUM_CHAR_OFFSET) % 2 ^ 16 + rollsum_a xs) % 2 ^ 16
        = (a + (x + ROLLSUM_CHAR_OFFSET + rollsum_a xs)) % 2 ^ 16 := by
      rw [Nat.mod_add_mod]
      congr 1
      omega
    have e2 : ((b + (a + x + ROLLSUM_CHAR_OFFSET) % 2 ^ 16) % 2 ^ 16
          + xs.length * ((a + x + ROLLSUM_CHAR_OFFSET) % 2 ^ 16) + rollsum_b xs) % 2 ^ 16
        = (b + (xs.length + 1) * a
            + ((xs.length + 1) * (x + ROLLSUM_CHAR_OFFSET) + rollsum_b xs)) % 2 ^ 16 := by
      have h1 : (xs.length * ((a + x + ROLLSUM_CHAR_OFFSET) % 2 ^ 16)) % 2 ^ 16
          = (xs.length * (a + x + ROLLSUM_CHAR_OFFSET)) % 2 ^ 16 := by
        rw [Nat.mul_mod, Nat.mod_mod, ← Nat.mul_mod]
      have h2 : (b + (xs.length + 1) * a
            + ((xs.length + 1) * (x + ROLLSUM_CHAR_OFFSET) + rollsum_b xs))
          = b + (a + x + ROLLSUM_CHAR_OFFSET) + xs.length * (a + x + ROLLSUM_CHAR_OFFSET)
            + rollsum_b xs := by ring
      rw [h2]
      generalize hA : a + x + ROLLSUM_CHAR_OFFSET = A
      generalize hP : xs.length * (A % 2 ^ 16) = P
      generalize hQ : xs.length * A = Q
      rw [hA, hP, hQ] at h1
      omega
    rw [e1, e2]
    congr 1
    omega

theorem rollsum_update_init (xs : List Nat) :
    RollsumUpdate RollsumInit xs
      = ⟨xs.length, rollsum_a xs % 2 ^ 16, rollsum_b xs % 2 ^ 16⟩ := by
  have h := rollsum_update_closed xs 0 0 0 (by decide) (by decide)
  simp only [Nat.zero_add, Nat.mul_zero, Nat.add_zero] at h
  exact h

theorem rollsum_a_append (xs : List Nat) (y : Nat) :
    rollsum_a (xs ++ [y]) = rollsum_a xs + (y + ROLLSUM_CHAR_OFFSET) := by
  induction xs with
  | nil => simp [rollsum_a]
  | cons x xs ih =>
    show (x + ROLLSUM_CHAR_OFFSET) + rollsum_a (xs ++ [y])
      = (x + ROLLSUM_CHAR_OFFSET) + rollsum_a xs + (y + ROLLSUM_CHAR_OFFSET)
    rw [ih]
    omega

theorem rollsum_b_append (xs : List Nat) (y : Nat) :
    rollsum_b (xs ++ [y]) = rollsum_b xs + rollsum_a xs + (y + ROLLSUM_CHAR_OFFSET) := by
  induction xs with
  | nil => simp [rollsum_b, rollsum_a]
  | cons x xs ih =>
    show ((xs ++ [y]).length + 1) * (x + ROLLSUM_CHAR_OFFSET) + rollsum_b (xs ++ [y])
      = (xs.length + 1) * (x + ROLLSUM_CHAR_OFFSET) + rollsum_b xs
        + ((x + ROLLSUM_CHAR_OFFSET) + rollsum_a xs) + (y + ROLLSUM_CHAR_OFFSET)
    rw [ih, List.length_append, List.length_singleton]
    ring

/-- One step of rolling: taking the oldest byte out and the next byte in gives the
sum of the advanced window. -/
theorem rollsum_rotate_eq (x0 : Nat) (xs : List Nat) (xn : Nat) :
    RollsumRotate (RollsumUpdate RollsumInit (x0 :: xs)) x0 xn
      = RollsumUpdate RollsumInit (xs ++ [xn]) := by
  rw [rollsum_update_init, rollsum_update_init]
  unfold RollsumRotate
  simp only [List.length_cons, List.length_append, List.length_singleton, rollsum_a, rollsum_b,
    rollsum_a_append, rollsum_b_append]
  have e1 : ((x0 + ROLLSUM_CHAR_OFFSET + rollsum_a xs) % 2 ^ 16 + xn
        + (2 ^ 16 - x0 % 2 ^ 16)) % 2 ^ 16
      = (rollsum_a xs + (xn + ROLLSUM_CHAR_OFFSET)) % 2 ^ 16 := by
    have : ROLLSUM_CHAR_OFFSET = 31 := rfl
    omega
  rw [e1]
  congr 1
  generalize hP : (xs.length + 1) * (x0 + ROLLSUM_CHAR_OFFSET) = P
  omega

/-- Rolling over any number of bytes gives the sum of the window rolled onto. -/
theorem rollsum_roll_eq :
    ∀ (ys w : List Nat), 0 < w.length →
      rollsum_roll (RollsumUpdate RollsumInit w) w ys
        = RollsumUpdate RollsumInit ((w ++ ys).drop ys.length) := by
  intro ys
  induction ys with
  | nil => intro w _; simp [rollsum_roll]
  | cons y ys ih =>
    intro w hw
    cases w with
    | nil => simp at hw
    | cons x0 xs =>
      rw [rollsum_roll]
      show rollsum_roll (RollsumRotate (RollsumUpdate RollsumInit (x0 :: xs)) x0 y)
        (xs ++ [y]) ys = _
      rw [rollsum_rotate_eq, ih (xs ++ [y]) (by simp)]
      simp [List.append_assoc]

/-- C27. For every window `x_0 .. x_(n-1)` (`n ≥ 1`) and next byte `x_n`, rotating the
rolling sum of the window with `old = x_0` and `new = x_n` gives the weak digest of
the sum computed afresh over `x_1 .. x_n`, which is the weak value that
`arrow_compute_key` stores for that chunk; and so does rolling over any number of
bytes for the chunk rolled onto. -/
theorem rollsum_rotate_digest (x0 : Nat) (xs : List Nat) (xn : Nat) (w ys : List Nat) :
    RollsumDigest (RollsumRotate (RollsumUpdate RollsumInit (x0 :: xs)) x0 xn)
      = RollsumDigest (RollsumUpdate RollsumInit (xs ++ [xn])) ∧
    RollsumDigest (RollsumRotate (RollsumUpdate RollsumInit (x0 :: xs)) x0 xn)
      = (arrow_compute_key (xs ++ [xn])).weak ∧
    RollsumDigest (rollsum_roll (RollsumUpdate RollsumInit (x0 :: w)) (x0 :: w) ys)
      = (arrow_compute_key ((x0 :: w ++ ys).drop ys.length)).weak := by
  refine ⟨by rw [rollsum_rotate_eq], by rw [rollsum_rotate_eq]; rfl, ?_⟩
  rw [rollsum_roll_eq ys (x0 :: w) (by simp)]
  rfl


/-! ## The path of a version record -/

theorem long_uuid_names :
    b64_encode (arrow_bytes_to_long long_uuid_1) = [66, 65, 65, 65, 65, 65, 65, 65, 65, 65, 65] ∧
    b64_encode (arrow_bytes_to_long (long_uuid_1.drop 8))
      = [66, 65, 65, 65, 65, 65, 65, 65, 65, 65, 66] ∧
    b64_encode (arrow_bytes_to_long long_uuid_2) = [66, 65, 65, 65, 65, 65, 65, 65, 65, 65, 65] ∧
    b64_encode (arrow_bytes_to_long (long_uuid_2.drop 8))
      = [66, 65, 65, 65, 65, 65, 65, 65, 65, 65, 67] := by
  decide

/-- C29 (code). For every root directory, `file_open` and `file_delete` build the same
path for the two different UUIDs `long_uuid_1` and `long_uuid_2`: the formatted
text has 27 characters after the root directory, `snprintf` is given room for 25
and the terminator, and the last two characters of the second half, in which
alone the two UUIDs differ, are cut off. -/
theorem file_open_path_collision (rootdir : List Nat) :
    long_uuid_1 ≠ long_uuid_2 ∧
    long_uuid_1.length = 16 ∧ long_uuid_2.length = 16 ∧
    file_open.text rootdir long_uuid_1
      = rootdir ++ [47, 49, 48, 47, 66, 65, 65, 65, 65, 65, 65, 65, 65, 65, 65, 46,
          66, 65, 65, 65, 65, 65, 65, 65, 65, 65, 66] ∧
    file_open.text rootdir long_uuid_2
      = rootdir ++ [47, 49, 48, 47, 66, 65, 65, 65, 65, 65, 65, 65, 65, 65, 65, 46,
          66, 65, 65, 65, 65, 65, 65, 65, 65, 65, 67] ∧
    file_open.path rootdir long_uuid_1
      = rootdir ++ [47, 49, 48, 47, 66, 65, 65, 65, 65, 65, 65, 65, 65, 65, 65, 46,
          66, 65, 65, 65, 65, 65, 65, 65, 65] ∧
    file_open.path rootdir long_uuid_1 = file_open.path rootdir long_uuid_2 ∧
    file_delete.path rootdir long_uuid_1 = file_delete.path rootdir long_uuid_2 := by
  have h1 : file_open.text rootdir long_uuid_1
      = rootdir ++ [47, 49, 48, 47, 66, 65, 65, 65, 65, 65, 65, 65, 65, 65, 65, 46,
          66, 65, 65, 65, 65, 65, 65, 65, 65, 65, 66] := by
    unfold file_open.text
    rw [long_uuid_names.1, long_uuid_names.2.1]
    simp [printf_02x, hex_digit, long_uuid_1]
  have h2 : file_open.text rootdir long_uuid_2
      = rootdir ++ [47, 49, 48, 47, 66, 65, 65, 65, 65, 65, 65, 65, 65, 65, 65, 46,
          66, 65, 65, 65, 65, 65, 65, 65, 65, 65, 67] := by
    unfold file_open.text
    rw [long_uuid_names.2.2.1, long_uuid_names.2.2.2]
    simp [printf_02x, hex_digit, long_uuid_2]
  have hcut : ∀ tail : List Nat,
      snprintf (rootdir.length + MAX_B64_UUID_LEN + 3) (rootdir ++ tail)
        = rootdir ++ tail.take 25 := by
    intro tail
    unfold snprintf MAX_B64_UUID_LEN
    rw [show rootdir.length + 23 + 3 - 1 = rootdir.length + 25 by omega,
      List.take_append]
  have p1 : file_open.path rootdir long_uuid_1
      = rootdir ++ [47, 49, 48, 47, 66, 65, 65, 65, 65, 65, 65, 65, 65, 65, 65, 46,
          66, 65, 65, 65, 65, 65, 65, 65, 65] := by
    unfold file_open.path
    rw [h1, hcut]
    rfl
  have p2 : file_open.path rootdir long_uuid_2
      = rootdir ++ [47, 49, 48, 47, 66, 65, 65, 65, 65, 65, 65, 65, 65, 65, 65, 46,
          66, 65, 65, 65, 65, 65, 65, 65, 65] := by
    unfold file_open.path
    rw [h2, hcut]
    rfl
  exact ⟨by decide, rfl, rfl, h1, h2, p1, p1.trans p2.symm, p1.trans p2.symm⟩


/-! ## Link files -/

theorem strchr_first (c : Nat) (post : List Nat) :
    ∀ pre : List Nat, (∀ x ∈ pre, x ≠ c) → strchr (pre ++ c :: post) c = some (pre, post) := by
  intro pre
  induction pre with
  | nil => intro _; simp [strchr]
  | cons x pre ih =>
    intro h
    rw [List.cons_append, strchr, if_neg (h x (List.mem_cons_self _ _)),
      ih (fun y hy => h y (List.mem_cons_of_mem _ hy))]
    rfl

theorem b64_list_chars (d : Nat) (hd : d < 64) :
    b64_list.getD d 0 ≠ 46 ∧ b64_list.getD d 0 ≠ 47 := by
  revert d
  decide

/-- No character of a name is a dot or a slash. -/
theorem b64_encode_chars (val : Nat) : ∀ x ∈ b64_encode val, x ≠ 46 ∧ x ≠ 47 := by
  intro x hx
  unfold b64_encode at hx
  have hx2 := List.mem_of_mem_drop hx
  rw [b64_digits_eq] at hx2
  simp only [List.map_cons, List.map_nil, List.mem_cons, List.mem_singleton,
    List.not_mem_nil, or_false] at hx2
  have hm : ∀ sh, val / 2 ^ sh % 2 ^ 6 < 64 := fun sh => Nat.mod_lt _ (by decide)
  have h4 : val / 2 ^ 60 % 2 ^ 4 < 64 :=
    Nat.lt_of_lt_of_le (Nat.mod_lt _ (by decide)) (by decide)
  rcases hx2 with e | e | e | e | e | e | e | e | e | e | e
  · rw [e]; exact b64_list_chars _ h4
  all_goals (rw [e]; exact b64_list_chars _ (hm _))

theorem hex_digit_ne (d : Nat) (hd : d < 16) : hex_digit d ≠ 47 := by
  unfold hex_digit
  split <;> omega

theorem arrow_bytes_to_long_eq (b0 b1 b2 b3 b4 b5 b6 b7 : Nat) (rest : List Nat)
    (h0 : b0 < 256) (h1 : b1 < 256) (h2 : b2 < 256) (h3 : b3 < 256)
    (h4 : b4 < 256) (h5 : b5 < 256) (h6 : b6 < 256) (h7 : b7 < 256) :
    arrow_bytes_to_long (b0 :: b1 :: b2 :: b3 :: b4 :: b5 :: b6 :: b7 :: rest)
      = spec_be_u64 [b0, b1, b2, b3, b4, b5, b6, b7] :=
  be_bytes_or b0 b1 b2 b3 b4 b5 b6 b7 h0 h1 h2 h3 h4 h5 h6 h7

theorem and_ff_mod (x : Nat) : x &&& 0xFF = x % 256 := by
  have := Nat.and_pow_two_sub_one_eq_mod x 8
  norm_num at this
  exact this

theorem arrow_long_to_bytes_eq (b0 b1 b2 b3 b4 b5 b6 b7 : Nat)
    (h0 : b0 < 256) (h1 : b1 < 256) (h2 : b2 < 256) (h3 : b3 < 256)
    (h4 : b4 < 256) (h5 : b5 < 256) (h6 : b6 < 256) (h7 : b7 < 256) :
    arrow_long_to_bytes (spec_be_u64 [b0, b1, b2, b3, b4, b5, b6, b7])
      = [b0, b1, b2, b3, b4, b5, b6, b7] := by
  unfold arrow_long_to_bytes
  simp only [and_ff_mod, Nat.shiftRight_eq_div_pow, spec_be_u64, List.foldl]
  norm_num
  refine ⟨?_, ?_, ?_, ?_, ?_, ?_, ?_, ?_⟩ <;> omega

/-- C30. For every 16-byte UUID `u`, `read_link_file` applied to the link target that
`make_link_file` builds for `u` (two hex digits, a slash and the two halves in
base 64 with a dot between them; at most 26 characters, so nothing is cut off in
`uuidbuf[30]`) succeeds and returns exactly `u`. -/
theorem read_link_file_make_link_file (b0 b1 b2 b3 b4 b5 b6 b7 c0 c1 c2 c3 c4 c5 c6 c7 : Nat)
    (h0 : b0 < 256) (h1 : b1 < 256) (h2 : b2 < 256) (h3 : b3 < 256)
    (h4 : b4 < 256) (h5 : b5 < 256) (h6 : b6 < 256) (h7 : b7 < 256)
    (g0 : c0 < 256) (g1 : c1 < 256) (g2 : c2 < 256) (g3 : c3 < 256)
    (g4 : c4 < 256) (g5 : c5 < 256) (g6 : c6 < 256) (g7 : c7 < 256) :
    make_link_file.target [b0, b1, b2, b3, b4, b5, b6, b7, c0, c1, c2, c3, c4, c5, c6, c7]
      = printf_02x b0 ++ [47] ++ b64_encode (spec_be_u64 [b0, b1, b2, b3, b4, b5, b6, b7])
          ++ [46] ++ b64_encode (spec_be_u64 [c0, c1, c2, c3, c4, c5, c6, c7]) ∧
    read_link_file
        (make_link_file.target [b0, b1, b2, b3, b4, b5, b6, b7, c0, c1, c2, c3, c4, c5, c6, c7])
      = some [b0, b1, b2, b3, b4, b5, b6, b7, c0, c1, c2, c3, c4, c5, c6, c7] := by
  have hup := arrow_bytes_to_long_eq b0 b1 b2 b3 b4 b5 b6 b7 [c0, c1, c2, c3, c4, c5, c6, c7]
    h0 h1 h2 h3 h4 h5 h6 h7
  have hlo := arrow_bytes_to_long_eq c0 c1 c2 c3 c4 c5 c6 c7 [] g0 g1 g2 g3 g4 g5 g6 g7
  have hupl := spec_be_u64_lt b0 b1 b2 b3 b4 b5 b6 b7 h0 h1 h2 h3 h4 h5 h6 h7
  have hlol := spec_be_u64_lt c0 c1 c2 c3 c4 c5 c6 c7 g0 g1 g2 g3 g4 g5 g6 g7
  have l1 := (b64_encode_length (spec_be_u64 [b0, b1, b2, b3, b4, b5, b6, b7])).2
  have l2 := (b64_encode_length (spec_be_u64 [c0, c1, c2, c3, c4, c5, c6, c7])).2
  have htext : make_link_file.target
        [b0, b1, b2, b3, b4, b5, b6, b7, c0, c1, c2, c3, c4, c5, c6, c7]
      = printf_02x b0 ++ [47] ++ b64_encode (spec_be_u64 [b0, b1, b2, b3, b4, b5, b6, b7])
          ++ [46] ++ b64_encode (spec_be_u64 [c0, c1, c2, c3, c4, c5, c6, c7]) := by
    unfold make_link_file.target snprintf
    have hd : ([b0, b1, b2, b3, b4, b5, b6, b7, c0, c1, c2, c3, c4, c5, c6, c7] : List Nat).drop 8
        = [c0, c1, c2, c3, c4, c5, c6, c7] := rfl
    rw [hd, hup, hlo]
    apply List.take_of_length_le
    simp only [List.length_append, printf_02x, List.length_cons, List.length_nil]
    omega
  refine ⟨htext, ?_⟩
  rw [htext]
  unfold read_link_file
  have hlen : (printf_02x b0 ++ [47] ++ b64_encode (spec_be_u64 [b0, b1, b2, b3, b4, b5, b6, b7])
      ++ [46] ++ b64_encode (spec_be_u64 [c0, c1, c2, c3, c4, c5, c6, c7])).length ≤ 30 := by
    simp only [List.length_append, printf_02x, List.length_cons, List.length_nil]
    omega
  rw [List.take_of_length_le hlen]
  have hassoc : printf_02x b0 ++ [47] ++ b64_encode (spec_be_u64 [b0, b1, b2, b3, b4, b5, b6, b7])
        ++ [46] ++ b64_encode (spec_be_u64 [c0, c1, c2, c3, c4, c5, c6, c7])
      = printf_02x b0 ++ 47 :: (b64_encode (spec_be_u64 [b0, b1, b2, b3, b4, b5, b6, b7])
          ++ 46 :: b64_encode (spec_be_u64 [c0, c1, c2, c3, c4, c5, c6, c7])) := by
    simp [List.append_assoc]
  rw [hassoc, strchr_first 47 _ (printf_02x b0) (by
    intro x hx
    simp only [printf_02x, List.mem_cons, List.mem_singleton, List.not_mem_nil, or_false] at hx
    rcases hx with e | e
    · rw [e]; exact hex_digit_ne _ (by omega)
    · rw [e]; exact hex_digit_ne _ (by omega))]
  simp only
  rw [strchr_first 46 _ _ (fun x hx => (b64_encode_chars _ x hx).1)]
  simp only
  rw [b64_decode_encode _ hupl, b64_decode_encode _ hlol]
  simp only
  unfold uuid_from_longs
  rw [arrow_long_to_bytes_eq b0 b1 b2 b3 b4 b5 b6 b7 h0 h1 h2 h3 h4 h5 h6 h7,
    arrow_long_to_bytes_eq c0 c1 c2 c3 c4 c5 c6 c7 g0 g1 g2 g3 g4 g5 g6 g7]
  rfl

/-- C30 (witness): the UUID `long_uuid_1`, whose link target has 26 characters. -/
theorem read_link_file_make_link_file_witness :
    make_link_file.target long_uuid_1
      = printf_02x 16 ++ [47] ++ b64_encode (spec_be_u64 [16, 0, 0, 0, 0, 0, 0, 0])
          ++ [46] ++ b64_encode (spec_be_u64 [16, 0, 0, 0, 0, 0, 0, 1]) ∧
    read_link_file (make_link_file.target long_uuid_1) = some long_uuid_1 :=
  read_link_file_make_link_file 16 0 0 0 0 0 0 0 16 0 0 0 0 0 0 1
    (by decide) (by decide) (by decide) (by decide) (by decide) (by decide) (by decide)
    (by decide) (by decide) (by decide) (by decide) (by decide) (by decide) (by decide)
    (by decide) (by decide)


/-! ## The loops of the synchronizer, for every set of callbacks -/

theorem fread_full (f : FILE) (n : Nat) (h : f.pos + n ≤ f.content.length) :
    (fread f n).1 = (f.content.drop f.pos).take n ∧ (fread f n).1.length = n ∧
    (fread f n).2.content = f.content ∧ (fread f n).2.pos = f.pos + n ∧
    (fread f n).2.eof = f.eof := by
  have hl : ((f.content.drop f.pos).take n).length = n := by
    rw [List.length_take, List.length_drop]; omega
  refine ⟨rfl, hl, rfl, ?_, ?_⟩
  · show f.pos + ((f.content.drop f.pos).take n).length = f.pos + n
    rw [hl]
  · show (f.eof || decide (((f.content.drop f.pos).take n).length < n)) = f.eof
    rw [hl]; simp

theorem cbuf_fread_take (buf : circular_buffer_t) (f : FILE) (n : Nat) :
    (cbuf_fread buf f n).buffer.take (fread f n).1.length = (fread f n).1 := by
  show ((fread f n).1 ++ buf.buffer.drop (fread f n).1.length).take (fread f n).1.length = _
  rw [List.take_left']
  rfl

/-- The literal loop, from `l` to `limit`, for a property that a direct entry and a
literal reference keep. -/
theorem literals_rule_core {σ : Type} {cb : sync_callbacks_t σ} {cs : Nat} {input : List Nat}
    {P : Nat → Bool → σ → Prop}
    (hdirect : ∀ l p st r, P l false st → p = (input.drop l).take p.length → p.length ≤ cs →
      p.length ≤ MAX_DIRECT_CHUNK_SIZE →
      cb.emit_chunk st (file_chunk_t.DIRECT_CHUNK p) = some r →
      P (l + p.length) (decide (p.length < cs)) r.2)
    (hliteral : ∀ l p st r r2, P l false st → p = (input.drop l).take p.length →
      p.length ≤ cs → MAX_DIRECT_CHUNK_SIZE < p.length →
      cb.emit_chunk st (file_chunk_t.REFERENCE p.length (arrow_compute_key p)) = some r →
      (if cb.store_contains r.2 (arrow_compute_key p) ≠ 0 then
          cb.add_ref r.2 (arrow_compute_key p)
        else cb.put_block r.2 (arrow_compute_key p) p) = some r2 →
      P (l + p.length) (decide (p.length < cs)) r2.2)
    (limit : Nat) (hlim : limit ≤ input.length) (bs lm : Nat) :
    ∀ (fuel l : Nat) (v : sync_file_vars) (st : σ) (b : Bool) (r : sync_file_vars × σ),
      v.datafile.content = input → v.datafile.pos = l → l ≤ limit → P l b st →
      (l < limit → b = false) → v.bufsize = bs → v.last_match = lm →
      sync_file.literals cb cs limit fuel l v st = some r →
      (∃ b2, P limit b2 r.2) ∧ r.1.datafile.content = input ∧ r.1.datafile.pos = limit ∧
        r.1.bufsize = bs ∧ r.1.last_match = lm := by
  intro fuel
  induction fuel with
  | zero => intro l v st b r _ _ _ _ _ _ _ h; simp [sync_file.literals] at h
  | succ fuel ih =>
    intro l v st b r hc hp hl hP hb hbs hlm h
    rw [sync_file.literals] at h
    by_cases hlt : l < limit
    · rw [if_pos hlt] at h
      have hbf := hb hlt
      subst hbf
      have hn : v.datafile.pos + min (limit - l) cs ≤ v.datafile.content.length := by
        rw [hc, hp]; omega
      obtain ⟨hr1, hr2, hr3, hr4, _⟩ := fread_full v.datafile _ hn
      have htake := cbuf_fread_take v.buffer v.datafile (min (limit - l) cs)
      rw [hr2] at htake
      have hpiece : (fread v.datafile (min (limit - l) cs)).1
          = (input.drop l).take (fread v.datafile (min (limit - l) cs)).1.length := by
        rw [hr2]; rw [hr1, hc, hp]
      have hlecs : (fread v.datafile (min (limit - l) cs)).1.length ≤ cs := by
        rw [hr2]; exact Nat.min_le_right _ _
      have hnext : l + min (limit - l) cs < limit →
          decide ((fread v.datafile (min (limit - l) cs)).1.length < cs) = false := by
        intro hx
        rw [hr2]
        simp only [decide_eq_false_iff_not, Nat.not_lt]
        omega
      simp only [htake] at h
      by_cases hd : min (limit - l) cs ≤ MAX_DIRECT_CHUNK_SIZE
      · rw [if_pos hd] at h
        cases he : cb.emit_chunk st
            (file_chunk_t.DIRECT_CHUNK (fread v.datafile (min (limit - l) cs)).1) with
        | none => rw [he] at h; simp at h
        | some r1 =>
          rw [he] at h
          simp only [Option.some_bind] at h
          have hP1 := hdirect l _ st r1 hP hpiece hlecs (by rw [hr2]; exact hd) he
          rw [hr2] at hP1
          refine ih _ _ _ _ r ?_ ?_ ?_ hP1 ?_ ?_ ?_ h
          · exact hr3.trans hc
          · exact hr4.trans (by rw [hp])
          · omega
          · intro hx; rw [← hr2]; exact hnext hx
          · exact hbs
          · exact hlm
      · rw [if_neg hd] at h
        cases he : cb.emit_chunk st
            (file_chunk_t.REFERENCE (min (limit - l) cs)
              (arrow_compute_key (fread v.datafile (min (limit - l) cs)).1)) with
        | none => rw [he] at h; simp at h
        | some r1 =>
          rw [he] at h
          simp only [Option.some_bind] at h
          cases he2 : (if cb.store_contains r1.2
                (arrow_compute_key (fread v.datafile (min (limit - l) cs)).1) ≠ 0 then
              cb.add_ref r1.2 (arrow_compute_key (fread v.datafile (min (limit - l) cs)).1)
            else cb.put_block r1.2
              (arrow_compute_key (fread v.datafile (min (limit - l) cs)).1)
              (fread v.datafile (min (limit - l) cs)).1) with
          | none => rw [he2] at h; simp at h
          | some r2 =>
            rw [he2] at h
            simp only [Option.some_bind] at h
            have he' : cb.emit_chunk st
                (file_chunk_t.REFERENCE (fread v.datafile (min (limit - l) cs)).1.length
                  (arrow_compute_key (fread v.datafile (min (limit - l) cs)).1)) = some r1 := by
              rw [hr2]; exact he
            have hP1 := hliteral l _ st r1 r2 hP hpiece hlecs
              (by rw [hr2]; omega) he' he2
            rw [hr2] at hP1
            refine ih _ _ _ _ r ?_ ?_ ?_ hP1 ?_ ?_ ?_ h
            · exact hr3.trans hc
            · exact hr4.trans (by rw [hp])
            · omega
            · intro hx; rw [← hr2]; exact hnext hx
            · exact hbs
            · exact hlm
    · rw [if_neg hlt] at h
      have hr := (Option.some.inj h).symm
      subst hr
      have hl2 : l = limit := by omega
      subst hl2
      exact ⟨⟨b, hP⟩, hc, hp, hbs, hlm⟩

/-- The literal loop, from `l` to `limit`. -/
theorem literals_rule {σ : Type} {cb : sync_callbacks_t σ} {cs : Nat} {input : List Nat}
    {P : Nat → Bool → σ → Prop} (hinv : sync_file_invariant cb cs input P)
    (limit : Nat) (hlim : limit ≤ input.length) (bs lm : Nat) :
    ∀ (fuel l : Nat) (v : sync_file_vars) (st : σ) (b : Bool) (r : sync_file_vars × σ),
      v.datafile.content = input → v.datafile.pos = l → l ≤ limit → P l b st →
      (l < limit → b = false) → v.bufsize = bs → v.last_match = lm →
      sync_file.literals cb cs limit fuel l v st = some r →
      (∃ b2, P limit b2 r.2) ∧ r.1.datafile.content = input ∧ r.1.datafile.pos = limit ∧
        r.1.bufsize = bs ∧ r.1.last_match = lm :=
  literals_rule_core hinv.direct hinv.literal limit hlim bs lm


theorem getc_none (f : FILE) (h : (getc f).1 = none) :
    f.content.length ≤ f.pos ∧ (getc f).2.content = f.content ∧ (getc f).2.pos = f.pos := by
  unfold getc at h ⊢
  cases hd : f.content.drop f.pos with
  | nil =>
    refine ⟨?_, rfl, rfl⟩
    have := congrArg List.length hd
    rw [List.length_drop, List.length_nil] at this
    omega
  | cons c rest => rw [hd] at h; simp at h

theorem getc_some (f : FILE) (c : Nat) (h : (getc f).1 = some c) :
    f.pos < f.content.length ∧ (getc f).2.content = f.content ∧
      (getc f).2.pos = f.pos + 1 ∧ (getc f).2.eof = f.eof := by
  unfold getc at h ⊢
  cases hd : f.content.drop f.pos with
  | nil => rw [hd] at h; simp at h
  | cons c rest =>
    refine ⟨?_, rfl, rfl, rfl⟩
    have := congrArg List.length hd
    rw [List.length_drop, List.length_cons] at this
    omega

theorem fread_short (f : FILE) (n : Nat) :
    (fread f n).1.length = min n (f.content.length - f.pos) ∧
    (fread f n).2.content = f.content ∧
    (fread f n).2.pos = f.pos + min n (f.content.length - f.pos) ∧
    (fread f n).2.eof = (f.eof || decide (min n (f.content.length - f.pos) < n)) := by
  have hl : ((f.content.drop f.pos).take n).length = min n (f.content.length - f.pos) := by
    rw [List.length_take, List.length_drop]
  refine ⟨hl, rfl, ?_, ?_⟩
  · show f.pos + ((f.content.drop f.pos).take n).length = _
    rw [hl]
  · show (f.eof || decide (((f.content.drop f.pos).take n).length < n)) = _
    rw [hl]

/-- The main loop of `sync_file`: it ends at the end of the input, with the bytes
before `last_match` dealt with and the last piece a matched one (or none yet). -/
theorem loop_rule {σ : Type} {cb : sync_callbacks_t σ} {cs : Nat} {input : List Nat}
    {P : Nat → Bool → σ → Prop} (hinv : sync_file_invariant cb cs input P)
    (table : Nat → arrow_id_t) :
    ∀ (fuel : Nat) (v : sync_file_vars) (st : σ) (r : sync_file_vars × σ),
      v.datafile.content = input → v.last_match + cs ≤ v.datafile.pos →
      v.datafile.pos ≤ input.length → v.bufsize = cs → v.datafile.eof = false →
      P v.last_match false st →
      sync_file.loop cb table cs fuel v st = some r →
      r.1.datafile.content = input ∧ r.1.datafile.pos = input.length ∧
        r.1.last_match ≤ input.length ∧ P r.1.last_match false r.2 := by
  intro fuel
  induction fuel with
  | zero => intro v st r _ _ _ _ _ _ h; simp [sync_file.loop] at h
  | succ fuel ih =>
    intro v st r hc hlm hpos hbs heof hP h
    rw [sync_file.loop, if_neg (by rw [heof]; decide)] at h
    by_cases hm : hash_table_probe table (RollsumDigest v.runsum) ≠ 0 ∧
        hash_table_contains table ⟨RollsumDigest v.runsum, cbuf_md5 v.buffer⟩ ≠ 0
    · rw [if_pos hm] at h
      simp only at h
      -- the literal bytes before the match
      have hlit : ∀ r1, (if v.last_match < v.datafile.pos - cs then
            sync_file.literals cb cs (v.datafile.pos - cs) (v.datafile.pos + 1) v.last_match
              { v with current := ⟨RollsumDigest v.runsum, cbuf_md5 v.buffer⟩
                       datafile := fseek_set v.datafile v.last_match } st
          else some ({ v with current := ⟨RollsumDigest v.runsum, cbuf_md5 v.buffer⟩
                              datafile := fseek_set v.datafile v.last_match }, st)) = some r1 →
          (∃ b2, P (v.datafile.pos - cs) b2 r1.2) ∧ r1.1.datafile.content = input ∧
            r1.1.datafile.pos = v.datafile.pos - cs ∧ r1.1.bufsize = cs := by
        intro r1 h1
        by_cases hl : v.last_match < v.datafile.pos - cs
        · rw [if_pos hl] at h1
          refine (fun x => ⟨x.1, x.2.1, x.2.2.1, x.2.2.2.1⟩)
            (literals_rule hinv (v.datafile.pos - cs) (by omega) cs v.last_match _ _ _ _ false r1
              ?_ ?_ (Nat.le_of_lt hl) hP (fun _ => rfl) ?_ ?_ h1)
          · exact hc
          · rfl
          · exact hbs
          · rfl
        · rw [if_neg hl] at h1
          have e := (Option.some.inj h1).symm
          subst e
          have e2 : v.last_match = v.datafile.pos - cs := by omega
          refine ⟨⟨false, ?_⟩, hc, e2, hbs⟩
          rw [← e2]; exact hP
      cases h1 : (if v.last_match < v.datafile.pos - cs then
            sync_file.literals cb cs (v.datafile.pos - cs) (v.datafile.pos + 1) v.last_match
              { v with current := ⟨RollsumDigest v.runsum, cbuf_md5 v.buffer⟩
                       datafile := fseek_set v.datafile v.last_match } st
          else some ({ v with current := ⟨RollsumDigest v.runsum, cbuf_md5 v.buffer⟩
                              datafile := fseek_set v.datafile v.last_match }, st)) with
      | none => rw [h1] at h; simp at h
      | some r1 =>
        rw [h1] at h
        obtain ⟨⟨b2, hP1⟩, hc1, hp1, hbs1⟩ := hlit r1 h1
        simp only [Option.some_bind] at h
        rw [hbs1] at h
        cases he : cb.emit_chunk r1.2 (file_chunk_t.REFERENCE cs r1.1.current) with
        | none => rw [he] at h; simp at h
        | some r3 =>
          rw [he] at h
          simp only [Option.some_bind] at h
          cases ha : cb.add_ref r3.2 r1.1.current with
          | none => rw [ha] at h; simp at h
          | some r4 =>
            rw [ha] at h
            simp only [Option.some_bind] at h
            have hP4 := hinv.matched (v.datafile.pos - cs) b2 _ _ _ _ hP1 (by omega) he ha
            have hcur : v.datafile.pos - cs + cs = v.datafile.pos := by omega
            rw [hcur] at hP4
            have hf3c : (fseek_cur r1.1.datafile cs).content = input := hc1
            have hf3p : (fseek_cur r1.1.datafile cs).pos = v.datafile.pos := by
              show r1.1.datafile.pos + cs = _
              rw [hp1]; exact hcur
            obtain ⟨q1, q2, q3, q4⟩ := fread_short (fseek_cur r1.1.datafile cs) cs
            rw [hf3c, hf3p] at q1 q3 q4
            by_cases hshort : (fread (fseek_cur r1.1.datafile cs) cs).1.length < cs
            · rw [if_pos hshort] at h
              have e := (Option.some.inj h).symm
              subst e
              refine ⟨q2.trans hf3c, ?_, ?_, ?_⟩
              · show (fread (fseek_cur r1.1.datafile cs) cs).2.pos = _
                rw [q3]; rw [q1] at hshort; omega
              · show (fseek_cur r1.1.datafile cs).pos ≤ _
                rw [hf3p]; exact hpos
              · show P (fseek_cur r1.1.datafile cs).pos false r4.2
                rw [hf3p]; exact hP4
            · rw [if_neg hshort] at h
              rw [q1] at hshort
              refine ih _ _ r ?_ ?_ ?_ ?_ ?_ ?_ h
              · exact q2.trans hf3c
              · show (fseek_cur r1.1.datafile cs).pos + cs
                  ≤ (fread (fseek_cur r1.1.datafile cs) cs).2.pos
                rw [hf3p, q3]; omega
              · show (fread (fseek_cur r1.1.datafile cs) cs).2.pos ≤ _
                rw [q3]; omega
              · show (fread (fseek_cur r1.1.datafile cs) cs).1.length = cs
                rw [q1]; omega
              · show (fread (fseek_cur r1.1.datafile cs) cs).2.eof = false
                rw [q4]
                show (false || decide (min cs (input.length - v.datafile.pos) < cs)) = false
                simp only [Bool.false_or, decide_eq_false_iff_not]
                exact hshort
              · show P (fseek_cur r1.1.datafile cs).pos false r4.2
                rw [hf3p]; exact hP4
    · rw [if_neg hm] at h
      cases hg : (getc v.datafile).1 with
      | none =>
        rw [hg] at h
        have e := (Option.some.inj h).symm
        subst e
        obtain ⟨g1, g2, g3⟩ := getc_none _ hg
        refine ⟨g2.trans hc, ?_, ?_, hP⟩
        · show (getc v.datafile).2.pos = _
          rw [g3]; rw [hc] at g1; omega
        · show v.last_match ≤ _
          omega
      | some c =>
        rw [hg] at h
        obtain ⟨g1, g2, g3, g4⟩ := getc_some _ c hg
        rw [hc] at g1
        refine ih _ _ r ?_ ?_ ?_ ?_ ?_ ?_ h
        · exact g2.trans hc
        · show v.last_match + cs ≤ (getc v.datafile).2.pos
          rw [g3]; omega
        · show (getc v.datafile).2.pos ≤ _
          rw [g3]; omega
        · exact hbs
        · exact g4.trans heof
        · exact hP


theorem file_md5_eof (fuel : Nat) (f : FILE) (md5 : List Nat) (h : f.eof = true) :
    sync_file.file_md5 fuel f md5 = md5 := by
  cases fuel with
  | zero => rfl
  | succ fuel => rw [sync_file.file_md5, if_pos h]

theorem file_md5_eq :
    ∀ (fuel : Nat) (f : FILE) (md5 : List Nat), f.content.length - f.pos < fuel →
      f.eof = false → sync_file.file_md5 fuel f md5 = md5 ++ f.content.drop f.pos := by
  intro fuel
  induction fuel with
  | zero => intro f md5 h; omega
  | succ fuel ih =>
    intro f md5 hfuel heof
    obtain ⟨q1, q2, q3, q4⟩ := fread_short f 1024
    have hread : (fread f 1024).1 = (f.content.drop f.pos).take 1024 := rfl
    rw [sync_file.file_md5, if_neg (by rw [heof]; decide)]
    by_cases hpos : 0 < (fread f 1024).1.length
    · rw [if_pos hpos]
      by_cases hfull : (fread f 1024).1.length < 1024
      · rw [file_md5_eof _ _ _ (by rw [q4, heof, ← q1]; simpa using hfull), hread,
          List.take_of_length_le]
        rw [hread] at hfull
        rw [List.length_take] at hfull
        omega
      · rw [ih _ _ (by rw [q2, q3]; omega) (by rw [q4, heof, ← q1]; simpa using hfull), q2, q3,
          List.append_assoc]
        congr 1
        have hmin : min 1024 (f.content.length - f.pos) = 1024 := by omega
        rw [hmin, hread, ← List.drop_drop, List.take_append_drop]
    · rw [if_neg hpos]
      have hnil : f.content.drop f.pos = [] := by
        apply List.eq_nil_of_length_eq_zero
        rw [List.length_drop]
        omega
      rw [hnil, List.append_nil]

/-- The bytes digested when `hash_match` is requested are the whole input. -/
theorem file_md5_whole (input : List Nat) :
    sync_file.file_md5 (input.length + 1) (fopen input) [] = input :=
  (file_md5_eq _ (fopen input) [] (Nat.lt_succ_of_le (Nat.sub_le _ _)) rfl).trans rfl

/-- A run of `sync_file` that returns: either the digest matched and nothing was
called, or every input byte was dealt with and `END_OF_CHUNKS` was emitted last. -/
theorem sync_file_rule {σ : Type} {cb : sync_callbacks_t σ} {basis : file_t}
    {input : List Nat} {P : Nat → Bool → σ → Prop}
    (hinv : sync_file_invariant cb basis.chunk_size input P) (hm : Option Int) (st : σ)
    (r : sync_result σ) (h0 : P 0 false st) (h : sync_file basis input cb hm st = some r) :
    (r = ⟨0, 1, none, none, st⟩ ∧ MD5 input = basis.hash ∧ ∃ x, hm = some x ∧ x ≠ 0) ∨
    (r.ret = 0 ∧ r.hash_match = 0 ∧ r.chunk_size = some basis.chunk_size ∧
      ∃ b st2 c, P input.length b st2 ∧
        cb.emit_chunk st2 file_chunk_t.END_OF_CHUNKS = some (c, r.state)) := by
  unfold sync_file at h
  simp only [file_md5_whole] at h
  split at h
  · rename_i hq
    left
    refine ⟨(Option.some.inj h).symm, hq.2, ?_⟩
    cases hm with
    | none => simp at hq
    | some x => exact ⟨x, rfl, by simpa using hq.1⟩
  · right
    cases ht : sync_file.build_table basis.chunk_size basis.chunks (fun _ => null_id) with
    | none => rw [ht] at h; simp at h
    | some table =>
      rw [ht] at h
      simp only [Option.some_bind] at h
      obtain ⟨q1, q2, q3, q4⟩ := fread_short (fopen input) basis.chunk_size
      have hq1 : (fread (fopen input) basis.chunk_size).1.length
          = min basis.chunk_size input.length := q1
      have htake := cbuf_fread_take (cbuf_alloc basis.chunk_size) (fopen input) basis.chunk_size
      rw [htake] at h
      by_cases hshort : (fread (fopen input) basis.chunk_size).1.length < basis.chunk_size
      · rw [if_pos hshort] at h
        have hlt : input.length < basis.chunk_size := by rw [hq1] at hshort; omega
        have hlen : (fread (fopen input) basis.chunk_size).1.length = input.length := by
          rw [hq1]; omega
        have hwhole : (fread (fopen input) basis.chunk_size).1 = input := by
          show (input.drop 0).take basis.chunk_size = input
          rw [List.drop_zero, List.take_of_length_le (Nat.le_of_lt hlt)]
        have htake2 : List.take input.length
            (cbuf_fread (cbuf_alloc basis.chunk_size) (fopen input) basis.chunk_size).buffer
              = input := by
          have := htake
          rw [hlen, hwhole] at this
          exact this
        rw [hwhole] at h
        have hpiece : input = (input.drop 0).take input.length := by
          rw [List.drop_zero, List.take_length]
        by_cases hd : input.length ≤ MAX_DIRECT_CHUNK_SIZE
        · rw [if_pos hd] at h
          have hmin : min input.length MAX_DIRECT_CHUNK_SIZE = input.length := by omega
          rw [hmin, htake2] at h
          cases he : cb.emit_chunk st (file_chunk_t.DIRECT_CHUNK input) with
          | none => rw [he] at h; simp at h
          | some r1 =>
            rw [he] at h
            simp only [Option.some_bind] at h
            have hP1 := hinv.direct 0 input st r1 h0 hpiece (Nat.le_of_lt hlt) hd he
            rw [Nat.zero_add] at hP1
            cases hend : cb.emit_chunk r1.2 file_chunk_t.END_OF_CHUNKS with
            | none => rw [hend] at h; simp at h
            | some e =>
              rw [hend] at h
              have hr := (Option.some.inj h).symm
              subst hr
              exact ⟨rfl, rfl, rfl, _, r1.2, e.1, hP1, hend⟩
        · rw [if_neg hd] at h
          cases he : cb.emit_chunk st
              (file_chunk_t.REFERENCE input.length (arrow_compute_key input)) with
          | none => rw [he] at h; simp at h
          | some r1 =>
            rw [he] at h
            simp only [Option.some_bind] at h
            cases he2 : (if cb.store_contains r1.2 (arrow_compute_key input) ≠ 0 then
                cb.add_ref r1.2 (arrow_compute_key input)
              else cb.put_block r1.2 (arrow_compute_key input) input) with
            | none => rw [he2] at h; simp at h
            | some r2 =>
              rw [he2] at h
              simp only [Option.some_bind] at h
              have hP1 := hinv.literal 0 input st r1 r2 h0 hpiece (Nat.le_of_lt hlt)
                (by omega) he he2
              rw [Nat.zero_add] at hP1
              cases hend : cb.emit_chunk r2.2 file_chunk_t.END_OF_CHUNKS with
              | none => rw [hend] at h; simp at h
              | some e =>
                rw [hend] at h
                have hr := (Option.some.inj h).symm
                subst hr
                exact ⟨rfl, rfl, rfl, _, r2.2, e.1, hP1, hend⟩
      · rw [if_neg hshort] at h
        have hfull : basis.chunk_size ≤ input.length := by rw [hq1] at hshort; omega
        cases hloop : sync_file.loop cb table basis.chunk_size (input.length + 2)
            { datafile := (fread (fopen input) basis.chunk_size).2
              buffer := cbuf_fread (cbuf_alloc basis.chunk_size) (fopen input) basis.chunk_size
              bufsize := (fread (fopen input) basis.chunk_size).1.length
              runsum := RollsumUpdate RollsumInit (fread (fopen input) basis.chunk_size).1
              md5 := (fread (fopen input) basis.chunk_size).1
              last_match := 0
              current := null_id } st with
        | none => rw [hloop] at h; simp at h
        | some r1 =>
          rw [hloop] at h
          simp only [Option.some_bind] at h
          have hq3 : (fread (fopen input) basis.chunk_size).2.pos
              = min basis.chunk_size input.length := by
            rw [q3]; show 0 + min basis.chunk_size (input.length - 0) = _
            simp
          obtain ⟨l1, l2, l3, l4⟩ := loop_rule hinv table _ _ st r1 q2
            (by show 0 + basis.chunk_size ≤ _; rw [hq3]; omega)
            (by rw [hq3]; exact Nat.min_le_right _ _)
            (by show (fread (fopen input) basis.chunk_size).1.length = _; rw [hq1]; omega)
            (by rw [q4]; show (false || decide (min basis.chunk_size (input.length - 0)
                  < basis.chunk_size)) = false
                simp only [Bool.false_or, decide_eq_false_iff_not, Nat.sub_zero]
                omega)
            h0 hloop
          have htail : ∀ r2, (if r1.1.last_match < r1.1.datafile.pos then
                sync_file.literals cb basis.chunk_size r1.1.datafile.pos (r1.1.datafile.pos + 1)
                  r1.1.last_match
                  { r1.1 with datafile := fseek_set r1.1.datafile r1.1.last_match } r1.2
              else some r1) = some r2 → ∃ b, P input.length b r2.2 := by
            intro r2 h2
            by_cases hl : r1.1.last_match < r1.1.datafile.pos
            · rw [if_pos hl] at h2
              rw [l2] at h2
              refine (fun x => x.1)
                (literals_rule hinv input.length (Nat.le_refl _) r1.1.bufsize r1.1.last_match
                  _ _ _ _ false r2 ?_ ?_ l3 l4 (fun _ => rfl) ?_ ?_ h2)
              · exact l1
              · rfl
              · rfl
              · rfl
            · rw [if_neg hl] at h2
              have e := (Option.some.inj h2).symm
              rw [e]
              have : r1.1.last_match = input.length := by omega
              rw [← this]
              exact ⟨false, l4⟩
          cases h2 : (if r1.1.last_match < r1.1.datafile.pos then
                sync_file.literals cb basis.chunk_size r1.1.datafile.pos (r1.1.datafile.pos + 1)
                  r1.1.last_match
                  { r1.1 with datafile := fseek_set r1.1.datafile r1.1.last_match } r1.2
              else some r1) with
          | none => rw [h2] at h; simp at h
          | some r2 =>
            rw [h2] at h
            simp only [Option.some_bind] at h
            obtain ⟨b, hP2⟩ := htail r2 h2
            cases hend : cb.emit_chunk r2.2 file_chunk_t.END_OF_CHUNKS with
            | none => rw [hend] at h; simp at h
            | some e =>
              rw [hend] at h
              have hr := (Option.some.inj h).symm
              subst hr
              exact ⟨rfl, rfl, rfl, b, r2.2, e.1, hP2, hend⟩


/-- The loop of `sync_generate`: when it ends every input byte is dealt with. -/
theorem generate_loop_rule {σ : Type} {cb : sync_callbacks_t σ} {cs : Nat} {input : List Nat}
    {P : Nat → Bool → σ → Prop} (hinv : sync_generate_invariant cb cs input P)
    (hcs0 : 0 < cs) (hcs : cs < 2 ^ 32) :
    ∀ (fuel : Nat) (f : FILE) (md5 : List Nat) (st : σ) (b : Bool) (r : List Nat × σ),
      f.content = input → f.pos ≤ input.length → P f.pos b st →
      (f.eof = false → b = false) → (f.eof = true → f.pos = input.length) →
      sync_generate.loop cb cs fuel f md5 st = some r →
      (∃ b2, P input.length b2 r.2) ∧ r.1 = md5 ++ input.drop f.pos := by
  intro fuel
  induction fuel with
  | zero => intro f md5 st b r _ _ _ _ _ h; simp [sync_generate.loop] at h
  | succ fuel ih =>
    intro f md5 st b r hc hpos hP hb heof h
    rw [sync_generate.loop] at h
    by_cases he : f.eof = true
    · rw [if_pos he] at h
      have e := (Option.some.inj h).symm
      subst e
      have hp := heof he
      refine ⟨⟨b, by rw [← hp]; exact hP⟩, ?_⟩
      rw [hp, List.drop_length, List.append_nil]
    · rw [if_neg he] at h
      simp only at h
      have hef : f.eof = false := by simpa using he
      have hbf := hb hef
      subst hbf
      obtain ⟨q1, q2, q3, q4⟩ := fread_short f cs
      rw [hc] at q1 q3 q4
      have hread : (fread f cs).1 = (input.drop f.pos).take cs := by
        show (f.content.drop f.pos).take cs = _
        rw [hc]
      by_cases hz : (fread f cs).1.length ≤ 0
      · rw [if_pos hz] at h
        have e := (Option.some.inj h).symm
        subst e
        have hp : f.pos = input.length := by rw [q1] at hz; omega
        refine ⟨⟨false, by rw [← hp]; exact hP⟩, ?_⟩
        rw [hp, List.drop_length, List.append_nil]
      · rw [if_neg hz] at h
        have hpiece : (fread f cs).1 = (input.drop f.pos).take (fread f cs).1.length := by
          rw [q1, hread, List.take_eq_take]
          rw [List.length_drop]
          omega
        have hlecs : (fread f cs).1.length ≤ cs := by rw [q1]; exact Nat.min_le_left _ _
        have hnext1 : (fread f cs).2.pos = f.pos + (fread f cs).1.length := by rw [q3, q1]
        have hnext2 : (fread f cs).2.pos ≤ input.length := by rw [q3]; omega
        have hnext3 : (fread f cs).2.eof = false → decide ((fread f cs).1.length < cs) = false := by
          rw [q4, hef, q1]
          simp
        have hnext4 : (fread f cs).2.eof = true → (fread f cs).2.pos = input.length := by
          rw [q4, hef, q3]
          simp only [Bool.false_or, decide_eq_true_eq]
          omega
        have hdrop : ∀ m : List Nat, m ++ (fread f cs).1 ++ input.drop (fread f cs).2.pos
            = m ++ input.drop f.pos := by
          intro m
          rw [List.append_assoc, hnext1]
          congr 1
          rw [← List.drop_drop]
          conv => lhs; arg 1; rw [hpiece]
          exact List.take_append_drop _ _
        by_cases hd : (fread f cs).1.length ≤ MAX_DIRECT_CHUNK_SIZE
        · rw [if_pos hd] at h
          cases hem : cb.emit_chunk st (file_chunk_t.DIRECT_CHUNK (fread f cs).1) with
          | none => rw [hem] at h; simp at h
          | some r1 =>
            rw [hem] at h
            simp only [Option.some_bind] at h
            have hP1 := hinv.direct f.pos _ st r1 hP hpiece hlecs hd hem
            rw [← hnext1] at hP1
            obtain ⟨a, c⟩ := ih _ _ _ _ r (q2.trans hc) hnext2 hP1 hnext3 hnext4 h
            exact ⟨a, c.trans (hdrop md5)⟩
        · rw [if_neg hd] at h
          have hmod : (fread f cs).1.length % 2 ^ 32 = (fread f cs).1.length :=
            Nat.mod_eq_of_lt (by omega)
          rw [hmod] at h
          cases hem : cb.emit_chunk st (file_chunk_t.REFERENCE (fread f cs).1.length
              (arrow_compute_key (fread f cs).1)) with
          | none => rw [hem] at h; simp at h
          | some r1 =>
            rw [hem] at h
            simp only [Option.some_bind] at h
            by_cases hsc : cb.store_contains r1.2 (arrow_compute_key (fread f cs).1) = 0
            · rw [if_pos hsc] at h
              cases hput : cb.put_block r1.2 (arrow_compute_key (fread f cs).1) (fread f cs).1 with
              | none => rw [hput] at h; simp at h
              | some r2 =>
                rw [hput] at h
                simp only [Option.some_bind] at h
                have hP1 := hinv.stored f.pos _ st r1 r2 hP hpiece hlecs (by omega) hem hsc hput
                rw [← hnext1] at hP1
                obtain ⟨a, c⟩ := ih _ _ _ _ r (q2.trans hc) hnext2 hP1 hnext3 hnext4 h
                exact ⟨a, c.trans (hdrop md5)⟩
            · rw [if_neg hsc] at h
              have hP1 := hinv.present f.pos _ st r1 hP hpiece hlecs (by omega) hem hsc
              rw [← hnext1] at hP1
              obtain ⟨a, c⟩ := ih _ _ _ _ r (q2.trans hc) hnext2 hP1 hnext3 hnext4 h
              exact ⟨a, c.trans (hdrop md5)⟩

/-- A run of `sync_generate` that returns has dealt with every input byte, emitted
`END_OF_CHUNKS` last and digested the whole input. -/
theorem sync_generate_rule {σ : Type} {cb : sync_callbacks_t σ} {input : List Nat}
    {P : Nat → Bool → σ → Prop}
    (hinv : sync_generate_invariant cb (sync_generate.bufsize input.length) input P) (st : σ)
    (r : sync_result σ) (h0 : P 0 false st) (h : sync_generate input cb st = some r) :
    r.ret = 0 ∧ r.chunk_size = some (sync_generate.bufsize input.length) ∧
      r.hash = some (MD5 input) ∧
      ∃ b st2 c, P input.length b st2 ∧
        cb.emit_chunk st2 file_chunk_t.END_OF_CHUNKS = some (c, r.state) := by
  unfold sync_generate at h
  have hb := bufsize_eq input.length
  cases hloop : sync_generate.loop cb (sync_generate.bufsize input.length) (input.length + 1)
      (fopen input) [] st with
  | none => rw [hloop] at h; simp at h
  | some r1 =>
    rw [hloop] at h
    simp only [Option.some_bind] at h
    obtain ⟨⟨b, hP⟩, hmd⟩ := generate_loop_rule hinv (by omega)
      (by rw [hb]; exact Nat.lt_of_le_of_lt (max_le (by decide) (Nat.min_le_right _ _)) (by decide))
      _ (fopen input) [] st false r1 rfl (Nat.zero_le _) h0 (fun _ => rfl)
      (fun e => by simp [fopen] at e) hloop
    cases hend : cb.emit_chunk r1.2 file_chunk_t.END_OF_CHUNKS with
    | none => rw [hend] at h; simp at h
    | some e =>
      rw [hend] at h
      have hr := (Option.some.inj h).symm
      subst hr
      refine ⟨rfl, rfl, ?_, b, r1.2, e.1, hP, hend⟩
      show some (MD5 r1.1) = _
      rw [hmd]
      rfl


/-! ## The synchronizer returns when no callback aborts -/

theorem sync_invariant_trivial {σ : Type} (cb : sync_callbacks_t σ) (cs : Nat)
    (input : List Nat) : sync_file_invariant cb cs input (fun _ _ _ => True) :=
  ⟨fun _ _ _ _ _ _ _ _ _ => trivial, fun _ _ _ _ _ _ _ _ _ _ _ => trivial,
    fun _ _ _ _ _ _ _ _ _ _ => trivial⟩

theorem literals_total {σ : Type} {cb : sync_callbacks_t σ} (htot : sync_callbacks_total cb)
    {cs : Nat} (hcs : 0 < cs) (limit : Nat) :
    ∀ (fuel l : Nat) (v : sync_file_vars) (st : σ), limit - l < fuel →
      (sync_file.literals cb cs limit fuel l v st).isSome = true := by
  intro fuel
  induction fuel with
  | zero => intro l v st h; omega
  | succ fuel ih =>
    intro l v st hf
    rw [sync_file.literals]
    by_cases hlt : l < limit
    · rw [if_pos hlt]
      simp only
      by_cases hd : min (limit - l) cs ≤ MAX_DIRECT_CHUNK_SIZE
      · rw [if_pos hd]
        obtain ⟨r1, he⟩ := Option.isSome_iff_exists.mp (htot.1 st
          (file_chunk_t.DIRECT_CHUNK
            ((cbuf_fread v.buffer v.datafile (min (limit - l) cs)).buffer.take
              (min (limit - l) cs))))
        rw [he]
        simp only [Option.some_bind]
        exact ih _ _ _ (by omega)
      · rw [if_neg hd]
        obtain ⟨r1, he⟩ := Option.isSome_iff_exists.mp (htot.1 st
          (file_chunk_t.REFERENCE (min (limit - l) cs) (arrow_compute_key
            ((cbuf_fread v.buffer v.datafile (min (limit - l) cs)).buffer.take
              (min (limit - l) cs)))))
        rw [he]
        simp only [Option.some_bind]
        have h2 : ∃ r2, (if cb.store_contains r1.2 (arrow_compute_key
              ((cbuf_fread v.buffer v.datafile (min (limit - l) cs)).buffer.take
                (min (limit - l) cs))) ≠ 0 then
            cb.add_ref r1.2 (arrow_compute_key
              ((cbuf_fread v.buffer v.datafile (min (limit - l) cs)).buffer.take
                (min (limit - l) cs)))
          else cb.put_block r1.2 (arrow_compute_key
              ((cbuf_fread v.buffer v.datafile (min (limit - l) cs)).buffer.take
                (min (limit - l) cs)))
            ((cbuf_fread v.buffer v.datafile (min (limit - l) cs)).buffer.take
              (min (limit - l) cs))) = some r2 := by
          split
          · exact Option.isSome_iff_exists.mp (htot.2.1 _ _)
          · exact Option.isSome_iff_exists.mp (htot.2.2 _ _ _)
        obtain ⟨r2, he2⟩ := h2
        rw [he2]
        simp only [Option.some_bind]
        exact ih _ _ _ (by omega)
    · rw [if_neg hlt]; rfl

theorem loop_total {σ : Type} {cb : sync_callbacks_t σ} (htot : sync_callbacks_total cb)
    {cs : Nat} (hcs : 0 < cs) (input : List Nat) (table : Nat → arrow_id_t) :
    ∀ (fuel : Nat) (v : sync_file_vars) (st : σ),
      v.datafile.content = input → v.last_match + cs ≤ v.datafile.pos →
      v.datafile.pos ≤ input.length → v.bufsize = cs →
      input.length - v.datafile.pos < fuel →
      (sync_file.loop cb table cs fuel v st).isSome = true := by
  intro fuel
  induction fuel with
  | zero => intro v st _ _ _ _ h; omega
  | succ fuel ih =>
    intro v st hc hlm hpos hbs hf
    rw [sync_file.loop]
    by_cases heof : v.datafile.eof = true
    · rw [if_pos heof]; rfl
    rw [if_neg heof]
    by_cases hm : hash_table_probe table (RollsumDigest v.runsum) ≠ 0 ∧
        hash_table_contains table ⟨RollsumDigest v.runsum, cbuf_md5 v.buffer⟩ ≠ 0
    · rw [if_pos hm]
      simp only
      have hlit : ∃ r1, (if v.last_match < v.datafile.pos - cs then
            sync_file.literals cb cs (v.datafile.pos - cs) (v.datafile.pos + 1) v.last_match
              { v with current := ⟨RollsumDigest v.runsum, cbuf_md5 v.buffer⟩
                       datafile := fseek_set v.datafile v.last_match } st
          else some ({ v with current := ⟨RollsumDigest v.runsum, cbuf_md5 v.buffer⟩
                              datafile := fseek_set v.datafile v.last_match }, st)) = some r1 ∧
          r1.1.datafile.content = input ∧
            r1.1.datafile.pos = v.datafile.pos - cs ∧ r1.1.bufsize = cs := by
        by_cases hl : v.last_match < v.datafile.pos - cs
        · rw [if_pos hl]
          obtain ⟨r1, h1⟩ := Option.isSome_iff_exists.mp
            (literals_total htot hcs (v.datafile.pos - cs) (v.datafile.pos + 1) v.last_match
              { v with current := ⟨RollsumDigest v.runsum, cbuf_md5 v.buffer⟩
                       datafile := fseek_set v.datafile v.last_match } st (by omega))
          refine ⟨r1, h1, ?_⟩
          refine (fun x => ⟨x.2.1, x.2.2.1, x.2.2.2.1⟩)
            (literals_rule (sync_invariant_trivial cb cs input) (v.datafile.pos - cs) (by omega)
              cs v.last_match _ _ _ _ false r1 ?_ ?_ (Nat.le_of_lt hl) trivial (fun _ => rfl)
              ?_ ?_ h1)
          · exact hc
          · rfl
          · exact hbs
          · rfl
        · rw [if_neg hl]
          exact ⟨_, rfl, hc, by show v.last_match = _; omega, hbs⟩
      obtain ⟨r1, h1, hc1, hp1, hbs1⟩ := hlit
      rw [h1]
      simp only [Option.some_bind]
      obtain ⟨r3, he⟩ := Option.isSome_iff_exists.mp (htot.1 r1.2
        (file_chunk_t.REFERENCE r1.1.bufsize r1.1.current))
      rw [he]
      simp only [Option.some_bind]
      obtain ⟨r4, ha⟩ := Option.isSome_iff_exists.mp (htot.2.1 r3.2 r1.1.current)
      rw [ha]
      simp only [Option.some_bind]
      have hf3c : (fseek_cur r1.1.datafile cs).content = input := hc1
      have hf3p : (fseek_cur r1.1.datafile cs).pos = v.datafile.pos := by
        show r1.1.datafile.pos + cs = _
        rw [hp1]; omega
      obtain ⟨q1, q2, q3, q4⟩ := fread_short (fseek_cur r1.1.datafile cs) cs
      rw [hf3c, hf3p] at q1 q3 q4
      by_cases hshort : (fread (fseek_cur r1.1.datafile cs) cs).1.length < cs
      · rw [if_pos hshort]; rfl
      · rw [if_neg hshort]
        rw [q1] at hshort
        refine ih _ _ ?_ ?_ ?_ ?_ ?_
        · exact q2.trans hf3c
        · show (fseek_cur r1.1.datafile cs).pos + cs
            ≤ (fread (fseek_cur r1.1.datafile cs) cs).2.pos
          rw [hf3p, q3]; omega
        · show (fread (fseek_cur r1.1.datafile cs) cs).2.pos ≤ _
          rw [q3]; omega
        · show (fread (fseek_cur r1.1.datafile cs) cs).1.length = cs
          rw [q1]; omega
        · show input.length - (fread (fseek_cur r1.1.datafile cs) cs).2.pos < fuel
          rw [q3]; omega
    · rw [if_neg hm]
      cases hg : (getc v.datafile).1 with
      | none => rfl
      | some c =>
        obtain ⟨g1, g2, g3, _⟩ := getc_some _ c hg
        rw [hc] at g1
        simp only
        refine ih _ _ ?_ ?_ ?_ ?_ ?_
        · exact g2.trans hc
        · show v.last_match + cs ≤ (getc v.datafile).2.pos
          rw [g3]; omega
        · show (getc v.datafile).2.pos ≤ _
          rw [g3]; omega
        · exact hbs
        · show input.length - (getc v.datafile).2.pos < fuel
          rw [g3]; omega

/-- `sync_file` returns when no callback aborts, the chunk size of the basis is not
zero and the table of the basis could be built. -/
theorem sync_file_total {σ : Type} {cb : sync_callbacks_t σ} (htot : sync_callbacks_total cb)
    (basis : file_t) (input : List Nat) (hm : Option Int) (st : σ)
    (hcs : 0 < basis.chunk_size)
    (htable : (sync_file.build_table basis.chunk_size basis.chunks
      (fun _ => null_id)).isSome = true) :
    (sync_file basis input cb hm st).isSome = true := by
  unfold sync_file
  simp only
  split
  · rfl
  obtain ⟨table, ht⟩ := Option.isSome_iff_exists.mp htable
  rw [ht]
  simp only [Option.some_bind]
  obtain ⟨q1, q2, q3, q4⟩ := fread_short (fopen input) basis.chunk_size
  have hq1 : (fread (fopen input) basis.chunk_size).1.length
      = min basis.chunk_size input.length := q1
  by_cases hshort : (fread (fopen input) basis.chunk_size).1.length < basis.chunk_size
  · rw [if_pos hshort]
    have hfirst : ∃ r1, (if (fread (fopen input) basis.chunk_size).1.length
          ≤ MAX_DIRECT_CHUNK_SIZE then
        cb.emit_chunk st (file_chunk_t.DIRECT_CHUNK
          ((cbuf_fread (cbuf_alloc basis.chunk_size) (fopen input) basis.chunk_size).buffer.take
            (min (fread (fopen input) basis.chunk_size).1.length MAX_DIRECT_CHUNK_SIZE)))
      else
        (cb.emit_chunk st (file_chunk_t.REFERENCE (fread (fopen input) basis.chunk_size).1.length
          (arrow_compute_key
            ((cbuf_fread (cbuf_alloc basis.chunk_size) (fopen input)
              basis.chunk_size).buffer.take
              (fread (fopen input) basis.chunk_size).1.length)))).bind (fun r =>
          if cb.store_contains r.2 (arrow_compute_key
              ((cbuf_fread (cbuf_alloc basis.chunk_size) (fopen input)
                basis.chunk_size).buffer.take
                (fread (fopen input) basis.chunk_size).1.length)) ≠ 0 then
            cb.add_ref r.2 (arrow_compute_key
              ((cbuf_fread (cbuf_alloc basis.chunk_size) (fopen input)
                basis.chunk_size).buffer.take
                (fread (fopen input) basis.chunk_size).1.length))
          else
            cb.put_block r.2 (arrow_compute_key
              ((cbuf_fread (cbuf_alloc basis.chunk_size) (fopen input)
                basis.chunk_size).buffer.take
                (fread (fopen input) basis.chunk_size).1.length))
              ((cbuf_fread (cbuf_alloc basis.chunk_size) (fopen input)
                basis.chunk_size).buffer.take
                (fread (fopen input) basis.chunk_size).1.length))) = some r1 := by
      split
      · exact Option.isSome_iff_exists.mp (htot.1 _ _)
      · obtain ⟨r, he⟩ := Option.isSome_iff_exists.mp (htot.1 st
          (file_chunk_t.REFERENCE (fread (fopen input) basis.chunk_size).1.length
            (arrow_compute_key
              ((cbuf_fread (cbuf_alloc basis.chunk_size) (fopen input)
                basis.chunk_size).buffer.take
                (fread (fopen input) basis.chunk_size).1.length))))
        rw [he]
        simp only [Option.some_bind]
        split
        · exact Option.isSome_iff_exists.mp (htot.2.1 _ _)
        · exact Option.isSome_iff_exists.mp (htot.2.2 _ _ _)
    obtain ⟨r1, h1⟩ := hfirst
    rw [h1]
    simp only [Option.some_bind, Option.isSome_map']
    exact htot.1 _ _
  · rw [if_neg hshort]
    have hq3 : (fread (fopen input) basis.chunk_size).2.pos
        = min basis.chunk_size input.length := by
      rw [q3]; show 0 + min basis.chunk_size (input.length - 0) = _
      simp
    obtain ⟨r1, hloop⟩ := Option.isSome_iff_exists.mp
      (loop_total htot hcs input table (input.length + 2)
        { datafile := (fread (fopen input) basis.chunk_size).2
          buffer := cbuf_fread (cbuf_alloc basis.chunk_size) (fopen input) basis.chunk_size
          bufsize := (fread (fopen input) basis.chunk_size).1.length
          runsum := RollsumUpdate RollsumInit
            ((cbuf_fread (cbuf_alloc basis.chunk_size) (fopen input) basis.chunk_size).buffer.take
              (fread (fopen input) basis.chunk_size).1.length)
          md5 := (cbuf_fread (cbuf_alloc basis.chunk_size) (fopen input)
            basis.chunk_size).buffer.take (fread (fopen input) basis.chunk_size).1.length
          last_match := 0
          current := null_id } st q2
        (by show 0 + basis.chunk_size ≤ _; rw [hq3]; rw [hq1] at hshort; omega)
        (by rw [hq3]; exact Nat.min_le_right _ _)
        (by show (fread (fopen input) basis.chunk_size).1.length = _; rw [hq1] at hshort ⊢; omega)
        (by omega))
    rw [hloop]
    simp only [Option.some_bind]
    have h2 : ∃ r2, (if r1.1.last_match < r1.1.datafile.pos then
          sync_file.literals cb basis.chunk_size r1.1.datafile.pos (r1.1.datafile.pos + 1)
            r1.1.last_match
            { r1.1 with datafile := fseek_set r1.1.datafile r1.1.last_match } r1.2
        else some r1) = some r2 := by
      split
      · exact Option.isSome_iff_exists.mp (literals_total htot hcs _ _ _ _ _ (by omega))
      · exact ⟨_, rfl⟩
    obtain ⟨r2, hr2⟩ := h2
    rw [hr2]
    simp only [Option.some_bind, Option.isSome_map']
    exact htot.1 _ _

theorem generate_loop_total {σ : Type} {cb : sync_callbacks_t σ}
    (htot : sync_callbacks_total cb) {cs : Nat} (hcs : 0 < cs) :
    ∀ (fuel : Nat) (f : FILE) (md5 : List Nat) (st : σ), f.content.length - f.pos < fuel →
      (sync_generate.loop cb cs fuel f md5 st).isSome = true := by
  intro fuel
  induction fuel with
  | zero => intro f md5 st h; omega
  | succ fuel ih =>
    intro f md5 st hf
    rw [sync_generate.loop]
    by_cases he : f.eof = true
    · rw [if_pos he]; rfl
    rw [if_neg he]
    simp only
    obtain ⟨q1, q2, q3, _⟩ := fread_short f cs
    by_cases hz : (fread f cs).1.length ≤ 0
    · rw [if_pos hz]; rfl
    rw [if_neg hz]
    have hnext : (fread f cs).2.content.length - (fread f cs).2.pos < fuel := by
      rw [q2, q3]; rw [q1] at hz; omega
    by_cases hd : (fread f cs).1.length ≤ MAX_DIRECT_CHUNK_SIZE
    · rw [if_pos hd]
      obtain ⟨r1, hem⟩ := Option.isSome_iff_exists.mp (htot.1 st
        (file_chunk_t.DIRECT_CHUNK (fread f cs).1))
      rw [hem]
      simp only [Option.some_bind]
      exact ih _ _ _ hnext
    · rw [if_neg hd]
      obtain ⟨r1, hem⟩ := Option.isSome_iff_exists.mp (htot.1 st
        (file_chunk_t.REFERENCE ((fread f cs).1.length % 2 ^ 32)
          (arrow_compute_key (fread f cs).1)))
      rw [hem]
      simp only [Option.some_bind]
      split
      · obtain ⟨r2, hput⟩ := Option.isSome_iff_exists.mp (htot.2.2 r1.2
          (arrow_compute_key (fread f cs).1) (fread f cs).1)
        rw [hput]
        simp only [Option.some_bind]
        exact ih _ _ _ hnext
      · exact ih _ _ _ hnext

/-- `sync_generate` returns when no callback aborts. -/
theorem sync_generate_total {σ : Type} {cb : sync_callbacks_t σ}
    (htot : sync_callbacks_total cb) (input : List Nat) (st : σ) :
    (sync_generate input cb st).isSome = true := by
  unfold sync_generate
  have hb := bufsize_eq input.length
  obtain ⟨r1, hloop⟩ := Option.isSome_iff_exists.mp
    (generate_loop_total htot (show 0 < sync_generate.bufsize input.length by omega)
      (input.length + 1) (fopen input) [] st
      (Nat.lt_succ_of_le (Nat.sub_le _ _)))
  rw [hloop]
  simp only [Option.some_bind, Option.isSome_map']
  exact htot.1 _ _

theorem sync_traced_total {σ : Type} {cb : sync_callbacks_t σ}
    (htot : sync_callbacks_total cb) : sync_callbacks_total (sync_traced cb) := by
  refine ⟨?_, ?_, ?_⟩
  · intro st c
    show ((cb.emit_chunk st.1 c).map _).isSome = true
    rw [Option.isSome_map']; exact htot.1 _ _
  · intro st id
    show ((cb.add_ref st.1 id).map _).isSome = true
    rw [Option.isSome_map']; exact htot.2.1 _ _
  · intro st id buf
    show ((cb.put_block st.1 id buf).map _).isSome = true
    rw [Option.isSome_map']; exact htot.2.2 _ _ _


/-! ## The trace of a run -/

theorem traced_emit_chunk {σ : Type} (cb : sync_callbacks_t σ) (st : σ × List sync_event)
    (c : file_chunk_t) (r : Int × σ × List sync_event)
    (h : (sync_traced cb).emit_chunk st c = some r) :
    cb.emit_chunk st.1 c = some (r.1, r.2.1) ∧ r.2.2 = st.2 ++ [sync_event.emit_chunk c] := by
  have h1 : (cb.emit_chunk st.1 c).map
      (fun r => (r.1, r.2, st.2 ++ [sync_event.emit_chunk c])) = some r := h
  cases he : cb.emit_chunk st.1 c with
  | none => rw [he] at h1; simp at h1
  | some x =>
    rw [he] at h1
    have e := (Option.some.inj h1).symm
    subst e
    exact ⟨rfl, rfl⟩

theorem traced_add_ref {σ : Type} (cb : sync_callbacks_t σ) (st : σ × List sync_event)
    (id : arrow_id_t) (r : Int × σ × List sync_event)
    (h : (sync_traced cb).add_ref st id = some r) :
    cb.add_ref st.1 id = some (r.1, r.2.1) ∧ r.2.2 = st.2 ++ [sync_event.add_ref id] := by
  have h1 : (cb.add_ref st.1 id).map
      (fun r => (r.1, r.2, st.2 ++ [sync_event.add_ref id])) = some r := h
  cases he : cb.add_ref st.1 id with
  | none => rw [he] at h1; simp at h1
  | some x =>
    rw [he] at h1
    have e := (Option.some.inj h1).symm
    subst e
    exact ⟨rfl, rfl⟩

theorem traced_put_block {σ : Type} (cb : sync_callbacks_t σ) (st : σ × List sync_event)
    (id : arrow_id_t) (buf : List Nat) (r : Int × σ × List sync_event)
    (h : (sync_traced cb).put_block st id buf = some r) :
    cb.put_block st.1 id buf = some (r.1, r.2.1) ∧
      r.2.2 = st.2 ++ [sync_event.put_block id buf] := by
  have h1 : (cb.put_block st.1 id buf).map
      (fun r => (r.1, r.2, st.2 ++ [sync_event.put_block id buf])) = some r := h
  cases he : cb.put_block st.1 id buf with
  | none => rw [he] at h1; simp at h1
  | some x =>
    rw [he] at h1
    have e := (Option.some.inj h1).symm
    subst e
    exact ⟨rfl, rfl⟩

theorem take_add_piece (input p : List Nat) (l : Nat) (h : p = (input.drop l).take p.length) :
    input.take (l + p.length) = input.take l ++ p := by
  rw [List.take_add, ← h]

theorem traced_file_invariant {σ : Type} (cb : sync_callbacks_t σ) (cs : Nat)
    (input : List Nat) :
    sync_file_invariant (sync_traced cb) cs input
      (fun l b s => sync_trace cs true b (input.take l) s.2) := by
  refine ⟨?_, ?_, ?_⟩
  · intro l p st r hP hp hcs hd he
    obtain ⟨_, e⟩ := traced_emit_chunk cb st _ r he
    show sync_trace cs true _ _ r.2.2
    rw [e, take_add_piece input p l hp]
    exact sync_trace.direct p hP hd hcs
  · intro l p st r r2 hP hp hcs hd he he2
    obtain ⟨_, e⟩ := traced_emit_chunk cb st _ r he
    show sync_trace cs true _ _ r2.2.2
    rw [take_add_piece input p l hp]
    by_cases hsc : (sync_traced cb).store_contains r.2 (arrow_compute_key p) ≠ 0
    · rw [if_pos hsc] at he2
      obtain ⟨_, e2⟩ := traced_add_ref cb r.2 _ r2 he2
      rw [e2, e, List.append_assoc]
      exact sync_trace.referenced p rfl hP hd hcs
    · rw [if_neg hsc] at he2
      obtain ⟨_, e2⟩ := traced_put_block cb r.2 _ _ r2 he2
      rw [e2, e, List.append_assoc]
      exact sync_trace.stored p hP hd hcs
  · intro l b id st r r2 hP hl he ha
    obtain ⟨_, e⟩ := traced_emit_chunk cb st _ r he
    obtain ⟨_, e2⟩ := traced_add_ref cb r.2 _ r2 ha
    show sync_trace cs true _ _ r2.2.2
    have hlen : ((input.drop l).take cs).length = cs := by
      rw [List.length_take, List.length_drop]; omega
    have hp : (input.drop l).take cs = (input.drop l).take ((input.drop l).take cs).length := by
      rw [hlen]
    have := take_add_piece input _ l hp
    rw [hlen] at this
    rw [this, e2, e, List.append_assoc]
    exact sync_trace.matched _ id rfl hP hlen

theorem traced_generate_invariant {σ : Type} (cb : sync_callbacks_t σ) (cs : Nat)
    (input : List Nat) :
    sync_generate_invariant (sync_traced cb) cs input
      (fun l b s => sync_trace cs false b (input.take l) s.2) := by
  refine ⟨?_, ?_, ?_⟩
  · intro l p st r hP hp hcs hd he
    obtain ⟨_, e⟩ := traced_emit_chunk cb st _ r he
    show sync_trace cs false _ _ r.2.2
    rw [e, take_add_piece input p l hp]
    exact sync_trace.direct p hP hd hcs
  · intro l p st r hP hp hcs hd he _
    obtain ⟨_, e⟩ := traced_emit_chunk cb st _ r he
    show sync_trace cs false _ _ r.2.2
    rw [e, take_add_piece input p l hp]
    exact sync_trace.present p rfl hP hd hcs
  · intro l p st r r2 hP hp hcs hd he _ hput
    obtain ⟨_, e⟩ := traced_emit_chunk cb st _ r he
    obtain ⟨_, e2⟩ := traced_put_block cb r.2 _ _ r2 hput
    show sync_trace cs false _ _ r2.2.2
    rw [e2, e, take_add_piece input p l hp, List.append_assoc]
    exact sync_trace.stored p hP hd hcs

/-- The calls of a run of `sync_file` that returns: none when the digest of the input
matched, else calls that deal with the input piece by piece, and `END_OF_CHUNKS`. -/
theorem sync_file_traced {σ : Type} (cb : sync_callbacks_t σ) (basis : file_t)
    (input : List Nat) (hm : Option Int) (st : σ) (r : sync_result (σ × List sync_event))
    (h : sync_file basis input (sync_traced cb) hm (st, []) = some r) :
    (r = ⟨0, 1, none, none, (st, [])⟩ ∧ MD5 input = basis.hash ∧ ∃ x, hm = some x ∧ x ≠ 0) ∨
    (r.ret = 0 ∧ r.hash_match = 0 ∧ r.chunk_size = some basis.chunk_size ∧
      ∃ b tr, sync_trace basis.chunk_size true b input tr ∧
        r.state.2 = tr ++ [sync_event.emit_chunk file_chunk_t.END_OF_CHUNKS]) := by
  rcases sync_file_rule (traced_file_invariant cb basis.chunk_size input) hm (st, []) r
    sync_trace.start h with h1 | ⟨h1, h2, h3, b, st2, c, hP, hend⟩
  · exact Or.inl h1
  · right
    refine ⟨h1, h2, h3, b, st2.2, ?_, ?_⟩
    · have := hP
      simp only [List.take_length] at this
      exact this
    · exact (traced_emit_chunk cb st2 _ _ hend).2

/-- The calls of a run of `sync_generate` that returns. -/
theorem sync_generate_traced {σ : Type} (cb : sync_callbacks_t σ) (input : List Nat) (st : σ)
    (r : sync_result (σ × List sync_event))
    (h : sync_generate input (sync_traced cb) (st, []) = some r) :
    r.ret = 0 ∧ r.chunk_size = some (sync_generate.bufsize input.length) ∧
      ∃ b tr, sync_trace (sync_generate.bufsize input.length) false b input tr ∧
        r.state.2 = tr ++ [sync_event.emit_chunk file_chunk_t.END_OF_CHUNKS] := by
  obtain ⟨h1, h2, _, b, st2, c, hP, hend⟩ :=
    sync_generate_rule (traced_generate_invariant cb _ input) (st, []) r sync_trace.start h
  refine ⟨h1, h2, b, st2.2, ?_, (traced_emit_chunk cb st2 _ _ hend).2⟩
  have := hP
  simp only [List.take_length] at this
  exact this


/-! ## What the trace of a run tells -/

theorem emitted_append (a b : List sync_event) : emitted (a ++ b) = emitted a ++ emitted b := by
  induction a with
  | nil => rfl
  | cons e a ih =>
    cases e with
    | emit_chunk c =>
      show c :: emitted (a ++ b) = c :: emitted a ++ emitted b
      rw [ih]; rfl
    | add_ref id => exact ih
    | put_block id buf => exact ih

theorem snoc_split {α : Type} (tr pre post : List α) (x e : α)
    (h : tr ++ [x] = pre ++ e :: post) :
    (pre = tr ∧ e = x ∧ post = []) ∨ ∃ post0, tr = pre ++ e :: post0 ∧ post = post0 ++ [x] := by
  rcases List.append_eq_append_iff.mp h with ⟨a, h1, h2⟩ | ⟨c, h1, h2⟩
  · cases a with
    | nil =>
      left
      simp only [List.nil_append, List.cons.injEq] at h2
      exact ⟨by simpa using h1, h2.1.symm, h2.2.symm⟩
    | cons y a =>
      exfalso
      simp at h2
  · cases c with
    | nil =>
      left
      simp only [List.nil_append, List.cons.injEq] at h2
      exact ⟨by simpa using h1.symm, h2.1, h2.2⟩
    | cons y c =>
      right
      simp only [List.cons_append, List.cons.injEq] at h2
      exact ⟨c, by rw [h1, h2.1], h2.2⟩

theorem snoc_split_two {α : Type} (tr pre post : List α) (x y e : α)
    (h : tr ++ [x, y] = pre ++ e :: post) :
    (pre = tr ++ [x] ∧ e = y ∧ post = []) ∨ (pre = tr ∧ e = x ∧ post = [y]) ∨
      ∃ post0, tr = pre ++ e :: post0 ∧ post = post0 ++ [x, y] := by
  have h2 : (tr ++ [x]) ++ [y] = pre ++ e :: post := by simpa using h
  rcases snoc_split _ _ _ _ _ h2 with ⟨a, b, c⟩ | ⟨post0, a, b⟩
  · exact Or.inl ⟨a, b, c⟩
  · rcases snoc_split _ _ _ _ _ a with ⟨a1, b1, c1⟩ | ⟨post1, a1, b1⟩
    · right; left
      exact ⟨a1, b1, by rw [b, c1]; rfl⟩
    · right; right
      exact ⟨post1, a1, by rw [b, b1]; simp⟩

/-- Sizes: no direct entry above 23 bytes, no reference or stored block below 24. -/
theorem sync_trace_sizes {cs : Nat} {m b : Bool} {covered : List Nat} {tr : List sync_event}
    (h : sync_trace cs m b covered tr) (hcs : m = true → MAX_DIRECT_CHUNK_SIZE + 1 ≤ cs) :
    ∀ e ∈ tr, sync_event.sizes_ok e := by
  induction h with
  | start => intro e he; cases he
  | direct p _ hd _ ih =>
    intro e he
    rcases List.mem_append.mp he with h1 | h1
    · exact ih e h1
    · rw [List.mem_singleton.mp h1]; exact hd
  | present p _ _ hd _ ih =>
    intro e he
    rcases List.mem_append.mp he with h1 | h1
    · exact ih e h1
    · rw [List.mem_singleton.mp h1]; exact hd
  | referenced p _ _ hd _ ih =>
    intro e he
    rcases List.mem_append.mp he with h1 | h1
    · exact ih e h1
    · simp only [List.mem_cons, List.mem_singleton, List.not_mem_nil, or_false] at h1
      rcases h1 with h1 | h1
      · rw [h1]; exact hd
      · rw [h1]; trivial
  | stored p _ hd _ ih =>
    intro e he
    rcases List.mem_append.mp he with h1 | h1
    · exact ih e h1
    · simp only [List.mem_cons, List.mem_singleton, List.not_mem_nil, or_false] at h1
      rcases h1 with h1 | h1
      · rw [h1]; exact hd
      · rw [h1]; exact hd
  | matched p id hm _ _ ih =>
    intro e he
    rcases List.mem_append.mp he with h1 | h1
    · exact ih e h1
    · simp only [List.mem_cons, List.mem_singleton, List.not_mem_nil, or_false] at h1
      rcases h1 with h1 | h1
      · rw [h1]; exact hcs hm
      · rw [h1]; trivial

/-- Lengths in a run of `sync_file`: no reference is longer than the chunk size, and
one that is shorter is the last entry so far or has the reference of a match next. -/
theorem sync_trace_lengths {cs : Nat} {m b : Bool} {covered : List Nat} {tr : List sync_event}
    (h : sync_trace cs m b covered tr) :
    ∀ pre n id post, emitted tr = pre ++ file_chunk_t.REFERENCE n id :: post →
      n ≤ cs ∧ (n < cs → (post = [] ∧ b = true) ∨
        ∃ id2 post2, post = file_chunk_t.REFERENCE cs id2 :: post2) := by
  have hold : ∀ {tr : List sync_event} {b b2 : Bool} (e : file_chunk_t)
      (_ : ∀ pre n id post, emitted tr = pre ++ file_chunk_t.REFERENCE n id :: post →
        n ≤ cs ∧ (n < cs → (post = [] ∧ b = true) ∨
          ∃ id2 post2, post = file_chunk_t.REFERENCE cs id2 :: post2))
      (_ : b = true → ∃ id2, e = file_chunk_t.REFERENCE cs id2)
      (_ : ∀ n id, e = file_chunk_t.REFERENCE n id → n ≤ cs ∧ (n < cs → b2 = true)),
      ∀ pre n id post, emitted tr ++ [e] = pre ++ file_chunk_t.REFERENCE n id :: post →
        n ≤ cs ∧ (n < cs → (post = [] ∧ b2 = true) ∨
          ∃ id2 post2, post = file_chunk_t.REFERENCE cs id2 :: post2) := by
    intro tr b b2 e ih hb he pre n id post hdec
    rcases snoc_split _ _ _ _ _ hdec with ⟨_, h2, h3⟩ | ⟨post0, h1, h2⟩
    · obtain ⟨a, c⟩ := he n id h2.symm
      exact ⟨a, fun hn => Or.inl ⟨h3, c hn⟩⟩
    · obtain ⟨a, c⟩ := ih pre n id post0 h1
      refine ⟨a, fun hn => Or.inr ?_⟩
      rcases c hn with ⟨c1, c2⟩ | ⟨id2, post2, c1⟩
      · obtain ⟨id2, hid⟩ := hb c2
        exact ⟨id2, [], by rw [h2, c1, hid]; rfl⟩
      · exact ⟨id2, post2 ++ [e], by rw [h2, c1]; rfl⟩
  induction h with
  | start =>
    intro pre n id post hdec
    exact absurd (congrArg List.length hdec)
      (by simp only [emitted, List.length_nil, List.length_append, List.length_cons]; omega)
  | direct p _ hd hc ih =>
    rw [emitted_append]
    exact hold _ ih (fun hb => by cases hb) (fun n id he => by cases he)
  | present p _ _ hd hc ih =>
    rw [emitted_append]
    refine hold _ ih (fun hb => by cases hb) (fun n id he => ?_)
    cases he
    exact ⟨hc, fun hn => by simpa using hn⟩
  | referenced p _ _ hd hc ih =>
    rw [emitted_append]
    refine hold _ ih (fun hb => by cases hb) (fun n id he => ?_)
    cases he
    exact ⟨hc, fun hn => by simpa using hn⟩
  | stored p _ hd hc ih =>
    rw [emitted_append]
    refine hold _ ih (fun hb => by cases hb) (fun n id he => ?_)
    cases he
    exact ⟨hc, fun hn => by simpa using hn⟩
  | matched p id _ _ hp ih =>
    rw [emitted_append]
    refine hold _ ih (fun _ => ⟨id, rfl⟩) (fun n id he => ?_)
    cases he
    exact ⟨Nat.le_refl _, fun hn => absurd hn (Nat.lt_irrefl _)⟩

/-- Lengths in a run of `sync_generate`: a reference of another length than the chunk
size is the last entry. -/
theorem sync_trace_lengths_generate {cs : Nat} {b : Bool} {covered : List Nat}
    {tr : List sync_event} (h : sync_trace cs false b covered tr) :
    ∀ pre n id post, emitted tr = pre ++ file_chunk_t.REFERENCE n id :: post →
      n = cs ∨ (post = [] ∧ b = true) := by
  have hold : ∀ {tr : List sync_event} {b2 : Bool} (e : file_chunk_t)
      (_ : ∀ pre n id post, emitted tr = pre ++ file_chunk_t.REFERENCE n id :: post →
        n = cs ∨ (post = [] ∧ false = true))
      (_ : ∀ n id, e = file_chunk_t.REFERENCE n id → n = cs ∨ b2 = true),
      ∀ pre n id post, emitted tr ++ [e] = pre ++ file_chunk_t.REFERENCE n id :: post →
        n = cs ∨ (post = [] ∧ b2 = true) := by
    intro tr b2 e ih he pre n id post hdec
    rcases snoc_split _ _ _ _ _ hdec with ⟨_, h2, h3⟩ | ⟨post0, h1, h2⟩
    · rcases he n id h2.symm with a | a
      · exact Or.inl a
      · exact Or.inr ⟨h3, a⟩
    · rcases ih pre n id post0 h1 with a | ⟨_, a⟩
      · exact Or.inl a
      · cases a
  induction h with
  | start =>
    intro pre n id post hdec
    exact absurd (congrArg List.length hdec)
      (by simp only [emitted, List.length_nil, List.length_append, List.length_cons]; omega)
  | direct p _ hd hc ih =>
    rw [emitted_append]
    exact hold _ ih (fun n id he => by cases he)
  | present p _ _ hd hc ih =>
    rw [emitted_append]
    refine hold _ ih (fun n id he => ?_)
    cases he
    by_cases hlt : p.length < cs
    · exact Or.inr (by simpa using hlt)
    · exact Or.inl (by omega)
  | referenced p hmt _ hd hc ih => cases hmt
  | stored p _ hd hc ih =>
    rw [emitted_append]
    refine hold _ ih (fun n id he => ?_)
    cases he
    by_cases hlt : p.length < cs
    · exact Or.inr (by simpa using hlt)
    · exact Or.inl (by omega)
  | matched p id hmt _ hp ih => cases hmt

/-- Order: `put_block` and `add_ref` come right after the entry with their id. -/
theorem sync_trace_order {cs : Nat} {m b : Bool} {covered : List Nat} {tr : List sync_event}
    (h : sync_trace cs m b covered tr) :
    ∀ pre e post, tr = pre ++ e :: post →
      (∀ id buf, e = sync_event.put_block id buf →
        ∃ pre2, pre = pre2 ++ [sync_event.emit_chunk (file_chunk_t.REFERENCE buf.length id)]) ∧
      (∀ id, e = sync_event.add_ref id →
        ∃ pre2 n, pre = pre2 ++ [sync_event.emit_chunk (file_chunk_t.REFERENCE n id)]) ∧
      (e ≠ sync_event.emit_chunk file_chunk_t.END_OF_CHUNKS) := by
  have one : ∀ {tr : List sync_event} (c : file_chunk_t)
      (_ : ∀ pre e post, tr = pre ++ e :: post →
        (∀ id buf, e = sync_event.put_block id buf →
          ∃ pre2, pre = pre2 ++ [sync_event.emit_chunk (file_chunk_t.REFERENCE buf.length id)]) ∧
        (∀ id, e = sync_event.add_ref id →
          ∃ pre2 n, pre = pre2 ++ [sync_event.emit_chunk (file_chunk_t.REFERENCE n id)]) ∧
        (e ≠ sync_event.emit_chunk file_chunk_t.END_OF_CHUNKS))
      (_ : c ≠ file_chunk_t.END_OF_CHUNKS),
      ∀ pre e post, tr ++ [sync_event.emit_chunk c] = pre ++ e :: post →
        (∀ id buf, e = sync_event.put_block id buf →
          ∃ pre2, pre = pre2 ++ [sync_event.emit_chunk (file_chunk_t.REFERENCE buf.length id)]) ∧
        (∀ id, e = sync_event.add_ref id →
          ∃ pre2 n, pre = pre2 ++ [sync_event.emit_chunk (file_chunk_t.REFERENCE n id)]) ∧
        (e ≠ sync_event.emit_chunk file_chunk_t.END_OF_CHUNKS) := by
    intro tr c ih hc pre e post hdec
    rcases snoc_split _ _ _ _ _ hdec with ⟨_, h2, _⟩ | ⟨post0, h1, _⟩
    · subst h2
      exact ⟨fun _ _ he => (by cases he), fun _ he => (by cases he),
        fun he => hc (sync_event.emit_chunk.inj he)⟩
    · exact ih pre e post0 h1
  have two : ∀ {tr : List sync_event} (n : Nat) (id0 : arrow_id_t) (y : sync_event)
      (_ : ∀ pre e post, tr = pre ++ e :: post →
        (∀ id buf, e = sync_event.put_block id buf →
          ∃ pre2, pre = pre2 ++ [sync_event.emit_chunk (file_chunk_t.REFERENCE buf.length id)]) ∧
        (∀ id, e = sync_event.add_ref id →
          ∃ pre2 n, pre = pre2 ++ [sync_event.emit_chunk (file_chunk_t.REFERENCE n id)]) ∧
        (e ≠ sync_event.emit_chunk file_chunk_t.END_OF_CHUNKS))
      (_ : y = sync_event.add_ref id0 ∨ ∃ buf, y = sync_event.put_block id0 buf ∧ buf.length = n),
      ∀ pre e post,
        tr ++ [sync_event.emit_chunk (file_chunk_t.REFERENCE n id0), y] = pre ++ e :: post →
        (∀ id buf, e = sync_event.put_block id buf →
          ∃ pre2, pre = pre2 ++ [sync_event.emit_chunk (file_chunk_t.REFERENCE buf.length id)]) ∧
        (∀ id, e = sync_event.add_ref id →
          ∃ pre2 n, pre = pre2 ++ [sync_event.emit_chunk (file_chunk_t.REFERENCE n id)]) ∧
        (e ≠ sync_event.emit_chunk file_chunk_t.END_OF_CHUNKS) := by
    intro tr n id0 y ih hy pre e post hdec
    rcases snoc_split_two _ _ _ _ _ _ hdec with ⟨h1, h2, _⟩ | ⟨_, h2, _⟩ | ⟨post0, h1, _⟩
    · subst h2
      rcases hy with hy | ⟨buf, hy, hlen⟩
      · subst hy
        refine ⟨fun _ _ he => (by cases he), fun id he => ?_, fun he => (by cases he)⟩
        cases he
        exact ⟨tr, n, h1⟩
      · subst hy
        refine ⟨fun id buf2 he => ?_, fun _ he => (by cases he), fun he => (by cases he)⟩
        cases he
        exact ⟨tr, by rw [h1, hlen]⟩
    · subst h2
      exact ⟨fun _ _ he => (by cases he), fun _ he => (by cases he), fun he => (by cases he)⟩
    · exact ih pre e post0 h1
  induction h with
  | start =>
    intro pre e post hdec
    exact absurd (congrArg List.length hdec)
      (by simp only [List.length_nil, List.length_append, List.length_cons]; omega)
  | direct p _ hd hc ih => exact one _ ih (fun he => by cases he)
  | present p _ _ hd hc ih => exact one _ ih (fun he => by cases he)
  | referenced p _ _ hd hc ih => exact two _ _ _ ih (Or.inl rfl)
  | stored p _ hd hc ih => exact two _ _ _ ih (Or.inr ⟨p, rfl, rfl⟩)
  | matched p id _ _ hp ih => exact two _ _ _ ih (Or.inl rfl)


/-! ## Runs of the synchronizer with their traces -/

set_option maxRecDepth 1000000 in
/-- The calls of `sync_file` on `matched_input` with `matched_basis`: the 25 literal
bytes as a reference that is stored, the match, the 2 bytes left. -/
theorem matched_run :
    (sync_file matched_basis matched_input (sync_traced sync_dry_callbacks) none ((), [])).map
        (fun r => r.state.2)
      = some [sync_event.emit_chunk
                (file_chunk_t.REFERENCE 25 (arrow_compute_key (List.replicate 25 1))),
              sync_event.put_block (arrow_compute_key (List.replicate 25 1)) (List.replicate 25 1),
              sync_event.emit_chunk
                (file_chunk_t.REFERENCE 30 (arrow_compute_key (List.replicate 25 1))),
              sync_event.add_ref (arrow_compute_key (List.replicate 25 1)),
              sync_event.emit_chunk (file_chunk_t.DIRECT_CHUNK [7, 7]),
              sync_event.emit_chunk file_chunk_t.END_OF_CHUNKS] := by
  decide!

set_option maxRecDepth 1000000 in
/-- The calls of `sync_generate` on `matched_block`. -/
theorem generated_run :
    (sync_generate matched_block (sync_traced sync_dry_callbacks) ((), [])).map
        (fun r => r.state.2)
      = some [sync_event.emit_chunk
                (file_chunk_t.REFERENCE 30 (arrow_compute_key matched_block)),
              sync_event.put_block (arrow_compute_key matched_block) matched_block,
              sync_event.emit_chunk file_chunk_t.END_OF_CHUNKS] := by
  decide!

/-- The trace of a run of `sync_generate` that returns. -/
theorem sync_generate_trace {σ : Type} (cb : sync_callbacks_t σ) (input : List Nat) (st : σ)
    (tr : List sync_event)
    (h : (sync_generate input (sync_traced cb) (st, [])).map (fun r => r.state.2) = some tr) :
    ∃ b tr0, sync_trace (sync_generate.bufsize input.length) false b input tr0 ∧
      tr = tr0 ++ [sync_event.emit_chunk file_chunk_t.END_OF_CHUNKS] := by
  obtain ⟨r, hr, e⟩ := Option.map_eq_some'.mp h
  obtain ⟨_, _, b, tr0, h1, h2⟩ := sync_generate_traced cb input st r hr
  exact ⟨b, tr0, h1, by rw [← e]; exact h2⟩

/-- The trace of a run of `sync_file` that returns. -/
theorem sync_file_trace {σ : Type} (cb : sync_callbacks_t σ) (basis : file_t)
    (input : List Nat) (hm : Option Int) (st : σ) (tr : List sync_event)
    (h : (sync_file basis input (sync_traced cb) hm (st, [])).map (fun r => r.state.2) = some tr) :
    tr = [] ∨ ∃ b tr0, sync_trace basis.chunk_size true b input tr0 ∧
      tr = tr0 ++ [sync_event.emit_chunk file_chunk_t.END_OF_CHUNKS] := by
  obtain ⟨r, hr, e⟩ := Option.map_eq_some'.mp h
  rcases sync_file_traced cb basis input hm st r hr with ⟨h1, _⟩ | ⟨_, _, _, b, tr0, h1, h2⟩
  · left; rw [← e, h1]
  · right; exact ⟨b, tr0, h1, by rw [← e]; exact h2⟩

theorem sizes_ok_end (tr0 : List sync_event) (h : ∀ e ∈ tr0, sync_event.sizes_ok e) :
    (∀ d, sync_event.emit_chunk (file_chunk_t.DIRECT_CHUNK d)
        ∈ tr0 ++ [sync_event.emit_chunk file_chunk_t.END_OF_CHUNKS] → d.length ≤ 23) ∧
    (∀ n id, sync_event.emit_chunk (file_chunk_t.REFERENCE n id)
        ∈ tr0 ++ [sync_event.emit_chunk file_chunk_t.END_OF_CHUNKS] → 24 ≤ n) ∧
    (∀ id buf, sync_event.put_block id buf
        ∈ tr0 ++ [sync_event.emit_chunk file_chunk_t.END_OF_CHUNKS] → 24 ≤ buf.length) := by
  refine ⟨?_, ?_, ?_⟩
  · intro d hd
    rcases List.mem_append.mp hd with h1 | h1
    · exact h _ h1
    · simp at h1
  · intro n id hd
    rcases List.mem_append.mp hd with h1 | h1
    · exact h _ h1
    · simp at h1
  · intro id buf hd
    rcases List.mem_append.mp hd with h1 | h1
    · exact h _ h1
    · simp at h1

/-- C21. In every run of `sync_generate`, and of `sync_file` with a basis whose chunk
size is at least 24, whatever the callbacks: every direct entry emitted has at most
23 bytes, every reference emitted has a length of at least 24, and `put_block` is
never called with fewer than 24 bytes. -/
theorem sync_chunk_sizes {σ : Type} (cb : sync_callbacks_t σ) (input : List Nat) (st : σ) :
    (∀ tr, (sync_generate input (sync_traced cb) (st, [])).map (fun r => r.state.2) = some tr →
      (∀ d, sync_event.emit_chunk (file_chunk_t.DIRECT_CHUNK d) ∈ tr → d.length ≤ 23) ∧
      (∀ n id, sync_event.emit_chunk (file_chunk_t.REFERENCE n id) ∈ tr → 24 ≤ n) ∧
      (∀ id buf, sync_event.put_block id buf ∈ tr → 24 ≤ buf.length)) ∧
    (∀ basis hm tr, 24 ≤ basis.chunk_size →
      (sync_file basis input (sync_traced cb) hm (st, [])).map (fun r => r.state.2) = some tr →
      (∀ d, sync_event.emit_chunk (file_chunk_t.DIRECT_CHUNK d) ∈ tr → d.length ≤ 23) ∧
      (∀ n id, sync_event.emit_chunk (file_chunk_t.REFERENCE n id) ∈ tr → 24 ≤ n) ∧
      (∀ id buf, sync_event.put_block id buf ∈ tr → 24 ≤ buf.length)) := by
  refine ⟨?_, ?_⟩
  · intro tr h
    obtain ⟨b, tr0, h1, h2⟩ := sync_generate_trace cb input st tr h
    rw [h2]
    exact sizes_ok_end tr0 (sync_trace_sizes h1 (fun e => by cases e))
  · intro basis hm tr hcs h
    rcases sync_file_trace cb basis input hm st tr h with h1 | ⟨b, tr0, h1, h2⟩
    · rw [h1]
      exact ⟨fun _ e => (by cases e), fun _ _ e => (by cases e), fun _ _ e => (by cases e)⟩
    · rw [h2]
      exact sizes_ok_end tr0 (sync_trace_sizes h1 (fun _ => hcs))

/-- C21 (witness): `sync_generate` on `matched_block` and `sync_file` on `matched_input`
with the basis `matched_basis` of chunk size 30. -/
theorem sync_chunk_sizes_witness :
    ((∀ d, sync_event.emit_chunk (file_chunk_t.DIRECT_CHUNK d)
        ∈ [sync_event.emit_chunk (file_chunk_t.REFERENCE 30 (arrow_compute_key matched_block)),
           sync_event.put_block (arrow_compute_key matched_block) matched_block,
           sync_event.emit_chunk file_chunk_t.END_OF_CHUNKS] → d.length ≤ 23) ∧
      (∀ n id, sync_event.emit_chunk (file_chunk_t.REFERENCE n id)
        ∈ [sync_event.emit_chunk (file_chunk_t.REFERENCE 30 (arrow_compute_key matched_block)),
           sync_event.put_block (arrow_compute_key matched_block) matched_block,
           sync_event.emit_chunk file_chunk_t.END_OF_CHUNKS] → 24 ≤ n) ∧
      (∀ id buf, sync_event.put_block id buf
        ∈ [sync_event.emit_chunk (file_chunk_t.REFERENCE 30 (arrow_compute_key matched_block)),
           sync_event.put_block (arrow_compute_key matched_block) matched_block,
           sync_event.emit_chunk file_chunk_t.END_OF_CHUNKS] → 24 ≤ buf.length)) ∧
    24 ≤ matched_basis.chunk_size ∧
    ((∀ d, sync_event.emit_chunk (file_chunk_t.DIRECT_CHUNK d)
        ∈ [sync_event.emit_chunk
              (file_chunk_t.REFERENCE 25 (arrow_compute_key (List.replicate 25 1))),
           sync_event.put_block (arrow_compute_key (List.replicate 25 1)) (List.replicate 25 1),
           sync_event.emit_chunk
              (file_chunk_t.REFERENCE 30 (arrow_compute_key (List.replicate 25 1))),
           sync_event.add_ref (arrow_compute_key (List.replicate 25 1)),
           sync_event.emit_chunk (file_chunk_t.DIRECT_CHUNK [7, 7]),
           sync_event.emit_chunk file_chunk_t.END_OF_CHUNKS] → d.length ≤ 23) ∧
      (∀ n id, sync_event.emit_chunk (file_chunk_t.REFERENCE n id)
        ∈ [sync_event.emit_chunk
              (file_chunk_t.REFERENCE 25 (arrow_compute_key (List.replicate 25 1))),
           sync_event.put_block (arrow_compute_key (List.replicate 25 1)) (List.replicate 25 1),
           sync_event.emit_chunk
              (file_chunk_t.REFERENCE 30 (arrow_compute_key (List.replicate 25 1))),
           sync_event.add_ref (arrow_compute_key (List.replicate 25 1)),
           sync_event.emit_chunk (file_chunk_t.DIRECT_CHUNK [7, 7]),
           sync_event.emit_chunk file_chunk_t.END_OF_CHUNKS] → 24 ≤ n) ∧
      (∀ id buf, sync_event.put_block id buf
        ∈ [sync_event.emit_chunk
              (file_chunk_t.REFERENCE 25 (arrow_compute_key (List.replicate 25 1))),
           sync_event.put_block (arrow_compute_key (List.replicate 25 1)) (List.replicate 25 1),
           sync_event.emit_chunk
              (file_chunk_t.REFERENCE 30 (arrow_compute_key (List.replicate 25 1))),
           sync_event.add_ref (arrow_compute_key (List.replicate 25 1)),
           sync_event.emit_chunk (file_chunk_t.DIRECT_CHUNK [7, 7]),
           sync_event.emit_chunk file_chunk_t.END_OF_CHUNKS] → 24 ≤ buf.length)) :=
  ⟨(sync_chunk_sizes sync_dry_callbacks matched_block ()).1 _ generated_run,
   by decide,
   (sync_chunk_sizes sync_dry_callbacks matched_input ()).2 matched_basis none _ (by decide)
     matched_run⟩


/-- C23. When `sync_file` is called with the hash-match flag requested (non-zero)
and the MD5 of the whole input equals `basis.hash`, it returns 0 with the flag 1,
whatever the callbacks: the callback state is the one it was given, no call is
recorded in the trace, and the header fields of the new record are not written.
When the MD5 differs, every run that returns has the flag 0. -/
theorem sync_file_hash_match {σ : Type} (basis : file_t) (input : List Nat)
    (cb : sync_callbacks_t σ) (x : Int) (st : σ) (hx : x ≠ 0) :
    (MD5 input = basis.hash →
      sync_file basis input cb (some x) st
        = some { ret := 0, hash_match := 1, chunk_size := none, hash := none, state := st } ∧
      sync_file basis input (sync_traced cb) (some x) (st, [])
        = some { ret := 0, hash_match := 1, chunk_size := none, hash := none,
                 state := (st, []) }) ∧
    (MD5 input ≠ basis.hash →
      (sync_file basis input cb (some x) st).map (fun r => r.hash_match)
        = (sync_file basis input cb (some x) st).map (fun _ => 0)) := by
  have hyes : ∀ {τ : Type} (c : sync_callbacks_t τ) (s : τ), MD5 input = basis.hash →
      sync_file basis input c (some x) s
        = some { ret := 0, hash_match := 1, chunk_size := none, hash := none, state := s } := by
    intro τ c s hmd
    unfold sync_file
    simp only [file_md5_whole]
    rw [if_pos ⟨by simpa using hx, hmd⟩]
  refine ⟨fun hmd => ⟨hyes cb st hmd, hyes (sync_traced cb) (st, []) hmd⟩, ?_⟩
  intro hne
  cases hrun : sync_file basis input cb (some x) st with
  | none => rfl
  | some r =>
    rcases sync_file_rule (sync_invariant_trivial cb basis.chunk_size input) (some x) st r
      trivial hrun with ⟨_, h1, _⟩ | ⟨_, h1, _⟩
    · exact absurd h1 hne
    · show some r.hash_match = some 0
      rw [h1]

/-- C23 (witness): the input "abc" against a basis with its digest, and the input
"hello\n" against the same basis, both with the flag 1 on entry. -/
theorem sync_file_hash_match_witness :
    (sync_file { uuid := [], hash := MD5 [97, 98, 99], chunk_size := 700, chunks := [] }
          [97, 98, 99] sync_dry_callbacks (some 1) ()
        = some { ret := 0, hash_match := 1, chunk_size := none, hash := none, state := () } ∧
      sync_file { uuid := [], hash := MD5 [97, 98, 99], chunk_size := 700, chunks := [] }
          [97, 98, 99] (sync_traced sync_dry_callbacks) (some 1) ((), [])
        = some { ret := 0, hash_match := 1, chunk_size := none, hash := none,
                 state := ((), []) }) ∧
    (sync_file { uuid := [], hash := MD5 [97, 98, 99], chunk_size := 700, chunks := [] }
          [104, 101, 108, 108, 111, 10] sync_dry_callbacks (some 1) ()).map
        (fun r => r.hash_match)
      = (sync_file { uuid := [], hash := MD5 [97, 98, 99], chunk_size := 700, chunks := [] }
          [104, 101, 108, 108, 111, 10] sync_dry_callbacks (some 1) ()).map (fun _ => 0) :=
  ⟨(sync_file_hash_match { uuid := [], hash := MD5 [97, 98, 99], chunk_size := 700, chunks := [] }
      [97, 98, 99] sync_dry_callbacks 1 () (by decide)).1 rfl,
   (sync_file_hash_match { uuid := [], hash := MD5 [97, 98, 99], chunk_size := 700, chunks := [] }
      [104, 101, 108, 108, 111, 10] sync_dry_callbacks 1 () (by decide)).2
      (by
        show MD5 [104, 101, 108, 108, 111, 10] ≠ MD5 [97, 98, 99]
        rw [MD5_known_digests.2.1, MD5_known_digests.2.2.1]
        decide)⟩

/-! ## The order of the calls -/

theorem order_end {cs : Nat} {m b : Bool} {covered : List Nat} {tr0 : List sync_event}
    (h : sync_trace cs m b covered tr0) :
    ∀ pre e post, tr0 ++ [sync_event.emit_chunk file_chunk_t.END_OF_CHUNKS] = pre ++ e :: post →
      (∀ id buf, e = sync_event.put_block id buf →
        ∃ pre2, pre = pre2 ++ [sync_event.emit_chunk (file_chunk_t.REFERENCE buf.length id)]) ∧
      (∀ id, e = sync_event.add_ref id →
        ∃ pre2 n, pre = pre2 ++ [sync_event.emit_chunk (file_chunk_t.REFERENCE n id)]) ∧
      (e = sync_event.emit_chunk file_chunk_t.END_OF_CHUNKS → post = []) := by
  intro pre e post hdec
  rcases snoc_split _ _ _ _ _ hdec with ⟨_, h2, h3⟩ | ⟨post0, h1, _⟩
  · subst h2
    exact ⟨fun _ _ he => (by cases he), fun _ he => (by cases he), fun _ => h3⟩
  · obtain ⟨a, c, d⟩ := sync_trace_order h pre e post0 h1
    exact ⟨a, c, fun he => absurd he d⟩

/-- C26 (counterexample). `sync_generate` on `matched_block` calls `emit_chunk` with
the reference first and `put_block` for its block after it; `sync_file` on
`matched_input` calls `emit_chunk` with the reference of the literal bytes before
`put_block`, and with the reference of the match before `add_ref`. -/
theorem sync_emits_before_put_block :
    (sync_generate matched_block (sync_traced sync_dry_callbacks) ((), [])).map
        (fun r => r.state.2)
      = some [sync_event.emit_chunk
                (file_chunk_t.REFERENCE 30 (arrow_compute_key matched_block)),
              sync_event.put_block (arrow_compute_key matched_block) matched_block,
              sync_event.emit_chunk file_chunk_t.END_OF_CHUNKS] ∧
    (sync_file matched_basis matched_input (sync_traced sync_dry_callbacks) none ((), [])).map
        (fun r => r.state.2)
      = some [sync_event.emit_chunk
                (file_chunk_t.REFERENCE 25 (arrow_compute_key (List.replicate 25 1))),
              sync_event.put_block (arrow_compute_key (List.replicate 25 1)) (List.replicate 25 1),
              sync_event.emit_chunk
                (file_chunk_t.REFERENCE 30 (arrow_compute_key (List.replicate 25 1))),
              sync_event.add_ref (arrow_compute_key (List.replicate 25 1)),
              sync_event.emit_chunk (file_chunk_t.DIRECT_CHUNK [7, 7]),
              sync_event.emit_chunk file_chunk_t.END_OF_CHUNKS] :=
  ⟨generated_run, matched_run⟩

/-- C26 (amended). In the callback trace of `sync_generate` and of `sync_file`,
whatever the callbacks, every `put_block` and every `add_ref` call comes directly
after the `emit_chunk` call that writes the reference entry for that block (same id,
and for `put_block` the length of the bytes stored), and nothing follows the
`emit_chunk` call of `END_OF_CHUNKS`: the entry is written first, its block is stored
or referenced next, and all of that happens before `END_OF_CHUNKS` is written. -/
theorem sync_calls_follow_entries {σ : Type} (cb : sync_callbacks_t σ) (input : List Nat)
    (st : σ) :
    (∀ tr, (sync_generate input (sync_traced cb) (st, [])).map (fun r => r.state.2) = some tr →
      ∀ pre e post, tr = pre ++ e :: post →
        (∀ id buf, e = sync_event.put_block id buf →
          ∃ pre2, pre = pre2 ++ [sync_event.emit_chunk (file_chunk_t.REFERENCE buf.length id)]) ∧
        (∀ id, e = sync_event.add_ref id →
          ∃ pre2 n, pre = pre2 ++ [sync_event.emit_chunk (file_chunk_t.REFERENCE n id)]) ∧
        (e = sync_event.emit_chunk file_chunk_t.END_OF_CHUNKS → post = [])) ∧
    (∀ basis hm tr,
      (sync_file basis input (sync_traced cb) hm (st, [])).map (fun r => r.state.2) = some tr →
      ∀ pre e post, tr = pre ++ e :: post →
        (∀ id buf, e = sync_event.put_block id buf →
          ∃ pre2, pre = pre2 ++ [sync_event.emit_chunk (file_chunk_t.REFERENCE buf.length id)]) ∧
        (∀ id, e = sync_event.add_ref id →
          ∃ pre2 n, pre = pre2 ++ [sync_event.emit_chunk (file_chunk_t.REFERENCE n id)]) ∧
        (e = sync_event.emit_chunk file_chunk_t.END_OF_CHUNKS → post = [])) := by
  refine ⟨?_, ?_⟩
  · intro tr h pre e post hdec
    obtain ⟨b, tr0, h1, h2⟩ := sync_generate_trace cb input st tr h
    exact order_end h1 pre e post (by rw [← h2]; exact hdec)
  · intro basis hm tr h pre e post hdec
    rcases sync_file_trace cb basis input hm st tr h with h1 | ⟨b, tr0, h1, h2⟩
    · rw [h1] at hdec
      exact absurd (congrArg List.length hdec)
        (by simp only [List.length_nil, List.length_append, List.length_cons]; omega)
    · exact order_end h1 pre e post (by rw [← h2]; exact hdec)

/-- C26 (witness): the `put_block` call of `sync_generate` on `matched_block`, and the
`add_ref` call of `sync_file` on `matched_input`. -/
theorem sync_calls_follow_entries_witness :
    ((∀ id buf, sync_event.put_block (arrow_compute_key matched_block) matched_block
          = sync_event.put_block id buf →
        ∃ pre2, [sync_event.emit_chunk
              (file_chunk_t.REFERENCE 30 (arrow_compute_key matched_block))]
          = pre2 ++ [sync_event.emit_chunk (file_chunk_t.REFERENCE buf.length id)]) ∧
      (∀ id, sync_event.put_block (arrow_compute_key matched_block) matched_block
          = sync_event.add_ref id →
        ∃ pre2 n, [sync_event.emit_chunk
              (file_chunk_t.REFERENCE 30 (arrow_compute_key matched_block))]
          = pre2 ++ [sync_event.emit_chunk (file_chunk_t.REFERENCE n id)]) ∧
      (sync_event.put_block (arrow_compute_key matched_block) matched_block
          = sync_event.emit_chunk file_chunk_t.END_OF_CHUNKS →
        [sync_event.emit_chunk file_chunk_t.END_OF_CHUNKS] = [])) ∧
    ((∀ id buf, sync_event.add_ref (arrow_compute_key (List.replicate 25 1))
          = sync_event.put_block id buf →
        ∃ pre2, [sync_event.emit_chunk
              (file_chunk_t.REFERENCE 25 (arrow_compute_key (List.replicate 25 1))),
            sync_event.put_block (arrow_compute_key (List.replicate 25 1)) (List.replicate 25 1),
            sync_event.emit_chunk
              (file_chunk_t.REFERENCE 30 (arrow_compute_key (List.replicate 25 1)))]
          = pre2 ++ [sync_event.emit_chunk (file_chunk_t.REFERENCE buf.length id)]) ∧
      (∀ id, sync_event.add_ref (arrow_compute_key (List.replicate 25 1))
          = sync_event.add_ref id →
        ∃ pre2 n, [sync_event.emit_chunk
              (file_chunk_t.REFERENCE 25 (arrow_compute_key (List.replicate 25 1))),
            sync_event.put_block (arrow_compute_key (List.replicate 25 1)) (List.replicate 25 1),
            sync_event.emit_chunk
              (file_chunk_t.REFERENCE 30 (arrow_compute_key (List.replicate 25 1)))]
          = pre2 ++ [sync_event.emit_chunk (file_chunk_t.REFERENCE n id)]) ∧
      (sync_event.add_ref (arrow_compute_key (List.replicate 25 1))
          = sync_event.emit_chunk file_chunk_t.END_OF_CHUNKS →
        [sync_event.emit_chunk (file_chunk_t.DIRECT_CHUNK [7, 7]),
          sync_event.emit_chunk file_chunk_t.END_OF_CHUNKS] = [])) :=
  ⟨(sync_calls_follow_entries sync_dry_callbacks matched_block ()).1 _ generated_run
      [sync_event.emit_chunk (file_chunk_t.REFERENCE 30 (arrow_compute_key matched_block))]
      (sync_event.put_block (arrow_compute_key matched_block) matched_block)
      [sync_event.emit_chunk file_chunk_t.END_OF_CHUNKS] rfl,
   (sync_calls_follow_entries sync_dry_callbacks matched_input ()).2 matched_basis none _
      matched_run
      [sync_event.emit_chunk
          (file_chunk_t.REFERENCE 25 (arrow_compute_key (List.replicate 25 1))),
        sync_event.put_block (arrow_compute_key (List.replicate 25 1)) (List.replicate 25 1),
        sync_event.emit_chunk
          (file_chunk_t.REFERENCE 30 (arrow_compute_key (List.replicate 25 1)))]
      (sync_event.add_ref (arrow_compute_key (List.replicate 25 1)))
      [sync_event.emit_chunk (file_chunk_t.DIRECT_CHUNK [7, 7]),
        sync_event.emit_chunk file_chunk_t.END_OF_CHUNKS] rfl⟩

/-! ## The lengths of the references -/

set_option maxRecDepth 1000000 in
/-- The chunk size and the entries of the run of `sync_file` on `matched_input`. -/
theorem matched_run_sized :
    (sync_file matched_basis matched_input (sync_traced sync_dry_callbacks) none ((), [])).map
        (fun r => (r.chunk_size, emitted r.state.2))
      = some (some 30,
          [file_chunk_t.REFERENCE 25 (arrow_compute_key (List.replicate 25 1)),
           file_chunk_t.REFERENCE 30 (arrow_compute_key (List.replicate 25 1)),
           file_chunk_t.DIRECT_CHUNK [7, 7], file_chunk_t.END_OF_CHUNKS]) := by
  decide!

set_option maxRecDepth 1000000 in
/-- The chunk size and the entries of the run of `sync_generate` on 702 bytes. -/
theorem generated_run_sized :
    (sync_generate (List.replicate 702 7) (sync_traced sync_dry_callbacks) ((), [])).map
        (fun r => (r.chunk_size, emitted r.state.2))
      = some (some 700,
          [file_chunk_t.REFERENCE 700 (arrow_compute_key (List.replicate 700 7)),
           file_chunk_t.DIRECT_CHUNK [7, 7], file_chunk_t.END_OF_CHUNKS]) := by
  decide!

/-- C22 (counterexample). The record that `sync_file` produces for `inserted_input`
against the record of `basis_input` has chunk size 700 and two references: the first,
of the 24 literal bytes, has length 24 and is not the last. -/
theorem sync_file_short_reference_not_last :
    (basis_store.bind (fun s =>
        sync_file basis_record inserted_input sync_store_callbacks none ⟨s, []⟩)).map
        (fun r => (r.chunk_size, r.state.chunks_out))
      = some (some 700, [file_chunk_t.REFERENCE 24 inserted_id,
          file_chunk_t.REFERENCE 700 inserted_id, file_chunk_t.END_OF_CHUNKS]) := by
  obtain ⟨r, hr, e⟩ := Option.map_eq_some'.mp inserted_run.1
  rw [hr]
  obtain ⟨s, _, hs⟩ := Option.bind_eq_some.mp hr
  rcases sync_file_rule (sync_invariant_trivial sync_store_callbacks basis_record.chunk_size
      inserted_input) none _ r trivial hs with ⟨_, _, x, hx, _⟩ | ⟨_, _, h3, _⟩
  · cases hx
  · show some (r.chunk_size, r.state.chunks_out) = _
    rw [h3, (Prod.mk.inj e).1]
    rfl

/-- C22 (amended). In every record produced by `sync_generate`, every reference that
is not the last entry before `END_OF_CHUNKS` has length equal to the record's chunk
size.  In every record produced by `sync_file`, no reference is longer than the
record's chunk size (that of the basis), and a shorter one is either the last entry
before `END_OF_CHUNKS` or the end of a run of literal bytes, directly followed by the
reference of a match, whose length is the chunk size. -/
theorem sync_reference_lengths {σ : Type} (cb : sync_callbacks_t σ) (input : List Nat)
    (st : σ) :
    (∀ c es, (sync_generate input (sync_traced cb) (st, [])).map
        (fun r => (r.chunk_size, emitted r.state.2)) = some (c, es) →
      ∀ pre n id post, es = pre ++ file_chunk_t.REFERENCE n id :: post →
        post ≠ [file_chunk_t.END_OF_CHUNKS] → c = some n) ∧
    (∀ basis hm c es, (sync_file basis input (sync_traced cb) hm (st, [])).map
        (fun r => (r.chunk_size, emitted r.state.2)) = some (c, es) →
      ∀ pre n id post, es = pre ++ file_chunk_t.REFERENCE n id :: post →
        c = some basis.chunk_size ∧ n ≤ basis.chunk_size ∧
        (n < basis.chunk_size → post = [file_chunk_t.END_OF_CHUNKS] ∨
          ∃ id2 post2, post = file_chunk_t.REFERENCE basis.chunk_size id2 :: post2)) := by
  refine ⟨?_, ?_⟩
  · intro c es h pre n id post hdec hpost
    obtain ⟨r, hr, e⟩ := Option.map_eq_some'.mp h
    obtain ⟨_, hc, b, tr0, h1, h2⟩ := sync_generate_traced cb input st r hr
    have e1 := (Prod.mk.inj e).1
    have e2 := (Prod.mk.inj e).2
    rw [h2, emitted_append] at e2
    rw [← e1, hc]
    rw [← e2] at hdec
    rcases snoc_split _ _ _ _ _ hdec with ⟨_, h4, _⟩ | ⟨post0, h3, h4⟩
    · cases h4
    · rcases sync_trace_lengths_generate h1 pre n id post0 h3 with a | ⟨a, _⟩
      · rw [a]
      · rw [h4, a] at hpost
        exact absurd rfl hpost
  · intro basis hm c es h pre n id post hdec
    obtain ⟨r, hr, e⟩ := Option.map_eq_some'.mp h
    have e1 := (Prod.mk.inj e).1
    have e2 := (Prod.mk.inj e).2
    rcases sync_file_traced cb basis input hm st r hr with ⟨h1, _⟩ | ⟨_, _, hc, b, tr0, h1, h2⟩
    · rw [h1] at e2
      rw [← e2] at hdec
      exact absurd (congrArg List.length hdec)
        (by simp only [emitted, List.length_nil, List.length_append, List.length_cons]; omega)
    · rw [h2, emitted_append] at e2
      rw [← e2] at hdec
      refine ⟨by rw [← e1, hc], ?_⟩
      rcases snoc_split _ _ _ _ _ hdec with ⟨_, h4, _⟩ | ⟨post0, h3, h4⟩
      · cases h4
      · obtain ⟨a, c2⟩ := sync_trace_lengths h1 pre n id post0 h3
        refine ⟨a, fun hn => ?_⟩
        rcases c2 hn with ⟨c3, _⟩ | ⟨id2, post2, c3⟩
        · left; rw [h4, c3]; rfl
        · right; exact ⟨id2, post2 ++ [file_chunk_t.END_OF_CHUNKS], by rw [h4, c3]; rfl⟩

/-- C22 (witness): the first reference of `sync_generate` on 702 bytes, and the first
reference of `sync_file` on `matched_input`, of 25 bytes with the reference of the
match after it. -/
theorem sync_reference_lengths_witness :
    ([file_chunk_t.DIRECT_CHUNK [7, 7], file_chunk_t.END_OF_CHUNKS]
        ≠ [file_chunk_t.END_OF_CHUNKS] ∧ some 700 = some 700) ∧
    (some 30 = some matched_basis.chunk_size ∧ 25 ≤ matched_basis.chunk_size ∧
      (25 < matched_basis.chunk_size →
        [file_chunk_t.REFERENCE 30 (arrow_compute_key (List.replicate 25 1)),
          file_chunk_t.DIRECT_CHUNK [7, 7], file_chunk_t.END_OF_CHUNKS]
            = [file_chunk_t.END_OF_CHUNKS] ∨
        ∃ id2 post2,
          [file_chunk_t.REFERENCE 30 (arrow_compute_key (List.replicate 25 1)),
            file_chunk_t.DIRECT_CHUNK [7, 7], file_chunk_t.END_OF_CHUNKS]
            = file_chunk_t.REFERENCE matched_basis.chunk_size id2 :: post2)) :=
  ⟨⟨by decide,
    (sync_reference_lengths sync_dry_callbacks (List.replicate 702 7) ()).1 _ _
      generated_run_sized [] 700 (arrow_compute_key (List.replicate 700 7))
      [file_chunk_t.DIRECT_CHUNK [7, 7], file_chunk_t.END_OF_CHUNKS] rfl (by decide)⟩,
   (sync_reference_lengths sync_dry_callbacks matched_input ()).2 matched_basis none _ _
      matched_run_sized [] 25 (arrow_compute_key (List.replicate 25 1))
      [file_chunk_t.REFERENCE 30 (arrow_compute_key (List.replicate 25 1)),
        file_chunk_t.DIRECT_CHUNK [7, 7], file_chunk_t.END_OF_CHUNKS] rfl⟩


/-! ## A block that is not stored -/

theorem store_used_replicate_null (m : Nat) : store_used (List.replicate m null_key) = 0 := by
  induction m with
  | zero => rfl
  | succ m ih =>
    rw [List.replicate_succ, store_used, ih]
    simp

theorem memcpy_list_zeros (n : Nat) :
    memcpy_list (fun _ => 0) 0 (List.replicate n 0) = fun _ => 0 := by
  funext p
  unfold memcpy_list
  split
  · rw [List.getD_eq_getElem?_getD, List.getElem?_replicate]
    split <;> rfl
  · rfl

theorem write_block_twice (s : store_state_t) (name : List Nat) (b1 b2 : block_t) :
    write_block (write_block s name b1) name b2 = write_block s name b2 := by
  unfold write_block
  simp only
  congr 1
  funext nm
  by_cases e : nm = name
  · simp [e]
  · simp [e]

/-- The store `brimful_store` is what one `store_put` of 4956000 zero bytes leaves of
a new store. -/
theorem brimful_store_reached :
    store_put store_init (filling_id 0) (List.replicate 4956000 0) = some (0, brimful_store) := by
  have hmk : store_map_key store_init.sb (filling_id 0) = b64_encode 0 :=
    store_map_key_level_zero _ _ rfl rfl
  have hopen : store_open store_init (store_map_key store_init.sb (filling_id 0))
      = some new_block := by
    rw [hmk]; exact store_init_bucket
  have hkeys : new_block.keys = null_key :: List.replicate 5119 null_key := rfl
  have hlen : new_block.keys.length = ARROW_BLOCK_INITIAL_COUNT := by
    show (List.replicate ARROW_BLOCK_INITIAL_COUNT null_key).length = _
    rw [List.length_replicate]
  have hcc : new_block.chunk_count = 5120 := hlen
  have hhdr := store_header_size_eq new_block hlen
  have hdata : new_block.data = fun _ => 0 := rfl
  have hput : store_put_into_int new_block (filling_id 0) (List.replicate 4956000 0)
      = (0, brimful_bucket) := by
    unfold store_put_into_int
    conv => lhs; rw [hkeys]
    rw [put_scan_first_null new_block (filling_id 0) _ _ (by decide) 0 0 (by rw [hcc]; decide)
      (by rw [List.length_replicate, hhdr]; decide)]
    rw [List.length_replicate, hdata, memcpy_list_zeros, hkeys, List.set_cons_zero]
    rfl
  have hused : store_used brimful_bucket.keys = 1 := by
    show store_used (⟨filling_id 0, 0, 4956000, 1⟩ :: List.replicate 5119 null_key) = 1
    rw [store_used, store_used_replicate_null, if_pos (by decide)]
  have hbcc : brimful_bucket.chunk_count = 5120 := by
    show (List.replicate 5119 null_key).length + 1 = _
    rw [List.length_replicate]
  rw [store_put_no_split store_init (filling_id 0) _ new_block hopen (by rw [hput])
    (by
      rw [hput]
      unfold store_load_factor_gt_max
      rw [hused, hbcc]
      decide)]
  rw [hput, hmk, store_init_eq, write_block_twice]
  rfl

theorem basis_input_length : basis_input.length = 700 := by
  simp [basis_input]

theorem brimful_put :
    store_put_into_int brimful_bucket basis_id basis_input = (-1, brimful_bucket) := by
  have hkeys : brimful_bucket.keys = [(⟨filling_id 0, 0, 4956000, 1⟩ : block_key_t)]
      ++ (List.replicate 5118 null_key ++ [null_key]) := by
    rw [replicate_null_snoc]
    rfl
  have hlen : brimful_bucket.keys.length = ARROW_BLOCK_INITIAL_COUNT := by
    show (List.replicate 5119 null_key).length + 1 = _
    rw [List.length_replicate]
    rfl
  have hhdr := store_header_size_eq brimful_bucket hlen
  have hcc : brimful_bucket.chunk_count = 5120 := hlen
  have hfull : size_sub (size_sub brimful_bucket.alloc_size (store_header_size brimful_bucket))
      (0 + total_length [(⟨filling_id 0, 0, 4956000, 1⟩ : block_key_t)]) < basis_input.length := by
    rw [hhdr, basis_input_length]
    decide
  unfold store_put_into_int
  conv => lhs; rw [hkeys]
  rw [put_scan_skip brimful_bucket basis_id _ _ _ 0 0
      (by
        intro k hk
        rw [List.mem_singleton.mp hk]
        decide)
      (by decide),
    put_scan_null_skip brimful_bucket basis_id _ _ (by decide) _ hfull _ _
      (by rw [hcc]; decide),
    put_scan_last_null brimful_bucket basis_id _ (by decide) _ _ (by decide) hfull]

theorem contains_scan_replicate_null (id : arrow_id_t) (hid : id ≠ null_id) (m : Nat) :
    store_contains.scan id (List.replicate m null_key) = 0 := by
  induction m with
  | zero => rfl
  | succ m ih =>
    rw [List.replicate_succ, store_contains.scan, if_neg (fun e => hid e.symm), ih]

theorem brimful_contains (s : store_state_t) (hsb : s.sb = ⟨0, 0⟩)
    (hb : s.blocks (b64_encode 0) = some brimful_bucket) :
    store_contains s basis_id = 0 := by
  unfold store_contains store_open
  rw [store_map_key_level_zero _ _ (by rw [hsb]) (by rw [hsb]), hb]
  show store_contains.scan basis_id (⟨filling_id 0, 0, 4956000, 1⟩ :: List.replicate 5119 null_key)
    = 0
  rw [store_contains.scan, if_neg (by decide),
    contains_scan_replicate_null basis_id (by decide)]

/-- On the full bucket of `brimful_store` the put of `sync_generate` ends in `fail`:
the run aborts before `END_OF_CHUNKS` is emitted. -/
theorem sync_generate_full_bucket_aborts :
    sync_generate basis_input sync_store_callbacks ⟨brimful_store, []⟩ = none := by
  have hkey : arrow_compute_key basis_input = basis_id := basis_record_generated.2
  have hmk : store_map_key brimful_store.sb basis_id = b64_encode 0 :=
    store_map_key_level_zero _ _ rfl rfl
  have hopen : store_open brimful_store (store_map_key brimful_store.sb basis_id)
      = some brimful_bucket := by
    rw [hmk]; exact write_block_same _ _ _
  have hput : store_put brimful_store basis_id basis_input = none := by
    unfold store_put
    rw [hopen]
    simp only [brimful_put]
    rw [if_pos (by decide)]
  have hc0 : store_contains brimful_store basis_id = 0 :=
    brimful_contains _ rfl (write_block_same _ _ _)
  unfold sync_generate
  have hb : sync_generate.bufsize basis_input.length = 700 := by
    rw [basis_input_length, bufsize_eq]
    have := Nat.sqrt_le_self 700
    omega
  rw [hb, basis_input_length, show 700 + 1 = 699 + 2 from rfl,
    generate_loop_reference basis_input 700 699 ⟨brimful_store, []⟩
      (by rw [basis_input_length]; decide) (by rw [basis_input_length])
      (by rw [basis_input_length]; decide)]
  rw [hkey, basis_input_length]
  simp only
  rw [if_pos hc0, hput]
  rfl

theorem bucketless_open (id : arrow_id_t) :
    store_open bucketless_store (store_map_key bucketless_store.sb id) = none := rfl

/-- C25 (code). In the store directory `bucketless_store` the file of bucket 0 does
not exist, so `store_open` fails for every id.  `sync_generate` on the 700-byte file
`basis_input` with the local store callbacks emits the reference to the block
`basis_id`; `store_contains` returns 0 and `store_put` returns -1 without storing
anything, which the synchronizer does not look at; it emits `END_OF_CHUNKS` and
returns 0.  At that moment the record refers to `basis_id` and the store does not
contain it. -/
theorem sync_generate_reference_not_stored :
    store_open bucketless_store (store_map_key bucketless_store.sb basis_id) = none ∧
    store_put bucketless_store basis_id basis_input = some (-1, bucketless_store) ∧
    (sync_generate basis_input sync_store_callbacks ⟨bucketless_store, []⟩).map
        (fun r => (r.ret, r.state.chunks_out, r.state.store,
          store_contains r.state.store basis_id, store_lookup r.state.store basis_id))
      = some (0, [file_chunk_t.REFERENCE 700 basis_id, file_chunk_t.END_OF_CHUNKS],
          bucketless_store, 0, none) := by
  have hkey : arrow_compute_key basis_input = basis_id := basis_record_generated.2
  have hput : store_put bucketless_store basis_id basis_input
      = some (-1, bucketless_store) := by
    unfold store_put
    rw [bucketless_open]
  have hc0 : store_contains bucketless_store basis_id = 0 := by
    unfold store_contains
    rw [bucketless_open]
  have hl0 : store_lookup bucketless_store basis_id = none := by
    unfold store_lookup
    rw [bucketless_open]
    rfl
  refine ⟨bucketless_open _, hput, ?_⟩
  unfold sync_generate
  have hb : sync_generate.bufsize basis_input.length = 700 := by
    rw [basis_input_length, bufsize_eq]
    have := Nat.sqrt_le_self 700
    omega
  rw [hb, basis_input_length, show 700 + 1 = 699 + 2 from rfl,
    generate_loop_reference basis_input 700 699 ⟨bucketless_store, []⟩
      (by rw [basis_input_length]; decide) (by rw [basis_input_length])
      (by rw [basis_input_length]; decide)]
  rw [hkey, basis_input_length]
  simp only
  rw [if_pos hc0, hput]
  simp only [Option.map_some', Option.some_bind]
  show some ((0 : Int), [file_chunk_t.REFERENCE 700 basis_id] ++ [file_chunk_t.END_OF_CHUNKS],
    bucketless_store, store_contains bucketless_store basis_id,
    store_lookup bucketless_store basis_id) = _
  rw [hc0, hl0]
  rfl


/-! ## Recording the calls does not change a run -/

theorem traced_emit_chunk_eq {σ : Type} (cb : sync_callbacks_t σ) (s : σ × List sync_event)
    (c : file_chunk_t) :
    (sync_traced cb).emit_chunk s c
      = (cb.emit_chunk s.1 c).map (fun r => (r.1, r.2, s.2 ++ [sync_event.emit_chunk c])) := rfl

theorem traced_add_ref_eq {σ : Type} (cb : sync_callbacks_t σ) (s : σ × List sync_event)
    (id : arrow_id_t) :
    (sync_traced cb).add_ref s id
      = (cb.add_ref s.1 id).map (fun r => (r.1, r.2, s.2 ++ [sync_event.add_ref id])) := rfl

theorem traced_put_block_eq {σ : Type} (cb : sync_callbacks_t σ) (s : σ × List sync_event)
    (id : arrow_id_t) (buf : List Nat) :
    (sync_traced cb).put_block s id buf
      = (cb.put_block s.1 id buf).map
          (fun r => (r.1, r.2, s.2 ++ [sync_event.put_block id buf])) := rfl

theorem traced_store_contains_eq {σ : Type} (cb : sync_callbacks_t σ)
    (s : σ × List sync_event) (id : arrow_id_t) :
    (sync_traced cb).store_contains s id = cb.store_contains s.1 id := rfl

theorem generate_loop_traced {σ : Type} (cb : sync_callbacks_t σ) (cs : Nat) :
    ∀ (fuel : Nat) (f : FILE) (md5 : List Nat) (s : σ × List sync_event),
      (sync_generate.loop (sync_traced cb) cs fuel f md5 s).map (fun r => (r.1, r.2.1))
        = sync_generate.loop cb cs fuel f md5 s.1 := by
  intro fuel
  induction fuel with
  | zero => intro f md5 s; rfl
  | succ fuel ih =>
    intro f md5 s
    rw [sync_generate.loop, sync_generate.loop]
    by_cases he : f.eof = true
    · rw [if_pos he, if_pos he]; rfl
    rw [if_neg he, if_neg he]
    simp only
    by_cases hz : (fread f cs).1.length ≤ 0
    · rw [if_pos hz, if_pos hz]; rfl
    rw [if_neg hz, if_neg hz]
    by_cases hd : (fread f cs).1.length ≤ MAX_DIRECT_CHUNK_SIZE
    · rw [if_pos hd, if_pos hd, traced_emit_chunk_eq]
      cases cb.emit_chunk s.1 (file_chunk_t.DIRECT_CHUNK (fread f cs).1) with
      | none => rfl
      | some r1 =>
        simp only [Option.map_some', Option.some_bind]
        exact ih _ _ _
    · rw [if_neg hd, if_neg hd, traced_emit_chunk_eq]
      cases cb.emit_chunk s.1 (file_chunk_t.REFERENCE ((fread f cs).1.length % 2 ^ 32)
          (arrow_compute_key (fread f cs).1)) with
      | none => rfl
      | some r1 =>
        simp only [Option.map_some', Option.some_bind, traced_store_contains_eq]
        by_cases hsc : cb.store_contains r1.2 (arrow_compute_key (fread f cs).1) = 0
        · rw [if_pos hsc, if_pos hsc, traced_put_block_eq]
          cases cb.put_block r1.2 (arrow_compute_key (fread f cs).1) (fread f cs).1 with
          | none => rfl
          | some r2 =>
            simp only [Option.map_some', Option.some_bind]
            exact ih _ _ _
        · rw [if_neg hsc, if_neg hsc]
          exact ih _ _ _

/-- The run of `sync_generate` with the calls recorded is the run without, next to
its trace. -/
theorem sync_generate_traced_run {σ : Type} (cb : sync_callbacks_t σ) (input : List Nat)
    (s : σ × List sync_event) :
    (sync_generate input (sync_traced cb) s).map
        (fun r => (r.ret, r.hash_match, r.chunk_size, r.hash, r.state.1))
      = (sync_generate input cb s.1).map
        (fun r => (r.ret, r.hash_match, r.chunk_size, r.hash, r.state)) := by
  unfold sync_generate
  have h := generate_loop_traced cb (sync_generate.bufsize input.length) (input.length + 1)
    (fopen input) [] s
  cases h1 : sync_generate.loop (sync_traced cb) (sync_generate.bufsize input.length)
      (input.length + 1) (fopen input) [] s with
  | none =>
    rw [h1] at h
    rw [← h]
    rfl
  | some r1 =>
    rw [h1] at h
    rw [← h]
    simp only [Option.map_some', Option.some_bind, traced_emit_chunk_eq]
    cases cb.emit_chunk r1.2.1 file_chunk_t.END_OF_CHUNKS with
    | none => rfl
    | some e => rfl

theorem literals_traced {σ : Type} (cb : sync_callbacks_t σ) (cs limit : Nat) :
    ∀ (fuel l : Nat) (v : sync_file_vars) (s : σ × List sync_event),
      (sync_file.literals (sync_traced cb) cs limit fuel l v s).map (fun r => (r.1, r.2.1))
        = sync_file.literals cb cs limit fuel l v s.1 := by
  intro fuel
  induction fuel with
  | zero => intro l v s; rfl
  | succ fuel ih =>
    intro l v s
    rw [sync_file.literals, sync_file.literals]
    by_cases hlt : l < limit
    · rw [if_pos hlt, if_pos hlt]
      simp only
      by_cases hd : min (limit - l) cs ≤ MAX_DIRECT_CHUNK_SIZE
      · rw [if_pos hd, if_pos hd, traced_emit_chunk_eq]
        cases cb.emit_chunk s.1 (file_chunk_t.DIRECT_CHUNK
            ((cbuf_fread v.buffer v.datafile (min (limit - l) cs)).buffer.take
              (min (limit - l) cs))) with
        | none => rfl
        | some r1 =>
          simp only [Option.map_some', Option.some_bind]
          exact ih _ _ _
      · rw [if_neg hd, if_neg hd, traced_emit_chunk_eq]
        cases cb.emit_chunk s.1 (file_chunk_t.REFERENCE (min (limit - l) cs)
            (arrow_compute_key
              ((cbuf_fread v.buffer v.datafile (min (limit - l) cs)).buffer.take
                (min (limit - l) cs)))) with
        | none => rfl
        | some r1 =>
          simp only [Option.map_some', Option.some_bind, traced_store_contains_eq]
          by_cases hsc : cb.store_contains r1.2 (arrow_compute_key
              ((cbuf_fread v.buffer v.datafile (min (limit - l) cs)).buffer.take
                (min (limit - l) cs))) ≠ 0
          · rw [if_pos hsc, if_pos hsc, traced_add_ref_eq]
            cases cb.add_ref r1.2 (arrow_compute_key
                ((cbuf_fread v.buffer v.datafile (min (limit - l) cs)).buffer.take
                  (min (limit - l) cs))) with
            | none => rfl
            | some r2 =>
              simp only [Option.map_some', Option.some_bind]
              exact ih _ _ _
          · rw [if_neg hsc, if_neg hsc, traced_put_block_eq]
            cases cb.put_block r1.2 (arrow_compute_key
                ((cbuf_fread v.buffer v.datafile (min (limit - l) cs)).buffer.take
                  (min (limit - l) cs)))
                ((cbuf_fread v.buffer v.datafile (min (limit - l) cs)).buffer.take
                  (min (limit - l) cs)) with
            | none => rfl
            | some r2 =>
              simp only [Option.map_some', Option.some_bind]
              exact ih _ _ _
    · rw [if_neg hlt, if_neg hlt]; rfl


theorem bind_map_proj {α β α2 β2 : Type} (o2 : Option α2) (o : Option α) (p : α2 → α)
    (k2 : α2 → Option β2) (k : α → Option β) (q : β2 → β) (h1 : o2.map p = o)
    (h2 : ∀ x, (k2 x).map q = k (p x)) : (o2.bind k2).map q = o.bind k := by
  subst h1
  cases o2 with
  | none => rfl
  | some x => exact h2 x

theorem traced_emit_proj {σ : Type} (cb : sync_callbacks_t σ) (s : σ × List sync_event)
    (c : file_chunk_t) :
    ((sync_traced cb).emit_chunk s c).map (fun x => (x.1, x.2.1)) = cb.emit_chunk s.1 c := by
  rw [traced_emit_chunk_eq]
  cases cb.emit_chunk s.1 c <;> rfl

theorem traced_add_ref_proj {σ : Type} (cb : sync_callbacks_t σ) (s : σ × List sync_event)
    (id : arrow_id_t) :
    ((sync_traced cb).add_ref s id).map (fun x => (x.1, x.2.1)) = cb.add_ref s.1 id := by
  rw [traced_add_ref_eq]
  cases cb.add_ref s.1 id <;> rfl

theorem traced_put_block_proj {σ : Type} (cb : sync_callbacks_t σ) (s : σ × List sync_event)
    (id : arrow_id_t) (buf : List Nat) :
    ((sync_traced cb).put_block s id buf).map (fun x => (x.1, x.2.1))
      = cb.put_block s.1 id buf := by
  rw [traced_put_block_eq]
  cases cb.put_block s.1 id buf <;> rfl

theorem loop_traced {σ : Type} (cb : sync_callbacks_t σ) (table : Nat → arrow_id_t) (cs : Nat) :
    ∀ (fuel : Nat) (v : sync_file_vars) (s : σ × List sync_event),
      (sync_file.loop (sync_traced cb) table cs fuel v s).map (fun r => (r.1, r.2.1))
        = sync_file.loop cb table cs fuel v s.1 := by
  intro fuel
  induction fuel with
  | zero => intro v s; rfl
  | succ fuel ih =>
    intro v s
    rw [sync_file.loop, sync_file.loop]
    by_cases he : v.datafile.eof = true
    · rw [if_pos he, if_pos he]; rfl
    rw [if_neg he, if_neg he]
    by_cases hm : hash_table_probe table (RollsumDigest v.runsum) ≠ 0 ∧
        hash_table_contains table ⟨RollsumDigest v.runsum, cbuf_md5 v.buffer⟩ ≠ 0
    · rw [if_pos hm, if_pos hm]
      simp only
      refine bind_map_proj _ _ (fun r => (r.1, r.2.1)) _ _ _ ?_ ?_
      · by_cases hl : v.last_match < v.datafile.pos - cs
        · rw [if_pos hl, if_pos hl]
          exact literals_traced cb cs _ _ _ _ _
        · rw [if_neg hl, if_neg hl]; rfl
      · intro r
        refine bind_map_proj _ _ (fun x => (x.1, x.2.1)) _ _ _ (traced_emit_proj cb _ _) ?_
        intro r3
        refine bind_map_proj _ _ (fun x => (x.1, x.2.1)) _ _ _ (traced_add_ref_proj cb _ _) ?_
        intro r4
        simp only
        by_cases hs : (fread (fseek_cur r.1.datafile cs) cs).1.length < cs
        · rw [if_pos hs, if_pos hs]; rfl
        · rw [if_neg hs, if_neg hs]
          exact ih _ _
    · rw [if_neg hm, if_neg hm]
      cases (getc v.datafile).1 with
      | none => rfl
      | some c => exact ih _ _

theorem bind_map_proj_map {α β α2 β2 γ : Type} (o2 : Option α2) (o : Option α) (p : α2 → α)
    (k2 : α2 → Option β2) (k : α → Option β) (q2 : β2 → γ) (q : β → γ) (h1 : o2.map p = o)
    (h2 : ∀ x, (k2 x).map q2 = (k (p x)).map q) : (o2.bind k2).map q2 = (o.bind k).map q := by
  subst h1
  cases o2 with
  | none => rfl
  | some x => exact h2 x

/-- The run of `sync_file` with the calls recorded is the run without, next to its
trace. -/
theorem sync_file_traced_run {σ : Type} (cb : sync_callbacks_t σ) (basis : file_t)
    (input : List Nat) (hm : Option Int) (s : σ × List sync_event) :
    (sync_file basis input (sync_traced cb) hm s).map
        (fun r => (r.ret, r.hash_match, r.chunk_size, r.hash, r.state.1))
      = (sync_file basis input cb hm s.1).map
        (fun r => (r.ret, r.hash_match, r.chunk_size, r.hash, r.state)) := by
  unfold sync_file
  simp only
  split
  · rfl
  cases sync_file.build_table basis.chunk_size basis.chunks (fun _ => null_id) with
  | none => rfl
  | some table =>
    simp only [Option.some_bind]
    have hend : ∀ (x : σ × List sync_event) (c : Option Nat) (h : Option (List Nat)),
        (((sync_traced cb).emit_chunk x file_chunk_t.END_OF_CHUNKS).map
            (fun e => ({ ret := 0, hash_match := 0, chunk_size := c, hash := h, state := e.2 } :
              sync_result (σ × List sync_event)))).map
            (fun r => (r.ret, r.hash_match, r.chunk_size, r.hash, r.state.1))
          = ((cb.emit_chunk x.1 file_chunk_t.END_OF_CHUNKS).map
            (fun e => ({ ret := 0, hash_match := 0, chunk_size := c, hash := h, state := e.2 } :
              sync_result σ))).map
            (fun r => (r.ret, r.hash_match, r.chunk_size, r.hash, r.state)) := by
      intro x c h
      rw [traced_emit_chunk_eq]
      cases cb.emit_chunk x.1 file_chunk_t.END_OF_CHUNKS <;> rfl
    by_cases hshort : (fread (fopen input) basis.chunk_size).1.length < basis.chunk_size
    · rw [if_pos hshort, if_pos hshort]
      refine bind_map_proj_map _ _ (fun x => (x.1, x.2.1)) _ _ _ _ ?_ (fun x => hend x.2 _ _)
      by_cases hd : (fread (fopen input) basis.chunk_size).1.length ≤ MAX_DIRECT_CHUNK_SIZE
      · rw [if_pos hd, if_pos hd]
        exact traced_emit_proj cb _ _
      · rw [if_neg hd, if_neg hd]
        refine bind_map_proj _ _ (fun x => (x.1, x.2.1)) _ _ _ (traced_emit_proj cb _ _) ?_
        intro r
        rw [traced_store_contains_eq]
        split
        · exact traced_add_ref_proj cb _ _
        · exact traced_put_block_proj cb _ _ _
    · rw [if_neg hshort, if_neg hshort]
      have h := loop_traced cb table basis.chunk_size (input.length + 2)
        { datafile := (fread (fopen input) basis.chunk_size).2
          buffer := cbuf_fread (cbuf_alloc basis.chunk_size) (fopen input) basis.chunk_size
          bufsize := (fread (fopen input) basis.chunk_size).1.length
          runsum := RollsumUpdate RollsumInit
            ((cbuf_fread (cbuf_alloc basis.chunk_size) (fopen input) basis.chunk_size).buffer.take
              (fread (fopen input) basis.chunk_size).1.length)
          md5 := (cbuf_fread (cbuf_alloc basis.chunk_size) (fopen input)
            basis.chunk_size).buffer.take (fread (fopen input) basis.chunk_size).1.length
          last_match := 0
          current := null_id } s
      rw [← h]
      cases sync_file.loop (sync_traced cb) table basis.chunk_size (input.length + 2)
        { datafile := (fread (fopen input) basis.chunk_size).2
          buffer := cbuf_fread (cbuf_alloc basis.chunk_size) (fopen input) basis.chunk_size
          bufsize := (fread (fopen input) basis.chunk_size).1.length
          runsum := RollsumUpdate RollsumInit
            ((cbuf_fread (cbuf_alloc basis.chunk_size) (fopen input) basis.chunk_size).buffer.take
              (fread (fopen input) basis.chunk_size).1.length)
          md5 := (cbuf_fread (cbuf_alloc basis.chunk_size) (fopen input)
            basis.chunk_size).buffer.take (fread (fopen input) basis.chunk_size).1.length
          last_match := 0
          current := null_id } s with
      | none => rfl
      | some r =>
        simp only [Option.map_some', Option.some_bind]
        by_cases hl : r.1.last_match < r.1.datafile.pos
        · rw [if_pos hl, if_pos hl]
          have h2 := literals_traced cb basis.chunk_size r.1.datafile.pos (r.1.datafile.pos + 1)
            r.1.last_match { r.1 with datafile := fseek_set r.1.datafile r.1.last_match } r.2
          rw [← h2]
          cases sync_file.literals (sync_traced cb) basis.chunk_size r.1.datafile.pos
              (r.1.datafile.pos + 1) r.1.last_match
              { r.1 with datafile := fseek_set r.1.datafile r.1.last_match } r.2 with
          | none => rfl
          | some r2 =>
            simp only [Option.map_some', Option.some_bind]
            exact hend r2.2 _ _
        · rw [if_neg hl, if_neg hl]
          simp only [Option.some_bind]
          exact hend r.2 _ _


/-- C37. For every chunk id and every superblock, in particular every one with
`n < 2^i`, the bucket number `do_map_key` computes for `store_map_key` is smaller than
`2^i + n`, the number of the bucket `split_next_store` creates next.  So it names a
bucket that exists: in every store of the shape `store_ok`, which `store_init` gives
and puts and splits keep, `store_open` finds the bucket `store_map_key` names. -/
theorem do_map_key_names_created_bucket (sb : store_sb_t) (id : arrow_id_t) :
    do_map_key sb id sb.n < 2 ^ sb.i + sb.n ∧
    (∀ N s, store_ok N s → (store_open s (store_map_key s.sb id)).isSome = true) ∧
    (store_open store_init (store_map_key store_init.sb id)).isSome = true := by
  have key : ∀ N s, store_ok N s → (store_open s (store_map_key s.sb id)).isSome = true := by
    intro N s h
    obtain ⟨b, _, hb, _⟩ := h.buckets _ (do_map_key_lt s.sb id)
    have hopen : store_open s (store_map_key s.sb id) = some b := hb
    rw [hopen]
    rfl
  exact ⟨do_map_key_lt sb id, key, key 1 store_init store_init_ok⟩

theorem store_repair_loop_eq (errors : store_error_t) :
    ∀ (fuel i : Nat) (numfixed : Int) (store : block_t),
      store_repair.loop errors fuel i numfixed store = (numfixed + fuel, store) := by
  intro fuel
  induction fuel with
  | zero => intro i numfixed store; simp [store_repair.loop]
  | succ fuel ih =>
    intro i numfixed store
    rw [store_repair.loop]
    simp only [try_fix_key]
    rw [if_pos (by decide), ih]
    simp only [Nat.cast_add, Nat.cast_one]
    rw [add_assoc, add_comm (1 : Int)]

/-- C38 (code). `store_repair` leaves the bucket unchanged, but what it returns is the number
of errors it was given, not 0: `try_fix_key` returns -1, which the loop takes as
"fixed", so every error of the list is counted in `numfixed`.  With one error in the
list the result is 1.  (`numfixed` is an `int` in the code; the count is followed here
without its wrap-around at 2^31.) -/
theorem store_repair_counts_every_error (store : block_t) (errors : store_error_t) :
    store_repair store errors = ((errors.count : Int), store) ∧
    store_repair store ⟨1, [0]⟩ = (1, store) := by
  constructor
  · unfold store_repair
    rw [store_repair_loop_eq]
    simp
  · unfold store_repair
    rw [store_repair_loop_eq]
    simp


theorem land_mode_type (m t b : Nat) (h : m &&& S_IFMT = t) (hb : S_IFMT &&& b = b) :
    m &&& b = t &&& b := by
  rw [← h, Nat.land_assoc, hb]

/-- C39 (code). The three tests look at one bit of the mode word each, not at the file type
field.  For every mode word whose type is symbolic link or socket `file_isfile` is 1
(and `file_recursive_backup` backs the path up as a file), for every regular file
`file_islink` is 1, and for every socket or block device `file_isdir` is 1. -/
theorem file_type_tests_overlap (m : Nat) :
    (m &&& S_IFMT = S_IFLNK → file_isfile (some m) = 1 ∧
      file_recursive_backup.action (some m) = backup_action.backup_file) ∧
    (m &&& S_IFMT = S_IFSOCK → file_isfile (some m) = 1 ∧ file_isdir (some m) = 1 ∧
      file_recursive_backup.action (some m) = backup_action.backup_file) ∧
    (m &&& S_IFMT = S_IFREG → file_islink (some m) = 1) ∧
    (m &&& S_IFMT = S_IFBLK → file_isdir (some m) = 1 ∧ file_islink (some m) = 1) ∧
    file_isfile (some 0o120777) = 1 ∧ file_isfile (some 0o140755) = 1 ∧
    file_islink (some 0o100644) = 1 ∧ file_isdir (some 0o060660) = 1 := by
  have hreg : ∀ t, m &&& S_IFMT = t → t &&& S_IFREG ≠ 0 → file_isfile (some m) = 1 := by
    intro t h ht
    have e := land_mode_type m t S_IFREG h (by decide)
    unfold file_isfile
    simp only
    rw [if_pos (by rw [e]; exact ht)]
  have hdir : ∀ t, m &&& S_IFMT = t → t &&& S_IFDIR ≠ 0 → file_isdir (some m) = 1 := by
    intro t h ht
    have e := land_mode_type m t S_IFDIR h (by decide)
    unfold file_isdir
    simp only
    rw [if_pos (by rw [e]; exact ht)]
  have hlnk : ∀ t, m &&& S_IFMT = t → t &&& S_IFLNK ≠ 0 → file_islink (some m) = 1 := by
    intro t h ht
    have e := land_mode_type m t S_IFLNK h (by decide)
    unfold file_islink
    simp only
    rw [if_pos (by rw [e]; exact ht)]
  have hact : file_isfile (some m) = 1 →
      file_recursive_backup.action (some m) = backup_action.backup_file := by
    intro h
    unfold file_recursive_backup.action
    rw [h, if_pos (by decide)]
  refine ⟨fun h => ?_, fun h => ?_, fun h => ?_, fun h => ?_, by decide, by decide, by decide,
    by decide⟩
  · exact ⟨hreg _ h (by decide), hact (hreg _ h (by decide))⟩
  · exact ⟨hreg _ h (by decide), hdir _ h (by decide), hact (hreg _ h (by decide))⟩
  · exact hlnk _ h (by decide)
  · exact ⟨hdir _ h (by decide), hlnk _ h (by decide)⟩

/-- C40 (code). On a list that is not empty `value_list_insert` returns `INDEX_OUT_OF_RANGE`
for every index above 0, also for those up to the size of the list, and leaves the list
as it was: the loop that walks to the position never counts `i` up.  Index 0 puts the
copy in front; on an empty list index 0 gives the list of the copy and every other
index `INDEX_OUT_OF_RANGE`. -/
theorem value_list_insert_rejects_later_index (head : value) (next : List value)
    (index : Int) (item node : value) (hclone : value_clone item = some node)
    (hindex : 0 < index) :
    value_list_insert (value.LIST (head :: next)) index item
      = some (value_result.INDEX_OUT_OF_RANGE, value.LIST (head :: next)) ∧
    value_list_insert (value.LIST (head :: next)) 0 item
      = some (value_result.VALUE_OK, value.LIST (node :: head :: next)) ∧
    value_list_insert (value.LIST []) 0 item = some (value_result.VALUE_OK, value.LIST [node]) ∧
    value_list_insert (value.LIST []) index item
      = some (value_result.INDEX_OUT_OF_RANGE, value.LIST []) := by
  have hne : (0 : Int) ≠ index := by omega
  have hnn : ¬ index < 0 := by omega
  refine ⟨?_, ?_, ?_, ?_⟩
  · unfold value_list_insert
    simp only [hclone]
    rw [if_neg hnn, if_pos hne]
  · unfold value_list_insert
    simp only [hclone]
    simp
  · unfold value_list_insert
    simp only [hclone]
    simp
  · unfold value_list_insert
    simp only [hclone]
    rw [if_neg hnn, if_pos (fun e => hne e.symm)]

/-- C40 (witness): the list of one integer, with index 1 and index 0, and the empty
list. -/
theorem value_list_insert_rejects_later_index_witness :
    value_clone (value.INTEGER 2) = some (value.INTEGER 2) ∧ (0 : Int) < 1 ∧
    value_list_insert (value.LIST [value.INTEGER 1]) 1 (value.INTEGER 2)
      = some (value_result.INDEX_OUT_OF_RANGE, value.LIST [value.INTEGER 1]) ∧
    value_list_insert (value.LIST [value.INTEGER 1]) 0 (value.INTEGER 2)
      = some (value_result.VALUE_OK, value.LIST [value.INTEGER 2, value.INTEGER 1]) ∧
    value_list_insert (value.LIST []) 0 (value.INTEGER 2)
      = some (value_result.VALUE_OK, value.LIST [value.INTEGER 2]) ∧
    value_list_insert (value.LIST []) 1 (value.INTEGER 2)
      = some (value_result.INDEX_OUT_OF_RANGE, value.LIST []) :=
  ⟨rfl, by decide,
    value_list_insert_rejects_later_index (value.INTEGER 1) [] 1 (value.INTEGER 2)
      (value.INTEGER 2) (rfl) (by decide)⟩


theorem new_block_keys : new_block.keys = null_key :: List.replicate 5119 null_key := rfl

/-- A freshly created bucket holds no id other than the all-zero id. -/
theorem new_block_absent (id : arrow_id_t) (hid : id ≠ null_id) :
    store_contains.scan id new_block.keys = 0 ∧
    (∀ out maxlen, store_get_from new_block id out maxlen = (SIZE_NOT_FOUND, out)) ∧
    store_get_len_from new_block id = SIZE_NOT_FOUND ∧
    store_addref_to new_block id = (-1, new_block) := by
  have hfind : new_block.keys.find? (fun k => decide (k.id = id)) = none :=
    find_replicate_null id hid _
  refine ⟨contains_scan_replicate_null id hid _, ?_, ?_, ?_⟩
  · intro out maxlen
    unfold store_get_from
    rw [store_get_from_scan_eq, hfind]
  · unfold store_get_len_from
    rw [store_get_len_from_scan_eq, hfind]
  · unfold store_addref_to
    apply store_addref_to_scan_absent
    intro x hx
    rw [(List.mem_replicate.mp hx).2]
    exact fun e => hid e.symm

/-- C36 (counterexample). A freshly created bucket answers for the all-zero id
as if it held an empty chunk.  On the store `store_init` leaves, `store_contains`
returns 1 for it; on the new bucket `store_get_from` and `store_get_len_from` return
the length 0, not `SIZE_NOT_FOUND`, and `store_addref_to` returns 0 and sets the
reference count of slot 0 to 1, so that slot no longer equals the empty slot. -/
theorem new_block_holds_null_id :
    store_contains store_init null_id = 1 ∧
    (store_get_from new_block null_id (fun _ => 0) 0).1 = 0 ∧
    store_get_len_from new_block null_id = 0 ∧
    SIZE_NOT_FOUND ≠ 0 ∧
    store_addref_to new_block null_id
      = (0, { new_block with
                keys := ⟨null_id, 0, 0, 1⟩ :: List.replicate 5119 null_key }) := by
  refine ⟨?_, ?_, ?_, by decide, ?_⟩
  · unfold store_contains
    rw [store_map_key_level_zero _ _ rfl rfl]
    have h : store_open store_init (b64_encode 0) = some new_block := store_init_bucket
    rw [h]
    simp only
    rw [new_block_keys, store_contains.scan, if_pos (show null_key.id = null_id from rfl)]
  · unfold store_get_from
    rw [new_block_keys, store_get_from.scan, if_pos (show null_key.id = null_id from rfl)]
    rfl
  · unfold store_get_len_from
    rw [new_block_keys, store_get_len_from.scan, if_pos (show null_key.id = null_id from rfl)]
    rfl
  · unfold store_addref_to
    rw [new_block_keys, store_addref_to.scan, if_pos (show null_key.id = null_id from rfl)]
    have hs : ∀ k : block_key_t,
        new_block.keys.set 0 k = k :: List.replicate 5119 null_key := by
      intro k; rw [new_block_keys]; rfl
    rw [hs]
    rfl

/-- C36 (amended). On a freshly created bucket, for every id other than the all-zero
id: `store_contains` returns 0 on a store that keeps the id in such a bucket,
`store_get_from` returns `SIZE_NOT_FOUND` and leaves `out` as it was,
`store_get_len_from` returns `SIZE_NOT_FOUND`, and `store_addref_to` returns -1 and
leaves the bucket as it was. -/
theorem new_block_finds_nothing (s : store_state_t) (id : arrow_id_t) (hid : id ≠ null_id)
    (hopen : store_open s (store_map_key s.sb id) = some new_block) :
    store_contains s id = 0 ∧
    (∀ out maxlen, store_get_from new_block id out maxlen = (SIZE_NOT_FOUND, out)) ∧
    store_get_len_from new_block id = SIZE_NOT_FOUND ∧
    store_addref_to new_block id = (-1, new_block) := by
  obtain ⟨h1, h2, h3, h4⟩ := new_block_absent id hid
  refine ⟨?_, h2, h3, h4⟩
  unfold store_contains
  rw [hopen]
  exact h1

/-- C36 (witness): the id `filling_id 0` on the store `store_init` leaves. -/
theorem new_block_finds_nothing_witness :
    filling_id 0 ≠ null_id ∧
    store_open store_init (store_map_key store_init.sb (filling_id 0)) = some new_block ∧
    store_contains store_init (filling_id 0) = 0 ∧
    (∀ out maxlen, store_get_from new_block (filling_id 0) out maxlen = (SIZE_NOT_FOUND, out)) ∧
    store_get_len_from new_block (filling_id 0) = SIZE_NOT_FOUND ∧
    store_addref_to new_block (filling_id 0) = (-1, new_block) :=
  have hopen : store_open store_init (store_map_key store_init.sb (filling_id 0))
      = some new_block := by
    rw [store_map_key_level_zero _ _ rfl rfl]
    exact store_init_bucket
  ⟨by decide, hopen, new_block_finds_nothing store_init (filling_id 0) (by decide) hopen⟩

theorem long_chunk_length : long_chunk.length = 1200000 := List.length_replicate _ _

theorem memcpy_list_after (mem : Nat → Nat) (o : Nat) (buf : List Nat) (p : Nat)
    (h : o + buf.length ≤ p) : memcpy_list mem o buf p = mem p := by
  unfold memcpy_list
  rw [if_neg (by omega)]

theorem overflow_data_1_after (p : Nat) (hp : 4000000 ≤ p) : overflow_bucket_1.data p = 0 :=
  memcpy_list_after new_block.data 0 large_chunk p (by rw [large_chunk_length]; omega)

theorem overflow_put_long :
    store_put_into_int overflow_bucket_1 (filling_id 1) long_chunk
      = (0, overflow_bucket_long) := by
  have h := put_into_stray overflow_bucket_1_ok (filling_id 1) long_chunk (by decide)
    (by intro k hk; rw [List.mem_singleton.mp hk]; decide)
    (by rw [long_chunk_length, store_capacity_eq]; decide) overflow_past_end
    (by rw [long_chunk_length, overflow_past_end_offset]; decide)
    (by rw [long_chunk_length]; decide)
  have e1 : ARROW_BLOCK_INITIAL_COUNT - 1
      - [(⟨filling_id 0, 0, 4000000, 1⟩ : block_key_t)].length = 5118 := by decide
  have e2 : total_length [(⟨filling_id 0, 0, 4000000, 1⟩ : block_key_t)] = 4000000 := by decide
  rw [long_chunk_length, e1, e2] at h
  exact h

theorem overflow_data_long (p : Nat) (h1 : 4000000 ≤ p) (h2 : p < 5200000) :
    overflow_bucket_long.data p = 2 :=
  memcpy_list_const _ 4000000 long_chunk 2 p (fun _ hx => List.eq_of_mem_replicate hx)
    h1 (by rw [long_chunk_length]; omega)

theorem overflow_bucket_long_last :
    overflow_bucket_long.keys.getLast? = some ⟨filling_id 1, 4000000, 1200000, 1⟩ :=
  List.getLast?_concat _

theorem overflow_bucket_long_alloc : overflow_bucket_long.alloc_size = 5120000 := by
  have h : overflow_bucket_long.alloc_size = overflow_bucket_1.alloc_size := rfl
  rw [h, overflow_bucket_1_ok.alloc]
  rfl

/-- C35 (code). A chunk written past the data region.  On a freshly created bucket the put
of the 4000000-byte chunk `large_chunk` gives `overflow_bucket_1`; the put of the
1200000-byte chunk `long_chunk` that follows finds no room in the slots 1 to 5118
(956148 bytes are counted as free), and in the last slot it measures the room against
the `offset` field of the key read past the key array, which is the bytes 20 to 23 of
the data region, 0x01010101.  The chunk is accepted at offset 4000000 with length
1200000: it ends at 5200000, beyond the `alloc_size` of 5120000, and its last byte is
written at position 5199999 of the data region. -/
theorem store_put_into_past_alloc_size :
    store_put_into new_block (filling_id 0) large_chunk = (0, overflow_bucket_1) ∧
    store_put_into overflow_bucket_1 (filling_id 1) long_chunk = (0, overflow_bucket_long) ∧
    overflow_bucket_long.keys.getLast? = some ⟨filling_id 1, 4000000, 1200000, 1⟩ ∧
    overflow_bucket_long.alloc_size = 5120000 ∧
    overflow_bucket_long.alloc_size < 4000000 + 1200000 ∧
    overflow_bucket_1.data 5199999 = 0 ∧ overflow_bucket_long.data 5199999 = 2 := by
  refine ⟨overflow_put_1, overflow_put_long, overflow_bucket_long_last,
    overflow_bucket_long_alloc, ?_, overflow_data_1_after 5199999 (by decide),
    overflow_data_long 5199999 (by decide) (by decide)⟩
  rw [overflow_bucket_long_alloc]
  decide


theorem sync_generate_invariant_trivial {σ : Type} (cb : sync_callbacks_t σ) (cs : Nat)
    (input : List Nat) : sync_generate_invariant cb cs input (fun _ _ _ => True) :=
  ⟨fun _ _ _ _ _ _ _ _ _ => trivial, fun _ _ _ _ _ _ _ _ _ _ => trivial,
    fun _ _ _ _ _ _ _ _ _ _ _ _ => trivial⟩

/-- Every run of the synchronizer that returns, returns 0. -/
theorem sync_returns_zero {σ : Type} (cb : sync_callbacks_t σ) (basis : file_t)
    (input : List Nat) (hm : Option Int) (st : σ) :
    (∀ r, sync_generate input cb st = some r → r.ret = 0) ∧
    (∀ r, sync_file basis input cb hm st = some r → r.ret = 0) := by
  constructor
  · intro r h
    exact (sync_generate_rule (sync_generate_invariant_trivial cb _ input) st r trivial h).1
  · intro r h
    rcases sync_file_rule (sync_invariant_trivial cb _ input) hm st r trivial h with h1 | h1
    · rw [h1.1]
    · exact h1.1

theorem sync_failing_total : sync_callbacks_total sync_failing_callbacks :=
  ⟨fun _ _ => rfl, fun _ _ => rfl, fun _ _ _ => rfl⟩

/-- With callbacks that all fail, both entry points return 0 after at least one
failed call. -/
theorem sync_failing_runs (input : List Nat) :
    (∃ r, sync_generate input sync_failing_callbacks 0 = some r ∧ r.ret = 0 ∧ 0 < r.state) ∧
    (∃ r, sync_file empty_basis input sync_failing_callbacks none 0 = some r ∧ r.ret = 0 ∧
      0 < r.state) := by
  constructor
  · obtain ⟨r, h⟩ := Option.isSome_iff_exists.mp
      (sync_generate_total sync_failing_total input 0)
    obtain ⟨h1, _, _, b, st2, c, _, h2⟩ :=
      sync_generate_rule (sync_generate_invariant_trivial _ _ input) 0 r trivial h
    refine ⟨r, h, h1, ?_⟩
    have e : (c, r.state) = (-1, st2 + 1) := (Option.some.inj h2).symm
    rw [(Prod.mk.inj e).2]
    exact Nat.succ_pos _
  · obtain ⟨r, h⟩ := Option.isSome_iff_exists.mp
      (sync_file_total sync_failing_total empty_basis input none 0 (by decide) rfl)
    rcases sync_file_rule (sync_invariant_trivial _ _ input) none 0 r trivial h with h1 | h1
    · obtain ⟨_, _, x, hx, _⟩ := h1
      cases hx
    · obtain ⟨h1, _, _, b, st2, c, _, h2⟩ := h1
      refine ⟨r, h, h1, ?_⟩
      have e : (c, r.state) = (-1, st2 + 1) := (Option.some.inj h2).symm
      rw [(Prod.mk.inj e).2]
      exact Nat.succ_pos _

/-- C33 (code). The synchronizer does not look at what its callbacks return: every run of
`sync_generate` and of `sync_file` that returns, returns 0, whatever the callbacks
are.  With callbacks that fail on every call (`sync_failing_callbacks`, which return
-1 and count the calls), `sync_generate` on any input and `sync_file` against
`empty_basis` on any input return 0 after at least one failed call, and the driver,
which deletes the new record only when the result is not 0, keeps the record. -/
theorem sync_ignores_callback_failures {σ : Type} (cb : sync_callbacks_t σ) (basis : file_t)
    (input : List Nat) (hm : Option Int) (st : σ) :
    (∀ r, sync_generate input cb st = some r → r.ret = 0) ∧
    (∀ r, sync_file basis input cb hm st = some r → r.ret = 0) ∧
    (∃ r, sync_generate input sync_failing_callbacks 0 = some r ∧ r.ret = 0 ∧ 0 < r.state ∧
      local_file_backup_file.deletes_record r.ret = false) ∧
    (∃ r, sync_file empty_basis input sync_failing_callbacks none 0 = some r ∧ r.ret = 0 ∧
      0 < r.state ∧ local_file_backup_file.deletes_record r.ret = false) := by
  obtain ⟨⟨r1, a1, a2, a3⟩, ⟨r2, b1, b2, b3⟩⟩ := sync_failing_runs input
  refine ⟨(sync_returns_zero cb basis input hm st).1, (sync_returns_zero cb basis input hm st).2,
    ⟨r1, a1, a2, a3, ?_⟩, ⟨r2, b1, b2, b3, ?_⟩⟩
  · rw [a2]; rfl
  · rw [b2]; rfl


theorem addref_scan_of_contains (b : block_t) (id : arrow_id_t) :
    ∀ (ks : List block_key_t) (i : Nat), store_contains.scan id ks = 1 →
      (store_addref_to.scan b id ks i).1 = 0 := by
  intro ks
  induction ks with
  | nil => intro i h; simp [store_contains.scan] at h
  | cons k rest ih =>
    intro i h
    rw [store_addref_to.scan]
    rw [store_contains.scan] at h
    by_cases hk : k.id = id
    · rw [if_pos hk]
    · rw [if_neg hk] at h ⊢
      exact ih _ h

/-- `store_addref` returns 0 for an id `store_contains` finds. -/
theorem store_addref_of_contains (s : store_state_t) (id : arrow_id_t)
    (h : store_contains s id = 1) : (store_addref s id).1 = 0 := by
  unfold store_contains at h
  unfold store_addref
  cases hb : store_open s (store_map_key s.sb id) with
  | none => rw [hb] at h; simp at h
  | some b =>
    rw [hb] at h
    simp only at h ⊢
    exact addref_scan_of_contains b id _ _ h

theorem corrupt_store_eq : store_files ⟨0, 0⟩ corrupt_dir = store_init := by
  rw [store_init_eq]
  unfold store_files write_block store_open_file corrupt_dir
  congr 1
  funext name
  by_cases h : name = b64_encode 0
  · simp [h, corrupt_file]
  · simp [h]

/-- A put of a chunk of 700 bytes into a new store, and what the store answers
afterwards. -/
theorem store_init_put_small :
    ∃ s, store_put store_init (filling_id 0) small_chunk = some (0, s) ∧
      store_contains s (filling_id 0) = 1 ∧
      (∀ out maxlen, (store_get s (filling_id 0) out maxlen).1 = 700) ∧
      (store_addref s (filling_id 0)).1 = 0 := by
  have hid : filling_id 0 ≠ null_id := by decide
  have hroom := (put_small store_init_ok (filling_id 0) small_chunk hid store_init_bucket
    bucket_ok_new_block (by decide)
    (by rw [small_chunk_length, store_capacity_eq]; decide)).1
  obtain ⟨s, hput, _, hlk, _⟩ :=
    store_put_ok store_init_ok (by decide) (filling_id 0) small_chunk hid hroom
  rw [store_lookup_init _ hid] at hput hlk
  have hc : store_contains s (filling_id 0) = 1 := by
    rw [store_contains_eq, hlk]; rfl
  refine ⟨s, hput, hc, ?_, store_addref_of_contains s _ hc⟩
  intro out maxlen
  rw [(store_get_eq s _ _ hlk out maxlen).1]
  exact small_chunk_length

/-- C32 (counterexample). `store_open` does not look at the magic or at the version byte of a bucket
file: it returns 0 for every file it can open.  On the directory `corrupt_dir`, whose
bucket 0 starts with "XXXX" and has version 9, `store_open` returns 0, and `store_put`
of a chunk of 700 bytes returns 0 and stores the chunk: `store_contains` then returns
1, `store_get` the length 700 and `store_addref` 0. -/
theorem store_open_ignores_header :
    (∀ files id f, files id = some f → store_open_file files id = (0, some f)) ∧
    corrupt_file.header ≠ block_header ∧ corrupt_file.version ≠ ARROW_FILE_VERSION ∧
    store_open_file corrupt_dir (b64_encode 0) = (0, some corrupt_file) ∧
    ∃ s, store_put (store_files ⟨0, 0⟩ corrupt_dir) (filling_id 0) small_chunk = some (0, s) ∧
      store_contains s (filling_id 0) = 1 ∧
      (∀ out maxlen, (store_get s (filling_id 0) out maxlen).1 = 700) ∧
      (store_addref s (filling_id 0)).1 = 0 := by
  refine ⟨?_, by decide, by decide, ?_, ?_⟩
  · intro files id f h
    unfold store_open_file
    rw [h]
  · unfold store_open_file corrupt_dir
    rw [if_pos rfl]
  · rw [corrupt_store_eq]
    exact store_init_put_small


theorem write_short_eq (v : Nat) : write_short v = big_endian 2 v := by
  simp [write_short, big_endian]

theorem write_int_eq (v : Nat) : write_int v = big_endian 4 v := by
  simp only [write_int, big_endian, List.nil_append, List.cons_append, List.singleton_append]
  have e1 : v / 2 ^ 8 = v / 256 := rfl
  have e2 : v / 2 ^ 16 = v / 256 / 256 := by rw [Nat.div_div_eq_div_mul]; rfl
  have e3 : v / 2 ^ 24 = v / 256 / 256 / 256 := by
    rw [Nat.div_div_eq_div_mul, Nat.div_div_eq_div_mul]; rfl
  rw [e1, e2, e3]

theorem read_value_append (a rest : List Nat) :
    read_value a.length (a ++ rest) = some (a, rest) := by
  unfold read_value
  rw [if_neg (by simp)]
  simp

theorem read_short_write (v : Nat) (hv : v < 2 ^ 16) (rest : List Nat) :
    read_short (write_short v ++ rest) = some (v, rest) := by
  have h := read_value_append (write_short v) rest
  have hl : (write_short v).length = 2 := rfl
  rw [hl] at h
  unfold read_short
  rw [h]
  simp only [write_short, List.getD_cons_zero, List.getD_cons_succ]
  congr 2
  omega

theorem read_int_write (v : Nat) (hv : v < 2 ^ 32) (rest : List Nat) :
    read_int (write_int v ++ rest) = some (v, rest) := by
  have h := read_value_append (write_int v) rest
  have hl : (write_int v).length = 4 := rfl
  rw [hl] at h
  unfold read_int
  rw [h]
  simp only [write_int, List.getD_cons_zero, List.getD_cons_succ]
  congr 2
  omega

/-- The bytes `rpc_client_emit_chunk` writes are the opcode and the entry as the
specification lays it out. -/
theorem emit_chunk_bytes_eq (c : file_chunk_t) (hc : chunk_fits c) :
    rpc_client_emit_chunk.bytes c = big_endian 2 FILE_EMIT_CHUNK ++ chunk_wire_spec c := by
  cases c with
  | END_OF_CHUNKS =>
    simp only [rpc_client_emit_chunk.bytes, chunk_wire_spec, write_short_eq]
  | REFERENCE length ref =>
    obtain ⟨_, _, h3⟩ := hc
    simp only [rpc_client_emit_chunk.bytes, chunk_wire_spec, write_short_eq, write_int_eq,
      List.append_assoc]
    rw [List.take_of_length_le (by omega)]
  | DIRECT_CHUNK data =>
    have h : data.length ≤ 23 := hc
    simp only [rpc_client_emit_chunk.bytes, chunk_wire_spec, write_short_eq,
      List.append_assoc]
    rw [Nat.mod_eq_of_lt (by omega), List.take_of_length_le (le_refl _)]

/-- What the reading loop of `rpc_client_fetch_file` stores for the bytes of an
entry: the fields of the entry, with the field `type` left as the local variable
held it, except for the end marker. -/
theorem fetch_entry_of_emitted (c : file_chunk_t) (hc : chunk_fits c) (stack : stored_chunk_t)
    (rest : List Nat) :
    rpc_client_fetch_file.entry stack (chunk_wire_spec c ++ rest)
      = some (chunk_type c,
          ⟨if c = file_chunk_t.END_OF_CHUNKS then 0 else stack.type, c⟩, rest) := by
  cases c with
  | END_OF_CHUNKS =>
    unfold rpc_client_fetch_file.entry
    rw [chunk_wire_spec, ← write_short_eq, read_short_write 0 (by decide)]
    rfl
  | REFERENCE length ref =>
    obtain ⟨h1, h2, h3⟩ := hc
    unfold rpc_client_fetch_file.entry
    rw [chunk_wire_spec, ← write_short_eq, ← write_int_eq, ← write_int_eq,
      List.append_assoc, List.append_assoc, List.append_assoc,
      read_short_write 1 (by decide)]
    simp only
    rw [read_int_write length h1]
    simp only
    rw [read_int_write ref.weak h2]
    simp only
    have h := read_value_append ref.strong rest
    rw [h3] at h
    rw [h]
    simp [chunk_type]
  | DIRECT_CHUNK data =>
    have hd : data.length ≤ 23 := hc
    unfold rpc_client_fetch_file.entry
    rw [chunk_wire_spec, ← write_short_eq, List.append_assoc, List.append_assoc,
      read_short_write 2 (by decide)]
    simp only
    have h1 := read_value_append [data.length] (data ++ rest)
    rw [List.length_singleton] at h1
    rw [h1]
    simp only [List.getD_cons_zero]
    rw [read_value_append]
    simp [chunk_type]

/-- C31 (code). For every chunk entry `c` that fits (a Reference with 32-bit fields and a
16-byte strong sum, a Direct entry of at most 23 bytes, or EndOfChunks) the bytes
`rpc_client_emit_chunk` writes after the opcode are the entry as the specification
lays it out, and the reading loop of `rpc_client_fetch_file` applied to them reads
the tag and the fields of `c` and leaves the rest of the input.  But the object it
writes to the record has the field `type` the local variable `chunk` happened to
hold: the loop never assigns `chunk.type`, only the `memset` of the EndOfChunks case
sets it.  A Reference read while the variable holds 0 in `type` is stored with the
type of EndOfChunks. -/
theorem fetch_file_entry_type_unset (c : file_chunk_t) (hc : chunk_fits c)
    (stack : stored_chunk_t) (rest : List Nat) :
    rpc_client_emit_chunk.bytes c = big_endian 2 FILE_EMIT_CHUNK ++ chunk_wire_spec c ∧
    rpc_client_fetch_file.entry stack (chunk_wire_spec c ++ rest)
      = some (chunk_type c,
          ⟨if c = file_chunk_t.END_OF_CHUNKS then 0 else stack.type, c⟩, rest) ∧
    (rpc_client_fetch_file.entry ⟨0, file_chunk_t.END_OF_CHUNKS⟩
        (chunk_wire_spec (file_chunk_t.REFERENCE 700 (filling_id 0)))).map
          (fun r => (r.2.1.type, chunk_type r.2.1.chunk))
      = some (0, 1) :=
  ⟨emit_chunk_bytes_eq c hc, fetch_entry_of_emitted c hc stack rest, by
    have h := fetch_entry_of_emitted (file_chunk_t.REFERENCE 700 (filling_id 0))
      ⟨by decide, by decide, by decide⟩ ⟨0, file_chunk_t.END_OF_CHUNKS⟩ []
    rw [List.append_nil] at h
    rw [h]
    rfl⟩

/-- C31 (witness): the direct entry of the two bytes "hi", read while the local
variable holds the type of a reference. -/
theorem fetch_file_entry_type_unset_witness :
    chunk_fits (file_chunk_t.DIRECT_CHUNK [104, 105]) ∧
    rpc_client_emit_chunk.bytes (file_chunk_t.DIRECT_CHUNK [104, 105])
      = big_endian 2 FILE_EMIT_CHUNK ++ chunk_wire_spec (file_chunk_t.DIRECT_CHUNK [104, 105]) ∧
    rpc_client_fetch_file.entry ⟨1, file_chunk_t.END_OF_CHUNKS⟩
        (chunk_wire_spec (file_chunk_t.DIRECT_CHUNK [104, 105]) ++ [0, 0])
      = some (chunk_type (file_chunk_t.DIRECT_CHUNK [104, 105]),
          ⟨if file_chunk_t.DIRECT_CHUNK [104, 105] = file_chunk_t.END_OF_CHUNKS then 0
            else (⟨1, file_chunk_t.END_OF_CHUNKS⟩ : stored_chunk_t).type,
            file_chunk_t.DIRECT_CHUNK [104, 105]⟩, [0, 0]) ∧
    (rpc_client_fetch_file.entry ⟨0, file_chunk_t.END_OF_CHUNKS⟩
        (chunk_wire_spec (file_chunk_t.REFERENCE 700 (filling_id 0)))).map
          (fun r => (r.2.1.type, chunk_type r.2.1.chunk))
      = some (0, 1) :=
  ⟨by decide, fetch_file_entry_type_unset (file_chunk_t.DIRECT_CHUNK [104, 105]) (by decide)
    ⟨1, file_chunk_t.END_OF_CHUNKS⟩ [0, 0]⟩


theorem hash_table_size_eq : HASH_TABLE_SIZE = 16384 := rfl

theorem probe_slot_lt (h k : Nat) : probe_slot h k < HASH_TABLE_SIZE :=
  Nat.mod_lt _ (by decide)

theorem probe_slot_zero (h : Nat) (hh : h < HASH_TABLE_SIZE) : probe_slot h 0 = h :=
  Nat.mod_eq_of_lt hh

theorem probe_next (h k : Nat) :
    (if probe_slot h k + 1 ≥ HASH_TABLE_SIZE then 0 else probe_slot h k + 1)
      = probe_slot h (k + 1) := by
  simp only [probe_slot, hash_table_size_eq]
  split <;> omega

theorem probe_no_wrap (h k : Nat) (hk : k + 1 < HASH_TABLE_SIZE) :
    probe_slot h (k + 1) ≠ h := by
  simp only [probe_slot, hash_table_size_eq] at *
  omega

theorem probe_slot_reach (h i : Nat) (hh : h < HASH_TABLE_SIZE) (hi : i < HASH_TABLE_SIZE) :
    ∃ d < HASH_TABLE_SIZE, probe_slot h d = i := by
  refine ⟨(i + HASH_TABLE_SIZE - h) % HASH_TABLE_SIZE, Nat.mod_lt _ (by decide), ?_⟩
  simp only [probe_slot, hash_table_size_eq] at *
  omega

theorem weak_mod_lt (w : Nat) : w % HASH_TABLE_SIZE < HASH_TABLE_SIZE :=
  Nat.mod_lt _ (by decide)

/-- `hash_table_contains` finds an id that sits `d` steps from its first slot when
no slot on the way stops the search. -/
theorem contains_loop_hit (table : Nat → arrow_id_t) (id : arrow_id_t) (d : Nat)
    (hd : d < HASH_TABLE_SIZE)
    (hslot : table (probe_slot (id.weak % HASH_TABLE_SIZE) d) = id)
    (hpath : ∀ j < d, table (probe_slot (id.weak % HASH_TABLE_SIZE) j) = id ∨
      table (probe_slot (id.weak % HASH_TABLE_SIZE) j) ≠ null_id) :
    ∀ m k, k + m = d →
      hash_table_contains.loop table id (HASH_TABLE_SIZE - k)
        (probe_slot (id.weak % HASH_TABLE_SIZE) k) = 1 := by
  intro m
  induction m with
  | zero =>
    intro k hk
    have hkd : k = d := by omega
    obtain ⟨f, hf⟩ : ∃ f, HASH_TABLE_SIZE - k = f + 1 := ⟨HASH_TABLE_SIZE - k - 1, by omega⟩
    rw [hf, hash_table_contains.loop, hkd, if_pos hslot]
  | succ m ih =>
    intro k hk
    obtain ⟨f, hf⟩ : ∃ f, HASH_TABLE_SIZE - k = f + 1 := ⟨HASH_TABLE_SIZE - k - 1, by omega⟩
    rw [hf, hash_table_contains.loop]
    by_cases h1 : table (probe_slot (id.weak % HASH_TABLE_SIZE) k) = id
    · rw [if_pos h1]
    · have h2 : table (probe_slot (id.weak % HASH_TABLE_SIZE) k) ≠ null_id := by
        rcases hpath k (by omega) with e | e
        · exact absurd e h1
        · exact e
      rw [if_neg h1, if_neg h2, probe_next,
        if_neg (probe_no_wrap _ k (by omega))]
      have hf2 : f = HASH_TABLE_SIZE - (k + 1) := by omega
      rw [hf2]
      exact ih (k + 1) (by omega)

/-- `hash_table_contains` returns 0 for an id that no slot holds. -/
theorem contains_loop_miss (table : Nat → arrow_id_t) (id : arrow_id_t)
    (habs : ∀ i < HASH_TABLE_SIZE, table i ≠ id) :
    ∀ fuel idx, idx < HASH_TABLE_SIZE → hash_table_contains.loop table id fuel idx = 0 := by
  intro fuel
  induction fuel with
  | zero => intro idx _; rfl
  | succ fuel ih =>
    intro idx hidx
    rw [hash_table_contains.loop, if_neg (habs idx hidx)]
    have hlt : (if idx + 1 ≥ HASH_TABLE_SIZE then 0 else idx + 1) < HASH_TABLE_SIZE := by
      split
      · decide
      · omega
    generalize (if idx + 1 ≥ HASH_TABLE_SIZE then 0 else idx + 1) = nx at hlt ⊢
    by_cases hn : table idx = null_id
    · rw [if_pos hn]
    · rw [if_neg hn]
      by_cases hw : nx = id.weak % HASH_TABLE_SIZE
      · rw [if_pos hw]
      · rw [if_neg hw]
        exact ih nx hlt

/-- `hash_table_probe` finds a weak sum that a slot `d` steps from its first slot
holds when no slot on the way is empty. -/
theorem probe_loop_hit (table : Nat → arrow_id_t) (w : Nat) (d : Nat)
    (hd : d < HASH_TABLE_SIZE)
    (hslot : (table (probe_slot (w % HASH_TABLE_SIZE) d)).weak = w)
    (hpath : ∀ j < d, table (probe_slot (w % HASH_TABLE_SIZE) j) ≠ null_id) :
    ∀ m k, k + m = d →
      hash_table_probe.loop table w (HASH_TABLE_SIZE - k)
        (probe_slot (w % HASH_TABLE_SIZE) k) = 1 := by
  intro m
  induction m with
  | zero =>
    intro k hk
    have hkd : k = d := by omega
    obtain ⟨f, hf⟩ : ∃ f, HASH_TABLE_SIZE - k = f + 1 := ⟨HASH_TABLE_SIZE - k - 1, by omega⟩
    rw [hf, hash_table_probe.loop, hkd, if_pos hslot]
  | succ m ih =>
    intro k hk
    obtain ⟨f, hf⟩ : ∃ f, HASH_TABLE_SIZE - k = f + 1 := ⟨HASH_TABLE_SIZE - k - 1, by omega⟩
    rw [hf, hash_table_probe.loop]
    by_cases h1 : (table (probe_slot (w % HASH_TABLE_SIZE) k)).weak = w
    · rw [if_pos h1]
    · rw [if_neg h1, if_neg (hpath k (by omega)), probe_next,
        if_neg (probe_no_wrap _ k (by omega))]
      have hf2 : f = HASH_TABLE_SIZE - (k + 1) := by omega
      rw [hf2]
      exact ih (k + 1) (by omega)

/-- `hash_insert` with an empty slot `d` steps from the first slot of the id: the loop
stops at a slot `e` that holds the id already or is the first empty slot, and every
slot before `e` is in use. -/
theorem insert_loop_ok (table : Nat → arrow_id_t) (id : arrow_id_t) (hid : id ≠ null_id)
    (d : Nat) (hd : d < HASH_TABLE_SIZE)
    (hnull : table (probe_slot (id.weak % HASH_TABLE_SIZE) d) = null_id) :
    ∀ m k, k + m = d →
      (∀ j < k, table (probe_slot (id.weak % HASH_TABLE_SIZE) j) ≠ null_id) →
      ∃ e, e < HASH_TABLE_SIZE ∧
        (∀ j < e, table (probe_slot (id.weak % HASH_TABLE_SIZE) j) ≠ null_id) ∧
        ((table (probe_slot (id.weak % HASH_TABLE_SIZE) e) = id ∧
            hash_insert.loop id (HASH_TABLE_SIZE - k)
              (probe_slot (id.weak % HASH_TABLE_SIZE) k) table = some table) ∨
          (table (probe_slot (id.weak % HASH_TABLE_SIZE) e) = null_id ∧
            hash_insert.loop id (HASH_TABLE_SIZE - k)
              (probe_slot (id.weak % HASH_TABLE_SIZE) k) table
              = some (fun j => if j = probe_slot (id.weak % HASH_TABLE_SIZE) e then id
                  else table j))) := by
  intro m
  induction m with
  | zero =>
    intro k hk hpre
    have hkd : k = d := by omega
    obtain ⟨f, hf⟩ : ∃ f, HASH_TABLE_SIZE - k = f + 1 := ⟨HASH_TABLE_SIZE - k - 1, by omega⟩
    refine ⟨k, by omega, hpre, Or.inr ⟨by rw [hkd]; exact hnull, ?_⟩⟩
    rw [hf, hash_insert.loop, hkd, if_neg (by rw [hnull]; exact fun e => hid e.symm),
      if_pos hnull]
  | succ m ih =>
    intro k hk hpre
    obtain ⟨f, hf⟩ : ∃ f, HASH_TABLE_SIZE - k = f + 1 := ⟨HASH_TABLE_SIZE - k - 1, by omega⟩
    by_cases h1 : table (probe_slot (id.weak % HASH_TABLE_SIZE) k) = id
    · refine ⟨k, by omega, hpre, Or.inl ⟨h1, ?_⟩⟩
      rw [hf, hash_insert.loop, if_pos h1]
    · by_cases h2 : table (probe_slot (id.weak % HASH_TABLE_SIZE) k) = null_id
      · refine ⟨k, by omega, hpre, Or.inr ⟨h2, ?_⟩⟩
        rw [hf, hash_insert.loop, if_neg h1, if_pos h2]
      · have hpre2 : ∀ j < k + 1,
            table (probe_slot (id.weak % HASH_TABLE_SIZE) j) ≠ null_id := by
          intro j hj
          by_cases e : j = k
          · rw [e]; exact h2
          · exact hpre j (by omega)
        obtain ⟨e, he, hpe, hres⟩ := ih (k + 1) (by omega) hpre2
        refine ⟨e, he, hpe, ?_⟩
        have hf2 : f = HASH_TABLE_SIZE - (k + 1) := by omega
        rw [hf, hash_insert.loop, if_neg h1, if_neg h2, probe_next,
          if_neg (probe_no_wrap _ k (by omega)), hf2]
        exact hres

theorem hash_table_used_lt (table : Nat → arrow_id_t)
    (h : hash_table_used table < HASH_TABLE_SIZE) :
    ∃ i < HASH_TABLE_SIZE, table i = null_id := by
  by_contra hno
  have hall : ∀ i ∈ Finset.range HASH_TABLE_SIZE, table i ≠ null_id := by
    intro i hi e
    exact hno ⟨i, Finset.mem_range.mp hi, e⟩
  unfold hash_table_used at h
  rw [Finset.filter_true_of_mem hall, Finset.card_range] at h
  exact Nat.lt_irrefl _ h

theorem hash_table_used_update (table : Nat → arrow_id_t) (p : Nat) (id : arrow_id_t) :
    hash_table_used (fun j => if j = p then id else table j) ≤ hash_table_used table + 1 := by
  unfold hash_table_used
  have hsub : (Finset.range HASH_TABLE_SIZE).filter
        (fun i => (if i = p then id else table i) ≠ null_id)
      ⊆ insert p ((Finset.range HASH_TABLE_SIZE).filter (fun i => table i ≠ null_id)) := by
    intro i hi
    rw [Finset.mem_filter] at hi
    rw [Finset.mem_insert, Finset.mem_filter]
    by_cases e : i = p
    · exact Or.inl e
    · right
      rw [if_neg e] at hi
      exact hi
  exact (Finset.card_le_card hsub).trans (Finset.card_insert_le _ _)

theorem hash_table_ok_zero : hash_table_ok (fun _ => null_id) [] := by
  refine ⟨fun i _ h => absurd rfl h, fun x hx => absurd hx (List.not_mem_nil _), ?_⟩
  unfold hash_table_used
  simp

/-- One `hash_insert` into a table that is not full keeps the shape of the table. -/
theorem hash_insert_ok (table : Nat → arrow_id_t) (ids : List arrow_id_t) (id : arrow_id_t)
    (hok : hash_table_ok table ids) (hids : ∀ x ∈ ids, x ≠ null_id) (hid : id ≠ null_id)
    (hlen : ids.length < HASH_TABLE_SIZE) :
    ∃ t, hash_insert table id = some t ∧ hash_table_ok t (ids ++ [id]) := by
  obtain ⟨i0, hi0, hnull0⟩ := hash_table_used_lt table (Nat.lt_of_le_of_lt hok.used hlen)
  obtain ⟨d0, hd0, hp0⟩ := probe_slot_reach (id.weak % HASH_TABLE_SIZE) i0 (weak_mod_lt _) hi0
  obtain ⟨e, he, hpe, hres⟩ := insert_loop_ok table id hid d0 hd0 (by rw [hp0]; exact hnull0)
    d0 0 (by omega) (fun j hj => absurd hj (Nat.not_lt_zero _))
  rw [Nat.sub_zero, probe_slot_zero _ (weak_mod_lt _)] at hres
  rcases hres with ⟨hslot, hrun⟩ | ⟨hslot, hrun⟩
  · refine ⟨table, hrun, ?_, ?_, ?_⟩
    · intro i hi hne
      exact List.mem_append_left _ (hok.slots i hi hne)
    · intro x hx
      rcases List.mem_append.mp hx with hx | hx
      · exact hok.found x hx
      · rw [List.mem_singleton.mp hx]
        exact ⟨e, he, hslot, hpe⟩
    · rw [List.length_append]
      exact Nat.le_add_right_of_le hok.used
  · refine ⟨_, hrun, ?_, ?_, ?_⟩
    · intro i hi hne
      by_cases hip : i = probe_slot (id.weak % HASH_TABLE_SIZE) e
      · simp only [hip, if_true]
        exact List.mem_append_right _ (List.mem_singleton_self _)
      · simp only [hip, if_false] at hne ⊢
        exact List.mem_append_left _ (hok.slots i hi hne)
    · intro x hx
      rcases List.mem_append.mp hx with hx | hx
      · obtain ⟨d, hd, hxd, hxp⟩ := hok.found x hx
        refine ⟨d, hd, ?_, ?_⟩
        · have hne : probe_slot (x.weak % HASH_TABLE_SIZE) d
              ≠ probe_slot (id.weak % HASH_TABLE_SIZE) e := by
            intro e2
            rw [e2, hslot] at hxd
            exact hids x hx hxd.symm
          simp only [hne, if_false]
          exact hxd
        · intro j hj
          by_cases hjp : probe_slot (x.weak % HASH_TABLE_SIZE) j
              = probe_slot (id.weak % HASH_TABLE_SIZE) e
          · simp only [hjp, if_true]
            exact hid
          · simp only [hjp, if_false]
            exact hxp j hj
      · rw [List.mem_singleton.mp hx]
        refine ⟨e, he, by simp, ?_⟩
        intro j hj
        by_cases hjp : probe_slot (id.weak % HASH_TABLE_SIZE) j
            = probe_slot (id.weak % HASH_TABLE_SIZE) e
        · simp only [hjp, if_true]
          exact hid
        · simp only [hjp, if_false]
          exact hpe j hj
    · rw [List.length_append, List.length_singleton]
      exact (hash_table_used_update table _ id).trans (Nat.add_le_add_right hok.used 1)

/-- Inserting a list of ids, none of them all-zero, into a table with room for them
succeeds and keeps the shape of the table. -/
theorem hash_insert_list_ok :
    ∀ (ids : List arrow_id_t) (table : Nat → arrow_id_t) (done : List arrow_id_t),
      hash_table_ok table done → (∀ x ∈ done, x ≠ null_id) → (∀ x ∈ ids, x ≠ null_id) →
      done.length + ids.length < HASH_TABLE_SIZE →
      ∃ t, hash_insert_list ids table = some t ∧ hash_table_ok t (done ++ ids) := by
  intro ids
  induction ids with
  | nil =>
    intro table done hok _ _ _
    exact ⟨table, rfl, by rw [List.append_nil]; exact hok⟩
  | cons id rest ih =>
    intro table done hok hdone hids hlen
    rw [List.length_cons] at hlen
    obtain ⟨t1, h1, hok1⟩ := hash_insert_ok table done id hok hdone
      (hids id (List.mem_cons_self _ _)) (by omega)
    have hdone1 : ∀ x ∈ done ++ [id], x ≠ null_id := by
      intro x hx
      rcases List.mem_append.mp hx with hx | hx
      · exact hdone x hx
      · rw [List.mem_singleton.mp hx]; exact hids id (List.mem_cons_self _ _)
    obtain ⟨t, h2, hok2⟩ := ih t1 (done ++ [id]) hok1 hdone1
      (fun x hx => hids x (List.mem_cons_of_mem _ hx))
      (by rw [List.length_append, List.length_singleton]; omega)
    refine ⟨t, ?_, ?_⟩
    · rw [hash_insert_list, h1]
      exact h2
    · rw [List.append_assoc] at hok2
      exact hok2

/-- What the two queries answer on a table of the shape `hash_table_ok`. -/
theorem hash_table_queries (table : Nat → arrow_id_t) (ids : List arrow_id_t)
    (hok : hash_table_ok table ids) (hlen : ids.length < HASH_TABLE_SIZE) :
    (∀ id, id ≠ null_id → hash_table_contains table id = if id ∈ ids then 1 else 0) ∧
    (∀ x ∈ ids, hash_table_probe table x.weak = 1) ∧
    hash_table_contains table null_id = 1 := by
  refine ⟨?_, ?_, ?_⟩
  · intro id hid
    unfold hash_table_contains
    by_cases hmem : id ∈ ids
    · rw [if_pos hmem]
      obtain ⟨d, hd, hslot, hpath⟩ := hok.found id hmem
      have h := contains_loop_hit table id d hd hslot (fun j hj => Or.inr (hpath j hj)) d 0
        (by omega)
      rw [Nat.sub_zero, probe_slot_zero _ (weak_mod_lt _)] at h
      exact h
    · rw [if_neg hmem]
      apply contains_loop_miss table id _ _ _ (weak_mod_lt _)
      intro i hi e
      exact hmem (e ▸ hok.slots i hi (by rw [e]; exact hid))
  · intro x hx
    unfold hash_table_probe
    obtain ⟨d, hd, hslot, hpath⟩ := hok.found x hx
    have h := probe_loop_hit table x.weak d hd (by rw [hslot]) hpath d 0 (by omega)
    rw [Nat.sub_zero, probe_slot_zero _ (weak_mod_lt _)] at h
    exact h
  · obtain ⟨i0, hi0, hnull0⟩ := hash_table_used_lt table (Nat.lt_of_le_of_lt hok.used hlen)
    obtain ⟨d0, hd0, hp0⟩ := probe_slot_reach (null_id.weak % HASH_TABLE_SIZE) i0
      (weak_mod_lt _) hi0
    unfold hash_table_contains
    have h := contains_loop_hit table null_id d0 hd0 (by rw [hp0]; exact hnull0)
      (fun j _ => by
        by_cases e : table (probe_slot (null_id.weak % HASH_TABLE_SIZE) j) = null_id
        · exact Or.inl e
        · exact Or.inr e) d0 0 (by omega)
    rw [Nat.sub_zero, probe_slot_zero _ (weak_mod_lt _)] at h
    exact h

/-- The table after a list of fewer than 16384 ids, none of them all-zero, was
inserted into a zeroed table, and what the queries answer on it. -/
theorem hash_insert_list_queries (ids : List arrow_id_t) (hlen : ids.length < HASH_TABLE_SIZE)
    (hids : ∀ x ∈ ids, x ≠ null_id) :
    ∃ table, hash_insert_list ids (fun _ => null_id) = some table ∧
      (∀ id, id ≠ null_id → hash_table_contains table id = if id ∈ ids then 1 else 0) ∧
      (∀ x ∈ ids, hash_table_probe table x.weak = 1) ∧
      hash_table_contains table null_id = 1 := by
  obtain ⟨t, h1, hok⟩ := hash_insert_list_ok ids (fun _ => null_id) [] hash_table_ok_zero
    (fun x hx => absurd hx (List.not_mem_nil _)) hids (by simpa using hlen)
  rw [List.nil_append] at hok
  exact ⟨t, h1, hash_table_queries t ids hok hlen⟩

/-- C34 (counterexample). After `filling_id 0` was inserted into a zeroed table,
`hash_table_contains` returns 1 for the all-zero id, which was not inserted: the
search stops at the first empty slot, and an empty slot is equal to the all-zero
id. -/
theorem hash_table_contains_null_id :
    null_id ∉ [filling_id 0] ∧
    (hash_insert_list [filling_id 0] (fun _ => null_id)).map
        (fun table => hash_table_contains table null_id) = some 1 := by
  obtain ⟨t, h1, _, _, h4⟩ := hash_insert_list_queries [filling_id 0] (by decide)
    (by intro x hx; rw [List.mem_singleton.mp hx]; decide)
  refine ⟨by decide, ?_⟩
  rw [h1, Option.map_some', h4]

/-- C34 (amended). After the ids of a list of fewer than 16384 ids, none of them the
all-zero id (distinct or not), were inserted with `hash_insert` into a zeroed table,
which succeeds, `hash_table_contains (table, id)` is 1 for the inserted ids and 0 for
every other id except the all-zero id, for which it is 1; and
`hash_table_probe (table, w)` is 1 for every `w` that is the weak value of an
inserted id. -/
theorem hash_table_finds_inserted (ids : List arrow_id_t) (hlen : ids.length < HASH_TABLE_SIZE)
    (hids : ∀ x ∈ ids, x ≠ null_id) :
    ∃ table, hash_insert_list ids (fun _ => null_id) = some table ∧
      (∀ id, id ≠ null_id → hash_table_contains table id = if id ∈ ids then 1 else 0) ∧
      (∀ x ∈ ids, hash_table_probe table x.weak = 1) ∧
      hash_table_contains table null_id = 1 :=
  hash_insert_list_queries ids hlen hids

/-- C34 (witness): two ids whose weak values 1 and 16385 share the first slot. -/
theorem hash_table_finds_inserted_witness :
    [filling_id 0, filling_id 16384].length < HASH_TABLE_SIZE ∧
    (∀ x ∈ [filling_id 0, filling_id 16384], x ≠ null_id) ∧
    ∃ table, hash_insert_list [filling_id 0, filling_id 16384] (fun _ => null_id) = some table ∧
      (∀ id, id ≠ null_id →
        hash_table_contains table id
          = if id ∈ [filling_id 0, filling_id 16384] then 1 else 0) ∧
      (∀ x ∈ [filling_id 0, filling_id 16384], hash_table_probe table x.weak = 1) ∧
      hash_table_contains table null_id = 1 :=
  ⟨by decide, by decide,
    hash_table_finds_inserted [filling_id 0, filling_id 16384] (by decide) (by decide)⟩


/-- No piece of a run is emitted as `END_OF_CHUNKS`. -/
theorem sync_trace_no_end {cs : Nat} {m b : Bool} {covered : List Nat} {tr : List sync_event}
    (h : sync_trace cs m b covered tr) : file_chunk_t.END_OF_CHUNKS ∉ emitted tr := by
  induction h with
  | start => exact List.not_mem_nil _
  | direct p _ _ _ ih =>
    rw [emitted_append]
    intro hx
    rcases List.mem_append.mp hx with e | e
    · exact ih e
    · simp [emitted] at e
  | present p _ _ _ _ ih =>
    rw [emitted_append]
    intro hx
    rcases List.mem_append.mp hx with e | e
    · exact ih e
    · simp [emitted] at e
  | referenced p _ _ _ _ ih =>
    rw [emitted_append]
    intro hx
    rcases List.mem_append.mp hx with e | e
    · exact ih e
    · simp [emitted] at e
  | stored p _ _ _ ih =>
    rw [emitted_append]
    intro hx
    rcases List.mem_append.mp hx with e | e
    · exact ih e
    · simp [emitted] at e
  | matched p id _ _ _ ih =>
    rw [emitted_append]
    intro hx
    rcases List.mem_append.mp hx with e | e
    · exact ih e
    · simp [emitted] at e

/-- With callbacks that do not abort, `sync_generate` returns 0 and has emitted
`END_OF_CHUNKS` exactly once, as the last entry. -/
theorem sync_generate_emits_end {σ : Type} (cb : sync_callbacks_t σ)
    (htot : sync_callbacks_total cb) (input : List Nat) (st : σ) :
    ∃ r cs, sync_generate input (sync_traced cb) (st, []) = some r ∧ r.ret = 0 ∧
      emitted r.state.2 = cs ++ [file_chunk_t.END_OF_CHUNKS] ∧
      file_chunk_t.END_OF_CHUNKS ∉ cs := by
  obtain ⟨r, hr⟩ := Option.isSome_iff_exists.mp
    (sync_generate_total (sync_traced_total htot) input (st, []))
  obtain ⟨h1, _, b, tr, htr, hst⟩ := sync_generate_traced cb input st r hr
  refine ⟨r, emitted tr, hr, h1, ?_, sync_trace_no_end htr⟩
  rw [hst, emitted_append]
  rfl

/-- The loop of `sync_generate` with the callbacks of the local store comes to an end
unless one of the puts of the run aborts. -/
theorem generate_loop_aborts (bufsize : Nat) :
    ∀ (fuel : Nat) (f : FILE) (md5 : List Nat) (st : sync_store_state_t),
      (f.eof = true → f.content.length ≤ f.pos) →
      f.content.length - f.pos < fuel →
      (sync_generate.loop sync_store_callbacks bufsize fuel f md5 st = none ↔
        sync_generate.put_aborts st.store
          (sync_generate.blocks bufsize fuel (f.content.drop f.pos)) = true) := by
  intro fuel
  induction fuel with
  | zero => intro f md5 st _ hf; omega
  | succ fuel ih =>
    intro f md5 st heof hf
    rw [sync_generate.loop]
    by_cases he : f.eof = true
    · rw [if_pos he, List.drop_of_length_le (heof he)]
      simp [sync_generate.blocks, sync_generate.put_aborts]
    · rw [if_neg he]
      simp only
      have hbuf : (fread f bufsize).1 = (f.content.drop f.pos).take bufsize := rfl
      by_cases hz : ((fread f bufsize).1).length ≤ 0
      · rw [if_pos hz, sync_generate.blocks, if_pos (by rw [← hbuf]; exact hz)]
        simp [sync_generate.put_aborts]
      · rw [if_neg hz]
        have hpos : (fread f bufsize).2.pos = f.pos + ((fread f bufsize).1).length := rfl
        have hcont : (fread f bufsize).2.content = f.content := rfl
        have hdrop : (fread f bufsize).2.content.drop (fread f bufsize).2.pos
            = (f.content.drop f.pos).drop bufsize := by
          rw [hcont, hpos, ← List.drop_drop, hbuf, drop_take_length]
        have hlenle2 : ((fread f bufsize).1).length ≤ f.content.length - f.pos := by
          rw [hbuf, List.length_take, List.length_drop]; exact Nat.min_le_right _ _
        have heof2 : (fread f bufsize).2.eof = true →
            (fread f bufsize).2.content.length ≤ (fread f bufsize).2.pos := by
          intro h
          have h2 : (f.eof || decide (((fread f bufsize).1).length < bufsize)) = true := h
          rw [Bool.or_eq_true, decide_eq_true_eq] at h2
          rcases h2 with h2 | h2
          · exact absurd h2 he
          · rw [hcont, hpos]
            have : ((fread f bufsize).1).length = f.content.length - f.pos := by
              rw [hbuf, List.length_take, List.length_drop] at h2 ⊢
              rcases Nat.le_total bufsize (f.content.length - f.pos) with h3 | h3
              · rw [Nat.min_eq_left h3] at h2; omega
              · rw [Nat.min_eq_right h3]
            omega
        have hfuel2 : (fread f bufsize).2.content.length - (fread f bufsize).2.pos < fuel := by
          rw [hcont, hpos]; omega
        have hbl : sync_generate.blocks bufsize (fuel + 1) (f.content.drop f.pos)
            = (fread f bufsize).1
                :: sync_generate.blocks bufsize fuel
                    ((fread f bufsize).2.content.drop (fread f bufsize).2.pos) := by
          rw [hdrop, sync_generate.blocks, if_neg (by rw [← hbuf]; exact hz)]
          rfl
        rw [hbl, sync_generate.put_aborts]
        by_cases hd : ((fread f bufsize).1).length ≤ MAX_DIRECT_CHUNK_SIZE
        · rw [if_pos hd, if_pos hd]
          exact ih _ _ _ heof2 hfuel2
        · rw [if_neg hd, if_neg hd]
          change (if store_contains st.store (arrow_compute_key (fread f bufsize).1) = 0 then
              ((store_put st.store (arrow_compute_key (fread f bufsize).1)
                  (fread f bufsize).1).map _).bind _
            else _) = none ↔ _
          by_cases hc : store_contains st.store (arrow_compute_key (fread f bufsize).1) = 0
          · rw [if_pos hc, if_pos hc]
            cases hp : store_put st.store (arrow_compute_key (fread f bufsize).1)
                (fread f bufsize).1 with
            | none => simp
            | some p =>
              simp only [Option.map_some', Option.some_bind]
              exact ih _ _ _ heof2 hfuel2
          · rw [if_neg hc, if_neg hc]
            exact ih _ _ _ heof2 hfuel2

/-- C20. `sync_generate` with the callbacks of the local store, on short inputs: an
empty input emits only `END_OF_CHUNKS`; an input of 1 to 23 bytes emits one
`DIRECT_CHUNK` entry holding those bytes, then `END_OF_CHUNKS`; an input of 24 bytes
up to exactly the chunk size emits one `REFERENCE` entry of that length, puts the
block if the store does not hold it, and emits `END_OF_CHUNKS` (unless that
`store_put` aborts).  On every input a run that returns has emitted
`END_OF_CHUNKS` exactly once, as the last entry; the run returns unless one of its
own puts aborts (`sync_generate.put_aborts`: the puts of the blocks of this input,
each in the store the puts before it left); and with any callbacks that do not abort
the run returns 0 with `END_OF_CHUNKS` emitted exactly once, as the last entry. -/
theorem sync_generate_boundaries (input : List Nat) (st : sync_store_state_t) :
    (input.length = 0 →
      sync_generate input sync_store_callbacks st
        = some { ret := 0, hash_match := 0, chunk_size := some 700, hash := some (MD5 []),
                 state := ⟨st.store, st.chunks_out ++ [file_chunk_t.END_OF_CHUNKS]⟩ }) ∧
    (1 ≤ input.length → input.length ≤ 23 →
      sync_generate input sync_store_callbacks st
        = some { ret := 0, hash_match := 0, chunk_size := some 700, hash := some (MD5 input),
                 state := ⟨st.store, st.chunks_out
                   ++ [file_chunk_t.DIRECT_CHUNK input, file_chunk_t.END_OF_CHUNKS]⟩ }) ∧
    (24 ≤ input.length → input.length ≤ sync_generate.bufsize input.length →
      sync_generate input sync_store_callbacks st
        = if store_contains st.store (arrow_compute_key input) = 0 then
            (store_put st.store (arrow_compute_key input) input).map (fun r =>
              { ret := 0, hash_match := 0,
                chunk_size := some (sync_generate.bufsize input.length),
                hash := some (MD5 input),
                state := ⟨r.2, st.chunks_out
                  ++ [file_chunk_t.REFERENCE input.length (arrow_compute_key input),
                      file_chunk_t.END_OF_CHUNKS]⟩ })
          else
            some { ret := 0, hash_match := 0,
                   chunk_size := some (sync_generate.bufsize input.length),
                   hash := some (MD5 input),
                   state := ⟨st.store, st.chunks_out
                     ++ [file_chunk_t.REFERENCE input.length (arrow_compute_key input),
                         file_chunk_t.END_OF_CHUNKS]⟩ }) ∧
    (∀ r, sync_generate input sync_store_callbacks st = some r →
      ∃ cs, r.state.chunks_out = st.chunks_out ++ cs ++ [file_chunk_t.END_OF_CHUNKS] ∧
        file_chunk_t.END_OF_CHUNKS ∉ cs) ∧
    (sync_generate input sync_store_callbacks st = none ↔
      sync_generate.put_aborts st.store
        (sync_generate.blocks (sync_generate.bufsize input.length) (input.length + 1) input)
        = true) ∧
    (∀ (σ : Type) (cb : sync_callbacks_t σ) (s : σ), sync_callbacks_total cb →
      ∃ r cs, sync_generate input (sync_traced cb) (s, []) = some r ∧ r.ret = 0 ∧
        emitted r.state.2 = cs ++ [file_chunk_t.END_OF_CHUNKS] ∧
        file_chunk_t.END_OF_CHUNKS ∉ cs) := by
  obtain ⟨hmin, hmax⟩ := bufsize_bounds input.length
  have hmin2 : MIN_CHUNK_SIZE = 700 := rfl
  have hmax2 : MAX_CHUNK_SIZE = 16000 := rfl
  have hdir : MAX_DIRECT_CHUNK_SIZE = 23 := rfl
  refine ⟨?_, ?_, ?_, ?_, ?_, ?_⟩
  · intro h0
    have hnil : input = [] := List.length_eq_zero.mp h0
    subst hnil
    unfold sync_generate
    rw [generate_loop_done _ _ _ _ _ _ (Nat.le_refl _)]
    have hb : sync_generate.bufsize ([] : List Nat).length = 700 := by
      rw [bufsize_eq]; rfl
    rw [hb]
    rfl
  · intro h1 h2
    have hb : sync_generate.bufsize input.length = 700 := by
      rw [bufsize_eq]
      have : Nat.sqrt input.length ≤ input.length := Nat.sqrt_le_self _
      omega
    unfold sync_generate
    rw [hb, show input.length + 1 = (input.length - 1) + 2 by omega,
      generate_loop_direct input 700 _ st (by omega) (by omega) (by omega)]
    simp only [Option.some_bind]
    show some _ = some _
    simp [sync_store_callbacks, sync_store_emit_chunk]
  · intro h1 h2
    unfold sync_generate
    rw [show input.length + 1 = (input.length - 1) + 2 by omega,
      generate_loop_reference input _ _ st (by omega) h2
        (Nat.lt_of_le_of_lt (Nat.le_trans h2 hmax) (by decide))]
    by_cases hc : store_contains st.store (arrow_compute_key input) = 0
    · rw [if_pos hc, if_pos hc]
      cases store_put st.store (arrow_compute_key input) input with
      | none => rfl
      | some r =>
        simp only [Option.map_some', Option.some_bind]
        show some _ = some _
        simp [sync_store_callbacks, sync_store_emit_chunk]
    · rw [if_neg hc, if_neg hc]
      simp only [Option.some_bind]
      show some _ = some _
      simp [sync_store_callbacks, sync_store_emit_chunk]
  · intro r hr
    unfold sync_generate at hr
    cases hl : sync_generate.loop sync_store_callbacks (sync_generate.bufsize input.length)
        (input.length + 1) (fopen input) [] st with
    | none => rw [hl] at hr; cases hr
    | some l =>
      rw [hl] at hr
      obtain ⟨cs, hcs, hend⟩ := generate_loop_emits _ _ _ _ _ _ hl
      have hr2 := (Option.some.inj hr).symm
      refine ⟨cs, ?_, hend⟩
      rw [hr2]
      show l.2.chunks_out ++ [file_chunk_t.END_OF_CHUNKS] = _
      rw [hcs]
  · have h := generate_loop_aborts (sync_generate.bufsize input.length) (input.length + 1)
      (fopen input) [] st (fun h => by cases h) (by show input.length - 0 < _; omega)
    have hd : (fopen input).content.drop (fopen input).pos = input := rfl
    rw [hd] at h
    rw [← h]
    unfold sync_generate
    cases hl : sync_generate.loop sync_store_callbacks (sync_generate.bufsize input.length)
        (input.length + 1) (fopen input) [] st with
    | none => simp
    | some l =>
      simp only [Option.some_bind]
      constructor
      · intro hn; cases hn
      · intro hn; cases hn
  · intro σ cb s htot
    exact sync_generate_emits_end cb htot input s

/-- C20 (witness): an empty input, an input of 3 bytes and an input of 24 bytes, on
a new store. -/
theorem sync_generate_boundaries_witness :
    sync_generate [] sync_store_callbacks ⟨store_init, []⟩
      = some { ret := 0, hash_match := 0, chunk_size := some 700, hash := some (MD5 []),
               state := ⟨store_init, [] ++ [file_chunk_t.END_OF_CHUNKS]⟩ } ∧
    sync_generate [1, 2, 3] sync_store_callbacks ⟨store_init, []⟩
      = some { ret := 0, hash_match := 0, chunk_size := some 700,
               hash := some (MD5 [1, 2, 3]),
               state := ⟨store_init, []
                 ++ [file_chunk_t.DIRECT_CHUNK [1, 2, 3], file_chunk_t.END_OF_CHUNKS]⟩ } ∧
    sync_generate (List.replicate 24 5) sync_store_callbacks ⟨store_init, []⟩
      = if store_contains store_init (arrow_compute_key (List.replicate 24 5)) = 0 then
          (store_put store_init (arrow_compute_key (List.replicate 24 5))
              (List.replicate 24 5)).map (fun r =>
            { ret := 0, hash_match := 0,
              chunk_size := some (sync_generate.bufsize (List.replicate 24 5).length),
              hash := some (MD5 (List.replicate 24 5)),
              state := ⟨r.2, []
                ++ [file_chunk_t.REFERENCE (List.replicate 24 5).length
                      (arrow_compute_key (List.replicate 24 5)),
                    file_chunk_t.END_OF_CHUNKS]⟩ })
        else
          some { ret := 0, hash_match := 0,
                 chunk_size := some (sync_generate.bufsize (List.replicate 24 5).length),
                 hash := some (MD5 (List.replicate 24 5)),
                 state := ⟨store_init, []
                   ++ [file_chunk_t.REFERENCE (List.replicate 24 5).length
                         (arrow_compute_key (List.replicate 24 5)),
                       file_chunk_t.END_OF_CHUNKS]⟩ } :=
  ⟨(sync_generate_boundaries [] ⟨store_init, []⟩).1 rfl,
   (sync_generate_boundaries [1, 2, 3] ⟨store_init, []⟩).2.1 (by decide) (by decide),
   (sync_generate_boundaries (List.replicate 24 5) ⟨store_init, []⟩).2.2.1 (by decide)
     (by rw [List.length_replicate]; exact (bufsize_bounds 24).1.trans' (by decide))⟩


/-- The store over a directory does not depend on the header fields of its files. -/
theorem store_files_overwrite_header (sb : store_sb_t)
    (files : List Nat → Option block_file_t) (name hdr : List Nat) (ver : Nat) :
    store_files sb (overwrite_header files name hdr ver) = store_files sb files := by
  unfold store_files store_open_file overwrite_header
  congr 1
  funext n
  by_cases h : n = name
  · rw [if_pos h]
    cases files n <;> rfl
  · rw [if_neg h]

/-- C32 (amended). `store_open` does not examine the magic or the version byte of a
bucket file.  For a bucket file that exists, whatever its first four bytes and its
version byte are overwritten with, `store_open` returns 0 and maps the file, and the
store the operations work on is the same: `store_put`, `store_get`, `store_addref` and
`store_contains` give the results they give on the file as it was.  `store_open`
fails when the file cannot be opened.  The magic "ARWB" and `ARROW_FILE_VERSION`
are what `create_new_block` writes into a new bucket file. -/
theorem store_open_any_header (files : List Nat → Option block_file_t) (name : List Nat)
    (f : block_file_t) (hdr : List Nat) (ver : Nat) (h : files name = some f) :
    store_open_file files name = (0, some f) ∧
    store_open_file (overwrite_header files name hdr ver) name
      = (0, some { header := hdr, version := ver, block := f.block }) ∧
    (∀ sb id buf, store_put (store_files sb (overwrite_header files name hdr ver)) id buf
      = store_put (store_files sb files) id buf) ∧
    (∀ sb id out maxlen,
      store_get (store_files sb (overwrite_header files name hdr ver)) id out maxlen
        = store_get (store_files sb files) id out maxlen) ∧
    (∀ sb id, store_addref (store_files sb (overwrite_header files name hdr ver)) id
      = store_addref (store_files sb files) id) ∧
    (∀ sb id, store_contains (store_files sb (overwrite_header files name hdr ver)) id
      = store_contains (store_files sb files) id) ∧
    (∀ other, files other = none →
      store_open_file (overwrite_header files name hdr ver) other = (-1, none)) ∧
    new_block_file.header = block_header ∧ new_block_file.version = ARROW_FILE_VERSION := by
  refine ⟨?_, ?_, ?_, ?_, ?_, ?_, ?_, rfl, rfl⟩
  · unfold store_open_file
    rw [h]
  · unfold store_open_file overwrite_header
    rw [if_pos rfl, h]
    rfl
  · intro sb id buf
    rw [store_files_overwrite_header]
  · intro sb id out maxlen
    rw [store_files_overwrite_header]
  · intro sb id
    rw [store_files_overwrite_header]
  · intro sb id
    rw [store_files_overwrite_header]
  · intro other ho
    unfold store_open_file overwrite_header
    by_cases hn : other = name
    · rw [if_pos hn, ho]
      rfl
    · rw [if_neg hn, ho]

/-- C32 (witness): the bucket file of `corrupt_dir`, its header overwritten with
`[0, 0, 0, 0]` and version 255. -/
theorem store_open_any_header_witness :
    corrupt_dir (b64_encode 0) = some corrupt_file ∧
    store_open_file corrupt_dir (b64_encode 0) = (0, some corrupt_file) ∧
    store_open_file (overwrite_header corrupt_dir (b64_encode 0) [0, 0, 0, 0] 255)
        (b64_encode 0)
      = (0, some { header := [0, 0, 0, 0], version := 255, block := corrupt_file.block }) :=
  have h : corrupt_dir (b64_encode 0) = some corrupt_file := if_pos rfl
  ⟨h, (store_open_any_header corrupt_dir (b64_encode 0) corrupt_file [0, 0, 0, 0] 255 h).1,
   (store_open_any_header corrupt_dir (b64_encode 0) corrupt_file [0, 0, 0, 0] 255 h).2.1⟩


end Arrow
